import Mathlib

/-!
Verification model of terarkdb's LRU cache shard (src/cache/lru_cache.cc).

The C++ code is a pointer-based, mutex-protected LRU cache shard.  We embed it
shallowly:

* An `LRUHandle` record keeps the fields of the C++ `LRUHandle` that the shard
  code reads or writes (the opaque `value` payload is dropped; the per-entry
  `deleter` is represented by a log of entry ids whose deleter has run).
* Heap allocation and pointer identity are represented by `Nat` ids: the shard
  owns a `heap` association list from id to record; `delete[]` removes the id.
* The chained hash table `LRUHandleTable` is modelled bucket-for-bucket: a list
  of bucket chains, each chain a list of `(hash, key, id)` records standing for
  the `next_hash`-linked handles.
* The circular doubly-linked LRU list with sentinel is modelled by the list of
  member ids in order from `sentinel.next` (coldest, head) to `sentinel.prev`
  (hottest, last), together with `lowCount`, the number of entries in the
  low-priority region; the C++ cursor `lru_low_pri_` is the `lowCount`-th list
  cell (the sentinel when `lowCount = 0`).
* `size_t` counters are `Nat` (the code's debug assertions rule out underflow;
  truncated subtraction stands in for the guarded `-=`).
* The `double high_pri_pool_ratio_` is an exact nonnegative fraction
  `num / den` (a `Ratio`); `capacity_ * high_pri_pool_ratio_` truncated to
  `size_t` becomes the exact floor `capacity * num / den`.
* Mutexed critical sections become atomic state transitions; the scratch
  (`autovector<LRUHandle*> last_reference_list`) freed after unlock is drained
  at the end of each transition.
-/

set_option maxHeartbeats 1000000

namespace TerarkLRU

/-- Position of the first occurrence of `i` (length of the list if absent). -/
def posOf (i : Nat) : List Nat → Nat
  | [] => 0
  | j :: t => if j = i then 0 else posOf i t + 1

/-- Remove the first occurrence of `i` (the doubly-linked-list unlink). -/
def listErase (i : Nat) : List Nat → List Nat
  | [] => []
  | j :: t => if j = i then t else j :: listErase i t

/-- Number of occurrences of `i`. -/
def natCount (i : Nat) : List Nat → Nat
  | [] => 0
  | j :: t => (if j = i then 1 else 0) + natCount i t

/-- Fields of the C++ `LRUHandle` used by the shard code.  `value` is opaque
and dropped; `next_hash`, `next`, `prev` become positions in the table / LRU
models; the packed `flags` bits are the four booleans. -/
structure LRUHandle where
  key : Nat
  hash : Nat
  charge : Nat
  refs : Nat
  in_cache : Bool
  in_high_pri_pool : Bool
  is_high_pri : Bool
  has_hit : Bool
deriving Repr, DecidableEq

/-- One handle as seen from the hash table: the handle's `hash`, its inline
key bytes, and the id standing for the `LRUHandle*` pointer. -/
structure HTEntry where
  ehash : Nat
  ekey : Nat
  hid : Nat
deriving Repr, DecidableEq

/-- `LRUHandleTable::FindPointer` result used by `Lookup`: walks the chain
skipping entries whose hash or key differs. -/
def chainLookup (key hash : Nat) : List HTEntry → Option HTEntry
  | [] => none
  | x :: t => if x.ehash = hash ∧ x.ekey = key then some x else chainLookup key hash t

/-- Chain-level effect of `LRUHandleTable::Insert`: splice `h` into the
position of a matching entry (returning the old one), or link it at the slot
where `FindPointer` stopped, i.e. the end of the chain. -/
def chainInsert (h : HTEntry) : List HTEntry → List HTEntry × Option HTEntry
  | [] => ([h], none)
  | x :: t =>
    if x.ehash = h.ehash ∧ x.ekey = h.ekey then (h :: t, some x)
    else
      let r := chainInsert h t
      (x :: r.1, r.2)

/-- Chain-level effect of `LRUHandleTable::Remove`: unlink the matching entry. -/
def chainRemove (key hash : Nat) : List HTEntry → List HTEntry × Option HTEntry
  | [] => ([], none)
  | x :: t =>
    if x.ehash = hash ∧ x.ekey = key then (t, some x)
    else
      let r := chainRemove key hash t
      (x :: r.1, r.2)

/-- The chained hash table `LRUHandleTable`: `list` is the bucket array
(`list_`, of size `length_ = list.length`), `elems` is `elems_`. -/
structure LRUHandleTable where
  list : List (List HTEntry)
  elems : Nat
deriving Repr, DecidableEq

/-- Bucket index `hash & (length_ - 1)`. -/
def bucketOf (t : LRUHandleTable) (hash : Nat) : Nat := hash &&& (t.list.length - 1)

def LRUHandleTable.Lookup (t : LRUHandleTable) (key hash : Nat) : Option HTEntry :=
  chainLookup key hash (t.list.getD (bucketOf t hash) [])

/-- The `Resize` sizing loop: `new_length = 16; while (new_length < elems_ * 1.5)
new_length *= 2`.  The comparison `new_length < elems * 1.5` on exact doubles
is `2 * new_length < 3 * elems`.  Fuel bounds the (terminating) loop. -/
def resizeLenGo (elems n : Nat) : Nat → Nat
  | 0 => n
  | fuel + 1 => if 2 * n < 3 * elems then resizeLenGo elems (2 * n) fuel else n

def resizeLen (elems : Nat) : Nat := resizeLenGo elems 16 (2 * elems + 1)

/-- One step of the `Resize` rehash loop: push handle `x` onto the head of its
new bucket (`h->next_hash = *ptr; *ptr = h`). -/
def scatterOne (len : Nat) (acc : List (List HTEntry)) (x : HTEntry) : List (List HTEntry) :=
  acc.set (x.ehash &&& (len - 1)) (x :: acc.getD (x.ehash &&& (len - 1)) [])

def LRUHandleTable.Resize (t : LRUHandleTable) : LRUHandleTable :=
  let new_length := resizeLen t.elems
  { list := t.list.foldl (fun acc chain => chain.foldl (scatterOne new_length) acc)
      (List.replicate new_length []),
    elems := t.elems }

def LRUHandleTable.Insert (t : LRUHandleTable) (h : HTEntry) : LRUHandleTable × Option HTEntry :=
  let b := bucketOf t h.ehash
  let r := chainInsert h (t.list.getD b [])
  let t1 : LRUHandleTable := { list := t.list.set b r.1, elems := t.elems }
  match r.2 with
  | some old => (t1, some old)
  | none =>
    let t2 : LRUHandleTable := { t1 with elems := t1.elems + 1 }
    (if t2.list.length < t2.elems then t2.Resize else t2, none)

def LRUHandleTable.Remove (t : LRUHandleTable) (key hash : Nat) : LRUHandleTable × Option HTEntry :=
  let b := bucketOf t hash
  let r := chainRemove key hash (t.list.getD b [])
  match r.2 with
  | some x => ({ list := t.list.set b r.1, elems := t.elems - 1 }, some x)
  | none => (t, none)

/-- `LRUHandleTable()` constructor: zero-length table resized once. -/
def mkTable : LRUHandleTable := LRUHandleTable.Resize { list := [], elems := 0 }

/-- Concatenation of all bucket chains. -/
def joinL : List (List HTEntry) → List HTEntry
  | [] => []
  | c :: r => c ++ joinL r

/-- All handles reachable from the table (all bucket chains concatenated). -/
def tblEntries (t : LRUHandleTable) : List HTEntry := joinL t.list

/-- Heap read through an `LRUHandle*`. -/
def hget : List (Nat × LRUHandle) → Nat → Option LRUHandle
  | [], _ => none
  | p :: t, i => if p.1 = i then some p.2 else hget t i

/-- Heap write through an `LRUHandle*`. -/
def hset : List (Nat × LRUHandle) → Nat → LRUHandle → List (Nat × LRUHandle)
  | [], _, _ => []
  | p :: t, i, e => if p.1 = i then (p.1, e) :: t else p :: hset t i e

/-- `delete[]` of a record. -/
def hdel : List (Nat × LRUHandle) → Nat → List (Nat × LRUHandle)
  | [], _ => []
  | p :: t, i => if p.1 = i then t else p :: hdel t i

def heapIds (h : List (Nat × LRUHandle)) : List Nat := h.map Prod.fst

def sumCharge (h : List (Nat × LRUHandle)) : Nat := (h.map (fun p => p.2.charge)).sum

def chargeOf (h : List (Nat × LRUHandle)) (i : Nat) : Nat :=
  ((hget h i).map LRUHandle.charge).getD 0

def sumIds (h : List (Nat × LRUHandle)) (ids : List Nat) : Nat := (ids.map (chargeOf h)).sum

/-- The `double high_pri_pool_ratio_`, represented exactly as the fraction
`num / den`. -/
structure Ratio where
  num : Nat
  den : Nat
deriving Repr, DecidableEq

/-- The comparison `high_pri_pool_ratio_ > 0` on the double. -/
def Ratio.isPos (r : Ratio) : Bool := decide (0 < r.num)

/-- `capacity_ * high_pri_pool_ratio_` truncated to `size_t`:
`floor (c * num / den)` computed exactly. -/
def ratioFloor (c : Nat) (r : Ratio) : Nat := c * r.num / r.den

/-- One LRU cache shard (`LRUCacheShardTemplate` state).  `deleters_run` logs
the entry ids whose deleter has been invoked (each `LRUHandle::Free`). -/
structure Shard where
  table : LRUHandleTable
  heap : List (Nat × LRUHandle)
  lru : List Nat
  lowCount : Nat
  usage : Nat
  lru_usage : Nat
  high_pri_pool_usage : Nat
  capacity : Nat
  strict_capacity_limit : Bool
  high_pri_pool_ratio : Ratio
  high_pri_pool_capacity : Nat
  deleters_run : List Nat
  nextId : Nat
deriving Repr, DecidableEq

/-- Modelled from the spec: the cache-monitor hook `UsageAdd` adds the
entry's charge to the shard `usage` counter (the monitor class lives in the
header `lru_cache.h`, not in `src/`; the spec defines `usage` as the sum of
`charge` over accounted entries). -/
def UsageAdd (s : Shard) (e : LRUHandle) : Shard := { s with usage := s.usage + e.charge }

/-- Modelled from the spec: `UsageSub` subtracts the entry's charge from
`usage`. -/
def UsageSub (s : Shard) (e : LRUHandle) : Shard := { s with usage := s.usage - e.charge }

/-- Modelled from the spec: `LRUUsageAdd` adds the entry's charge to
`lru_usage`. -/
def LRUUsageAdd (s : Shard) (e : LRUHandle) : Shard :=
  { s with lru_usage := s.lru_usage + e.charge }

/-- Modelled from the spec: `LRUUsageSub` subtracts the entry's charge from
`lru_usage`. -/
def LRUUsageSub (s : Shard) (e : LRUHandle) : Shard :=
  { s with lru_usage := s.lru_usage - e.charge }

/-- Modelled from the spec: `HighPriPoolUsageAdd` adds the entry's charge to
`high_pri_pool_usage`. -/
def HighPriPoolUsageAdd (s : Shard) (e : LRUHandle) : Shard :=
  { s with high_pri_pool_usage := s.high_pri_pool_usage + e.charge }

/-- Modelled from the spec: `HighPriPoolUsageSub` subtracts the entry's
charge from `high_pri_pool_usage`. -/
def HighPriPoolUsageSub (s : Shard) (e : LRUHandle) : Shard :=
  { s with high_pri_pool_usage := s.high_pri_pool_usage - e.charge }

/-- Modelled from the spec: `LRUHandle::Free` (declared in the header)
invokes the deleter with the key and value and releases the record's
storage. -/
def Free (s : Shard) (i : Nat) : Shard :=
  { s with heap := hdel s.heap i, deleters_run := s.deleters_run ++ [i] }

/-- Drain the post-unlock scratch list, freeing each victim. -/
def freeAll (s : Shard) (ids : List Nat) : Shard := ids.foldl Free s

/-- `LRU_Remove`: unlink `e`; if it was `lru_low_pri_` the cursor retreats to
`e->prev`; positionally, the low-pri region shrinks by one exactly when `e`
was inside it.  Then `LRUUsageSub`, and `HighPriPoolUsageSub` when the entry
is flagged in the high-pri pool. -/
def LRU_Remove (s : Shard) (i : Nat) : Shard :=
  match hget s.heap i with
  | none => s
  | some e =>
    let low := if posOf i s.lru < s.lowCount then s.lowCount - 1 else s.lowCount
    let s1 := { s with lru := listErase i s.lru, lowCount := low }
    let s2 := LRUUsageSub s1 e
    if e.in_high_pri_pool then HighPriPoolUsageSub s2 e else s2

/-- `MaintainPoolSize` loop body, fuelled: while the high-pri pool overflows,
advance `lru_low_pri_` one cell toward the tail (the advanced-to entry is the
`lowCount`-th list member), clear its pool flag and subtract its charge. -/
def MaintainPoolSizeGo (s : Shard) : Nat → Shard
  | 0 => s
  | fuel + 1 =>
    if s.high_pri_pool_capacity < s.high_pri_pool_usage then
      match s.lru.get? s.lowCount with
      | none => s
      | some i =>
        match hget s.heap i with
        | none => s
        | some e =>
          let s1 := { s with lowCount := s.lowCount + 1,
                             heap := hset s.heap i { e with in_high_pri_pool := false } }
          MaintainPoolSizeGo (HighPriPoolUsageSub s1 e) fuel
    else s

def MaintainPoolSize (s : Shard) : Shard := MaintainPoolSizeGo s (s.lru.length - s.lowCount)

/-- `LRU_Insert`: with a positive pool ratio, a high-priority or previously
hit entry goes to the hottest end (just before the sentinel) and joins the
high-pri pool, then the pool is rebalanced; otherwise the entry is linked
right after `lru_low_pri_` and becomes the new cursor. -/
def LRU_Insert (s : Shard) (i : Nat) : Shard :=
  match hget s.heap i with
  | none => s
  | some e =>
    if s.high_pri_pool_ratio.isPos = true ∧ (e.is_high_pri = true ∨ e.has_hit = true) then
      let s1 := { s with lru := s.lru ++ [i],
                         heap := hset s.heap i { e with in_high_pri_pool := true } }
      let s2 := MaintainPoolSize (HighPriPoolUsageAdd s1 e)
      LRUUsageAdd s2 e
    else
      let s1 := { s with lru := s.lru.take s.lowCount ++ i :: s.lru.drop s.lowCount,
                         lowCount := s.lowCount + 1,
                         heap := hset s.heap i { e with in_high_pri_pool := false } }
      LRUUsageAdd s1 e

/-- The common body of the `EvictFromLRU` and `EraseUnRefEntries` loops:
remove the coldest entry (`lru_.next`) from the list and the table, clear
`in_cache`, `Unref` to zero, subtract its charge from `usage`. -/
def popColdest (s : Shard) : Shard × Option Nat :=
  match s.lru with
  | [] => (s, none)
  | old :: _ =>
    match hget s.heap old with
    | none => (s, none)
    | some e =>
      let s1 := LRU_Remove s old
      let s2 := { s1 with table := (s1.table.Remove e.key e.hash).1 }
      let s3 := { s2 with heap := hset s2.heap old { e with in_cache := false, refs := e.refs - 1 } }
      (UsageSub s3 e, some old)

/-- `EvictFromLRU` loop, fuelled by the list length. -/
def EvictGo (s : Shard) (charge : Nat) (deleted : List Nat) : Nat → Shard × List Nat
  | 0 => (s, deleted)
  | fuel + 1 =>
    if s.capacity < s.usage + charge then
      match popColdest s with
      | (_, none) => (s, deleted)
      | (s1, some old) => EvictGo s1 charge (deleted ++ [old]) fuel
    else (s, deleted)

def EvictFromLRU (s : Shard) (charge : Nat) : Shard × List Nat :=
  EvictGo s charge [] s.lru.length

/-- `EraseUnRefEntries` loop, fuelled by the list length. -/
def EraseUnRefGo (s : Shard) (scratch : List Nat) : Nat → Shard × List Nat
  | 0 => (s, scratch)
  | fuel + 1 =>
    match popColdest s with
    | (_, none) => (s, scratch)
    | (s1, some old) => EraseUnRefGo s1 (scratch ++ [old]) fuel

def Shard.EraseUnRefEntries (s : Shard) : Shard :=
  let r := EraseUnRefGo s [] s.lru.length
  freeAll r.1 r.2

inductive Status where
  | ok
  | incomplete
deriving Repr, DecidableEq

/-- The record built at the top of `Insert`: `refs` is 1 when the cache is
sole owner, 2 when a handle is returned; `flags = 0` then `SetInCache(true)`
and `SetPriority(priority)`. -/
def newEntry (key hash charge : Nat) (wantHandle highPri : Bool) : LRUHandle :=
  { key := key, hash := hash, charge := charge,
    refs := if wantHandle then 2 else 1,
    in_cache := true, in_high_pri_pool := false,
    is_high_pri := highPri, has_hit := false }

/-- The pre-lock allocation of the new record (`new char[...]` plus field
initialisation); returns the new state and the id of the record. -/
def Shard.insertAlloc (s : Shard) (key hash charge : Nat) (wantHandle highPri : Bool) :
    Shard × Nat :=
  ({ s with heap := (s.nextId, newEntry key hash charge wantHandle highPri) :: s.heap,
            nextId := s.nextId + 1 }, s.nextId)

/-- `LRUCacheShardTemplate::Insert`.  Returns the final state, the status,
and the value written to `*handle` (`none` both for a null `handle` argument
and for `*handle = nullptr`). -/
def Shard.Insert (s : Shard) (key hash charge : Nat) (wantHandle highPri : Bool) :
    Shard × Status × Option Nat :=
  let a := s.insertAlloc key hash charge wantHandle highPri
  let i := a.2
  let ev := EvictFromLRU a.1 charge
  let s1 := ev.1
  let scratch := ev.2
  if s1.capacity < s1.usage - s1.lru_usage + charge ∧
      (s1.strict_capacity_limit = true ∨ wantHandle = false) then
    if wantHandle = false then
      (freeAll s1 (scratch ++ [i]), Status.ok, none)
    else
      (freeAll { s1 with heap := hdel s1.heap i } scratch, Status.incomplete, none)
  else
    let ti := s1.table.Insert { ehash := hash, ekey := key, hid := i }
    let s2 := UsageAdd { s1 with table := ti.1 } (newEntry key hash charge wantHandle highPri)
    let d :=
      match ti.2 with
      | none => (s2, scratch)
      | some t =>
        match hget s2.heap t.hid with
        | none => (s2, scratch)
        | some oe =>
          let oe1 := { oe with in_cache := false, refs := oe.refs - 1 }
          let s4 := { s2 with heap := hset s2.heap t.hid oe1 }
          if oe1.refs = 0 then (LRU_Remove (UsageSub s4 oe1) t.hid, scratch ++ [t.hid])
          else (s4, scratch)
    if wantHandle = false then (freeAll (LRU_Insert d.1 i) d.2, Status.ok, none)
    else (freeAll d.1 d.2, Status.ok, some i)

/-- `LRUCacheShardTemplate::Lookup`: a found entry leaves the LRU list when
its only reference was the cache's, gets `refs++` and its sticky hit bit. -/
def Shard.Lookup (s : Shard) (key hash : Nat) : Shard × Option Nat :=
  match s.table.Lookup key hash with
  | none => (s, none)
  | some t =>
    match hget s.heap t.hid with
    | none => (s, none)
    | some e =>
      let s1 := if e.refs = 1 then LRU_Remove s t.hid else s
      ({ s1 with heap := hset s1.heap t.hid { e with refs := e.refs + 1, has_hit := true } },
       some t.hid)

/-- `LRUCacheShardTemplate::Ref`. -/
def Shard.Ref (s : Shard) (i : Nat) : Shard × Bool :=
  match hget s.heap i with
  | none => (s, true)
  | some e =>
    let s1 := if e.in_cache = true ∧ e.refs = 1 then LRU_Remove s i else s
    ({ s1 with heap := hset s1.heap i { e with refs := e.refs + 1 } }, true)

/-- `LRUCacheShardTemplate::Release`.  A null handle returns false at once.
Otherwise `Unref`; a last reference is accounted out of `usage`.  An entry
left in cache with only the cache's reference is either force-erased (cache
over capacity or `force_erase`) or re-linked into the LRU list.  Entries
whose reference count reached zero are freed after unlock. -/
def Shard.Release (s : Shard) (h : Option Nat) (force_erase : Bool) : Shard × Bool :=
  match h with
  | none => (s, false)
  | some i =>
    match hget s.heap i with
    | none => (s, false)
    | some e =>
      let e1 : LRUHandle := { e with refs := e.refs - 1 }
      let s1 := { s with heap := hset s.heap i e1 }
      let s2 := if e1.refs = 0 then UsageSub s1 e1 else s1
      if e1.refs = 1 ∧ e1.in_cache = true then
        if s2.capacity < s2.usage ∨ force_erase = true then
          let s3 := { s2 with table := (s2.table.Remove e1.key e1.hash).1 }
          let s4 := { s3 with heap := hset s3.heap i { e1 with in_cache := false, refs := e1.refs - 1 } }
          (Free (UsageSub s4 e1) i, true)
        else
          (LRU_Insert s2 i, false)
      else
        (if e1.refs = 0 then Free s2 i else s2, e1.refs = 0)

/-- `LRUCacheShardTemplate::Erase`. -/
def Shard.Erase (s : Shard) (key hash : Nat) : Shard :=
  let r := s.table.Remove key hash
  let s0 := { s with table := r.1 }
  match r.2 with
  | none => s0
  | some t =>
    match hget s0.heap t.hid with
    | none => s0
    | some e =>
      let e1 : LRUHandle := { e with refs := e.refs - 1 }
      let s1 := { s0 with heap := hset s0.heap t.hid e1 }
      let s2 := if e1.refs = 0 ∧ e1.in_cache = true then LRU_Remove s1 t.hid else s1
      let s3 := if e1.refs = 0 then UsageSub s2 e1 else s2
      let s4 :=
        match hget s3.heap t.hid with
        | none => s3
        | some e2 => { s3 with heap := hset s3.heap t.hid { e2 with in_cache := false } }
      if e1.refs = 0 then Free s4 t.hid else s4

/-- `LRUCacheShardTemplate::SetCapacity`: store the capacity, recompute the
pool capacity, evict with zero extra charge, free the victims after unlock. -/
def Shard.SetCapacity (s : Shard) (c : Nat) : Shard :=
  let s1 := { s with capacity := c,
                     high_pri_pool_capacity := ratioFloor c s.high_pri_pool_ratio }
  let ev := EvictFromLRU s1 0
  freeAll ev.1 ev.2

def Shard.SetStrictCapacityLimit (s : Shard) (b : Bool) : Shard :=
  { s with strict_capacity_limit := b }

/-- `LRUCacheShardTemplate::SetHighPriorityPoolRatio`. -/
def Shard.SetHighPriorityPoolRatio (s : Shard) (r : Ratio) : Shard :=
  MaintainPoolSize { s with high_pri_pool_ratio := r,
                            high_pri_pool_capacity := ratioFloor s.capacity r }

/-- The shard constructor: zero capacity and counters, empty circular list,
then `SetCapacity(capacity)`. -/
def mkShard (capacity : Nat) (strict : Bool) (r : Ratio) : Shard :=
  Shard.SetCapacity
    { table := mkTable, heap := [], lru := [], lowCount := 0, usage := 0, lru_usage := 0,
      high_pri_pool_usage := 0, capacity := 0, strict_capacity_limit := strict,
      high_pri_pool_ratio := r, high_pri_pool_capacity := 0, deleters_run := [], nextId := 0 }
    capacity

/-- A client-visible operation on one shard.  Handles held by clients are the
list in the world state; `release n` / `refOp n` act on the n-th held handle
(the reference-count contract forbids releasing a handle one does not hold). -/
inductive Op where
  | insert (key hash charge : Nat) (wantHandle highPri : Bool)
  | lookup (key hash : Nat)
  | release (n : Nat) (force : Bool)
  | releaseNull (force : Bool)
  | refOp (n : Nat)
  | erase (key hash : Nat)
  | setCapacity (c : Nat)
  | setStrict (b : Bool)
  | setRatio (r : Ratio)
  | eraseUnRef
deriving Repr, DecidableEq

/-- One public operation on the world (shard state plus outstanding handles). -/
def step (w : Shard × List Nat) (op : Op) : Shard × List Nat :=
  match op with
  | .insert key hash charge wantHandle highPri =>
    let r := w.1.Insert key hash charge wantHandle highPri
    (r.1, w.2 ++ r.2.2.toList)
  | .lookup key hash =>
    let r := w.1.Lookup key hash
    (r.1, w.2 ++ r.2.toList)
  | .release n force =>
    match w.2.get? n with
    | none => w
    | some i => ((w.1.Release (some i) force).1, w.2.eraseIdx n)
  | .releaseNull force => ((w.1.Release none force).1, w.2)
  | .refOp n =>
    match w.2.get? n with
    | none => w
    | some i => ((w.1.Ref i).1, w.2 ++ [i])
  | .erase key hash => (w.1.Erase key hash, w.2)
  | .setCapacity c => (w.1.SetCapacity c, w.2)
  | .setStrict b => (w.1.SetStrictCapacityLimit b, w.2)
  | .setRatio r => (w.1.SetHighPriorityPoolRatio r, w.2)
  | .eraseUnRef => (w.1.EraseUnRefEntries, w.2)

def initW (capacity : Nat) (strict : Bool) (r : Ratio) : Shard × List Nat :=
  (mkShard capacity strict r, [])

def runOps (w : Shard × List Nat) (ops : List Op) : Shard × List Nat := ops.foldl step w

/-- A world state observable with the shard mutex released: reachable from a
freshly constructed shard by a sequence of public operations. -/
def ReachableW (w : Shard × List Nat) : Prop :=
  ∃ capacity strict r ops, w = runOps (initW capacity strict r) ops

/-- Well-formedness of the bucket table: a nonempty bucket array, every chain
member sits in the bucket selected by its hash, and no two reachable entries
share the `(hash, key)` pair. -/
structure TblWF (t : LRUHandleTable) : Prop where
  lenPos : 1 ≤ t.list.length
  placed : ∀ b : Nat, ∀ x ∈ t.list.getD b [], x.ehash &&& (t.list.length - 1) = b
  keysNodup : ((tblEntries t).map (fun x => (x.ehash, x.ekey))).Nodup

/-- Ids of all handles reachable from the table. -/
def tblIds (t : LRUHandleTable) : List Nat := (tblEntries t).map HTEntry.hid

/-- The sub-invariant a shard state satisfies while inside `Insert`, after the
new record has been allocated but before it is accounted: everything except
the `usage` equation and the reference-count bookkeeping. -/
structure EvictPre (s : Shard) : Prop where
  heapNodup : (heapIds s.heap).Nodup
  lruNodup : s.lru.Nodup
  lruLive : ∀ i ∈ s.lru, ∃ e, hget s.heap i = some e ∧ e.in_cache = true ∧ e.refs = 1
  lowLe : s.lowCount ≤ s.lru.length
  lruUsageEq : s.lru_usage = sumIds s.heap s.lru
  poolUsageEq : s.high_pri_pool_usage = sumIds s.heap (s.lru.drop s.lowCount)
  flagPos : ∀ n i, s.lru.get? n = some i → ∀ e, hget s.heap i = some e →
      (e.in_high_pri_pool = true ↔ s.lowCount ≤ n)
  tblWF : TblWF s.table
  tblHeap : ∀ x ∈ tblEntries s.table, ∃ e, hget s.heap x.hid = some e ∧
      e.key = x.ekey ∧ e.hash = x.ehash ∧ e.in_cache = true
  lruTbl : ∀ i ∈ s.lru, ∃ x ∈ tblEntries s.table, x.hid = i

/-- The full shard invariant at observable (mutex-released) states, relative
to the multiset `hs` of handles held by clients. -/
structure Inv (s : Shard) (hs : List Nat) : Prop where
  pre : EvictPre s
  heapLt : ∀ p ∈ s.heap, p.1 < s.nextId
  refsEq : ∀ p ∈ s.heap, p.2.refs = (if p.2.in_cache = true then 1 else 0) + natCount p.1 hs
  liveRef : ∀ p ∈ s.heap, p.2.in_cache = true ∨ 0 < natCount p.1 hs
  hsLive : ∀ i ∈ hs, i ∈ heapIds s.heap
  lruSpec : ∀ p ∈ s.heap, (p.1 ∈ s.lru ↔ (p.2.in_cache = true ∧ p.2.refs = 1))
  usageEq : s.usage = sumCharge s.heap
  cacheTbl : ∀ p ∈ s.heap, p.2.in_cache = true → ∃ x ∈ tblEntries s.table, x.hid = p.1
  capEq : s.high_pri_pool_capacity = ratioFloor s.capacity s.high_pri_pool_ratio

/-- Joint effect of popping `k` cold entries (the common part of the
`EvictFromLRU` and `EraseUnRefEntries` loops): the first `k` listed entries
leave the list and the table, lose `in_cache` and their reference, and are
accounted out of the three usage counters; nothing else changes. -/
structure PopOut (s t : Shard) (k : Nat) : Prop where
  kLe : k ≤ s.lru.length
  pre : EvictPre t
  lru : t.lru = s.lru.drop k
  low : t.lowCount = s.lowCount - k
  usage : t.usage = s.usage - sumIds s.heap (s.lru.take k)
  lruUsage : t.lru_usage = s.lru_usage - sumIds s.heap (s.lru.take k)
  pool : t.high_pri_pool_usage =
    s.high_pri_pool_usage - sumIds s.heap ((s.lru.take k).drop s.lowCount)
  heapSame : ∀ j, j ∉ s.lru.take k → hget t.heap j = hget s.heap j
  heapEvict : ∀ j ∈ s.lru.take k, ∃ e, hget s.heap j = some e ∧
      hget t.heap j = some { e with in_cache := false, refs := e.refs - 1 }
  ids : heapIds t.heap = heapIds s.heap
  tbl : ∀ y, y ∈ tblEntries t.table ↔ (y ∈ tblEntries s.table ∧ y.hid ∉ s.lru.take k)
  cap : t.capacity = s.capacity
  strictEq : t.strict_capacity_limit = s.strict_capacity_limit
  ratEq : t.high_pri_pool_ratio = s.high_pri_pool_ratio
  poolCap : t.high_pri_pool_capacity = s.high_pri_pool_capacity
  dels : t.deleters_run = s.deleters_run
  nid : t.nextId = s.nextId

/-- The high-priority pool respects its capacity. -/
def PoolOK (s : Shard) : Prop := s.high_pri_pool_usage ≤ s.high_pri_pool_capacity

/-- An entry with its pool flag forgotten: used to state that a pool
rebalance touches nothing but `in_high_pri_pool` bits. -/
def poolCleared (e : LRUHandle) : LRUHandle := { e with in_high_pri_pool := false }

/-- Effect of `MaintainPoolSize`: the boundary cursor advances, pool flags of
the crossed entries are cleared, the pool counter drops within its capacity,
and nothing else changes. -/
structure MaintainOut (s t : Shard) : Prop where
  pre : EvictPre t
  lruEq : t.lru = s.lru
  lowGe : s.lowCount ≤ t.lowCount
  poolOk : PoolOK t
  heapPool : ∀ j, (hget t.heap j).map poolCleared = (hget s.heap j).map poolCleared
  ids : heapIds t.heap = heapIds s.heap
  usage : t.usage = s.usage
  lruUsage : t.lru_usage = s.lru_usage
  tblEq : t.table = s.table
  cap : t.capacity = s.capacity
  strictEq : t.strict_capacity_limit = s.strict_capacity_limit
  ratEq : t.high_pri_pool_ratio = s.high_pri_pool_ratio
  poolCap : t.high_pri_pool_capacity = s.high_pri_pool_capacity
  dels : t.deleters_run = s.deleters_run
  nid : t.nextId = s.nextId

/-- Effect of `LRU_Remove` on a listed entry: the entry leaves the list, its
charge leaves `lru_usage` (and the pool counter when flagged), everything
else is untouched and the list invariants survive. -/
structure RemOut (s t : Shard) (i : Nat) (e : LRUHandle) : Prop where
  pre : EvictPre t
  lruEq : t.lru = listErase i s.lru
  heapEq : t.heap = s.heap
  tblEq : t.table = s.table
  usage : t.usage = s.usage
  lruUsage : t.lru_usage = s.lru_usage - e.charge
  pool : t.high_pri_pool_usage = if e.in_high_pri_pool = true then
    s.high_pri_pool_usage - e.charge else s.high_pri_pool_usage
  cap : t.capacity = s.capacity
  strictEq : t.strict_capacity_limit = s.strict_capacity_limit
  ratEq : t.high_pri_pool_ratio = s.high_pri_pool_ratio
  poolCap : t.high_pri_pool_capacity = s.high_pri_pool_capacity
  dels : t.deleters_run = s.deleters_run
  nid : t.nextId = s.nextId

/-- Effect of `LRU_Insert` on an unlisted live entry: the entry joins the
list, its charge joins `lru_usage`, heap changes touch only pool flags, the
pool stays within capacity if it was, and the list invariants survive. -/
structure InsOut (s t : Shard) (i : Nat) (e : LRUHandle) : Prop where
  pre : EvictPre t
  lruMem : ∀ j, j ∈ t.lru ↔ (j = i ∨ j ∈ s.lru)
  heapPool : ∀ j, (hget t.heap j).map poolCleared = (hget s.heap j).map poolCleared
  ids : heapIds t.heap = heapIds s.heap
  usage : t.usage = s.usage
  lruUsage : t.lru_usage = s.lru_usage + e.charge
  tblEq : t.table = s.table
  cap : t.capacity = s.capacity
  strictEq : t.strict_capacity_limit = s.strict_capacity_limit
  ratEq : t.high_pri_pool_ratio = s.high_pri_pool_ratio
  poolCap : t.high_pri_pool_capacity = s.high_pri_pool_capacity
  dels : t.deleters_run = s.deleters_run
  nid : t.nextId = s.nextId
  poolOk : PoolOK s → PoolOK t

/-- State of a shard at the point where the mutex is released but the
scratch list `g` of detached victims has not been freed yet: the full
invariant holds except that the victims are still heap-resident (unlinked,
out of the table, uncounted in `usage`). -/
structure MidInv (s : Shard) (hs g : List Nat) : Prop where
  pre : EvictPre s
  heapLt : ∀ p ∈ s.heap, p.1 < s.nextId
  refsEq : ∀ p ∈ s.heap, p.1 ∉ g →
    p.2.refs = (if p.2.in_cache = true then 1 else 0) + natCount p.1 hs
  liveRef : ∀ p ∈ s.heap, p.1 ∉ g → (p.2.in_cache = true ∨ 0 < natCount p.1 hs)
  hsLive : ∀ i ∈ hs, i ∈ heapIds s.heap ∧ i ∉ g
  lruSpec : ∀ p ∈ s.heap, p.1 ∉ g → (p.1 ∈ s.lru ↔ (p.2.in_cache = true ∧ p.2.refs = 1))
  gLru : ∀ j ∈ g, j ∉ s.lru
  gTbl : ∀ j ∈ g, ∀ x ∈ tblEntries s.table, x.hid ≠ j
  gHeap : ∀ j ∈ g, ∃ e, hget s.heap j = some e
  gNodup : g.Nodup
  usageEq : s.usage = sumCharge s.heap - sumIds s.heap g
  cacheTbl : ∀ p ∈ s.heap, p.1 ∉ g → p.2.in_cache = true →
    ∃ x ∈ tblEntries s.table, x.hid = p.1
  capEq : s.high_pri_pool_capacity = ratioFloor s.capacity s.high_pri_pool_ratio

/-- Mid-`Insert` state right after the admitted record has been linked into
the table and accounted into `usage`, but before any `LRU_Insert`: all
mid-lock invariant fields hold except that entry `i` is still unlisted. -/
structure FreshBase (s : Shard) (hs2 g : List Nat) (i : Nat) (e1 : LRUHandle) : Prop where
  pre : EvictPre s
  he1 : hget s.heap i = some e1
  hic : e1.in_cache = true
  hgi : i ∉ g
  hnm : i ∉ s.lru
  refsI : e1.refs = 1 + natCount i hs2
  heapLt : ∀ p ∈ s.heap, p.1 < s.nextId
  refsEqO : ∀ p ∈ s.heap, p.1 ∉ g → p.1 ≠ i →
    p.2.refs = (if p.2.in_cache = true then 1 else 0) + natCount p.1 hs2
  liveRefO : ∀ p ∈ s.heap, p.1 ∉ g → p.1 ≠ i →
    (p.2.in_cache = true ∨ 0 < natCount p.1 hs2)
  hsLive : ∀ j ∈ hs2, j ∈ heapIds s.heap ∧ j ∉ g
  lruSpecO : ∀ p ∈ s.heap, p.1 ∉ g → p.1 ≠ i →
    (p.1 ∈ s.lru ↔ (p.2.in_cache = true ∧ p.2.refs = 1))
  gLru : ∀ j ∈ g, j ∉ s.lru
  gTbl : ∀ j ∈ g, ∀ x ∈ tblEntries s.table, x.hid ≠ j
  gHeap : ∀ j ∈ g, ∃ e, hget s.heap j = some e
  gNodup : g.Nodup
  usageEq : s.usage = sumCharge s.heap - sumIds s.heap g
  cacheTblO : ∀ p ∈ s.heap, p.1 ∉ g → p.1 ≠ i → p.2.in_cache = true →
    ∃ x ∈ tblEntries s.table, x.hid = p.1
  cacheTblI : ∃ x ∈ tblEntries s.table, x.hid = i
  capEq : s.high_pri_pool_capacity = ratioFloor s.capacity s.high_pri_pool_ratio

/-- Operations that are not `SetCapacity` (the one mutation that shrinks the
pool bound without rebalancing the pool). -/
def notSetCap : Op → Prop
  | .setCapacity _ => False
  | _ => True

instance (op : Op) : Decidable (notSetCap op) := by
  cases op <;> (unfold notSetCap; infer_instance)

/-- The spec's words for the `usage` account: total `charge` over the
in-cache entries. -/
def inCacheCharge (s : Shard) : Nat :=
  ((s.heap.filter (fun p => p.2.in_cache)).map (fun p => p.2.charge)).sum

/-- The spec's words for the pool account: total `charge` over entries
flagged `in_high_pri_pool`. -/
def poolFlagCharge (s : Shard) : Nat :=
  ((s.heap.filter (fun p => p.2.in_high_pri_pool)).map (fun p => p.2.charge)).sum

/-- Scenario: one pinned insert into a roomy shard (a handle is held). -/
def scenPin : Shard × List Nat :=
  runOps (initW 100 false ⟨0, 1⟩) [Op.insert 0 0 10 true false]

/-- Scenario: the same pinned key inserted twice (the first entry is
displaced while still referenced). -/
def scenDup : Shard × List Nat :=
  runOps (initW 100 false ⟨0, 1⟩) [Op.insert 0 0 10 true false, Op.insert 0 0 10 true false]

/-- Scenario: a strict shard of capacity 10 filled by one pinned charge-10
entry — nothing is evictable. -/
def scenFull : Shard × List Nat :=
  runOps (initW 10 true ⟨0, 1⟩) [Op.insert 0 0 10 true false]

/-- Scenario: two unpinned resident entries, listed coldest-first. -/
def scenCold : Shard × List Nat :=
  runOps (initW 100 false ⟨0, 1⟩) [Op.insert 1 1 10 false false, Op.insert 2 2 20 false false]

/-- Scenario: a pooled high-priority entry, then `SetCapacity` shrinks the
pool bound without rebalancing. -/
def scenPool : Shard × List Nat :=
  runOps (initW 100 false ⟨1, 2⟩) [Op.insert 0 0 50 false true, Op.setCapacity 60]

/-- Scenario: a strict shard of capacity 10 holding one unpinned charge-6
entry (evictable). -/
def scenEvict : Shard × List Nat :=
  runOps (initW 10 true ⟨0, 1⟩) [Op.insert 1 1 6 false false]

/-! ### List helpers -/

theorem posOf_append {i : Nat} {pre : List Nat} (suf : List Nat) (h : i ∉ pre) :
    posOf i (pre ++ i :: suf) = pre.length := by
  induction pre with
  | nil => simp [posOf]
  | cons a t ih =>
    have ha : ¬(a = i) := fun hc => h (by simp [hc])
    have ht : i ∉ t := fun hc => h (by simp [hc])
    simp [posOf, ha, ih ht]

theorem listErase_append {i : Nat} {pre : List Nat} (suf : List Nat) (h : i ∉ pre) :
    listErase i (pre ++ i :: suf) = pre ++ suf := by
  induction pre with
  | nil => simp [listErase]
  | cons a t ih =>
    have ha : ¬(a = i) := fun hc => h (by simp [hc])
    have ht : i ∉ t := fun hc => h (by simp [hc])
    simp [listErase, ha, ih ht]

theorem natCount_append (i : Nat) (l₁ l₂ : List Nat) :
    natCount i (l₁ ++ l₂) = natCount i l₁ + natCount i l₂ := by
  induction l₁ with
  | nil => simp [natCount]
  | cons a t ih => simp [natCount, ih]; omega

theorem natCount_eq_zero {i : Nat} {l : List Nat} (h : i ∉ l) : natCount i l = 0 := by
  induction l with
  | nil => rfl
  | cons a t ih =>
    have ha : ¬(a = i) := fun hc => h (by simp [hc])
    have ht : i ∉ t := fun hc => h (by simp [hc])
    simp [natCount, ha, ih ht]

theorem natCount_pos {i : Nat} {l : List Nat} (h : i ∈ l) : 0 < natCount i l := by
  induction l with
  | nil => simp at h
  | cons a t ih =>
    rw [natCount]
    by_cases ha : a = i
    · rw [if_pos ha]; omega
    · rw [if_neg ha]
      rcases List.mem_cons.mp h with h | h
      · exact absurd h.symm ha
      · have := ih h; omega

theorem natCount_eraseIdx_self {l : List Nat} {n i : Nat} (h : l.get? n = some i) :
    natCount i (l.eraseIdx n) + 1 = natCount i l := by
  induction l generalizing n with
  | nil => simp at h
  | cons a t ih =>
    cases n with
    | zero =>
      rw [List.get?_cons_zero] at h
      have ha : a = i := by cases h; rfl
      show natCount i t + 1 = natCount i (a :: t)
      rw [natCount, if_pos ha]
      omega
    | succ m =>
      rw [List.get?_cons_succ] at h
      show natCount i (a :: t.eraseIdx m) + 1 = natCount i (a :: t)
      rw [natCount, natCount]
      have := ih h
      omega

theorem natCount_eraseIdx_ne {l : List Nat} {n i j : Nat} (h : l.get? n = some i)
    (hj : j ≠ i) : natCount j (l.eraseIdx n) = natCount j l := by
  induction l generalizing n with
  | nil => simp at h
  | cons a t ih =>
    cases n with
    | zero =>
      rw [List.get?_cons_zero] at h
      have ha : a = i := by cases h; rfl
      show natCount j t = natCount j (a :: t)
      have hthis : ¬(a = j) := by
        intro hc
        rw [← hc, ha] at hj
        exact hj rfl
      rw [natCount, if_neg hthis]
      omega
    | succ m =>
      rw [List.get?_cons_succ] at h
      show natCount j (a :: t.eraseIdx m) = natCount j (a :: t)
      rw [natCount, natCount, ih h]

theorem nodup_split {i : Nat} {l : List Nat} (nd : l.Nodup) (hm : i ∈ l) :
    ∃ pre suf, l = pre ++ i :: suf ∧ i ∉ pre ∧ i ∉ suf := by
  obtain ⟨pre, suf, rfl⟩ := List.append_of_mem hm
  rw [List.nodup_append] at nd
  refine ⟨pre, suf, rfl, ?_, ?_⟩
  · intro hc
    exact nd.2.2 hc (List.mem_cons_self i suf)
  · intro hc
    exact (List.nodup_cons.mp nd.2.1).1 hc

theorem drop_append_le {c : Nat} {pre : List Nat} (l : List Nat) (h : c ≤ pre.length) :
    List.drop c (pre ++ l) = List.drop c pre ++ l := by
  induction pre generalizing c with
  | nil =>
    have : c = 0 := Nat.le_zero.mp h
    subst this
    simp
  | cons a t ih =>
    cases c with
    | zero => simp
    | succ m => simpa using ih (Nat.le_of_succ_le_succ h)

/-! ### Heap helpers -/

theorem hget_mem {h : List (Nat × LRUHandle)} {i : Nat} {e : LRUHandle}
    (hg : hget h i = some e) : (i, e) ∈ h := by
  induction h with
  | nil => simp [hget] at hg
  | cons p t ih =>
    by_cases hp : p.1 = i
    · rw [hget, if_pos hp] at hg
      obtain ⟨p1, p2⟩ := p
      simp only [Option.some.injEq] at hg
      subst hg
      simp only at hp
      subst hp
      exact List.mem_cons_self _ t
    · rw [hget, if_neg hp] at hg
      exact List.mem_cons_of_mem _ (ih hg)

theorem mem_heapIds_of_hget {h : List (Nat × LRUHandle)} {i : Nat} {e : LRUHandle}
    (hg : hget h i = some e) : i ∈ heapIds h := by
  have := hget_mem hg
  exact List.mem_map.mpr ⟨(i, e), this, rfl⟩

theorem hget_isSome_of_mem {h : List (Nat × LRUHandle)} {i : Nat}
    (hm : i ∈ heapIds h) : ∃ e, hget h i = some e := by
  induction h with
  | nil => simp [heapIds] at hm
  | cons p t ih =>
    by_cases hp : p.1 = i
    · exact ⟨p.2, by rw [hget, if_pos hp]⟩
    · rw [hget, if_neg hp]
      apply ih
      simp [heapIds] at hm ⊢
      rcases hm with hm | hm
      · exact absurd hm.symm hp
      · exact hm

theorem hget_none_of_not_mem {h : List (Nat × LRUHandle)} {i : Nat}
    (hm : i ∉ heapIds h) : hget h i = none := by
  cases hg : hget h i with
  | none => rfl
  | some e => exact absurd (mem_heapIds_of_hget hg) hm

theorem hget_of_mem_nodup {h : List (Nat × LRUHandle)} {i : Nat} {e : LRUHandle}
    (nd : (heapIds h).Nodup) (hm : (i, e) ∈ h) : hget h i = some e := by
  induction h with
  | nil => simp at hm
  | cons p t ih =>
    rcases List.mem_cons.mp hm with hm | hm
    · rw [← hm, hget, if_pos rfl]
    · have hp : ¬(p.1 = i) := by
        intro hc
        have : i ∈ heapIds t := List.mem_map.mpr ⟨(i, e), hm, rfl⟩
        have nd' := List.nodup_cons.mp nd
        exact nd'.1 (hc ▸ this)
      rw [hget, if_neg hp]
      exact ih (List.nodup_cons.mp nd).2 hm

theorem hget_hset_self {h : List (Nat × LRUHandle)} {i : Nat} {e e' : LRUHandle}
    (hg : hget h i = some e) : hget (hset h i e') i = some e' := by
  induction h with
  | nil => simp [hget] at hg
  | cons p t ih =>
    by_cases hp : p.1 = i
    · rw [hset, if_pos hp, hget, if_pos hp]
    · rw [hget, if_neg hp] at hg
      rw [hset, if_neg hp, hget, if_neg hp]
      exact ih hg

theorem hget_hset_ne {h : List (Nat × LRUHandle)} {i j : Nat} {e' : LRUHandle}
    (hne : j ≠ i) : hget (hset h i e') j = hget h j := by
  induction h with
  | nil => rfl
  | cons p t ih =>
    by_cases hp : p.1 = i
    · rw [hset, if_pos hp, hget, hget, if_neg (hp ▸ Ne.symm hne), if_neg (hp ▸ Ne.symm hne)]
    · rw [hset, if_neg hp, hget, hget]
      by_cases hq : p.1 = j
      · rw [if_pos hq, if_pos hq]
      · rw [if_neg hq, if_neg hq, ih]

theorem heapIds_hset (h : List (Nat × LRUHandle)) (i : Nat) (e' : LRUHandle) :
    heapIds (hset h i e') = heapIds h := by
  induction h with
  | nil => rfl
  | cons p t ih =>
    by_cases hp : p.1 = i
    · rw [hset, if_pos hp]; simp [heapIds]
    · rw [hset, if_neg hp]; simp [heapIds] at ih ⊢; exact ih

theorem hset_hset (h : List (Nat × LRUHandle)) (i : Nat) (a b : LRUHandle) :
    hset (hset h i a) i b = hset h i b := by
  induction h with
  | nil => rfl
  | cons p t ih =>
    by_cases hp : p.1 = i
    · rw [hset, if_pos hp, hset, if_pos hp, hset, if_pos hp]
    · rw [hset, if_neg hp, hset, if_neg hp, hset, if_neg hp, ih]

theorem hget_hdel_ne {h : List (Nat × LRUHandle)} {i j : Nat} (hne : j ≠ i) :
    hget (hdel h i) j = hget h j := by
  induction h with
  | nil => rfl
  | cons p t ih =>
    by_cases hp : p.1 = i
    · rw [hdel, if_pos hp, hget, if_neg (hp ▸ Ne.symm hne)]
    · rw [hdel, if_neg hp, hget, hget]
      by_cases hq : p.1 = j
      · rw [if_pos hq, if_pos hq]
      · rw [if_neg hq, if_neg hq, ih]

theorem heapIds_hdel (h : List (Nat × LRUHandle)) (i : Nat) :
    heapIds (hdel h i) = listErase i (heapIds h) := by
  induction h with
  | nil => rfl
  | cons p t ih =>
    by_cases hp : p.1 = i
    · rw [hdel, if_pos hp]; simp [heapIds, listErase, hp]
    · rw [hdel, if_neg hp]; simp [heapIds, listErase, hp] at ih ⊢; exact ih

theorem listErase_sublist (i : Nat) (l : List Nat) : (listErase i l).Sublist l := by
  induction l with
  | nil => simp [listErase]
  | cons a t ih =>
    by_cases hp : a = i
    · rw [listErase, if_pos hp]; exact List.sublist_cons_self a t
    · rw [listErase, if_neg hp]; exact ih.cons₂ a

theorem listErase_nodup {i : Nat} {l : List Nat} (nd : l.Nodup) : (listErase i l).Nodup :=
  (listErase_sublist i l).nodup nd

theorem not_mem_listErase_self {i : Nat} {l : List Nat} (nd : l.Nodup) :
    i ∉ listErase i l := by
  induction l with
  | nil => simp [listErase]
  | cons a t ih =>
    by_cases hp : a = i
    · rw [listErase, if_pos hp]
      exact hp ▸ (List.nodup_cons.mp nd).1
    · rw [listErase, if_neg hp]
      intro hc
      rcases List.mem_cons.mp hc with hc | hc
      · exact hp hc.symm
      · exact ih (List.nodup_cons.mp nd).2 hc

theorem hget_hdel_self {h : List (Nat × LRUHandle)} {i : Nat}
    (nd : (heapIds h).Nodup) : hget (hdel h i) i = none := by
  apply hget_none_of_not_mem
  rw [heapIds_hdel]
  exact not_mem_listErase_self nd

theorem hdel_hset (h : List (Nat × LRUHandle)) (i : Nat) (e : LRUHandle) :
    hdel (hset h i e) i = hdel h i := by
  induction h with
  | nil => rfl
  | cons p t ih =>
    by_cases hp : p.1 = i
    · rw [hset, if_pos hp, hdel, if_pos hp, hdel, if_pos hp]
    · rw [hset, if_neg hp, hdel, if_neg hp, hdel, if_neg hp, ih]

theorem chargeOf_eq {h : List (Nat × LRUHandle)} {i : Nat} {e : LRUHandle}
    (hg : hget h i = some e) : chargeOf h i = e.charge := by
  simp [chargeOf, hg]

theorem sumCharge_cons (p : Nat × LRUHandle) (t : List (Nat × LRUHandle)) :
    sumCharge (p :: t) = p.2.charge + sumCharge t := by
  simp [sumCharge]

theorem sumCharge_hset {h : List (Nat × LRUHandle)} {i : Nat} {e e' : LRUHandle}
    (hg : hget h i = some e) (hc : e'.charge = e.charge) :
    sumCharge (hset h i e') = sumCharge h := by
  induction h with
  | nil => rfl
  | cons p t ih =>
    by_cases hp : p.1 = i
    · rw [hget, if_pos hp] at hg
      have he : p.2 = e := by cases hg; rfl
      rw [hset, if_pos hp, sumCharge_cons, sumCharge_cons]
      show e'.charge + sumCharge t = p.2.charge + sumCharge t
      rw [hc, he]
    · rw [hget, if_neg hp] at hg
      rw [hset, if_neg hp, sumCharge_cons, sumCharge_cons, ih hg]

theorem le_sumCharge {h : List (Nat × LRUHandle)} {i : Nat} {e : LRUHandle}
    (hg : hget h i = some e) : e.charge ≤ sumCharge h := by
  induction h with
  | nil => simp [hget] at hg
  | cons p t ih =>
    rw [sumCharge_cons]
    by_cases hp : p.1 = i
    · rw [hget, if_pos hp] at hg
      have he : p.2.charge = e.charge := by cases hg; rfl
      omega
    · rw [hget, if_neg hp] at hg
      have := ih hg
      omega

theorem sumCharge_hdel {h : List (Nat × LRUHandle)} {i : Nat} {e : LRUHandle}
    (hg : hget h i = some e) : sumCharge (hdel h i) = sumCharge h - e.charge := by
  induction h with
  | nil => simp [hget] at hg
  | cons p t ih =>
    by_cases hp : p.1 = i
    · rw [hget, if_pos hp] at hg
      have he : p.2 = e := by cases hg; rfl
      rw [hdel, if_pos hp, sumCharge_cons, he]
      omega
    · rw [hget, if_neg hp] at hg
      rw [hdel, if_neg hp, sumCharge_cons, sumCharge_cons, ih hg]
      have := le_sumCharge hg
      omega

theorem sumIds_nil (h : List (Nat × LRUHandle)) : sumIds h [] = 0 := rfl

theorem sumIds_cons (h : List (Nat × LRUHandle)) (i : Nat) (ids : List Nat) :
    sumIds h (i :: ids) = chargeOf h i + sumIds h ids := by
  simp [sumIds]

theorem sumIds_append (h : List (Nat × LRUHandle)) (l₁ l₂ : List Nat) :
    sumIds h (l₁ ++ l₂) = sumIds h l₁ + sumIds h l₂ := by
  simp [sumIds]

theorem sumIds_congr {h h' : List (Nat × LRUHandle)} {ids : List Nat}
    (hc : ∀ j ∈ ids, chargeOf h' j = chargeOf h j) : sumIds h' ids = sumIds h ids := by
  induction ids with
  | nil => rfl
  | cons a t ih =>
    rw [sumIds_cons, sumIds_cons, hc a (List.mem_cons_self a t),
      ih (fun j hj => hc j (List.mem_cons_of_mem a hj))]

/-! ### Bucket-array helpers -/

theorem joinL_append (l₁ l₂ : List (List HTEntry)) :
    joinL (l₁ ++ l₂) = joinL l₁ ++ joinL l₂ := by
  induction l₁ with
  | nil => simp [joinL]
  | cons c r ih => simp [joinL, ih]

theorem mem_joinL {x : HTEntry} {l : List (List HTEntry)} :
    x ∈ joinL l ↔ ∃ c ∈ l, x ∈ c := by
  induction l with
  | nil => simp [joinL]
  | cons c r ih =>
    simp only [joinL, List.mem_append, ih, List.mem_cons]
    constructor
    · rintro (hx | ⟨c', hc', hx⟩)
      · exact ⟨c, Or.inl rfl, hx⟩
      · exact ⟨c', Or.inr hc', hx⟩
    · rintro ⟨c', hc' | hc', hx⟩
      · exact Or.inl (hc' ▸ hx)
      · exact Or.inr ⟨c', hc', hx⟩

theorem getD_set_self {l : List (List HTEntry)} {b : Nat} (c : List HTEntry)
    (hb : b < l.length) : (l.set b c).getD b [] = c := by
  induction l generalizing b with
  | nil => simp at hb
  | cons a r ih =>
    cases b with
    | zero => rfl
    | succ m => exact ih (Nat.lt_of_succ_lt_succ hb)

theorem getD_set_ne {l : List (List HTEntry)} {b b' : Nat} (c : List HTEntry)
    (hne : b' ≠ b) : (l.set b c).getD b' [] = l.getD b' [] := by
  induction l generalizing b b' with
  | nil => rfl
  | cons a r ih =>
    cases b with
    | zero =>
      cases b' with
      | zero => exact absurd rfl hne
      | succ m => rfl
    | succ m =>
      cases b' with
      | zero => rfl
      | succ m' => exact ih (fun hc => hne (by rw [hc]))

theorem joinL_decomp {l : List (List HTEntry)} {b : Nat} (hb : b < l.length) :
    joinL l = joinL (l.take b) ++ l.getD b [] ++ joinL (l.drop (b + 1)) := by
  induction l generalizing b with
  | nil => simp at hb
  | cons c r ih =>
    cases b with
    | zero => simp [joinL]
    | succ m =>
      have := ih (Nat.lt_of_succ_lt_succ hb)
      show joinL (c :: r) = joinL (c :: r.take m) ++ r.getD m [] ++ joinL (r.drop (m + 1))
      rw [joinL, joinL, this]
      simp [List.append_assoc]

theorem joinL_set {l : List (List HTEntry)} {b : Nat} (c : List HTEntry)
    (hb : b < l.length) :
    joinL (l.set b c) = joinL (l.take b) ++ c ++ joinL (l.drop (b + 1)) := by
  induction l generalizing b with
  | nil => simp at hb
  | cons a r ih =>
    cases b with
    | zero => simp [joinL]
    | succ m =>
      have := ih (Nat.lt_of_succ_lt_succ hb)
      show joinL (a :: r.set m c) = joinL (a :: r.take m) ++ c ++ joinL (r.drop (m + 1))
      rw [joinL, joinL, this]
      simp [List.append_assoc]

theorem mem_getD_joinL {l : List (List HTEntry)} {b : Nat} {x : HTEntry}
    (hx : x ∈ l.getD b []) : x ∈ joinL l := by
  by_cases hb : b < l.length
  · rw [joinL_decomp hb]
    simp only [List.mem_append]
    exact Or.inl (Or.inr hx)
  · have : l.getD b [] = [] := by
      rw [List.getD_eq_getElem?_getD]
      rw [List.getElem?_eq_none (by omega)]
      rfl
    rw [this] at hx
    simp at hx

/-! ### Chain lemmas -/

theorem chainLookup_of_not_mem {key hash : Nat} {c : List HTEntry}
    (hno : ∀ x ∈ c, ¬(x.ehash = hash ∧ x.ekey = key)) : chainLookup key hash c = none := by
  induction c with
  | nil => rfl
  | cons a t ih =>
    rw [chainLookup, if_neg (hno a (List.mem_cons_self a t)), ih]
    intro x hx
    exact hno x (List.mem_cons_of_mem a hx)

theorem chainLookup_mem {key hash : Nat} {c : List HTEntry} {x : HTEntry}
    (h : chainLookup key hash c = some x) : x ∈ c ∧ x.ehash = hash ∧ x.ekey = key := by
  induction c with
  | nil => simp [chainLookup] at h
  | cons a t ih =>
    rw [chainLookup] at h
    by_cases ha : a.ehash = hash ∧ a.ekey = key
    · rw [if_pos ha] at h
      simp only [Option.some.injEq] at h
      subst h
      exact ⟨List.mem_cons_self a t, ha⟩
    · rw [if_neg ha] at h
      obtain ⟨hm, hc⟩ := ih h
      exact ⟨List.mem_cons_of_mem a hm, hc⟩

theorem chainLookup_first {key hash : Nat} {pre : List HTEntry} {x : HTEntry}
    (suf : List HTEntry) (hpre : ∀ y ∈ pre, ¬(y.ehash = hash ∧ y.ekey = key))
    (hx : x.ehash = hash ∧ x.ekey = key) :
    chainLookup key hash (pre ++ x :: suf) = some x := by
  induction pre with
  | nil => rw [List.nil_append, chainLookup, if_pos hx]
  | cons a t ih =>
    rw [List.cons_append, chainLookup, if_neg (hpre a (List.mem_cons_self a t))]
    exact ih (fun y hy => hpre y (List.mem_cons_of_mem a hy))

theorem chainRemove_of_not_mem {key hash : Nat} {c : List HTEntry}
    (hno : ∀ x ∈ c, ¬(x.ehash = hash ∧ x.ekey = key)) :
    chainRemove key hash c = (c, none) := by
  induction c with
  | nil => rfl
  | cons a t ih =>
    rw [chainRemove, if_neg (hno a (List.mem_cons_self a t)),
      ih (fun x hx => hno x (List.mem_cons_of_mem a hx))]

theorem chainRemove_first {key hash : Nat} {pre : List HTEntry} {x : HTEntry}
    (suf : List HTEntry) (hpre : ∀ y ∈ pre, ¬(y.ehash = hash ∧ y.ekey = key))
    (hx : x.ehash = hash ∧ x.ekey = key) :
    chainRemove key hash (pre ++ x :: suf) = (pre ++ suf, some x) := by
  induction pre with
  | nil => rw [List.nil_append, chainRemove, if_pos hx, List.nil_append]
  | cons a t ih =>
    rw [List.cons_append, chainRemove, if_neg (hpre a (List.mem_cons_self a t)),
      ih (fun y hy => hpre y (List.mem_cons_of_mem a hy))]
    rfl

theorem chainInsert_of_not_mem {h : HTEntry} {c : List HTEntry}
    (hno : ∀ x ∈ c, ¬(x.ehash = h.ehash ∧ x.ekey = h.ekey)) :
    chainInsert h c = (c ++ [h], none) := by
  induction c with
  | nil => rfl
  | cons a t ih =>
    have ha : ¬(a.ehash = h.ehash ∧ a.ekey = h.ekey) := hno a (List.mem_cons_self a t)
    rw [chainInsert, if_neg ha, ih (fun x hx => hno x (List.mem_cons_of_mem a hx))]
    rfl

theorem chainInsert_first {h : HTEntry} {pre : List HTEntry} {x : HTEntry}
    (suf : List HTEntry) (hpre : ∀ y ∈ pre, ¬(y.ehash = h.ehash ∧ y.ekey = h.ekey))
    (hx : x.ehash = h.ehash ∧ x.ekey = h.ekey) :
    chainInsert h (pre ++ x :: suf) = (pre ++ h :: suf, some x) := by
  induction pre with
  | nil => rw [List.nil_append, chainInsert, if_pos hx, List.nil_append]
  | cons a t ih =>
    rw [List.cons_append, chainInsert, if_neg (hpre a (List.mem_cons_self a t)),
      ih (fun y hy => hpre y (List.mem_cons_of_mem a hy))]
    rfl


/-! ### Table-level lemmas -/

theorem bucketOf_lt {t : LRUHandleTable} (hwf : TblWF t) (hash : Nat) :
    bucketOf t hash < t.list.length := by
  have h1 : hash &&& (t.list.length - 1) ≤ t.list.length - 1 := Nat.and_le_right
  have := hwf.lenPos
  unfold bucketOf
  omega

theorem entries_nodup {t : LRUHandleTable} (hwf : TblWF t) : (tblEntries t).Nodup :=
  hwf.keysNodup.of_map

theorem tbl_unique {t : LRUHandleTable} (hwf : TblWF t) {x y : HTEntry}
    (hx : x ∈ tblEntries t) (hy : y ∈ tblEntries t)
    (hh : x.ehash = y.ehash) (hk : x.ekey = y.ekey) : x = y := by
  exact List.inj_on_of_nodup_map hwf.keysNodup hx hy (by rw [hh, hk])

theorem mem_bucket {t : LRUHandleTable} (hwf : TblWF t) {x : HTEntry}
    (hx : x ∈ tblEntries t) : x ∈ t.list.getD (bucketOf t x.ehash) [] := by
  obtain ⟨c, hc, hxc⟩ := mem_joinL.mp hx
  obtain ⟨n, hn⟩ := List.mem_iff_get?.mp hc
  have hlt : n < t.list.length := by
    rcases List.get?_eq_some.mp hn with ⟨h, _⟩
    exact h
  have hgd : t.list.getD n [] = c := by
    rw [List.getD_eq_getElem?_getD, ← List.get?_eq_getElem?, hn]
    rfl
  have hb : x.ehash &&& (t.list.length - 1) = n := hwf.placed n x (hgd ▸ hxc)
  show x ∈ t.list.getD (x.ehash &&& (t.list.length - 1)) []
  rw [hb, hgd]
  exact hxc

/-- Split the bucket of a matching entry at that entry; by key uniqueness the
match is the first one in the chain. -/
theorem bucket_split {t : LRUHandleTable} (hwf : TblWF t) {x : HTEntry} {key hash : Nat}
    (hx : x ∈ tblEntries t) (hm : x.ehash = hash ∧ x.ekey = key) :
    ∃ pre suf, t.list.getD (bucketOf t hash) [] = pre ++ x :: suf ∧
      (∀ y ∈ pre, ¬(y.ehash = hash ∧ y.ekey = key)) ∧
      (∀ y ∈ suf, ¬(y.ehash = hash ∧ y.ekey = key)) := by
  have hxb : x ∈ t.list.getD (bucketOf t hash) [] := by
    have := mem_bucket hwf hx
    rwa [show bucketOf t x.ehash = bucketOf t hash by unfold bucketOf; rw [hm.1]] at this
  obtain ⟨pre, suf, hsplit⟩ := List.append_of_mem hxb
  have hbnd : (t.list.getD (bucketOf t hash) []).Nodup := by
    have hb := bucketOf_lt hwf hash
    have hdec := joinL_decomp hb
    have : (tblEntries t).Nodup := entries_nodup hwf
    rw [show tblEntries t = joinL t.list from rfl, hdec] at this
    exact (List.nodup_append.mp (List.nodup_append.mp this).1).2.1
  have hnd : (pre ++ x :: suf).Nodup := hsplit ▸ hbnd
  refine ⟨pre, suf, hsplit, ?_, ?_⟩
  · intro y hy hym
    have hyx : y = x := by
      apply tbl_unique hwf _ hx (by rw [hym.1, hm.1]) (by rw [hym.2, hm.2])
      apply mem_getD_joinL (l := t.list) (b := bucketOf t hash)
      rw [hsplit]
      exact List.mem_append.mpr (Or.inl hy)
    subst hyx
    rw [List.nodup_append] at hnd
    exact hnd.2.2 hy (List.mem_cons_self y suf)
  · intro y hy hym
    have hyx : y = x := by
      apply tbl_unique hwf _ hx (by rw [hym.1, hm.1]) (by rw [hym.2, hm.2])
      apply mem_getD_joinL (l := t.list) (b := bucketOf t hash)
      rw [hsplit]
      exact List.mem_append.mpr (Or.inr (List.mem_cons_of_mem x hy))
    subst hyx
    rw [List.nodup_append] at hnd
    exact (List.nodup_cons.mp hnd.2.1).1 hy

theorem tblLookup_some {t : LRUHandleTable} (hwf : TblWF t) {x : HTEntry} {key hash : Nat}
    (hx : x ∈ tblEntries t) (hm : x.ehash = hash ∧ x.ekey = key) :
    t.Lookup key hash = some x := by
  obtain ⟨pre, suf, hb, hpre, _⟩ := bucket_split hwf hx hm
  rw [LRUHandleTable.Lookup, hb]
  exact chainLookup_first suf hpre hm

theorem tblLookup_none {t : LRUHandleTable} {key hash : Nat}
    (hno : ∀ x ∈ tblEntries t, ¬(x.ehash = hash ∧ x.ekey = key)) :
    t.Lookup key hash = none := by
  apply chainLookup_of_not_mem
  intro x hx
  exact hno x (mem_getD_joinL hx)

theorem tblLookup_mem {t : LRUHandleTable} {key hash : Nat} {x : HTEntry}
    (h : t.Lookup key hash = some x) :
    x ∈ tblEntries t ∧ x.ehash = hash ∧ x.ekey = key := by
  obtain ⟨hm, hc⟩ := chainLookup_mem h
  exact ⟨mem_getD_joinL hm, hc⟩

theorem tblRemove_none {t : LRUHandleTable} {key hash : Nat}
    (hno : ∀ x ∈ tblEntries t, ¬(x.ehash = hash ∧ x.ekey = key)) :
    t.Remove key hash = (t, none) := by
  have hc : chainRemove key hash (t.list.getD (bucketOf t hash) []) =
      (t.list.getD (bucketOf t hash) [], none) :=
    chainRemove_of_not_mem (fun x hx => hno x (mem_getD_joinL hx))
  simp only [LRUHandleTable.Remove, hc]

theorem perm_erase_middle (A pre suf B : List HTEntry) (x : HTEntry) :
    List.Perm (A ++ (pre ++ x :: suf) ++ B) (x :: (A ++ (pre ++ suf) ++ B)) := by
  have h1 : A ++ (pre ++ x :: suf) ++ B = (A ++ pre) ++ x :: (suf ++ B) := by
    simp [List.append_assoc]
  have h2 : x :: ((A ++ pre) ++ (suf ++ B)) = x :: (A ++ (pre ++ suf) ++ B) := by
    simp [List.append_assoc]
  rw [h1, ← h2]
  exact List.perm_middle

theorem perm_snoc_middle (A mid B : List HTEntry) (x : HTEntry) :
    List.Perm (A ++ (mid ++ [x]) ++ B) (x :: (A ++ mid ++ B)) := by
  have h1 : A ++ (mid ++ [x]) ++ B = (A ++ mid) ++ x :: B := by
    simp [List.append_assoc]
  have h2 : x :: ((A ++ mid) ++ B) = x :: (A ++ mid ++ B) := by
    simp [List.append_assoc]
  rw [h1, ← h2]
  exact List.perm_middle

theorem mem_of_perm_erase {old new : List HTEntry} {x : HTEntry}
    (hperm : List.Perm old (x :: new)) (hnd : old.Nodup) (y : HTEntry) :
    y ∈ new ↔ (y ∈ old ∧ y ≠ x) := by
  have hx : x ∉ new := by
    have h2 : (x :: new).Nodup := hperm.nodup_iff.mp hnd
    exact (List.nodup_cons.mp h2).1
  constructor
  · intro hy
    refine ⟨hperm.mem_iff.mpr (List.mem_cons_of_mem x hy), ?_⟩
    intro he
    exact hx (he ▸ hy)
  · rintro ⟨hy, hyx⟩
    rcases List.mem_cons.mp (hperm.mem_iff.mp hy) with h | h
    · exact absurd h hyx
    · exact h

theorem tblRemove_some {t : LRUHandleTable} (hwf : TblWF t) {x : HTEntry} {key hash : Nat}
    (hx : x ∈ tblEntries t) (hm : x.ehash = hash ∧ x.ekey = key) :
    ∃ t', t.Remove key hash = (t', some x) ∧
      t'.list.length = t.list.length ∧
      t'.elems = t.elems - 1 ∧
      TblWF t' ∧
      (∀ y : HTEntry, y ∈ tblEntries t' ↔ (y ∈ tblEntries t ∧ y ≠ x)) := by
  obtain ⟨pre, suf, hb, hpre, hsuf⟩ := bucket_split hwf hx hm
  have hblt : bucketOf t hash < t.list.length := bucketOf_lt hwf hash
  have hcr : chainRemove key hash (t.list.getD (bucketOf t hash) []) =
      (pre ++ suf, some x) := by
    rw [hb]
    exact chainRemove_first suf hpre hm
  have hres : t.Remove key hash =
      ({ list := t.list.set (bucketOf t hash) (pre ++ suf), elems := t.elems - 1 }, some x) := by
    simp only [LRUHandleTable.Remove, hcr]
  set t' : LRUHandleTable :=
    { list := t.list.set (bucketOf t hash) (pre ++ suf), elems := t.elems - 1 } with ht'
  have hlen : t'.list.length = t.list.length := by
    simp [ht', List.length_set]
  have hent : tblEntries t' = joinL (t.list.take (bucketOf t hash)) ++ (pre ++ suf) ++
      joinL (t.list.drop (bucketOf t hash + 1)) := by
    show joinL (t.list.set (bucketOf t hash) (pre ++ suf)) = _
    exact joinL_set _ hblt
  have hentt : tblEntries t = joinL (t.list.take (bucketOf t hash)) ++ (pre ++ x :: suf) ++
      joinL (t.list.drop (bucketOf t hash + 1)) := by
    have := joinL_decomp hblt
    rw [show tblEntries t = joinL t.list from rfl, this, hb]
  have hnodup : (tblEntries t).Nodup := entries_nodup hwf
  have hperm : List.Perm (tblEntries t) (x :: tblEntries t') := by
    rw [hent, hentt]
    exact perm_erase_middle _ _ _ _ _
  refine ⟨t', hres, hlen, rfl, ?_, mem_of_perm_erase hperm hnodup⟩
  constructor
  · rw [hlen]
    exact hwf.lenPos
  · intro b y hy
    have hgd : t'.list.getD b [] =
        if b = bucketOf t hash then pre ++ suf else t.list.getD b [] := by
      by_cases hbb : b = bucketOf t hash
      · rw [if_pos hbb, hbb]
        exact getD_set_self _ hblt
      · rw [if_neg hbb]
        exact getD_set_ne _ hbb
    rw [hgd] at hy
    rw [hlen]
    by_cases hbb : b = bucketOf t hash
    · rw [if_pos hbb] at hy
      apply hwf.placed b y
      rw [hbb, hb]
      rcases List.mem_append.mp hy with hy | hy
      · exact List.mem_append.mpr (Or.inl hy)
      · exact List.mem_append.mpr (Or.inr (List.mem_cons_of_mem x hy))
    · rw [if_neg hbb] at hy
      exact hwf.placed b y hy
  · have h2 : ((x :: tblEntries t').map (fun z => (z.ehash, z.ekey))).Nodup :=
      (hperm.map _).nodup_iff.mp hwf.keysNodup
    exact (List.nodup_cons.mp h2).2


/-! ### Resize and Insert specs -/

theorem resizeLenGo_ge (e : Nat) : ∀ (fuel n : Nat), n ≤ resizeLenGo e n fuel := by
  intro fuel
  induction fuel with
  | zero => intro n; exact Nat.le_refl n
  | succ m ih =>
    intro n
    rw [resizeLenGo]
    by_cases hc : 2 * n < 3 * e
    · rw [if_pos hc]
      exact le_trans (by omega) (ih (2 * n))
    · rw [if_neg hc]

theorem resizeLen_ge (e : Nat) : 16 ≤ resizeLen e := resizeLenGo_ge e _ 16

theorem foldl_joinL (f : List (List HTEntry) → HTEntry → List (List HTEntry)) :
    ∀ (l : List (List HTEntry)) (acc : List (List HTEntry)),
      l.foldl (fun a c => c.foldl f a) acc = (joinL l).foldl f acc := by
  intro l
  induction l with
  | nil => intro acc; rfl
  | cons c r ih =>
    intro acc
    rw [List.foldl_cons, ih, joinL, List.foldl_append]

theorem joinL_replicate (n : Nat) : joinL (List.replicate n []) = [] := by
  induction n with
  | zero => rfl
  | succ m ih => simp [List.replicate, joinL, ih]

theorem getD_replicate_nil (n b : Nat) :
    (List.replicate n ([] : List HTEntry)).getD b [] = [] := by
  induction n generalizing b with
  | zero => rfl
  | succ m ih =>
    cases b with
    | zero => rfl
    | succ b' => exact ih b'

theorem scatter_spec (L : Nat) (hL : 1 ≤ L) :
    ∀ (xs : List HTEntry) (acc : List (List HTEntry)), acc.length = L →
      (∀ b, ∀ x ∈ acc.getD b [], x.ehash &&& (L - 1) = b) →
      ((xs.foldl (scatterOne L) acc).length = L ∧
       (∀ b, ∀ x ∈ (xs.foldl (scatterOne L) acc).getD b [], x.ehash &&& (L - 1) = b) ∧
       List.Perm (joinL (xs.foldl (scatterOne L) acc)) (xs ++ joinL acc)) := by
  intro xs
  induction xs with
  | nil =>
    intro acc hlen hplaced
    exact ⟨hlen, hplaced, by simp⟩
  | cons x rest ih =>
    intro acc hlen hplaced
    have hbx : x.ehash &&& (L - 1) < L := by
      have : x.ehash &&& (L - 1) ≤ L - 1 := Nat.and_le_right
      omega
    have hbxl : x.ehash &&& (L - 1) < acc.length := by rw [hlen]; exact hbx
    have hlen' : (scatterOne L acc x).length = L := by
      rw [scatterOne, List.length_set, hlen]
    have hplaced' : ∀ b, ∀ z ∈ (scatterOne L acc x).getD b [], z.ehash &&& (L - 1) = b := by
      intro b z hz
      rw [scatterOne] at hz
      by_cases hbb : b = x.ehash &&& (L - 1)
      · rw [hbb, getD_set_self _ hbxl] at hz
        rcases List.mem_cons.mp hz with hz | hz
        · rw [hz, hbb]
        · exact (hplaced _ z hz).trans hbb.symm
      · rw [getD_set_ne _ hbb] at hz
        exact hplaced b z hz
    have hperm' : List.Perm (joinL (scatterOne L acc x)) (x :: joinL acc) := by
      rw [scatterOne, joinL_set _ hbxl, joinL_decomp hbxl]
      exact perm_erase_middle _ [] _ _ x
    obtain ⟨h1, h2, h3⟩ := ih (scatterOne L acc x) hlen' hplaced'
    refine ⟨h1, h2, ?_⟩
    show List.Perm (joinL (rest.foldl (scatterOne L) (scatterOne L acc x))) _
    refine h3.trans ?_
    refine (List.Perm.append_left rest hperm').trans ?_
    exact List.perm_middle

theorem tblResize_spec (t : LRUHandleTable) :
    t.Resize.elems = t.elems ∧
    t.Resize.list.length = resizeLen t.elems ∧
    (∀ b, ∀ x ∈ t.Resize.list.getD b [], x.ehash &&& (resizeLen t.elems - 1) = b) ∧
    List.Perm (tblEntries t.Resize) (tblEntries t) := by
  have hL : 1 ≤ resizeLen t.elems := le_trans (by omega) (resizeLen_ge t.elems)
  have hlist : t.Resize.list =
      (tblEntries t).foldl (scatterOne (resizeLen t.elems))
        (List.replicate (resizeLen t.elems) []) := by
    show t.list.foldl _ _ = _
    rw [foldl_joinL]
    rfl
  obtain ⟨h1, h2, h3⟩ := scatter_spec (resizeLen t.elems) hL (tblEntries t)
    (List.replicate (resizeLen t.elems) []) (List.length_replicate _ _)
    (by intro b x hx; rw [getD_replicate_nil] at hx; simp at hx)
  refine ⟨rfl, ?_, ?_, ?_⟩
  · rw [hlist]; exact h1
  · intro b x hx
    rw [hlist] at hx
    exact h2 b x hx
  · show List.Perm (joinL t.Resize.list) (tblEntries t)
    rw [hlist]
    refine h3.trans ?_
    rw [joinL_replicate]
    simp

theorem tblInsert_match {t : LRUHandleTable} (hwf : TblWF t) {x : HTEntry} (h : HTEntry)
    (hx : x ∈ tblEntries t) (hm : x.ehash = h.ehash ∧ x.ekey = h.ekey) :
    ∃ t', t.Insert h = (t', some x) ∧
      t'.list.length = t.list.length ∧ t'.elems = t.elems ∧
      TblWF t' ∧
      (∀ y, y ∈ tblEntries t' ↔ ((y ∈ tblEntries t ∧ y ≠ x) ∨ y = h)) := by
  obtain ⟨pre, suf, hb, hpre, hsuf⟩ := bucket_split hwf hx hm
  have hblt : bucketOf t h.ehash < t.list.length := bucketOf_lt hwf h.ehash
  have hci : chainInsert h (t.list.getD (bucketOf t h.ehash) []) =
      (pre ++ h :: suf, some x) := by
    rw [hb]
    exact chainInsert_first suf hpre hm
  have hres : t.Insert h =
      ({ list := t.list.set (bucketOf t h.ehash) (pre ++ h :: suf), elems := t.elems },
       some x) := by
    simp only [LRUHandleTable.Insert, hci]
  set t' : LRUHandleTable :=
    { list := t.list.set (bucketOf t h.ehash) (pre ++ h :: suf), elems := t.elems } with ht'
  have hlen : t'.list.length = t.list.length := by simp [ht', List.length_set]
  have hent : tblEntries t' = joinL (t.list.take (bucketOf t h.ehash)) ++ (pre ++ h :: suf)
      ++ joinL (t.list.drop (bucketOf t h.ehash + 1)) := by
    show joinL (t.list.set (bucketOf t h.ehash) (pre ++ h :: suf)) = _
    exact joinL_set _ hblt
  have hentt : tblEntries t = joinL (t.list.take (bucketOf t h.ehash)) ++ (pre ++ x :: suf)
      ++ joinL (t.list.drop (bucketOf t h.ehash + 1)) := by
    have := joinL_decomp hblt
    rw [show tblEntries t = joinL t.list from rfl, this, hb]
  have hnodup : (tblEntries t).Nodup := entries_nodup hwf
  have hpermo : List.Perm (tblEntries t)
      (x :: (joinL (t.list.take (bucketOf t h.ehash)) ++ (pre ++ suf)
        ++ joinL (t.list.drop (bucketOf t h.ehash + 1)))) := by
    rw [hentt]
    exact perm_erase_middle _ _ _ _ _
  have hpermn : List.Perm (tblEntries t')
      (h :: (joinL (t.list.take (bucketOf t h.ehash)) ++ (pre ++ suf)
        ++ joinL (t.list.drop (bucketOf t h.ehash + 1)))) := by
    rw [hent]
    exact perm_erase_middle _ _ _ _ _
  have hmidmem := mem_of_perm_erase hpermo hnodup
  have hkeysmid : ((joinL (t.list.take (bucketOf t h.ehash)) ++ (pre ++ suf)
      ++ joinL (t.list.drop (bucketOf t h.ehash + 1))).map
        (fun z => (z.ehash, z.ekey))).Nodup ∧
      (x.ehash, x.ekey) ∉ ((joinL (t.list.take (bucketOf t h.ehash)) ++ (pre ++ suf)
      ++ joinL (t.list.drop (bucketOf t h.ehash + 1))).map (fun z => (z.ehash, z.ekey))) := by
    have h2 := (hpermo.map (fun z => (z.ehash, z.ekey))).nodup_iff.mp hwf.keysNodup
    exact ⟨(List.nodup_cons.mp h2).2, (List.nodup_cons.mp h2).1⟩
  refine ⟨t', hres, hlen, rfl, ?_, ?_⟩
  · constructor
    · rw [hlen]
      exact hwf.lenPos
    · intro b y hy
      have hgd : t'.list.getD b [] =
          if b = bucketOf t h.ehash then pre ++ h :: suf else t.list.getD b [] := by
        by_cases hbb : b = bucketOf t h.ehash
        · rw [if_pos hbb, hbb]
          exact getD_set_self _ hblt
        · rw [if_neg hbb]
          exact getD_set_ne _ hbb
      rw [hgd] at hy
      rw [hlen]
      by_cases hbb : b = bucketOf t h.ehash
      · rw [if_pos hbb] at hy
        rcases List.mem_append.mp hy with hy | hy
        · apply hwf.placed b y
          rw [hbb, hb]
          exact List.mem_append.mpr (Or.inl hy)
        · rcases List.mem_cons.mp hy with hy | hy
          · rw [hy, hbb]
            rfl
          · apply hwf.placed b y
            rw [hbb, hb]
            exact List.mem_append.mpr (Or.inr (List.mem_cons_of_mem x hy))
      · rw [if_neg hbb] at hy
        exact hwf.placed b y hy
    · have : ((tblEntries t').map (fun z => (z.ehash, z.ekey))).Nodup ↔
          (((h :: (joinL (t.list.take (bucketOf t h.ehash)) ++ (pre ++ suf)
            ++ joinL (t.list.drop (bucketOf t h.ehash + 1)))).map
              (fun z => (z.ehash, z.ekey))).Nodup) :=
        (hpermn.map _).nodup_iff
      rw [this]
      rw [List.map_cons, List.nodup_cons]
      constructor
      · rw [show ((h.ehash, h.ekey) : Nat × Nat) = (x.ehash, x.ekey) by rw [hm.1, hm.2]]
        exact hkeysmid.2
      · exact hkeysmid.1
  · intro y
    have hyn : y ∈ tblEntries t' ↔ y = h ∨ y ∈ (joinL (t.list.take (bucketOf t h.ehash))
        ++ (pre ++ suf) ++ joinL (t.list.drop (bucketOf t h.ehash + 1))) := by
      rw [hpermn.mem_iff]
      exact List.mem_cons
    rw [hyn, hmidmem y]
    constructor
    · rintro (hy | hy)
      · exact Or.inr hy
      · exact Or.inl hy
    · rintro (hy | hy)
      · exact Or.inr hy
      · exact Or.inl hy

theorem tblInsert_new {t : LRUHandleTable} (hwf : TblWF t) (h : HTEntry)
    (hno : ∀ x ∈ tblEntries t, ¬(x.ehash = h.ehash ∧ x.ekey = h.ekey)) :
    ∃ t', t.Insert h = (t', none) ∧
      TblWF t' ∧ t'.elems = t.elems + 1 ∧
      List.Perm (tblEntries t') (h :: tblEntries t) := by
  have hblt : bucketOf t h.ehash < t.list.length := bucketOf_lt hwf h.ehash
  have hci : chainInsert h (t.list.getD (bucketOf t h.ehash) []) =
      (t.list.getD (bucketOf t h.ehash) [] ++ [h], none) :=
    chainInsert_of_not_mem (fun x hx => hno x (mem_getD_joinL hx))
  set t2 : LRUHandleTable :=
    { list := t.list.set (bucketOf t h.ehash)
        (t.list.getD (bucketOf t h.ehash) [] ++ [h]), elems := t.elems + 1 } with ht2
  have hres : t.Insert h = ((if t2.list.length < t2.elems then t2.Resize else t2), none) := by
    simp only [LRUHandleTable.Insert, hci]
  have hlen2 : t2.list.length = t.list.length := by simp [ht2, List.length_set]
  have hperm2 : List.Perm (tblEntries t2) (h :: tblEntries t) := by
    have hent : tblEntries t2 = joinL (t.list.take (bucketOf t h.ehash)) ++
        (t.list.getD (bucketOf t h.ehash) [] ++ [h]) ++
        joinL (t.list.drop (bucketOf t h.ehash + 1)) := by
      show joinL (t.list.set (bucketOf t h.ehash) _) = _
      exact joinL_set _ hblt
    have hentt : tblEntries t = joinL (t.list.take (bucketOf t h.ehash)) ++
        t.list.getD (bucketOf t h.ehash) [] ++
        joinL (t.list.drop (bucketOf t h.ehash + 1)) := by
      have := joinL_decomp hblt
      rw [show tblEntries t = joinL t.list from rfl, this]
    rw [hent, hentt]
    have := perm_snoc_middle (joinL (t.list.take (bucketOf t h.ehash)))
      (t.list.getD (bucketOf t h.ehash) [])
      (joinL (t.list.drop (bucketOf t h.ehash + 1))) h
    exact this
  have hkeys2 : ((tblEntries t2).map (fun z => (z.ehash, z.ekey))).Nodup := by
    apply (hperm2.map _).nodup_iff.mpr
    rw [List.map_cons, List.nodup_cons]
    refine ⟨?_, hwf.keysNodup⟩
    intro hc
    obtain ⟨x, hx, hxk⟩ := List.mem_map.mp hc
    apply hno x hx
    have h1 : x.ehash = h.ehash := congrArg Prod.fst hxk
    have h2 : x.ekey = h.ekey := congrArg Prod.snd hxk
    exact ⟨h1, h2⟩
  have hwf2 : TblWF t2 := by
    constructor
    · rw [hlen2]
      exact hwf.lenPos
    · intro b y hy
      have hgd : t2.list.getD b [] =
          if b = bucketOf t h.ehash then t.list.getD (bucketOf t h.ehash) [] ++ [h]
          else t.list.getD b [] := by
        by_cases hbb : b = bucketOf t h.ehash
        · rw [if_pos hbb, hbb]
          exact getD_set_self _ hblt
        · rw [if_neg hbb]
          exact getD_set_ne _ hbb
      rw [hgd] at hy
      rw [hlen2]
      by_cases hbb : b = bucketOf t h.ehash
      · rw [if_pos hbb] at hy
        rcases List.mem_append.mp hy with hy | hy
        · have := hwf.placed (bucketOf t h.ehash) y hy
          rw [this, hbb]
        · rcases List.mem_cons.mp hy with hy | hy
          · rw [hy, hbb]
            rfl
          · simp at hy
      · rw [if_neg hbb] at hy
        exact hwf.placed b y hy
    · exact hkeys2
  by_cases hcond : t2.list.length < t2.elems
  · rw [if_pos hcond] at hres
    obtain ⟨hr1, hr2, hr3, hr4⟩ := tblResize_spec t2
    refine ⟨t2.Resize, hres, ?_, by rw [hr1], hr4.trans hperm2⟩
    constructor
    · rw [hr2]
      exact le_trans (by omega) (resizeLen_ge t2.elems)
    · intro b y hy
      rw [hr2]
      exact hr3 b y hy
    · exact (hr4.map _).nodup_iff.mpr hkeys2
  · rw [if_neg hcond] at hres
    exact ⟨t2, hres, hwf2, rfl, hperm2⟩


/-! ### Constructor table facts -/

theorem mkTable_list : mkTable.list = List.replicate 16 [] := rfl

theorem mkTable_entries : tblEntries mkTable = [] := by
  show joinL mkTable.list = []
  rw [mkTable_list, joinL_replicate]

theorem mkTable_wf : TblWF mkTable := by
  constructor
  · rw [mkTable_list]
    simp
  · intro b x hx
    rw [mkTable_list, getD_replicate_nil] at hx
    simp at hx
  · rw [mkTable_entries]
    simp

/-! ### Shard primitive effect lemmas -/

theorem popColdest_eq {s : Shard} {old : Nat} {rest : List Nat} {e : LRUHandle}
    (hl : s.lru = old :: rest) (he : hget s.heap old = some e) :
    popColdest s =
      ({ s with lru := rest,
                lowCount := s.lowCount - 1,
                lru_usage := s.lru_usage - e.charge,
                high_pri_pool_usage := if e.in_high_pri_pool = true then
                  s.high_pri_pool_usage - e.charge else s.high_pri_pool_usage,
                table := (s.table.Remove e.key e.hash).1,
                heap := hset s.heap old { e with in_cache := false, refs := e.refs - 1 },
                usage := s.usage - e.charge }, some old) := by
  have hlow : (if posOf old s.lru < s.lowCount then s.lowCount - 1 else s.lowCount) =
      s.lowCount - 1 := by
    rw [hl]
    show (if posOf old (old :: rest) < s.lowCount then _ else _) = _
    rw [posOf, if_pos rfl]
    by_cases h0 : 0 < s.lowCount
    · rw [if_pos h0]
    · rw [if_neg h0]
      omega
  have hle : listErase old s.lru = rest := by
    rw [hl, listErase, if_pos rfl]
  rw [popColdest, hl]
  simp only
  rw [he]
  simp only [LRU_Remove, he, LRUUsageSub, HighPriPoolUsageSub, UsageSub, hlow, hle]
  by_cases hp : e.in_high_pri_pool = true
  · simp only [if_pos hp, hl]
  · simp only [if_neg hp, hl]


theorem chargeOf_hset_same {h : List (Nat × LRUHandle)} {i : Nat} {e e' : LRUHandle}
    (he : hget h i = some e) (hc : e'.charge = e.charge) :
    ∀ j, chargeOf (hset h i e') j = chargeOf h j := by
  intro j
  by_cases hj : j = i
  · subst hj
    rw [chargeOf, chargeOf, hget_hset_self he, he]
    simp [hc]
  · rw [chargeOf, chargeOf, hget_hset_ne hj]

theorem popOut_chargeEq {s t : Shard} {k : Nat} (h : PopOut s t k) :
    ∀ j, chargeOf t.heap j = chargeOf s.heap j := by
  intro j
  by_cases hj : j ∈ s.lru.take k
  · obtain ⟨e, he, he'⟩ := h.heapEvict j hj
    rw [chargeOf, chargeOf, he, he']
    rfl
  · rw [chargeOf, chargeOf, h.heapSame j hj]

/-- Removing a listed entry from the table: the removal hits exactly the
unique table entry whose id is the listed handle. -/
theorem tblRemove_evict {s : Shard} (hp : EvictPre s) {i : Nat} {e : LRUHandle}
    (hi : i ∈ s.lru) (he : hget s.heap i = some e) :
    ∃ x t', x ∈ tblEntries s.table ∧ x.hid = i ∧
      s.table.Remove e.key e.hash = (t', some x) ∧
      t'.list.length = s.table.list.length ∧ TblWF t' ∧
      (∀ y, y ∈ tblEntries t' ↔ (y ∈ tblEntries s.table ∧ y ≠ x)) ∧
      (∀ y ∈ tblEntries s.table, y.hid = i → y = x) := by
  obtain ⟨x, hx, hxi⟩ := hp.lruTbl i hi
  obtain ⟨e', hge', hk', hh', _⟩ := hp.tblHeap x hx
  rw [hxi, he] at hge'
  have he2 : e' = e := (Option.some.inj hge').symm
  rw [he2] at hk' hh'
  have hm : x.ehash = e.hash ∧ x.ekey = e.key := ⟨hh'.symm, hk'.symm⟩
  obtain ⟨t', hrem, hlen, _, hwf', hmem⟩ := tblRemove_some hp.tblWF hx hm
  have huniq : ∀ y ∈ tblEntries s.table, y.hid = i → y = x := by
    intro y hy hyi
    obtain ⟨ey, hgey, hky, hhy, _⟩ := hp.tblHeap y hy
    rw [hyi, he] at hgey
    have hey : ey = e := (Option.some.inj hgey).symm
    rw [hey] at hky hhy
    exact tbl_unique hp.tblWF hy hx (by rw [← hhy, hh']) (by rw [← hky, hk'])
  exact ⟨x, t', hx, hxi, hrem, hlen, hwf', hmem, huniq⟩

theorem popOut_refl {s : Shard} (hp : EvictPre s) : PopOut s s 0 :=
  { kLe := Nat.zero_le _
    pre := hp
    lru := rfl
    low := rfl
    usage := rfl
    lruUsage := rfl
    pool := by
      show s.high_pri_pool_usage = s.high_pri_pool_usage -
        sumIds s.heap (List.drop s.lowCount [])
      simp [sumIds]
    heapSame := fun _ _ => rfl
    heapEvict := by intro j hj; simp at hj
    ids := rfl
    tbl := by intro y; simp
    cap := rfl
    strictEq := rfl
    ratEq := rfl
    poolCap := rfl
    dels := rfl
    nid := rfl }

theorem popOut_step {s : Shard} (hp : EvictPre s) {old : Nat} {rest : List Nat}
    (hl : s.lru = old :: rest) :
    (popColdest s).2 = some old ∧ PopOut s (popColdest s).1 1 := by
  obtain ⟨e, he, hic, hr1⟩ := hp.lruLive old (by rw [hl]; exact List.mem_cons_self old rest)
  have hpc := popColdest_eq hl he
  obtain ⟨x, t', hx, hxi, hrem, hlent, hwf', hmem, huniq⟩ :=
    tblRemove_evict hp (by rw [hl]; exact List.mem_cons_self old rest) he
  have htp : (s.table.Remove e.key e.hash).1 = t' := by rw [hrem]
  have hnodup := hp.lruNodup
  rw [hl] at hnodup
  have hold_rest : old ∉ rest := (List.nodup_cons.mp hnodup).1
  have hrest_nd : rest.Nodup := (List.nodup_cons.mp hnodup).2
  have htake : s.lru.take 1 = [old] := by rw [hl]; rfl
  have hdrop : s.lru.drop 1 = rest := by rw [hl]; rfl
  have hchargeold : chargeOf s.heap old = e.charge := chargeOf_eq he
  have hget0 : s.lru.get? 0 = some old := by rw [hl]; rfl
  have hflag0 := hp.flagPos 0 old hget0 e he
  have hchpres : ∀ j,
      chargeOf (hset s.heap old { e with in_cache := false, refs := e.refs - 1 }) j =
        chargeOf s.heap j :=
    chargeOf_hset_same he rfl
  have hlusage : s.lru_usage = e.charge + sumIds s.heap rest := by
    have h1 := hp.lruUsageEq
    rw [hl, sumIds_cons, hchargeold] at h1
    exact h1
  have hpre2 : EvictPre (popColdest s).1 := by
    rw [hpc]
    refine
      { heapNodup := by
          show (heapIds (hset s.heap old _)).Nodup
          rw [heapIds_hset]
          exact hp.heapNodup
        lruNodup := hrest_nd
        lruLive := ?_
        lowLe := by
          show s.lowCount - 1 ≤ rest.length
          have h1 := hp.lowLe
          rw [hl] at h1
          simp at h1
          omega
        lruUsageEq := ?_
        poolUsageEq := ?_
        flagPos := ?_
        tblWF := by
          show TblWF (s.table.Remove e.key e.hash).1
          rw [htp]
          exact hwf'
        tblHeap := ?_
        lruTbl := ?_ }
    · intro j hj
      have hjo : j ≠ old := fun hc => hold_rest (hc ▸ hj)
      rw [hget_hset_ne hjo]
      exact hp.lruLive j (by rw [hl]; exact List.mem_cons_of_mem old hj)
    · show s.lru_usage - e.charge = sumIds _ rest
      rw [sumIds_congr (fun j _ => hchpres j)]
      omega
    · rw [sumIds_congr (fun j _ => hchpres j)]
      show (if e.in_high_pri_pool = true then s.high_pri_pool_usage - e.charge
        else s.high_pri_pool_usage) = sumIds s.heap (rest.drop (s.lowCount - 1))
      have hpp := hp.poolUsageEq
      rw [hl] at hpp
      by_cases h0 : s.lowCount = 0
      · have hb : e.in_high_pri_pool = true := hflag0.mpr (by omega)
        rw [if_pos hb, h0]
        rw [h0, List.drop_zero, sumIds_cons, hchargeold] at hpp
        simp only [Nat.zero_sub, List.drop_zero]
        omega
      · have hb : ¬(e.in_high_pri_pool = true) :=
          fun hbt => h0 (Nat.le_zero.mp (hflag0.mp hbt))
        rw [if_neg hb]
        obtain ⟨m, hm2⟩ : ∃ m, s.lowCount = m + 1 := ⟨s.lowCount - 1, by omega⟩
        rw [hm2, List.drop_succ_cons] at hpp
        rw [hm2]
        simp only [Nat.add_sub_cancel]
        exact hpp
    · intro n i hgn e2 hge2
      show e2.in_high_pri_pool = true ↔ s.lowCount - 1 ≤ n
      have hgn' : rest.get? n = some i := hgn
      have hin : i ∈ rest := List.get?_mem hgn'
      have hio : i ≠ old := fun hc => hold_rest (hc ▸ hin)
      have hge2' : hget s.heap i = some e2 := by
        have h2 : hget (hset s.heap old
            { e with in_cache := false, refs := e.refs - 1 }) i = some e2 := hge2
        rwa [hget_hset_ne hio] at h2
      have h1 := hp.flagPos (n + 1) i (by rw [hl, List.get?_cons_succ]; exact hgn') e2 hge2'
      rw [h1]
      omega
    · intro y hy
      have hy' : y ∈ tblEntries (s.table.Remove e.key e.hash).1 := hy
      rw [htp] at hy'
      obtain ⟨hys, hyx⟩ := (hmem y).mp hy'
      obtain ⟨ey, hgey, hky, hhy, hcy⟩ := hp.tblHeap y hys
      have hyo : y.hid ≠ old := fun hc => hyx (huniq y hys hc)
      show ∃ ee, hget (hset s.heap old
        { e with in_cache := false, refs := e.refs - 1 }) y.hid = some ee ∧
        ee.key = y.ekey ∧ ee.hash = y.ehash ∧ ee.in_cache = true
      rw [hget_hset_ne hyo]
      exact ⟨ey, hgey, hky, hhy, hcy⟩
    · intro j hj
      obtain ⟨xj, hxj, hxji⟩ := hp.lruTbl j (by rw [hl]; exact List.mem_cons_of_mem old hj)
      refine ⟨xj, ?_, hxji⟩
      show xj ∈ tblEntries (s.table.Remove e.key e.hash).1
      rw [htp]
      apply (hmem xj).mpr
      refine ⟨hxj, ?_⟩
      intro hc
      rw [hc] at hxji
      rw [hxi] at hxji
      exact hold_rest (hxji ▸ hj)
  refine ⟨by rw [hpc], ?_⟩
  have hpre2' := hpre2
  rw [hpc] at hpre2'
  rw [hpc]
  refine
    { kLe := by rw [hl]; simp
      pre := hpre2'
      lru := by
        show rest = s.lru.drop 1
        rw [hdrop]
      low := rfl
      usage := by
        show s.usage - e.charge = s.usage - sumIds s.heap (s.lru.take 1)
        rw [htake, sumIds_cons, sumIds_nil, hchargeold]
        omega
      lruUsage := by
        show s.lru_usage - e.charge = s.lru_usage - sumIds s.heap (s.lru.take 1)
        rw [htake, sumIds_cons, sumIds_nil, hchargeold]
        omega
      pool := ?_
      heapSame := ?_
      heapEvict := ?_
      ids := heapIds_hset _ _ _
      tbl := ?_
      cap := rfl
      strictEq := rfl
      ratEq := rfl
      poolCap := rfl
      dels := rfl
      nid := rfl }
  · show (if e.in_high_pri_pool = true then s.high_pri_pool_usage - e.charge
      else s.high_pri_pool_usage) =
      s.high_pri_pool_usage - sumIds s.heap ((s.lru.take 1).drop s.lowCount)
    rw [htake]
    by_cases h0 : s.lowCount = 0
    · have hb : e.in_high_pri_pool = true := hflag0.mpr (by omega)
      rw [if_pos hb, h0, List.drop_zero, sumIds_cons, sumIds_nil, hchargeold]
      omega
    · have hb : ¬(e.in_high_pri_pool = true) :=
        fun hbt => h0 (Nat.le_zero.mp (hflag0.mp hbt))
      rw [if_neg hb]
      have hde : List.drop s.lowCount [old] = [] := by
        apply List.drop_eq_nil_of_le
        simp
        omega
      rw [hde, sumIds_nil]
      omega
  · intro j hj
    rw [htake] at hj
    have hjo : j ≠ old := by
      intro hc
      exact hj (by rw [hc]; exact List.mem_singleton.mpr rfl)
    exact hget_hset_ne hjo
  · intro j hj
    rw [htake] at hj
    have hjo : j = old := List.mem_singleton.mp hj
    subst hjo
    exact ⟨e, he, hget_hset_self he⟩
  · intro y
    show y ∈ tblEntries (s.table.Remove e.key e.hash).1 ↔
      (y ∈ tblEntries s.table ∧ y.hid ∉ s.lru.take 1)
    rw [htp, hmem y, htake]
    constructor
    · rintro ⟨hy, hyx⟩
      refine ⟨hy, ?_⟩
      intro hc
      have hyo : y.hid = old := List.mem_singleton.mp hc
      exact hyx (huniq y hy hyo)
    · rintro ⟨hy, hyn⟩
      refine ⟨hy, ?_⟩
      intro hc
      rw [hc] at hyn
      rw [hxi] at hyn
      exact hyn (List.mem_singleton.mpr rfl)


theorem popOut_trans {s t u : Shard} {k k' : Nat} (hp : EvictPre s)
    (h1 : PopOut s t k) (h2 : PopOut t u k') : PopOut s u (k + k') := by
  have hts : t.lru.take k' = (s.lru.drop k).take k' := by rw [h1.lru]
  have htadd : s.lru.take (k + k') = s.lru.take k ++ (s.lru.drop k).take k' :=
    List.take_add s.lru k k'
  have hce := popOut_chargeEq h1
  have hsum2 : sumIds t.heap ((s.lru.drop k).take k') =
      sumIds s.heap ((s.lru.drop k).take k') := sumIds_congr (fun j _ => hce j)
  have hsumadd : sumIds s.heap (s.lru.take (k + k')) =
      sumIds s.heap (s.lru.take k) + sumIds s.heap ((s.lru.drop k).take k') := by
    rw [htadd, sumIds_append]
  have hnd := hp.lruNodup
  have hdisj : ∀ j, j ∈ s.lru.take k → j ∉ s.lru.drop k := by
    intro j hjt hjd
    have hsplit : s.lru = s.lru.take k ++ s.lru.drop k := (List.take_append_drop k s.lru).symm
    have hx := hnd
    rw [hsplit, List.nodup_append] at hx
    exact hx.2.2 hjt hjd
  have hlentake : (s.lru.take k).length = k := by
    rw [List.length_take]
    exact Nat.min_eq_left h1.kLe
  refine
    { kLe := by
        have h := h2.kLe
        rw [h1.lru, List.length_drop] at h
        have := h1.kLe
        omega
      pre := h2.pre
      lru := by
        rw [h2.lru, h1.lru, List.drop_drop]
      low := by
        have ha := h1.low
        have hb := h2.low
        omega
      usage := by
        rw [h2.usage, h1.usage, hts, hsum2, hsumadd]
        omega
      lruUsage := by
        rw [h2.lruUsage, h1.lruUsage, hts, hsum2, hsumadd]
        omega
      pool := ?_
      heapSame := ?_
      heapEvict := ?_
      ids := h2.ids.trans h1.ids
      tbl := ?_
      cap := h2.cap.trans h1.cap
      strictEq := h2.strictEq.trans h1.strictEq
      ratEq := h2.ratEq.trans h1.ratEq
      poolCap := h2.poolCap.trans h1.poolCap
      dels := h2.dels.trans h1.dels
      nid := h2.nid.trans h1.nid }
  · have hkey : (s.lru.take (k + k')).drop s.lowCount =
        ((s.lru.take k).drop s.lowCount) ++
          (((s.lru.drop k).take k').drop (s.lowCount - k)) := by
      rw [htadd, List.drop_append_eq_append_drop, hlentake]
    have hcgr : sumIds t.heap (((s.lru.drop k).take k').drop (s.lowCount - k)) =
        sumIds s.heap (((s.lru.drop k).take k').drop (s.lowCount - k)) :=
      sumIds_congr (fun j _ => hce j)
    rw [h2.pool, h1.pool, hts, h1.low, hkey, sumIds_append, hcgr]
    omega
  · intro j hj
    rw [htadd] at hj
    have hj1 : j ∉ s.lru.take k := fun hc => hj (List.mem_append.mpr (Or.inl hc))
    have hj2 : j ∉ t.lru.take k' := by
      rw [hts]
      exact fun hc => hj (List.mem_append.mpr (Or.inr hc))
    rw [h2.heapSame j hj2, h1.heapSame j hj1]
  · intro j hj
    rw [htadd] at hj
    rcases List.mem_append.mp hj with hj | hj
    · obtain ⟨e, he, het⟩ := h1.heapEvict j hj
      refine ⟨e, he, ?_⟩
      have hjd : j ∉ s.lru.drop k := hdisj j hj
      have hj2 : j ∉ t.lru.take k' := by
        rw [hts]
        intro hc
        exact hjd (List.mem_of_mem_take hc)
      rw [h2.heapSame j hj2]
      exact het
    · have hjd : j ∈ s.lru.drop k := List.mem_of_mem_take hj
      have hj1 : j ∉ s.lru.take k := fun hc => hdisj j hc hjd
      have hjt : j ∈ t.lru.take k' := by rw [hts]; exact hj
      obtain ⟨e, het, heu⟩ := h2.heapEvict j hjt
      rw [h1.heapSame j hj1] at het
      exact ⟨e, het, heu⟩
  · intro y
    rw [h2.tbl y, h1.tbl y]
    constructor
    · rintro ⟨⟨hys, hk1⟩, hk2⟩
      refine ⟨hys, ?_⟩
      rw [htadd]
      intro hc
      rcases List.mem_append.mp hc with hc | hc
      · exact hk1 hc
      · exact hk2 (by rw [hts]; exact hc)
    · rintro ⟨hys, hk⟩
      rw [htadd] at hk
      refine ⟨⟨hys, fun hc => hk (List.mem_append.mpr (Or.inl hc))⟩, ?_⟩
      rw [hts]
      exact fun hc => hk (List.mem_append.mpr (Or.inr hc))


theorem evictGo_spec (charge : Nat) :
    ∀ (fuel : Nat) (s : Shard) (del : List Nat), EvictPre s → s.lru.length ≤ fuel →
    ∃ k, PopOut s (EvictGo s charge del fuel).1 k ∧
      (EvictGo s charge del fuel).2 = del ++ s.lru.take k ∧
      ((EvictGo s charge del fuel).1.usage + charge ≤ s.capacity ∨
        (EvictGo s charge del fuel).1.lru = []) ∧
      (∀ j, j < k → s.capacity < s.usage - sumIds s.heap (s.lru.take j) + charge) := by
  intro fuel
  induction fuel with
  | zero =>
    intro s del hp hf
    have hnil : s.lru = [] := List.eq_nil_of_length_eq_zero (by omega)
    exact ⟨0, popOut_refl hp, by simp [EvictGo], Or.inr hnil, by intro j hj; omega⟩
  | succ m ih =>
    intro s del hp hf
    by_cases hc : s.capacity < s.usage + charge
    · cases hl : s.lru with
      | nil =>
        have hps : popColdest s = (s, none) := by rw [popColdest, hl]
        have hev : EvictGo s charge del (m + 1) = (s, del) := by
          rw [EvictGo, if_pos hc, hps]
        rw [hev]
        exact ⟨0, popOut_refl hp, by simp, Or.inr hl, by intro j hj; omega⟩
      | cons old rest =>
        obtain ⟨hsnd, hstep⟩ := popOut_step hp hl
        have hpair : popColdest s = ((popColdest s).1, some old) := by
          rw [← hsnd]
        have hev : EvictGo s charge del (m + 1) =
            EvictGo (popColdest s).1 charge (del ++ [old]) m := by
          rw [EvictGo, if_pos hc, hpair]
        have hp1 : EvictPre (popColdest s).1 := hstep.pre
        have hlru1 : (popColdest s).1.lru = rest := by
          have h := hstep.lru
          rw [hl] at h
          exact h
        have hflen : (popColdest s).1.lru.length ≤ m := by
          rw [hlru1]
          rw [hl] at hf
          simp at hf
          omega
        obtain ⟨k', hPO, hdel, hstop, hmin⟩ := ih (popColdest s).1 (del ++ [old]) hp1 hflen
        refine ⟨1 + k', ?_, ?_, ?_, ?_⟩
        · rw [hev]
          exact popOut_trans hp hstep hPO
        · rw [hev, hdel, hlru1]
          have htk : (old :: rest).take (1 + k') = old :: rest.take k' := by
            rw [Nat.add_comm 1 k', List.take_succ_cons]
          rw [htk]
          simp
        · rw [hev]
          rcases hstop with h | h
          · left
            rw [hstep.cap] at h
            exact h
          · right
            exact h
        · intro j hj
          cases j with
          | zero =>
            simpa [sumIds] using hc
          | succ j' =>
            have hj' : j' < k' := by omega
            have h2 := hmin j' hj'
            have hce := popOut_chargeEq hstep
            have hu := hstep.usage
            rw [hl] at hu
            have htk1 : (old :: rest).take 1 = [old] := rfl
            rw [htk1, sumIds_cons, sumIds_nil] at hu
            have e1 : (popColdest s).1.lru.take j' = rest.take j' := by rw [hlru1]
            have e2 : sumIds (popColdest s).1.heap (rest.take j') =
                sumIds s.heap (rest.take j') := sumIds_congr (fun z _ => hce z)
            rw [hstep.cap, hu, e1, e2] at h2
            show s.capacity < s.usage - sumIds s.heap ((old :: rest).take (j' + 1)) + charge
            rw [List.take_succ_cons, sumIds_cons]
            omega
    · have hev : EvictGo s charge del (m + 1) = (s, del) := by
        rw [EvictGo, if_neg hc]
      rw [hev]
      refine ⟨0, popOut_refl hp, by simp, Or.inl ?_, by intro j hj; omega⟩
      show s.usage + charge ≤ s.capacity
      omega

theorem evictFromLRU_spec {s : Shard} (hp : EvictPre s) (charge : Nat) :
    ∃ k, PopOut s (EvictFromLRU s charge).1 k ∧
      (EvictFromLRU s charge).2 = s.lru.take k ∧
      ((EvictFromLRU s charge).1.usage + charge ≤ s.capacity ∨
        (EvictFromLRU s charge).1.lru = []) ∧
      (∀ j, j < k → s.capacity < s.usage - sumIds s.heap (s.lru.take j) + charge) := by
  obtain ⟨k, h1, h2, h3, h4⟩ := evictGo_spec charge s.lru.length s [] hp (Nat.le_refl _)
  exact ⟨k, h1, by simpa using h2, h3, h4⟩

theorem eraseUnRefGo_spec :
    ∀ (fuel : Nat) (s : Shard) (scratch : List Nat), EvictPre s → s.lru.length ≤ fuel →
    ∃ k, PopOut s (EraseUnRefGo s scratch fuel).1 k ∧
      (EraseUnRefGo s scratch fuel).2 = scratch ++ s.lru.take k ∧
      (EraseUnRefGo s scratch fuel).1.lru = [] := by
  intro fuel
  induction fuel with
  | zero =>
    intro s scratch hp hf
    have hnil : s.lru = [] := List.eq_nil_of_length_eq_zero (by omega)
    exact ⟨0, popOut_refl hp, by simp [EraseUnRefGo], hnil⟩
  | succ m ih =>
    intro s scratch hp hf
    cases hl : s.lru with
    | nil =>
      have hps : popColdest s = (s, none) := by rw [popColdest, hl]
      have hev : EraseUnRefGo s scratch (m + 1) = (s, scratch) := by
        rw [EraseUnRefGo, hps]
      rw [hev]
      exact ⟨0, popOut_refl hp, by simp, hl⟩
    | cons old rest =>
      obtain ⟨hsnd, hstep⟩ := popOut_step hp hl
      have hpair : popColdest s = ((popColdest s).1, some old) := by
        rw [← hsnd]
      have hev : EraseUnRefGo s scratch (m + 1) =
          EraseUnRefGo (popColdest s).1 (scratch ++ [old]) m := by
        rw [EraseUnRefGo, hpair]
      have hp1 : EvictPre (popColdest s).1 := hstep.pre
      have hlru1 : (popColdest s).1.lru = rest := by
        have h := hstep.lru
        rw [hl] at h
        exact h
      have hflen : (popColdest s).1.lru.length ≤ m := by
        rw [hlru1]
        rw [hl] at hf
        simp at hf
        omega
      obtain ⟨k', hPO, hdel, hnil'⟩ := ih (popColdest s).1 (scratch ++ [old]) hp1 hflen
      refine ⟨1 + k', ?_, ?_, ?_⟩
      · rw [hev]
        exact popOut_trans hp hstep hPO
      · rw [hev, hdel, hlru1]
        have htk : (old :: rest).take (1 + k') = old :: rest.take k' := by
          rw [Nat.add_comm 1 k', List.take_succ_cons]
        rw [htk]
        simp
      · rw [hev]
        exact hnil'


theorem nodup_get?_inj {l : List Nat} (nd : l.Nodup) {n m a : Nat}
    (h1 : l.get? n = some a) (h2 : l.get? m = some a) : n = m := by
  induction l generalizing n m with
  | nil => simp at h1
  | cons x t ih =>
    cases n with
    | zero =>
      cases m with
      | zero => rfl
      | succ m' =>
        rw [List.get?_cons_zero] at h1
        rw [List.get?_cons_succ] at h2
        have hxa : x = a := Option.some.inj h1
        have hat : a ∈ t := List.get?_mem h2
        exact absurd (hxa ▸ hat) (List.nodup_cons.mp nd).1
    | succ n' =>
      cases m with
      | zero =>
        rw [List.get?_cons_zero] at h2
        rw [List.get?_cons_succ] at h1
        have hxa : x = a := Option.some.inj h2
        have hat : a ∈ t := List.get?_mem h1
        exact absurd (hxa ▸ hat) (List.nodup_cons.mp nd).1
      | succ m' =>
        rw [List.get?_cons_succ] at h1 h2
        rw [ih (List.nodup_cons.mp nd).2 h1 h2]

theorem maintainOut_refl {s : Shard} (hp : EvictPre s) (hok : PoolOK s) :
    MaintainOut s s :=
  { pre := hp, lruEq := rfl, lowGe := Nat.le_refl _, poolOk := hok,
    heapPool := fun _ => rfl, ids := rfl, usage := rfl, lruUsage := rfl,
    tblEq := rfl, cap := rfl, strictEq := rfl, ratEq := rfl, poolCap := rfl,
    dels := rfl, nid := rfl }

theorem maintain_step {s : Shard} (hp : EvictPre s) {i : Nat} {e : LRUHandle}
    (hg : s.lru.get? s.lowCount = some i) (he : hget s.heap i = some e) :
    EvictPre
      { s with
          lowCount := s.lowCount + 1
          heap := hset s.heap i { e with in_high_pri_pool := false }
          high_pri_pool_usage := s.high_pri_pool_usage - e.charge } := by
  have hlow : s.lowCount < s.lru.length := by
    rcases List.get?_eq_some.mp hg with ⟨h, _⟩
    exact h
  have hmem : i ∈ s.lru := List.get?_mem hg
  have hch : ∀ j, chargeOf (hset s.heap i { e with in_high_pri_pool := false }) j =
      chargeOf s.heap j := chargeOf_hset_same he rfl
  have hdropc : s.lru.drop s.lowCount = s.lru.get ⟨s.lowCount, hlow⟩ ::
      s.lru.drop (s.lowCount + 1) := List.drop_eq_get_cons hlow
  have hgi : s.lru.get ⟨s.lowCount, hlow⟩ = i := by
    have := List.get?_eq_get hlow
    rw [this] at hg
    exact Option.some.inj hg
  rw [hgi] at hdropc
  refine
    { heapNodup := by
        show (heapIds (hset s.heap i _)).Nodup
        rw [heapIds_hset]
        exact hp.heapNodup
      lruNodup := hp.lruNodup
      lruLive := ?_
      lowLe := hlow
      lruUsageEq := by
        show s.lru_usage = sumIds _ s.lru
        rw [sumIds_congr (fun j _ => hch j)]
        exact hp.lruUsageEq
      poolUsageEq := ?_
      flagPos := ?_
      tblWF := hp.tblWF
      tblHeap := ?_
      lruTbl := hp.lruTbl }
  · intro j hj
    by_cases hji : j = i
    · subst hji
      obtain ⟨e', he', hic, hr1⟩ := hp.lruLive j hj
      have hee : e' = e := by rw [he] at he'; exact (Option.some.inj he').symm
      subst hee
      exact ⟨{ e' with in_high_pri_pool := false }, hget_hset_self he, hic, hr1⟩
    · rw [hget_hset_ne hji]
      exact hp.lruLive j hj
  · show s.high_pri_pool_usage - e.charge = sumIds _ (s.lru.drop (s.lowCount + 1))
    rw [sumIds_congr (fun j _ => hch j)]
    have h1 := hp.poolUsageEq
    rw [hdropc, sumIds_cons, chargeOf_eq he] at h1
    omega
  · intro n j hgn e2 hge2
    show e2.in_high_pri_pool = true ↔ s.lowCount + 1 ≤ n
    by_cases hji : j = i
    · subst hji
      have hn : n = s.lowCount := nodup_get?_inj hp.lruNodup hgn hg
      subst hn
      have h2 : hget (hset s.heap j { e with in_high_pri_pool := false }) j =
          some { e with in_high_pri_pool := false } := hget_hset_self he
      rw [h2] at hge2
      have he2 : e2 = { e with in_high_pri_pool := false } := (Option.some.inj hge2).symm
      rw [he2]
      simp
    · have hne : n ≠ s.lowCount := by
        intro hc
        have hgn2 : s.lru.get? n = some j := hgn
        rw [hc, hg] at hgn2
        exact hji (Option.some.inj hgn2).symm
      rw [hget_hset_ne hji] at hge2
      have h1 := hp.flagPos n j hgn e2 hge2
      rw [h1]
      omega
  · intro x hx
    obtain ⟨ex, hgex, hkx, hhx, hcx⟩ := hp.tblHeap x hx
    by_cases hxi : x.hid = i
    · rw [hxi] at hgex ⊢
      have hee : ex = e := by rw [he] at hgex; exact (Option.some.inj hgex).symm
      refine ⟨{ e with in_high_pri_pool := false }, hget_hset_self he, ?_, ?_, ?_⟩
      · show e.key = x.ekey
        rw [← hee]
        exact hkx
      · show e.hash = x.ehash
        rw [← hee]
        exact hhx
      · show e.in_cache = true
        rw [← hee]
        exact hcx
    · rw [hget_hset_ne hxi]
      exact ⟨ex, hgex, hkx, hhx, hcx⟩

theorem maintainGo_spec :
    ∀ (fuel : Nat) (s : Shard), EvictPre s → s.lowCount + fuel = s.lru.length →
      MaintainOut s (MaintainPoolSizeGo s fuel) := by
  intro fuel
  induction fuel with
  | zero =>
    intro s hp hfuel
    have hpool : s.high_pri_pool_usage = 0 := by
      have h1 := hp.poolUsageEq
      have h2 : s.lru.drop s.lowCount = [] := by
        have h3 : s.lowCount = s.lru.length := by omega
        rw [h3]
        exact List.drop_length s.lru
      rw [h2, sumIds_nil] at h1
      exact h1
    exact maintainOut_refl hp (by rw [PoolOK, hpool]; omega)
  | succ m ih =>
    intro s hp hfuel
    rw [MaintainPoolSizeGo]
    by_cases hc : s.high_pri_pool_capacity < s.high_pri_pool_usage
    · rw [if_pos hc]
      have hlow : s.lowCount < s.lru.length := by omega
      have hg : s.lru.get? s.lowCount = some (s.lru.get ⟨s.lowCount, hlow⟩) :=
        List.get?_eq_get hlow
      obtain ⟨e, he, hic, hr1⟩ := hp.lruLive _ (List.get?_mem hg)
      simp only [hg, he]
      have hpre1 : EvictPre (HighPriPoolUsageSub
          { s with
              lowCount := s.lowCount + 1
              heap := hset s.heap (s.lru.get ⟨s.lowCount, hlow⟩)
                { e with in_high_pri_pool := false } } e) := maintain_step hp hg he
      have hfuel1 : s.lowCount + 1 + m = s.lru.length := by omega
      have hIH := ih _ hpre1 hfuel1
      have hstepPool : ∀ j,
          (hget (hset s.heap (s.lru.get ⟨s.lowCount, hlow⟩)
            { e with in_high_pri_pool := false }) j).map poolCleared =
          (hget s.heap j).map poolCleared := by
        intro j
        by_cases hji : j = s.lru.get ⟨s.lowCount, hlow⟩
        · subst hji
          rw [hget_hset_self he, he]
          rfl
        · rw [hget_hset_ne hji]
      exact
        { pre := hIH.pre
          lruEq := hIH.lruEq
          lowGe := Nat.le_trans (Nat.le_succ _) hIH.lowGe
          poolOk := hIH.poolOk
          heapPool := fun j => (hIH.heapPool j).trans (hstepPool j)
          ids := hIH.ids.trans (heapIds_hset _ _ _)
          usage := hIH.usage
          lruUsage := hIH.lruUsage
          tblEq := hIH.tblEq
          cap := hIH.cap
          strictEq := hIH.strictEq
          ratEq := hIH.ratEq
          poolCap := hIH.poolCap
          dels := hIH.dels
          nid := hIH.nid }
    · rw [if_neg hc]
      exact maintainOut_refl hp (by rw [PoolOK]; omega)

theorem maintain_spec {s : Shard} (hp : EvictPre s) : MaintainOut s (MaintainPoolSize s) :=
  maintainGo_spec (s.lru.length - s.lowCount) s hp (by have := hp.lowLe; omega)

/-! ### Frame properties of the pool-rebalance loop -/

theorem maintainGo_frame : ∀ (f : Nat) (s : Shard),
    (MaintainPoolSizeGo s f).lru = s.lru ∧
    (MaintainPoolSizeGo s f).table = s.table ∧
    (MaintainPoolSizeGo s f).usage = s.usage ∧
    (MaintainPoolSizeGo s f).lru_usage = s.lru_usage ∧
    (MaintainPoolSizeGo s f).deleters_run = s.deleters_run ∧
    (MaintainPoolSizeGo s f).capacity = s.capacity ∧
    (MaintainPoolSizeGo s f).nextId = s.nextId := by
  intro f
  induction f with
  | zero => intro s; exact ⟨rfl, rfl, rfl, rfl, rfl, rfl, rfl⟩
  | succ m ih =>
    intro s
    rw [MaintainPoolSizeGo]
    by_cases hc : s.high_pri_pool_capacity < s.high_pri_pool_usage
    · rw [if_pos hc]
      cases hg : s.lru.get? s.lowCount with
      | none => exact ⟨rfl, rfl, rfl, rfl, rfl, rfl, rfl⟩
      | some i =>
        cases he : hget s.heap i with
        | none => simp [hg, he]
        | some e => simp only [hg, he]; exact ih _
    · rw [if_neg hc]
      exact ⟨rfl, rfl, rfl, rfl, rfl, rfl, rfl⟩

/-- `MaintainPoolSizeGo` never reads nor writes `lru_usage`, so it commutes
with the `lru_usage` increment done at the end of a hot-path `LRU_Insert`. -/
theorem maintainGo_lruUsageAdd (e : LRUHandle) : ∀ (f : Nat) (s : Shard),
    MaintainPoolSizeGo (LRUUsageAdd s e) f = LRUUsageAdd (MaintainPoolSizeGo s f) e := by
  intro f
  induction f with
  | zero => intro s; rfl
  | succ m ih =>
    intro s
    show MaintainPoolSizeGo (LRUUsageAdd s e) (m + 1) =
      LRUUsageAdd (MaintainPoolSizeGo s (m + 1)) e
    rw [MaintainPoolSizeGo, MaintainPoolSizeGo]
    by_cases hc : s.high_pri_pool_capacity < s.high_pri_pool_usage
    · rw [if_pos (show (LRUUsageAdd s e).high_pri_pool_capacity <
          (LRUUsageAdd s e).high_pri_pool_usage from hc), if_pos hc]
      cases hg : s.lru.get? s.lowCount with
      | none =>
        have hg2 : (LRUUsageAdd s e).lru.get? (LRUUsageAdd s e).lowCount = none := hg
        simp only [hg2, hg]
      | some i =>
        have hg2 : (LRUUsageAdd s e).lru.get? (LRUUsageAdd s e).lowCount = some i := hg
        cases he : hget s.heap i with
        | none =>
          have he2 : hget (LRUUsageAdd s e).heap i = none := he
          simp only [hg2, hg, he2, he]
        | some e2 =>
          have he2 : hget (LRUUsageAdd s e).heap i = some e2 := he
          simp only [hg2, hg, he2, he]
          exact ih (HighPriPoolUsageSub
            { s with lowCount := s.lowCount + 1,
                     heap := hset s.heap i { e2 with in_high_pri_pool := false } } e2)
    · rw [if_neg (show ¬((LRUUsageAdd s e).high_pri_pool_capacity <
          (LRUUsageAdd s e).high_pri_pool_usage) from hc), if_neg hc]

/-! ### Heap transfer along pool-flag-only changes -/

theorem poolCleared_refs (e : LRUHandle) : (poolCleared e).refs = e.refs := rfl

theorem poolCleared_in_cache (e : LRUHandle) : (poolCleared e).in_cache = e.in_cache := rfl

theorem poolCleared_charge (e : LRUHandle) : (poolCleared e).charge = e.charge := rfl

/-- With duplicate-free ids, the raw charge sum is the sum over the id list. -/
theorem sumCharge_eq_sumIds {h : List (Nat × LRUHandle)} (nd : (heapIds h).Nodup) :
    sumCharge h = sumIds h (heapIds h) := by
  induction h with
  | nil => rfl
  | cons p t ih =>
    have nd' := List.nodup_cons.mp (show (p.1 :: heapIds t).Nodup from nd)
    rw [sumCharge_cons]
    show _ = sumIds (p :: t) (p.1 :: heapIds t)
    rw [sumIds_cons]
    have h1 : chargeOf (p :: t) p.1 = p.2.charge := by
      rw [chargeOf, hget, if_pos rfl]
      rfl
    have h2 : sumIds (p :: t) (heapIds t) = sumIds t (heapIds t) := by
      apply sumIds_congr
      intro j hj
      have hne : ¬(p.1 = j) := fun hc => nd'.1 (hc ▸ hj)
      rw [chargeOf, chargeOf, hget, if_neg hne]
    rw [h1, h2, ih nd'.2]

/-- Transfer heap membership through a change that only touches pool flags. -/
theorem heap_transfer {h2 h1 : List (Nat × LRUHandle)} (nd : (heapIds h2).Nodup)
    (hpool : ∀ j, (hget h2 j).map poolCleared = (hget h1 j).map poolCleared) :
    ∀ p ∈ h2, ∃ e, (p.1, e) ∈ h1 ∧ poolCleared e = poolCleared p.2 := by
  intro p hp
  have hg2 : hget h2 p.1 = some p.2 := hget_of_mem_nodup nd hp
  have := hpool p.1
  rw [hg2] at this
  cases hg1 : hget h1 p.1 with
  | none => rw [hg1] at this; exact absurd this (by simp)
  | some e =>
    rw [hg1] at this
    exact ⟨e, hget_mem hg1, (Option.some.inj this).symm⟩

theorem drop_append_ge {c : Nat} {pre : List Nat} (l : List Nat) (h : pre.length ≤ c) :
    List.drop c (pre ++ l) = List.drop (c - pre.length) l := by
  induction pre generalizing c with
  | nil => simp
  | cons a t ih =>
    cases c with
    | zero => simp at h
    | succ m =>
      have hm : t.length ≤ m := by simpa using h
      show List.drop m (t ++ l) = _
      rw [ih hm]
      congr 1
      simp

/-! ### `LRU_Remove` on a listed entry -/

theorem lruRemove_spec {s : Shard} (hp : EvictPre s) {i : Nat} {e : LRUHandle}
    (he : hget s.heap i = some e) (hi : i ∈ s.lru) :
    RemOut s (LRU_Remove s i) i e := by
  obtain ⟨pre, suf, hsplit, hip, his⟩ := nodup_split hp.lruNodup hi
  have hErase : listErase i s.lru = pre ++ suf := by rw [hsplit]; exact listErase_append suf hip
  have hPos : posOf i s.lru = pre.length := by rw [hsplit]; exact posOf_append suf hip
  have hgetI : s.lru.get? pre.length = some i := by
    rw [hsplit, List.get?_append_right (Nat.le_refl _), Nat.sub_self]
    rfl
  have hflagI := hp.flagPos pre.length i hgetI e he
  have hrm : LRU_Remove s i =
      (if e.in_high_pri_pool = true then
        HighPriPoolUsageSub (LRUUsageSub { s with lru := listErase i s.lru, lowCount := if posOf i s.lru < s.lowCount then s.lowCount - 1 else s.lowCount } e) e
      else
        LRUUsageSub { s with lru := listErase i s.lru, lowCount := if posOf i s.lru < s.lowCount then s.lowCount - 1 else s.lowCount } e) := by
    rw [LRU_Remove, he]
  have hlow' : (LRU_Remove s i).lowCount =
      (if pre.length < s.lowCount then s.lowCount - 1 else s.lowCount) := by
    rw [hrm, ← hPos]
    by_cases hb : e.in_high_pri_pool = true
    · rw [if_pos hb]; rfl
    · rw [if_neg hb]; rfl
  have hlru' : (LRU_Remove s i).lru = pre ++ suf := by
    rw [hrm]
    by_cases hb : e.in_high_pri_pool = true
    · rw [if_pos hb]; show listErase i s.lru = _; rw [hErase]
    · rw [if_neg hb]; show listErase i s.lru = _; rw [hErase]
  have hheap' : (LRU_Remove s i).heap = s.heap := by
    rw [hrm]
    by_cases hb : e.in_high_pri_pool = true
    · rw [if_pos hb]; rfl
    · rw [if_neg hb]; rfl
  have hpool' : (LRU_Remove s i).high_pri_pool_usage =
      (if e.in_high_pri_pool = true then s.high_pri_pool_usage - e.charge
       else s.high_pri_pool_usage) := by
    rw [hrm]
    by_cases hb : e.in_high_pri_pool = true
    · rw [if_pos hb, if_pos hb]; rfl
    · rw [if_neg hb, if_neg hb]; rfl
  have hlruU' : (LRU_Remove s i).lru_usage = s.lru_usage - e.charge := by
    rw [hrm]
    by_cases hb : e.in_high_pri_pool = true
    · rw [if_pos hb]; rfl
    · rw [if_neg hb]; rfl
  have hframe : (LRU_Remove s i).table = s.table ∧ (LRU_Remove s i).usage = s.usage ∧
      (LRU_Remove s i).capacity = s.capacity ∧
      (LRU_Remove s i).strict_capacity_limit = s.strict_capacity_limit ∧
      (LRU_Remove s i).high_pri_pool_ratio = s.high_pri_pool_ratio ∧
      (LRU_Remove s i).high_pri_pool_capacity = s.high_pri_pool_capacity ∧
      (LRU_Remove s i).deleters_run = s.deleters_run ∧
      (LRU_Remove s i).nextId = s.nextId := by
    rw [hrm]
    by_cases hb : e.in_high_pri_pool = true
    · rw [if_pos hb]; exact ⟨rfl, rfl, rfl, rfl, rfl, rfl, rfl, rfl⟩
    · rw [if_neg hb]; exact ⟨rfl, rfl, rfl, rfl, rfl, rfl, rfl, rfl⟩
  have hlenOld : s.lru.length = pre.length + 1 + suf.length := by
    rw [hsplit]; simp; omega
  have hlruUsum : s.lru_usage = sumIds s.heap pre + e.charge + sumIds s.heap suf := by
    have h0 := hp.lruUsageEq
    rw [hsplit, sumIds_append, sumIds_cons, chargeOf_eq he] at h0
    omega
  refine
    { pre := ?_
      lruEq := by rw [hlru', hErase]
      heapEq := hheap'
      tblEq := hframe.1
      usage := hframe.2.1
      lruUsage := hlruU'
      pool := hpool'
      cap := hframe.2.2.1
      strictEq := hframe.2.2.2.1
      ratEq := hframe.2.2.2.2.1
      poolCap := hframe.2.2.2.2.2.1
      dels := hframe.2.2.2.2.2.2.1
      nid := hframe.2.2.2.2.2.2.2 }
  refine
    { heapNodup := by rw [hheap']; exact hp.heapNodup
      lruNodup := by
        rw [hlru']
        have := hp.lruNodup
        rw [hsplit] at this
        rw [List.nodup_append] at this ⊢
        exact ⟨this.1, (List.nodup_cons.mp this.2.1).2,
          fun a ha hb => this.2.2 ha (List.mem_cons_of_mem i hb)⟩
      lruLive := by
        intro j hj
        rw [hheap']
        apply hp.lruLive
        rw [hlru'] at hj
        rw [hsplit]
        rcases List.mem_append.mp hj with h | h
        · exact List.mem_append.mpr (Or.inl h)
        · exact List.mem_append.mpr (Or.inr (List.mem_cons_of_mem i h))
      lowLe := by
        rw [hlow', hlru']
        have := hp.lowLe
        rw [hlenOld] at this
        by_cases hlt : pre.length < s.lowCount
        · rw [if_pos hlt]; simp; omega
        · rw [if_neg hlt]; simp; omega
      lruUsageEq := by
        rw [hlruU', hheap', hlru', sumIds_append, hlruUsum]
        omega
      poolUsageEq := ?_
      flagPos := ?_
      tblWF := by rw [hframe.1]; exact hp.tblWF
      tblHeap := by rw [hframe.1, hheap']; exact hp.tblHeap
      lruTbl := by
        intro j hj
        rw [hframe.1]
        apply hp.lruTbl
        rw [hlru'] at hj
        rw [hsplit]
        rcases List.mem_append.mp hj with h | h
        · exact List.mem_append.mpr (Or.inl h)
        · exact List.mem_append.mpr (Or.inr (List.mem_cons_of_mem i h)) }
  · rw [hpool', hheap', hlru', hlow']
    by_cases hlt : pre.length < s.lowCount
    · have hflag : e.in_high_pri_pool = false := by
        cases hb : e.in_high_pri_pool with
        | false => rfl
        | true => exact absurd (hflagI.mp hb) (by omega)
      rw [if_pos hlt, hflag]
      show s.high_pri_pool_usage = _
      have h0 := hp.poolUsageEq
      rw [hsplit] at h0
      have hplen : pre.length ≤ s.lowCount - 1 := by omega
      rw [drop_append_ge _ hplen]
      have hd1 : List.drop s.lowCount (pre ++ i :: suf) =
          List.drop (s.lowCount - pre.length) (i :: suf) :=
        drop_append_ge _ (by omega)
      have hd2 : List.drop (s.lowCount - pre.length) (i :: suf) =
          List.drop (s.lowCount - pre.length - 1) suf := by
        have h9 : s.lowCount - pre.length = (s.lowCount - pre.length - 1) + 1 := by omega
        rw [h9, List.drop_succ_cons]
        congr 1
      rw [hd1, hd2] at h0
      have hidx : s.lowCount - 1 - pre.length = s.lowCount - pre.length - 1 := by omega
      rw [hidx]
      exact h0
    · have hflag : e.in_high_pri_pool = true := hflagI.mpr (by omega)
      rw [if_neg hlt, hflag]
      rw [if_pos rfl]
      have h0 := hp.poolUsageEq
      have hle : s.lowCount ≤ pre.length := by omega
      rw [hsplit, drop_append_le _ hle, sumIds_append, sumIds_cons, chargeOf_eq he] at h0
      rw [drop_append_le _ hle, sumIds_append]
      omega
  · intro n j hgn e2 hge2
    rw [hheap'] at hge2
    rw [hlru'] at hgn
    rw [hlow']
    by_cases hnp : n < pre.length
    · rw [List.get?_append hnp] at hgn
      have hgn0 : s.lru.get? n = some j := by
        rw [hsplit, List.get?_append hnp]
        exact hgn
      have h1 := hp.flagPos n j hgn0 e2 hge2
      by_cases hlt : pre.length < s.lowCount
      · rw [if_pos hlt]
        exact h1.trans (by omega)
      · rw [if_neg hlt]
        exact h1
    · have hnp' : pre.length ≤ n := Nat.le_of_not_lt hnp
      rw [List.get?_append_right hnp'] at hgn
      have hgn0 : s.lru.get? (n + 1) = some j := by
        rw [hsplit, List.get?_append_right (by omega)]
        have : n + 1 - pre.length = (n - pre.length) + 1 := by omega
        rw [this, List.get?_cons_succ]
        exact hgn
      have h1 := hp.flagPos (n + 1) j hgn0 e2 hge2
      by_cases hlt : pre.length < s.lowCount
      · rw [if_pos hlt]
        refine h1.trans ?_
        omega
      · rw [if_neg hlt]
        refine h1.trans ?_
        omega

/-! ### Transfer helpers for pool-flag-only heap changes -/

theorem chargeOf_poolCleared {h2 h1 : List (Nat × LRUHandle)} {j : Nat}
    (h : (hget h2 j).map poolCleared = (hget h1 j).map poolCleared) :
    chargeOf h2 j = chargeOf h1 j := by
  rw [chargeOf, chargeOf]
  cases hg2 : hget h2 j with
  | none =>
    rw [hg2] at h
    cases hg1 : hget h1 j with
    | none => rfl
    | some e1 => rw [hg1] at h; exact absurd h (by simp)
  | some e2 =>
    rw [hg2] at h
    cases hg1 : hget h1 j with
    | none => rw [hg1] at h; exact absurd h (by simp)
    | some e1 =>
      rw [hg1] at h
      have := Option.some.inj h
      show e2.charge = e1.charge
      rw [← poolCleared_charge e2, ← poolCleared_charge e1, this]

theorem sumCharge_transfer {h2 h1 : List (Nat × LRUHandle)} (nd2 : (heapIds h2).Nodup)
    (hids : heapIds h2 = heapIds h1)
    (hch : ∀ j, chargeOf h2 j = chargeOf h1 j) : sumCharge h2 = sumCharge h1 := by
  have nd1 : (heapIds h1).Nodup := hids ▸ nd2
  rw [sumCharge_eq_sumIds nd2, sumCharge_eq_sumIds nd1, hids]
  exact sumIds_congr (fun j _ => hch j)

theorem nodup_insert_middle {i : Nat} {l : List Nat} (nd : l.Nodup) (hi : i ∉ l) (c : Nat) :
    (l.take c ++ i :: l.drop c).Nodup := by
  have hsplit : l.take c ++ l.drop c = l := List.take_append_drop c l
  have h1 : (l.take c ++ l.drop c).Nodup := by rw [hsplit]; exact nd
  rw [List.nodup_append] at h1
  have hit : i ∉ l.take c := fun hc => hi (hsplit ▸ List.mem_append.mpr (Or.inl hc))
  have hid : i ∉ l.drop c := fun hc => hi (hsplit ▸ List.mem_append.mpr (Or.inr hc))
  rw [List.nodup_append]
  refine ⟨h1.1, List.nodup_cons.mpr ⟨hid, h1.2.1⟩, ?_⟩
  intro a ha hb
  rcases List.mem_cons.mp hb with hb | hb
  · exact hit (hb ▸ ha)
  · exact h1.2.2 ha hb

/-! ### `LRU_Insert` on an unlisted live entry -/

theorem evictPre_ins_hot {s : Shard} (hp : EvictPre s) {i : Nat} {e : LRUHandle}
    (he : hget s.heap i = some e) (hnm : i ∉ s.lru)
    (hic : e.in_cache = true) (hr1 : e.refs = 1)
    (htbl : ∃ x ∈ tblEntries s.table, x.hid = i) :
    EvictPre { s with lru := s.lru ++ [i], heap := hset s.heap i { e with in_high_pri_pool := true }, high_pri_pool_usage := s.high_pri_pool_usage + e.charge, lru_usage := s.lru_usage + e.charge } := by
  have hch : ∀ j, chargeOf (hset s.heap i { e with in_high_pri_pool := true }) j =
      chargeOf s.heap j := chargeOf_hset_same he rfl
  have hci : chargeOf (hset s.heap i { e with in_high_pri_pool := true }) i = e.charge := by
    rw [chargeOf, hget_hset_self he]
    rfl
  refine
    { heapNodup := by
        show (heapIds (hset s.heap i { e with in_high_pri_pool := true })).Nodup
        rw [heapIds_hset]
        exact hp.heapNodup
      lruNodup := by
        show (s.lru ++ [i]).Nodup
        rw [List.nodup_append]
        refine ⟨hp.lruNodup, List.nodup_singleton i, ?_⟩
        intro a ha hb
        rw [List.mem_singleton] at hb
        exact hnm (hb ▸ ha)
      lruLive := ?_
      lowLe := by
        show s.lowCount ≤ (s.lru ++ [i]).length
        have := hp.lowLe
        simp
        omega
      lruUsageEq := by
        show s.lru_usage + e.charge =
          sumIds (hset s.heap i { e with in_high_pri_pool := true }) (s.lru ++ [i])
        rw [sumIds_append, sumIds_cons, sumIds_nil, hci,
          sumIds_congr (fun j _ => hch j), ← hp.lruUsageEq]
        omega
      poolUsageEq := by
        show s.high_pri_pool_usage + e.charge =
          sumIds (hset s.heap i { e with in_high_pri_pool := true })
            ((s.lru ++ [i]).drop s.lowCount)
        rw [drop_append_le _ hp.lowLe, sumIds_append, sumIds_cons, sumIds_nil, hci,
          sumIds_congr (fun j _ => hch j), ← hp.poolUsageEq]
        omega
      flagPos := ?_
      tblWF := hp.tblWF
      tblHeap := ?_
      lruTbl := ?_ }
  · intro j hj
    rcases List.mem_append.mp hj with hj | hj
    · have hji : j ≠ i := fun hc => hnm (hc ▸ hj)
      obtain ⟨e', hge', hc', hr'⟩ := hp.lruLive j hj
      exact ⟨e', by rw [hget_hset_ne hji]; exact hge', hc', hr'⟩
    · rw [List.mem_singleton] at hj
      subst hj
      exact ⟨{ e with in_high_pri_pool := true }, hget_hset_self he, hic, hr1⟩
  · intro n j hgn e2 hge2
    show e2.in_high_pri_pool = true ↔ s.lowCount ≤ n
    by_cases hn : n < s.lru.length
    · rw [List.get?_append hn] at hgn
      have hj : j ∈ s.lru := List.get?_mem hgn
      have hji : j ≠ i := fun hc => hnm (hc ▸ hj)
      rw [hget_hset_ne hji] at hge2
      exact hp.flagPos n j hgn e2 hge2
    · have hn' : s.lru.length ≤ n := Nat.le_of_not_lt hn
      rw [List.get?_append_right hn'] at hgn
      cases hd : n - s.lru.length with
      | zero =>
        rw [hd] at hgn
        have hgn2 : some i = some j := hgn
        have hji : j = i := (Option.some.inj hgn2).symm
        subst hji
        rw [hget_hset_self he] at hge2
        have he2 : e2 = { e with in_high_pri_pool := true } := (Option.some.inj hge2).symm
        rw [he2]
        have := hp.lowLe
        simp
        omega
      | succ m =>
        rw [hd] at hgn
        rw [List.get?_cons_succ] at hgn
        simp at hgn
  · intro x hx
    obtain ⟨e', hge', hk, hh, hc⟩ := hp.tblHeap x hx
    by_cases hxi : x.hid = i
    · rw [hxi] at hge' ⊢
      have hee : e' = e := by rw [he] at hge'; exact (Option.some.inj hge').symm
      refine ⟨{ e with in_high_pri_pool := true }, hget_hset_self he, ?_, ?_, ?_⟩
      · show e.key = x.ekey
        rw [← hee]; exact hk
      · show e.hash = x.ehash
        rw [← hee]; exact hh
      · show e.in_cache = true
        rw [← hee]; exact hc
    · rw [hget_hset_ne hxi]
      exact ⟨e', hge', hk, hh, hc⟩
  · intro j hj
    rcases List.mem_append.mp hj with hj | hj
    · exact hp.lruTbl j hj
    · rw [List.mem_singleton] at hj
      subst hj
      exact htbl

theorem evictPre_ins_cold {s : Shard} (hp : EvictPre s) {i : Nat} {e : LRUHandle}
    (he : hget s.heap i = some e) (hnm : i ∉ s.lru)
    (hic : e.in_cache = true) (hr1 : e.refs = 1)
    (htbl : ∃ x ∈ tblEntries s.table, x.hid = i) :
    EvictPre { s with lru := s.lru.take s.lowCount ++ i :: s.lru.drop s.lowCount, lowCount := s.lowCount + 1, heap := hset s.heap i { e with in_high_pri_pool := false }, lru_usage := s.lru_usage + e.charge } := by
  have hch : ∀ j, chargeOf (hset s.heap i { e with in_high_pri_pool := false }) j =
      chargeOf s.heap j := chargeOf_hset_same he rfl
  have hci : chargeOf (hset s.heap i { e with in_high_pri_pool := false }) i = e.charge := by
    rw [chargeOf, hget_hset_self he]
    rfl
  have hTakeLen : (s.lru.take s.lowCount).length = s.lowCount := by
    rw [List.length_take]
    exact min_eq_left hp.lowLe
  refine
    { heapNodup := by
        show (heapIds (hset s.heap i { e with in_high_pri_pool := false })).Nodup
        rw [heapIds_hset]
        exact hp.heapNodup
      lruNodup := nodup_insert_middle hp.lruNodup hnm s.lowCount
      lruLive := ?_
      lowLe := by
        show s.lowCount + 1 ≤ (s.lru.take s.lowCount ++ i :: s.lru.drop s.lowCount).length
        rw [List.length_append, hTakeLen, List.length_cons]
        omega
      lruUsageEq := by
        show s.lru_usage + e.charge =
          sumIds (hset s.heap i { e with in_high_pri_pool := false })
            (s.lru.take s.lowCount ++ i :: s.lru.drop s.lowCount)
        rw [sumIds_append, sumIds_cons, hci, sumIds_congr (fun j _ => hch j),
          sumIds_congr (fun j _ => hch j)]
        have h2 : sumIds s.heap (List.take s.lowCount s.lru) +
            sumIds s.heap (List.drop s.lowCount s.lru) = s.lru_usage := by
          rw [← sumIds_append, List.take_append_drop]
          exact hp.lruUsageEq.symm
        omega
      poolUsageEq := by
        show s.high_pri_pool_usage =
          sumIds (hset s.heap i { e with in_high_pri_pool := false })
            ((s.lru.take s.lowCount ++ i :: s.lru.drop s.lowCount).drop (s.lowCount + 1))
        rw [drop_append_ge _ (by rw [hTakeLen]; omega), hTakeLen]
        have h1 : s.lowCount + 1 - s.lowCount = 1 := by omega
        rw [h1]
        show s.high_pri_pool_usage =
          sumIds (hset s.heap i { e with in_high_pri_pool := false })
            (List.drop 0 (s.lru.drop s.lowCount))
        rw [List.drop_zero, sumIds_congr (fun j _ => hch j)]
        exact hp.poolUsageEq
      flagPos := ?_
      tblWF := hp.tblWF
      tblHeap := ?_
      lruTbl := ?_ }
  · intro j hj
    rcases List.mem_append.mp hj with hj | hj
    · have hj2 : j ∈ s.lru := List.mem_of_mem_take hj
      have hji : j ≠ i := fun hc => hnm (hc ▸ hj2)
      obtain ⟨e', hge', hc', hr'⟩ := hp.lruLive j hj2
      exact ⟨e', by rw [hget_hset_ne hji]; exact hge', hc', hr'⟩
    · rcases List.mem_cons.mp hj with hj | hj
      · subst hj
        exact ⟨{ e with in_high_pri_pool := false }, hget_hset_self he, hic, hr1⟩
      · have hj2 : j ∈ s.lru := List.mem_of_mem_drop hj
        have hji : j ≠ i := fun hc => hnm (hc ▸ hj2)
        obtain ⟨e', hge', hc', hr'⟩ := hp.lruLive j hj2
        exact ⟨e', by rw [hget_hset_ne hji]; exact hge', hc', hr'⟩
  · intro n j hgn e2 hge2
    show e2.in_high_pri_pool = true ↔ s.lowCount + 1 ≤ n
    by_cases hn : n < s.lowCount
    · rw [List.get?_append (by rw [hTakeLen]; exact hn)] at hgn
      have hgn0 : s.lru.get? n = some j := by
        rw [← List.get?_take hn]
        exact hgn
      have hj : j ∈ s.lru := List.get?_mem hgn0
      have hji : j ≠ i := fun hc => hnm (hc ▸ hj)
      rw [hget_hset_ne hji] at hge2
      have h1 := hp.flagPos n j hgn0 e2 hge2
      exact h1.trans (by omega)
    · have hn' : s.lowCount ≤ n := Nat.le_of_not_lt hn
      rw [List.get?_append_right (by rw [hTakeLen]; exact hn'), hTakeLen] at hgn
      cases hd : n - s.lowCount with
      | zero =>
        rw [hd] at hgn
        have hgn2 : some i = some j := hgn
        have hji : j = i := (Option.some.inj hgn2).symm
        subst hji
        rw [hget_hset_self he] at hge2
        have he2 : e2 = { e with in_high_pri_pool := false } := (Option.some.inj hge2).symm
        rw [he2]
        simp
        omega
      | succ m =>
        rw [hd, List.get?_cons_succ] at hgn
        have hgn0 : s.lru.get? (s.lowCount + m) = some j := by
          rw [← List.get?_drop]
          exact hgn
        have hj : j ∈ s.lru := List.get?_mem hgn0
        have hji : j ≠ i := fun hc => hnm (hc ▸ hj)
        rw [hget_hset_ne hji] at hge2
        have h1 := hp.flagPos (s.lowCount + m) j hgn0 e2 hge2
        exact h1.trans (by omega)
  · intro x hx
    obtain ⟨e', hge', hk, hh, hc⟩ := hp.tblHeap x hx
    by_cases hxi : x.hid = i
    · rw [hxi] at hge' ⊢
      have hee : e' = e := by rw [he] at hge'; exact (Option.some.inj hge').symm
      refine ⟨{ e with in_high_pri_pool := false }, hget_hset_self he, ?_, ?_, ?_⟩
      · show e.key = x.ekey
        rw [← hee]; exact hk
      · show e.hash = x.ehash
        rw [← hee]; exact hh
      · show e.in_cache = true
        rw [← hee]; exact hc
    · rw [hget_hset_ne hxi]
      exact ⟨e', hge', hk, hh, hc⟩
  · intro j hj
    rcases List.mem_append.mp hj with hj | hj
    · exact hp.lruTbl j (List.mem_of_mem_take hj)
    · rcases List.mem_cons.mp hj with hj | hj
      · subst hj
        exact htbl
      · exact hp.lruTbl j (List.mem_of_mem_drop hj)

theorem lruInsert_spec {s : Shard} (hp : EvictPre s) {i : Nat} {e : LRUHandle}
    (he : hget s.heap i = some e) (hnm : i ∉ s.lru)
    (hic : e.in_cache = true) (hr1 : e.refs = 1)
    (htbl : ∃ x ∈ tblEntries s.table, x.hid = i) :
    InsOut s (LRU_Insert s i) i e := by
  have hLI : LRU_Insert s i =
      (if s.high_pri_pool_ratio.isPos = true ∧ (e.is_high_pri = true ∨ e.has_hit = true) then
        LRUUsageAdd (MaintainPoolSize (HighPriPoolUsageAdd { s with lru := s.lru ++ [i], heap := hset s.heap i { e with in_high_pri_pool := true } } e)) e
      else
        LRUUsageAdd { s with lru := s.lru.take s.lowCount ++ i :: s.lru.drop s.lowCount, lowCount := s.lowCount + 1, heap := hset s.heap i { e with in_high_pri_pool := false } } e) := by
    rw [LRU_Insert, he]
  by_cases hcond : s.high_pri_pool_ratio.isPos = true ∧
      (e.is_high_pri = true ∨ e.has_hit = true)
  · rw [hLI, if_pos hcond]
    have hEP := evictPre_ins_hot hp he hnm hic hr1 htbl
    have hM := maintain_spec hEP
    have hcomm : LRUUsageAdd (MaintainPoolSize (HighPriPoolUsageAdd { s with lru := s.lru ++ [i], heap := hset s.heap i { e with in_high_pri_pool := true } } e)) e =
        MaintainPoolSize { s with lru := s.lru ++ [i], heap := hset s.heap i { e with in_high_pri_pool := true }, high_pri_pool_usage := s.high_pri_pool_usage + e.charge, lru_usage := s.lru_usage + e.charge } :=
      (maintainGo_lruUsageAdd e _ _).symm
    rw [hcomm]
    refine
      { pre := hM.pre
        lruMem := ?_
        heapPool := ?_
        ids := ?_
        usage := hM.usage
        lruUsage := hM.lruUsage
        tblEq := hM.tblEq
        cap := hM.cap
        strictEq := hM.strictEq
        ratEq := hM.ratEq
        poolCap := hM.poolCap
        dels := hM.dels
        nid := hM.nid
        poolOk := fun _ => hM.poolOk }
    · intro j
      rw [hM.lruEq]
      show j ∈ s.lru ++ [i] ↔ _
      rw [List.mem_append, List.mem_singleton]
      constructor
      · intro h
        rcases h with h | h
        · exact Or.inr h
        · exact Or.inl h
      · intro h
        rcases h with h | h
        · exact Or.inr h
        · exact Or.inl h
    · intro j
      refine (hM.heapPool j).trans ?_
      show (hget (hset s.heap i { e with in_high_pri_pool := true }) j).map poolCleared =
        (hget s.heap j).map poolCleared
      by_cases hji : j = i
      · subst hji
        rw [hget_hset_self he, he]
        rfl
      · rw [hget_hset_ne hji]
    · refine hM.ids.trans ?_
      show heapIds (hset s.heap i { e with in_high_pri_pool := true }) = heapIds s.heap
      exact heapIds_hset _ _ _
  · rw [hLI, if_neg hcond]
    have hEP := evictPre_ins_cold hp he hnm hic hr1 htbl
    refine
      { pre := hEP
        lruMem := ?_
        heapPool := ?_
        ids := ?_
        usage := rfl
        lruUsage := rfl
        tblEq := rfl
        cap := rfl
        strictEq := rfl
        ratEq := rfl
        poolCap := rfl
        dels := rfl
        nid := rfl
        poolOk := fun h => h }
    · intro j
      show j ∈ s.lru.take s.lowCount ++ i :: s.lru.drop s.lowCount ↔ _
      rw [List.mem_append, List.mem_cons]
      constructor
      · intro h
        rcases h with h | h | h
        · exact Or.inr (List.mem_of_mem_take h)
        · exact Or.inl h
        · exact Or.inr (List.mem_of_mem_drop h)
      · intro h
        rcases h with h | h
        · exact Or.inr (Or.inl h)
        · have h2 : j ∈ s.lru.take s.lowCount ++ s.lru.drop s.lowCount := by
            rw [List.take_append_drop]
            exact h
          rcases List.mem_append.mp h2 with h3 | h3
          · exact Or.inl h3
          · exact Or.inr (Or.inr h3)
    · intro j
      show (hget (hset s.heap i { e with in_high_pri_pool := false }) j).map poolCleared =
        (hget s.heap j).map poolCleared
      by_cases hji : j = i
      · subst hji
        rw [hget_hset_self he, he]
        rfl
      · rw [hget_hset_ne hji]
    · show heapIds (hset s.heap i { e with in_high_pri_pool := false }) = heapIds s.heap
      exact heapIds_hset _ _ _

/-! ### Post-unlock frees -/

theorem hdel_sublist (h : List (Nat × LRUHandle)) (i : Nat) : (hdel h i).Sublist h := by
  induction h with
  | nil => simp [hdel]
  | cons p t ih =>
    by_cases hp : p.1 = i
    · rw [hdel, if_pos hp]; exact List.sublist_cons_self p t
    · rw [hdel, if_neg hp]; exact ih.cons₂ p

theorem foldl_hdel_sublist (g : List Nat) : ∀ (h : List (Nat × LRUHandle)),
    (g.foldl hdel h).Sublist h := by
  induction g with
  | nil => intro h; exact List.Sublist.refl h
  | cons a t ih =>
    intro h
    exact (ih (hdel h a)).trans (hdel_sublist h a)

theorem ids_foldl_hdel_sublist (g : List Nat) (h : List (Nat × LRUHandle)) :
    (heapIds (g.foldl hdel h)).Sublist (heapIds h) :=
  (foldl_hdel_sublist g h).map Prod.fst

theorem mem_listErase_of_ne {j i : Nat} {l : List Nat} (hne : j ≠ i) :
    j ∈ listErase i l ↔ j ∈ l := by
  induction l with
  | nil => simp [listErase]
  | cons a t ih =>
    by_cases hp : a = i
    · rw [listErase, if_pos hp]
      constructor
      · intro h; exact List.mem_cons_of_mem a h
      · intro h
        rcases List.mem_cons.mp h with h | h
        · exact absurd (h.trans hp) hne
        · exact h
    · rw [listErase, if_neg hp]
      constructor
      · intro h
        rcases List.mem_cons.mp h with h | h
        · exact h ▸ List.mem_cons_self a t
        · exact List.mem_cons_of_mem a (ih.mp h)
      · intro h
        rcases List.mem_cons.mp h with h | h
        · exact h ▸ List.mem_cons_self a (listErase i t)
        · exact List.mem_cons_of_mem a (ih.mpr h)

theorem ids_foldl_hdel_not_mem (g : List Nat) : ∀ (h : List (Nat × LRUHandle)),
    (heapIds h).Nodup → ∀ j ∈ g, j ∉ heapIds (g.foldl hdel h) := by
  induction g with
  | nil => intro h _ j hj; simp at hj
  | cons a t ih =>
    intro h nd j hj
    rcases List.mem_cons.mp hj with hj | hj
    · rw [hj]
      intro hc
      have hsub := ids_foldl_hdel_sublist t (hdel h a)
      have h2 : a ∈ heapIds (hdel h a) := hsub.mem hc
      rw [heapIds_hdel] at h2
      exact not_mem_listErase_self nd h2
    · have nd' : (heapIds (hdel h a)).Nodup := by
        rw [heapIds_hdel]
        exact listErase_nodup nd
      exact ih (hdel h a) nd' j hj

theorem mem_ids_foldl_hdel (g : List Nat) : ∀ (h : List (Nat × LRUHandle)) (j : Nat),
    j ∉ g → (j ∈ heapIds (g.foldl hdel h) ↔ j ∈ heapIds h) := by
  induction g with
  | nil => intro h j _; exact Iff.rfl
  | cons a t ih =>
    intro h j hng
    have hja : j ≠ a := fun hc => hng (hc ▸ List.mem_cons_self a t)
    have hjt : j ∉ t := fun hc => hng (List.mem_cons_of_mem a hc)
    refine (ih (hdel h a) j hjt).trans ?_
    rw [heapIds_hdel]
    exact mem_listErase_of_ne hja

theorem hget_foldl_hdel_not_mem (g : List Nat) : ∀ (h : List (Nat × LRUHandle)) (j : Nat),
    j ∉ g → hget (g.foldl hdel h) j = hget h j := by
  induction g with
  | nil => intro h j _; rfl
  | cons a t ih =>
    intro h j hng
    have hja : j ≠ a := fun hc => hng (hc ▸ List.mem_cons_self a t)
    have hjt : j ∉ t := fun hc => hng (List.mem_cons_of_mem a hc)
    exact (ih (hdel h a) j hjt).trans (hget_hdel_ne hja)

theorem sumCharge_foldl_hdel (g : List Nat) : ∀ (h : List (Nat × LRUHandle)),
    (heapIds h).Nodup → g.Nodup → (∀ j ∈ g, ∃ e, hget h j = some e) →
    sumCharge (g.foldl hdel h) = sumCharge h - sumIds h g ∧
    sumIds h g ≤ sumCharge h := by
  induction g with
  | nil =>
    intro h _ _ _
    exact ⟨by simp [sumIds], by simp [sumIds]⟩
  | cons a t ih =>
    intro h nd ndg hg
    obtain ⟨e, he⟩ := hg a (List.mem_cons_self a t)
    have nd' : (heapIds (hdel h a)).Nodup := by
      rw [heapIds_hdel]
      exact listErase_nodup nd
    have ndg' : t.Nodup := (List.nodup_cons.mp ndg).2
    have hat : a ∉ t := (List.nodup_cons.mp ndg).1
    have hg' : ∀ j ∈ t, ∃ e2, hget (hdel h a) j = some e2 := by
      intro j hj
      have hja : j ≠ a := fun hc => hat (hc ▸ hj)
      rw [hget_hdel_ne hja]
      exact hg j (List.mem_cons_of_mem a hj)
    obtain ⟨hIH1, hIH2⟩ := ih (hdel h a) nd' ndg' hg'
    have hdel1 : sumCharge (hdel h a) = sumCharge h - e.charge := sumCharge_hdel he
    have hle1 : e.charge ≤ sumCharge h := le_sumCharge he
    have hcongr : sumIds (hdel h a) t = sumIds h t := by
      apply sumIds_congr
      intro j hj
      have hja : j ≠ a := fun hc => hat (hc ▸ hj)
      rw [chargeOf, chargeOf, hget_hdel_ne hja]
    rw [hcongr, hdel1] at hIH1 hIH2
    rw [sumIds_cons, chargeOf_eq he]
    show sumCharge (t.foldl hdel (hdel h a)) = _ ∧ _
    rw [hIH1]
    omega

theorem freeAll_fields (g : List Nat) : ∀ (s : Shard),
    (freeAll s g).table = s.table ∧ (freeAll s g).lru = s.lru ∧
    (freeAll s g).lowCount = s.lowCount ∧ (freeAll s g).usage = s.usage ∧
    (freeAll s g).lru_usage = s.lru_usage ∧
    (freeAll s g).high_pri_pool_usage = s.high_pri_pool_usage ∧
    (freeAll s g).capacity = s.capacity ∧
    (freeAll s g).strict_capacity_limit = s.strict_capacity_limit ∧
    (freeAll s g).high_pri_pool_ratio = s.high_pri_pool_ratio ∧
    (freeAll s g).high_pri_pool_capacity = s.high_pri_pool_capacity ∧
    (freeAll s g).nextId = s.nextId ∧
    (freeAll s g).deleters_run = s.deleters_run ++ g := by
  induction g with
  | nil =>
    intro s
    refine ⟨rfl, rfl, rfl, rfl, rfl, rfl, rfl, rfl, rfl, rfl, rfl, ?_⟩
    show s.deleters_run = s.deleters_run ++ []
    simp
  | cons a t ih =>
    intro s
    obtain ⟨h1, h2, h3, h4, h5, h6, h7, h8, h9, h10, h11, h12⟩ := ih (Free s a)
    refine ⟨h1, h2, h3, h4, h5, h6, h7, h8, h9, h10, h11, ?_⟩
    have h12b : (freeAll s (a :: t)).deleters_run = (Free s a).deleters_run ++ t := h12
    rw [h12b]
    show s.deleters_run ++ [a] ++ t = s.deleters_run ++ a :: t
    simp

theorem freeAll_heap (g : List Nat) : ∀ (s : Shard),
    (freeAll s g).heap = g.foldl hdel s.heap := by
  induction g with
  | nil => intro s; rfl
  | cons a t ih =>
    intro s
    show (freeAll (Free s a) t).heap = _
    rw [ih (Free s a)]
    rfl

/-- Draining the scratch list restores the full invariant. -/
theorem midInv_freeAll {s : Shard} {hs g : List Nat} (m : MidInv s hs g) :
    Inv (freeAll s g) hs := by
  obtain ⟨hTbl, hLru, hLow, hUse, hLruU, hPool, hCap, hStrict, hRat, hPoolCap, hNid, hDels⟩ :=
    freeAll_fields g s
  have hH := freeAll_heap g s
  have hndup := m.pre.heapNodup
  have hmemS : ∀ p ∈ (freeAll s g).heap, p ∈ s.heap := by
    intro p hp
    rw [hH] at hp
    exact (foldl_hdel_sublist g s.heap).subset hp
  have hnotg : ∀ p ∈ (freeAll s g).heap, p.1 ∉ g := by
    intro p hp hpg
    have hmem : p.1 ∈ heapIds (freeAll s g).heap := List.mem_map.mpr ⟨p, hp, rfl⟩
    rw [hH] at hmem
    exact ids_foldl_hdel_not_mem g s.heap hndup p.1 hpg hmem
  have hgetEq : ∀ j, j ∉ g → hget (freeAll s g).heap j = hget s.heap j := by
    intro j hj
    rw [hH]
    exact hget_foldl_hdel_not_mem g s.heap j hj
  have hchEq : ∀ j ∈ s.lru, chargeOf (freeAll s g).heap j = chargeOf s.heap j := by
    intro j hj
    have hjg : j ∉ g := fun hc => m.gLru j hc hj
    rw [chargeOf, chargeOf, hgetEq j hjg]
  refine
    { pre :=
      { heapNodup := by
          rw [hH]
          exact (ids_foldl_hdel_sublist g s.heap).nodup hndup
        lruNodup := by rw [hLru]; exact m.pre.lruNodup
        lruLive := ?_
        lowLe := by rw [hLru, hLow]; exact m.pre.lowLe
        lruUsageEq := by
          rw [hLru, hLruU, sumIds_congr hchEq]
          exact m.pre.lruUsageEq
        poolUsageEq := by
          rw [hLru, hLow, hPool,
            sumIds_congr (fun j hj => hchEq j (List.mem_of_mem_drop hj))]
          exact m.pre.poolUsageEq
        flagPos := ?_
        tblWF := by rw [hTbl]; exact m.pre.tblWF
        tblHeap := ?_
        lruTbl := by rw [hTbl, hLru]; exact m.pre.lruTbl }
      heapLt := ?_
      refsEq := ?_
      liveRef := ?_
      hsLive := ?_
      lruSpec := ?_
      usageEq := ?_
      cacheTbl := ?_
      capEq := by rw [hPoolCap, hCap, hRat]; exact m.capEq }
  · intro j hj
    rw [hLru] at hj
    have hjg : j ∉ g := fun hc => m.gLru j hc hj
    rw [hgetEq j hjg]
    exact m.pre.lruLive j hj
  · intro n j hgn e2 hge2
    rw [hLru] at hgn
    have hj : j ∈ s.lru := List.get?_mem hgn
    have hjg : j ∉ g := fun hc => m.gLru j hc hj
    rw [hgetEq j hjg] at hge2
    rw [hLow]
    exact m.pre.flagPos n j hgn e2 hge2
  · intro x hx
    rw [hTbl] at hx
    have hxg : x.hid ∉ g := fun hc => m.gTbl x.hid hc x hx rfl
    rw [hgetEq x.hid hxg]
    exact m.pre.tblHeap x hx
  · intro p hp
    rw [hNid]
    exact m.heapLt p (hmemS p hp)
  · intro p hp
    exact m.refsEq p (hmemS p hp) (hnotg p hp)
  · intro p hp
    exact m.liveRef p (hmemS p hp) (hnotg p hp)
  · intro i hi
    obtain ⟨hi1, hi2⟩ := m.hsLive i hi
    rw [hH]
    exact (mem_ids_foldl_hdel g s.heap i hi2).mpr hi1
  · intro p hp
    rw [hLru]
    exact m.lruSpec p (hmemS p hp) (hnotg p hp)
  · rw [hUse, hH]
    obtain ⟨h1, _⟩ := sumCharge_foldl_hdel g s.heap hndup m.gNodup m.gHeap
    rw [h1]
    exact m.usageEq
  · intro p hp hc
    rw [hTbl]
    exact m.cacheTbl p (hmemS p hp) (hnotg p hp) hc

/-! ### From an eviction run to the mid-lock invariant -/

theorem popOut_midInv {s t : Shard} {hs : List Nat} {k : Nat} (hv : Inv s hs)
    (hPO : PopOut s t k) : MidInv t hs (s.lru.take k) := by
  have hndT : (heapIds t.heap).Nodup := hPO.pre.heapNodup
  have hmemS : ∀ p ∈ t.heap, p.1 ∉ s.lru.take k → (p.1, p.2) ∈ s.heap := by
    intro p hp hpg
    have hg : hget t.heap p.1 = some p.2 := hget_of_mem_nodup hndT hp
    rw [hPO.heapSame p.1 hpg] at hg
    exact hget_mem hg
  have hlruSplit : s.lru.take k ++ s.lru.drop k = s.lru := List.take_append_drop k s.lru
  refine
    { pre := hPO.pre
      heapLt := ?_
      refsEq := fun p hp hpg => hv.refsEq p (hmemS p hp hpg)
      liveRef := fun p hp hpg => hv.liveRef p (hmemS p hp hpg)
      hsLive := ?_
      lruSpec := ?_
      gLru := ?_
      gTbl := ?_
      gHeap := ?_
      gNodup := (List.take_sublist k s.lru).nodup hv.pre.lruNodup
      usageEq := ?_
      cacheTbl := ?_
      capEq := by rw [hPO.poolCap, hPO.cap, hPO.ratEq]; exact hv.capEq }
  · intro p hp
    have hid : p.1 ∈ heapIds t.heap := List.mem_map.mpr ⟨p, hp, rfl⟩
    rw [hPO.ids] at hid
    obtain ⟨e, he⟩ := hget_isSome_of_mem hid
    have := hv.heapLt (p.1, e) (hget_mem he)
    rw [hPO.nid]
    exact this
  · intro i hi
    have h1 := hv.hsLive i hi
    refine ⟨by rw [hPO.ids]; exact h1, ?_⟩
    intro hc
    have hil : i ∈ s.lru := List.mem_of_mem_take hc
    obtain ⟨e, he, hic, hr1⟩ := hv.pre.lruLive i hil
    have hrefs := hv.refsEq (i, e) (hget_mem he)
    rw [hr1, hic] at hrefs
    have hpos := natCount_pos hi
    simp at hrefs
    omega
  · intro p hp hpg
    have hmem := hmemS p hp hpg
    have h1 := hv.lruSpec p hmem
    rw [hPO.lru]
    constructor
    · intro h2
      exact h1.mp (by rw [← hlruSplit]; exact List.mem_append.mpr (Or.inr h2))
    · intro h2
      have h3 := h1.mpr h2
      rw [← hlruSplit] at h3
      rcases List.mem_append.mp h3 with h4 | h4
      · exact absurd h4 hpg
      · exact h4
  · intro j hj
    rw [hPO.lru]
    intro hc
    have hnd := hv.pre.lruNodup
    rw [← hlruSplit, List.nodup_append] at hnd
    exact hnd.2.2 hj hc
  · intro j hj x hx
    have := (hPO.tbl x).mp hx
    intro hc
    exact this.2 (hc ▸ hj)
  · intro j hj
    obtain ⟨e, _, he2⟩ := hPO.heapEvict j hj
    exact ⟨_, he2⟩
  · have h1 : sumCharge t.heap = sumCharge s.heap :=
      sumCharge_transfer hndT hPO.ids (popOut_chargeEq hPO)
    have h2 : sumIds t.heap (s.lru.take k) = sumIds s.heap (s.lru.take k) :=
      sumIds_congr (fun j _ => popOut_chargeEq hPO j)
    rw [hPO.usage, h1, h2, hv.usageEq]
  · intro p hp hpg hc
    have hmem := hmemS p hp hpg
    obtain ⟨x, hx, hxi⟩ := hv.cacheTbl p hmem hc
    refine ⟨x, ?_, hxi⟩
    exact (hPO.tbl x).mpr ⟨hx, hxi ▸ hpg⟩

theorem midInv_of_inv {s : Shard} {hs : List Nat} (hv : Inv s hs) : MidInv s hs [] :=
  { pre := hv.pre
    heapLt := hv.heapLt
    refsEq := fun p hp _ => hv.refsEq p hp
    liveRef := fun p hp _ => hv.liveRef p hp
    hsLive := fun i hi => ⟨hv.hsLive i hi, by simp⟩
    lruSpec := fun p hp _ => hv.lruSpec p hp
    gLru := by intro j hj; simp at hj
    gTbl := by intro j hj; simp at hj
    gHeap := by intro j hj; simp at hj
    gNodup := List.nodup_nil
    usageEq := by rw [sumIds_nil, hv.usageEq]; omega
    cacheTbl := fun p hp _ => hv.cacheTbl p hp
    capEq := hv.capEq }

theorem midInv_perm {s : Shard} {hs g g2 : List Nat} (m : MidInv s hs g)
    (hperm : g.Perm g2) : MidInv s hs g2 :=
  { pre := m.pre
    heapLt := m.heapLt
    refsEq := fun p hp hpg => m.refsEq p hp (fun hc => hpg (hperm.mem_iff.mp hc))
    liveRef := fun p hp hpg => m.liveRef p hp (fun hc => hpg (hperm.mem_iff.mp hc))
    hsLive := fun i hi => ⟨(m.hsLive i hi).1,
      fun hc => (m.hsLive i hi).2 (hperm.mem_iff.mpr hc)⟩
    lruSpec := fun p hp hpg => m.lruSpec p hp (fun hc => hpg (hperm.mem_iff.mp hc))
    gLru := fun j hj => m.gLru j (hperm.mem_iff.mpr hj)
    gTbl := fun j hj => m.gTbl j (hperm.mem_iff.mpr hj)
    gHeap := fun j hj => m.gHeap j (hperm.mem_iff.mpr hj)
    gNodup := hperm.nodup_iff.mp m.gNodup
    usageEq := by
      rw [m.usageEq]
      have : sumIds s.heap g = sumIds s.heap g2 := (hperm.map (chargeOf s.heap)).sum_eq
      rw [this]
    cacheTbl := fun p hp hpg => m.cacheTbl p hp (fun hc => hpg (hperm.mem_iff.mp hc))
    capEq := m.capEq }

theorem midInv_popOut {s t : Shard} {hs g0 : List Nat} {k : Nat} (m : MidInv s hs g0)
    (hPO : PopOut s t k) : MidInv t hs (g0 ++ s.lru.take k) := by
  have hndT : (heapIds t.heap).Nodup := hPO.pre.heapNodup
  have htklru : ∀ j ∈ s.lru.take k, j ∈ s.lru := fun j hj => List.mem_of_mem_take hj
  have hg0tk : ∀ j ∈ g0, j ∉ s.lru.take k := fun j hj hc => m.gLru j hj (htklru j hc)
  have hmemS : ∀ p ∈ t.heap, p.1 ∉ s.lru.take k → (p.1, p.2) ∈ s.heap := by
    intro p hp hpg
    have hg : hget t.heap p.1 = some p.2 := hget_of_mem_nodup hndT hp
    rw [hPO.heapSame p.1 hpg] at hg
    exact hget_mem hg
  have hlruSplit : s.lru.take k ++ s.lru.drop k = s.lru := List.take_append_drop k s.lru
  have hsplitg : ∀ {j : Nat}, j ∉ g0 ++ s.lru.take k → j ∉ g0 ∧ j ∉ s.lru.take k := by
    intro j hj
    exact ⟨fun hc => hj (List.mem_append.mpr (Or.inl hc)),
      fun hc => hj (List.mem_append.mpr (Or.inr hc))⟩
  refine
    { pre := hPO.pre
      heapLt := ?_
      refsEq := fun p hp hpg => m.refsEq p (hmemS p hp (hsplitg hpg).2) (hsplitg hpg).1
      liveRef := fun p hp hpg => m.liveRef p (hmemS p hp (hsplitg hpg).2) (hsplitg hpg).1
      hsLive := ?_
      lruSpec := ?_
      gLru := ?_
      gTbl := ?_
      gHeap := ?_
      gNodup := ?_
      usageEq := ?_
      cacheTbl := ?_
      capEq := by rw [hPO.poolCap, hPO.cap, hPO.ratEq]; exact m.capEq }
  · intro p hp
    have hid : p.1 ∈ heapIds t.heap := List.mem_map.mpr ⟨p, hp, rfl⟩
    rw [hPO.ids] at hid
    obtain ⟨e, he⟩ := hget_isSome_of_mem hid
    have := m.heapLt (p.1, e) (hget_mem he)
    rw [hPO.nid]
    exact this
  · intro i hi
    obtain ⟨h1, h2⟩ := m.hsLive i hi
    refine ⟨by rw [hPO.ids]; exact h1, ?_⟩
    intro hc
    rcases List.mem_append.mp hc with hc | hc
    · exact h2 hc
    · have hil : i ∈ s.lru := htklru i hc
      obtain ⟨e, he, hic, hr1⟩ := m.pre.lruLive i hil
      have hrefs := m.refsEq (i, e) (hget_mem he) h2
      rw [hr1, hic] at hrefs
      have hpos := natCount_pos hi
      simp at hrefs
      omega
  · intro p hp hpg
    obtain ⟨hg0, htk⟩ := hsplitg hpg
    have hmem := hmemS p hp htk
    have h1 := m.lruSpec p hmem hg0
    rw [hPO.lru]
    constructor
    · intro h2
      exact h1.mp (by rw [← hlruSplit]; exact List.mem_append.mpr (Or.inr h2))
    · intro h2
      have h3 := h1.mpr h2
      rw [← hlruSplit] at h3
      rcases List.mem_append.mp h3 with h4 | h4
      · exact absurd h4 htk
      · exact h4
  · intro j hj
    rw [hPO.lru]
    rcases List.mem_append.mp hj with hj | hj
    · intro hc
      exact m.gLru j hj (List.mem_of_mem_drop hc)
    · intro hc
      have hnd := m.pre.lruNodup
      rw [← hlruSplit, List.nodup_append] at hnd
      exact hnd.2.2 hj hc
  · intro j hj x hx
    have h1 := (hPO.tbl x).mp hx
    rcases List.mem_append.mp hj with hj | hj
    · exact m.gTbl j hj x h1.1
    · intro hc
      exact h1.2 (hc ▸ hj)
  · intro j hj
    rcases List.mem_append.mp hj with hj | hj
    · obtain ⟨e, he⟩ := m.gHeap j hj
      refine ⟨e, ?_⟩
      rw [hPO.heapSame j (hg0tk j hj)]
      exact he
    · obtain ⟨e, _, he2⟩ := hPO.heapEvict j hj
      exact ⟨_, he2⟩
  · rw [List.nodup_append]
    exact ⟨m.gNodup, (List.take_sublist k s.lru).nodup m.pre.lruNodup, hg0tk⟩
  · have h1 : sumCharge t.heap = sumCharge s.heap :=
      sumCharge_transfer hndT hPO.ids (popOut_chargeEq hPO)
    have h2 : sumIds t.heap (g0 ++ s.lru.take k) = sumIds s.heap (g0 ++ s.lru.take k) :=
      sumIds_congr (fun j _ => popOut_chargeEq hPO j)
    rw [hPO.usage, h1, h2, m.usageEq, sumIds_append]
    omega
  · intro p hp hpg hc
    obtain ⟨hg0, htk⟩ := hsplitg hpg
    have hmem := hmemS p hp htk
    obtain ⟨x, hx, hxi⟩ := m.cacheTbl p hmem hg0 hc
    refine ⟨x, ?_, hxi⟩
    exact (hPO.tbl x).mpr ⟨hx, hxi ▸ htk⟩

/-! ### Invariant preservation, operation by operation -/

theorem poolClearedEq_fields {e f : LRUHandle} (h : poolCleared e = poolCleared f) :
    e.refs = f.refs ∧ e.in_cache = f.in_cache ∧ e.charge = f.charge ∧
    e.key = f.key ∧ e.hash = f.hash := by
  have h1 : (poolCleared e).refs = (poolCleared f).refs := congrArg LRUHandle.refs h
  have h2 : (poolCleared e).in_cache = (poolCleared f).in_cache :=
    congrArg LRUHandle.in_cache h
  have h3 : (poolCleared e).charge = (poolCleared f).charge := congrArg LRUHandle.charge h
  have h4 : (poolCleared e).key = (poolCleared f).key := congrArg LRUHandle.key h
  have h5 : (poolCleared e).hash = (poolCleared f).hash := congrArg LRUHandle.hash h
  exact ⟨h1, h2, h3, h4, h5⟩

theorem inv_transfer_poolflags {s t : Shard} {hs : List Nat} (hv : Inv s hs)
    (hpre : EvictPre t)
    (hlru : t.lru = s.lru)
    (hpool : ∀ j, (hget t.heap j).map poolCleared = (hget s.heap j).map poolCleared)
    (hids : heapIds t.heap = heapIds s.heap)
    (husage : t.usage = s.usage)
    (htbl : t.table = s.table)
    (hnid : t.nextId = s.nextId)
    (hcap : t.high_pri_pool_capacity = ratioFloor t.capacity t.high_pri_pool_ratio) :
    Inv t hs := by
  have htr := heap_transfer hpre.heapNodup hpool
  refine
    { pre := hpre
      heapLt := ?_
      refsEq := ?_
      liveRef := ?_
      hsLive := fun i hi => by rw [hids]; exact hv.hsLive i hi
      lruSpec := ?_
      usageEq := ?_
      cacheTbl := ?_
      capEq := hcap }
  · intro p hp
    obtain ⟨e, he, _⟩ := htr p hp
    rw [hnid]
    exact hv.heapLt (p.1, e) he
  · intro p hp
    obtain ⟨e, he, heq⟩ := htr p hp
    obtain ⟨h1, h2, _, _, _⟩ := poolClearedEq_fields heq
    have h3 : e.refs = (if e.in_cache = true then 1 else 0) + natCount p.1 hs :=
      hv.refsEq (p.1, e) he
    rw [h1, h2] at h3
    exact h3
  · intro p hp
    obtain ⟨e, he, heq⟩ := htr p hp
    obtain ⟨_, h2, _, _, _⟩ := poolClearedEq_fields heq
    have h3 : e.in_cache = true ∨ 0 < natCount p.1 hs := hv.liveRef (p.1, e) he
    rw [h2] at h3
    exact h3
  · intro p hp
    obtain ⟨e, he, heq⟩ := htr p hp
    obtain ⟨h1, h2, _, _, _⟩ := poolClearedEq_fields heq
    have h3 : p.1 ∈ s.lru ↔ (e.in_cache = true ∧ e.refs = 1) := hv.lruSpec (p.1, e) he
    rw [h1, h2] at h3
    rw [hlru]
    exact h3
  · have h1 : sumCharge t.heap = sumCharge s.heap :=
      sumCharge_transfer hpre.heapNodup hids (fun j => chargeOf_poolCleared (hpool j))
    rw [husage, h1, hv.usageEq]
  · intro p hp hc
    obtain ⟨e, he, heq⟩ := htr p hp
    obtain ⟨_, h2, _, _, _⟩ := poolClearedEq_fields heq
    rw [htbl]
    exact hv.cacheTbl (p.1, e) he (by rw [h2]; exact hc)

theorem inv_setStrict {s : Shard} {hs : List Nat} (hv : Inv s hs) (b : Bool) :
    Inv (s.SetStrictCapacityLimit b) hs ∧
    (PoolOK s → PoolOK (s.SetStrictCapacityLimit b)) := by
  refine ⟨?_, fun h => h⟩
  exact
    { pre :=
      { heapNodup := hv.pre.heapNodup
        lruNodup := hv.pre.lruNodup
        lruLive := hv.pre.lruLive
        lowLe := hv.pre.lowLe
        lruUsageEq := hv.pre.lruUsageEq
        poolUsageEq := hv.pre.poolUsageEq
        flagPos := hv.pre.flagPos
        tblWF := hv.pre.tblWF
        tblHeap := hv.pre.tblHeap
        lruTbl := hv.pre.lruTbl }
      heapLt := hv.heapLt
      refsEq := hv.refsEq
      liveRef := hv.liveRef
      hsLive := hv.hsLive
      lruSpec := hv.lruSpec
      usageEq := hv.usageEq
      cacheTbl := hv.cacheTbl
      capEq := hv.capEq }

theorem inv_eraseUnRef {s : Shard} {hs : List Nat} (hv : Inv s hs) :
    Inv s.EraseUnRefEntries hs ∧ (PoolOK s → PoolOK s.EraseUnRefEntries) := by
  obtain ⟨k, hPO, hscr, hnil⟩ := eraseUnRefGo_spec s.lru.length s [] hv.pre (Nat.le_refl _)
  have hm := midInv_popOut (midInv_of_inv hv) hPO
  obtain ⟨_, _, _, _, _, hPoolF, _, _, _, hPoolCapF, _, _⟩ :=
    freeAll_fields (EraseUnRefGo s [] s.lru.length).2 (EraseUnRefGo s [] s.lru.length).1
  constructor
  · show Inv (freeAll (EraseUnRefGo s [] s.lru.length).1
      (EraseUnRefGo s [] s.lru.length).2) hs
    rw [hscr]
    exact midInv_freeAll hm
  · intro hok
    show (freeAll (EraseUnRefGo s [] s.lru.length).1
        (EraseUnRefGo s [] s.lru.length).2).high_pri_pool_usage ≤
      (freeAll (EraseUnRefGo s [] s.lru.length).1
        (EraseUnRefGo s [] s.lru.length).2).high_pri_pool_capacity
    rw [hPoolF, hPoolCapF, hPO.pool, hPO.poolCap]
    rw [PoolOK] at hok
    omega

theorem inv_setCapacity {s : Shard} {hs : List Nat} (hv : Inv s hs) (c : Nat) :
    Inv (s.SetCapacity c) hs := by
  have hv1 : Inv { s with capacity := c, high_pri_pool_capacity := ratioFloor c s.high_pri_pool_ratio } hs :=
    { pre :=
      { heapNodup := hv.pre.heapNodup
        lruNodup := hv.pre.lruNodup
        lruLive := hv.pre.lruLive
        lowLe := hv.pre.lowLe
        lruUsageEq := hv.pre.lruUsageEq
        poolUsageEq := hv.pre.poolUsageEq
        flagPos := hv.pre.flagPos
        tblWF := hv.pre.tblWF
        tblHeap := hv.pre.tblHeap
        lruTbl := hv.pre.lruTbl }
      heapLt := hv.heapLt
      refsEq := hv.refsEq
      liveRef := hv.liveRef
      hsLive := hv.hsLive
      lruSpec := hv.lruSpec
      usageEq := hv.usageEq
      cacheTbl := hv.cacheTbl
      capEq := rfl }
  obtain ⟨k, hPO, hscr, _, _⟩ := evictFromLRU_spec hv1.pre 0
  have hm := midInv_popOut (midInv_of_inv hv1) hPO
  show Inv (freeAll (EvictFromLRU { s with capacity := c, high_pri_pool_capacity := ratioFloor c s.high_pri_pool_ratio } 0).1 (EvictFromLRU { s with capacity := c, high_pri_pool_capacity := ratioFloor c s.high_pri_pool_ratio } 0).2) hs
  rw [hscr]
  exact midInv_freeAll hm

theorem inv_setRatio {s : Shard} {hs : List Nat} (hv : Inv s hs) (r : Ratio) :
    Inv (s.SetHighPriorityPoolRatio r) hs ∧ PoolOK (s.SetHighPriorityPoolRatio r) := by
  have hv1 : Inv { s with high_pri_pool_ratio := r, high_pri_pool_capacity := ratioFloor s.capacity r } hs :=
    { pre :=
      { heapNodup := hv.pre.heapNodup
        lruNodup := hv.pre.lruNodup
        lruLive := hv.pre.lruLive
        lowLe := hv.pre.lowLe
        lruUsageEq := hv.pre.lruUsageEq
        poolUsageEq := hv.pre.poolUsageEq
        flagPos := hv.pre.flagPos
        tblWF := hv.pre.tblWF
        tblHeap := hv.pre.tblHeap
        lruTbl := hv.pre.lruTbl }
      heapLt := hv.heapLt
      refsEq := hv.refsEq
      liveRef := hv.liveRef
      hsLive := hv.hsLive
      lruSpec := hv.lruSpec
      usageEq := hv.usageEq
      cacheTbl := hv.cacheTbl
      capEq := rfl }
  have hM := maintain_spec hv1.pre
  constructor
  · refine inv_transfer_poolflags hv1 hM.pre hM.lruEq hM.heapPool hM.ids hM.usage
      hM.tblEq hM.nid ?_
    show (MaintainPoolSize { s with high_pri_pool_ratio := r, high_pri_pool_capacity := ratioFloor s.capacity r }).high_pri_pool_capacity = ratioFloor (MaintainPoolSize { s with high_pri_pool_ratio := r, high_pri_pool_capacity := ratioFloor s.capacity r }).capacity (MaintainPoolSize { s with high_pri_pool_ratio := r, high_pri_pool_capacity := ratioFloor s.capacity r }).high_pri_pool_ratio
    rw [hM.poolCap, hM.cap, hM.ratEq]
  · exact hM.poolOk

theorem natCount_singleton (j i : Nat) : natCount j [i] = if i = j then 1 else 0 := by
  rw [natCount]
  by_cases h : i = j
  · rw [if_pos h]
    rfl
  · rw [if_neg h]
    rfl

theorem mem_hset_cases {h : List (Nat × LRUHandle)} {i : Nat} {e2 : LRUHandle}
    (nd : (heapIds h).Nodup) {p : Nat × LRUHandle} (hp : p ∈ hset h i e2)
    {e : LRUHandle} (he : hget h i = some e) :
    (p.1 = i ∧ p.2 = e2) ∨ (p ∈ h ∧ p.1 ≠ i) := by
  have nd2 : (heapIds (hset h i e2)).Nodup := by rw [heapIds_hset]; exact nd
  have hg : hget (hset h i e2) p.1 = some p.2 := hget_of_mem_nodup nd2 hp
  by_cases hpi : p.1 = i
  · rw [hpi, hget_hset_self he] at hg
    exact Or.inl ⟨hpi, (Option.some.inj hg).symm⟩
  · rw [hget_hset_ne hpi] at hg
    exact Or.inr ⟨hget_mem hg, hpi⟩

/-- Overwriting the heap record of an unlisted id with one that agrees on the
key, hash, residency bit and charge preserves the list-and-table invariant. -/
theorem evictPre_hset_unlisted {s : Shard} (hp : EvictPre s) {i : Nat} {e e2 : LRUHandle}
    (he : hget s.heap i = some e) (hnm : i ∉ s.lru)
    (hk : e2.key = e.key) (hh : e2.hash = e.hash) (hc : e2.in_cache = e.in_cache)
    (hch : e2.charge = e.charge) :
    EvictPre { s with heap := hset s.heap i e2 } := by
  have hcharge : ∀ j, chargeOf (hset s.heap i e2) j = chargeOf s.heap j :=
    chargeOf_hset_same he hch
  refine
    { heapNodup := by
        show (heapIds (hset s.heap i e2)).Nodup
        rw [heapIds_hset]
        exact hp.heapNodup
      lruNodup := hp.lruNodup
      lruLive := ?_
      lowLe := hp.lowLe
      lruUsageEq := by
        show s.lru_usage = sumIds (hset s.heap i e2) s.lru
        rw [sumIds_congr (fun j _ => hcharge j)]
        exact hp.lruUsageEq
      poolUsageEq := by
        show s.high_pri_pool_usage = sumIds (hset s.heap i e2) (s.lru.drop s.lowCount)
        rw [sumIds_congr (fun j _ => hcharge j)]
        exact hp.poolUsageEq
      flagPos := ?_
      tblWF := hp.tblWF
      tblHeap := ?_
      lruTbl := hp.lruTbl }
  · intro j hj
    have hji : j ≠ i := fun hcc => hnm (hcc ▸ hj)
    obtain ⟨e', hge', hc', hr'⟩ := hp.lruLive j hj
    exact ⟨e', by rw [hget_hset_ne hji]; exact hge', hc', hr'⟩
  · intro n j hgn e3 hge3
    have hj : j ∈ s.lru := List.get?_mem hgn
    have hji : j ≠ i := fun hcc => hnm (hcc ▸ hj)
    rw [hget_hset_ne hji] at hge3
    exact hp.flagPos n j hgn e3 hge3
  · intro x hx
    obtain ⟨e', hge', hk', hh', hc'⟩ := hp.tblHeap x hx
    by_cases hxi : x.hid = i
    · rw [hxi] at hge' ⊢
      have hee : e' = e := by rw [he] at hge'; exact (Option.some.inj hge').symm
      refine ⟨e2, hget_hset_self he, ?_, ?_, ?_⟩
      · rw [hk, ← hee]; exact hk'
      · rw [hh, ← hee]; exact hh'
      · rw [hc, ← hee]; exact hc'
    · rw [hget_hset_ne hxi]
      exact ⟨e', hge', hk', hh', hc'⟩

theorem inv_ref {s : Shard} {hs : List Nat} (hv : Inv s hs) {i : Nat} (hi : i ∈ hs) :
    Inv (s.Ref i).1 (hs ++ [i]) ∧ (PoolOK s → PoolOK (s.Ref i).1) := by
  obtain ⟨e, he⟩ := hget_isSome_of_mem (hv.hsLive i hi)
  have hcnt : 0 < natCount i hs := natCount_pos hi
  have hrefs : e.refs = (if e.in_cache = true then 1 else 0) + natCount i hs :=
    hv.refsEq (i, e) (hget_mem he)
  have hcond : ¬(e.in_cache = true ∧ e.refs = 1) := by
    intro hc
    rw [hc.1] at hrefs
    rw [hc.2] at hrefs
    simp at hrefs
    omega
  have hnm : i ∉ s.lru := fun hc => hcond ((hv.lruSpec (i, e) (hget_mem he)).mp hc)
  have hres : s.Ref i = ({ s with heap := hset s.heap i { e with refs := e.refs + 1 } }, true) := by
    simp only [Shard.Ref, he, if_neg hcond]
  rw [hres]
  have hcases : ∀ {p : Nat × LRUHandle}, p ∈ hset s.heap i { e with refs := e.refs + 1 } →
      (p.1 = i ∧ p.2 = { e with refs := e.refs + 1 }) ∨ (p ∈ s.heap ∧ p.1 ≠ i) :=
    fun hp => mem_hset_cases hv.pre.heapNodup hp he
  have hcnt_app : ∀ j, natCount j (hs ++ [i]) =
      natCount j hs + (if i = j then 1 else 0) := by
    intro j
    rw [natCount_append, natCount_singleton]
  refine ⟨?_, fun h => h⟩
  refine
    { pre := evictPre_hset_unlisted hv.pre he hnm rfl rfl rfl rfl
      heapLt := ?_
      refsEq := ?_
      liveRef := ?_
      hsLive := ?_
      lruSpec := ?_
      usageEq := ?_
      cacheTbl := ?_
      capEq := hv.capEq }
  · intro p hp
    rcases hcases hp with ⟨h1, _⟩ | ⟨h1, _⟩
    · rw [h1]
      exact hv.heapLt (i, e) (hget_mem he)
    · exact hv.heapLt p h1
  · intro p hp
    rcases hcases hp with ⟨h1, h2⟩ | ⟨h1, h2⟩
    · have hif : (if i = i then 1 else 0) = 1 := if_pos rfl
      rw [h1, h2, hcnt_app i, hif]
      show e.refs + 1 = (if e.in_cache = true then 1 else 0) + (natCount i hs + 1)
      omega
    · have hif : (if i = p.1 then 1 else 0) = 0 := if_neg (fun hc => h2 hc.symm)
      rw [hcnt_app p.1, hif]
      have h3 := hv.refsEq p h1
      omega
  · intro p hp
    rcases hcases hp with ⟨h1, _⟩ | ⟨h1, h2⟩
    · right
      have hif : (if i = i then 1 else 0) = 1 := if_pos rfl
      rw [h1, hcnt_app i, hif]
      omega
    · rcases hv.liveRef p h1 with h3 | h3
      · exact Or.inl h3
      · right
        have hif : (if i = p.1 then 1 else 0) = 0 := if_neg (fun hc => h2 hc.symm)
        rw [hcnt_app p.1, hif]
        omega
  · intro j hj
    show j ∈ heapIds (hset s.heap i { e with refs := e.refs + 1 })
    rw [heapIds_hset]
    rcases List.mem_append.mp hj with hj | hj
    · exact hv.hsLive j hj
    · rw [List.mem_singleton] at hj
      rw [hj]
      exact mem_heapIds_of_hget he
  · intro p hp
    rcases hcases hp with ⟨h1, h2⟩ | ⟨h1, h2⟩
    · rw [h1, h2]
      show i ∈ s.lru ↔ (e.in_cache = true ∧ e.refs + 1 = 1)
      constructor
      · intro hc
        exact absurd hc hnm
      · intro hc
        omega
    · exact hv.lruSpec p h1
  · show s.usage = sumCharge (hset s.heap i { e with refs := e.refs + 1 })
    rw [@sumCharge_hset s.heap i e { e with refs := e.refs + 1 } he rfl]
    exact hv.usageEq
  · intro p hp hc
    rcases hcases hp with ⟨h1, h2⟩ | ⟨h1, _⟩
    · rw [h1]
      rw [h2] at hc
      exact hv.cacheTbl (i, e) (hget_mem he) hc
    · exact hv.cacheTbl p h1 hc

/-- Incrementing the reference count of an entry that is not (or no longer)
listed, handing the caller a new handle on it. -/
theorem inv_bump_unlisted {s u : Shard} {hs : List Nat} (hv : Inv s hs) {i : Nat}
    {e e2 : LRUHandle}
    (he : hget s.heap i = some e)
    (hpre : EvictPre u)
    (hheap : u.heap = s.heap)
    (hnm : i ∉ u.lru)
    (htblEq : u.table = s.table)
    (husage : u.usage = s.usage)
    (hnid : u.nextId = s.nextId)
    (hcapF : u.high_pri_pool_capacity = s.high_pri_pool_capacity)
    (hcapEq2 : u.capacity = s.capacity)
    (hratEq : u.high_pri_pool_ratio = s.high_pri_pool_ratio)
    (hlruMem : ∀ j, j ≠ i → (j ∈ u.lru ↔ j ∈ s.lru))
    (hk : e2.key = e.key) (hh : e2.hash = e.hash) (hc : e2.in_cache = e.in_cache)
    (hch : e2.charge = e.charge) (hr : e2.refs = e.refs + 1) :
    Inv { u with heap := hset u.heap i e2 } (hs ++ [i]) := by
  have heU : hget u.heap i = some e := by rw [hheap]; exact he
  have hrefs : e.refs = (if e.in_cache = true then 1 else 0) + natCount i hs :=
    hv.refsEq (i, e) (hget_mem he)
  have hcases : ∀ {p : Nat × LRUHandle}, p ∈ hset u.heap i e2 →
      (p.1 = i ∧ p.2 = e2) ∨ (p ∈ s.heap ∧ p.1 ≠ i) := by
    intro p hp
    rw [hheap] at hp
    exact mem_hset_cases hv.pre.heapNodup hp he
  have hcnt_app : ∀ j, natCount j (hs ++ [i]) =
      natCount j hs + (if i = j then 1 else 0) := by
    intro j
    rw [natCount_append, natCount_singleton]
  refine
    { pre := evictPre_hset_unlisted hpre heU hnm hk hh hc hch
      heapLt := ?_
      refsEq := ?_
      liveRef := ?_
      hsLive := ?_
      lruSpec := ?_
      usageEq := ?_
      cacheTbl := ?_
      capEq := by
        show u.high_pri_pool_capacity = ratioFloor u.capacity u.high_pri_pool_ratio
        rw [hcapF, hcapEq2, hratEq]
        exact hv.capEq }
  · intro p hp
    show p.1 < u.nextId
    rw [hnid]
    rcases hcases hp with ⟨h1, _⟩ | ⟨h1, _⟩
    · rw [h1]
      exact hv.heapLt (i, e) (hget_mem he)
    · exact hv.heapLt p h1
  · intro p hp
    rcases hcases hp with ⟨h1, h2⟩ | ⟨h1, h2⟩
    · have hif : (if i = i then 1 else 0) = 1 := if_pos rfl
      rw [h1, h2, hcnt_app i, hif, hr, hc]
      omega
    · have hif : (if i = p.1 then 1 else 0) = 0 := if_neg (fun hcc => h2 hcc.symm)
      rw [hcnt_app p.1, hif]
      have h3 := hv.refsEq p h1
      omega
  · intro p hp
    rcases hcases hp with ⟨h1, _⟩ | ⟨h1, h2⟩
    · right
      have hif : (if i = i then 1 else 0) = 1 := if_pos rfl
      rw [h1, hcnt_app i, hif]
      omega
    · rcases hv.liveRef p h1 with h3 | h3
      · exact Or.inl h3
      · right
        have hif : (if i = p.1 then 1 else 0) = 0 := if_neg (fun hcc => h2 hcc.symm)
        rw [hcnt_app p.1, hif]
        omega
  · intro j hj
    show j ∈ heapIds (hset u.heap i e2)
    rw [heapIds_hset, hheap]
    rcases List.mem_append.mp hj with hj | hj
    · exact hv.hsLive j hj
    · rw [List.mem_singleton] at hj
      rw [hj]
      exact mem_heapIds_of_hget he
  · intro p hp
    rcases hcases hp with ⟨h1, h2⟩ | ⟨h1, h2⟩
    · rw [h1, h2]
      show i ∈ u.lru ↔ (e2.in_cache = true ∧ e2.refs = 1)
      constructor
      · intro hcc
        exact absurd hcc hnm
      · intro hcc
        rw [hc] at hcc
        rw [hr] at hcc
        have := hcc.2
        by_cases hicc : e.in_cache = true
        · rw [hicc] at hrefs
          simp at hrefs
          omega
        · exact absurd hcc.1 hicc
    · show p.1 ∈ u.lru ↔ _
      rw [hlruMem p.1 h2]
      exact hv.lruSpec p h1
  · show u.usage = sumCharge (hset u.heap i e2)
    rw [husage, hheap, @sumCharge_hset s.heap i e e2 he hch]
    exact hv.usageEq
  · intro p hp hcc
    show ∃ x ∈ tblEntries u.table, x.hid = p.1
    rw [htblEq]
    rcases hcases hp with ⟨h1, h2⟩ | ⟨h1, _⟩
    · rw [h1]
      rw [h2, hc] at hcc
      exact hv.cacheTbl (i, e) (hget_mem he) hcc
    · exact hv.cacheTbl p h1 hcc

theorem inv_lookup {s : Shard} {hs : List Nat} (hv : Inv s hs) (key hash : Nat) :
    Inv (s.Lookup key hash).1 (hs ++ (s.Lookup key hash).2.toList) ∧
    (PoolOK s → PoolOK (s.Lookup key hash).1) := by
  cases htl : s.table.Lookup key hash with
  | none =>
    have hres : s.Lookup key hash = (s, none) := by
      simp only [Shard.Lookup, htl]
    rw [hres]
    refine ⟨?_, fun h => h⟩
    show Inv s (hs ++ [])
    rw [List.append_nil]
    exact hv
  | some t =>
    have htm : t ∈ tblEntries s.table := (tblLookup_mem htl).1
    obtain ⟨e, he, hek, heh, hic⟩ := hv.pre.tblHeap t htm
    have hrefs : e.refs = 1 + natCount t.hid hs := by
      have h0 := hv.refsEq (t.hid, e) (hget_mem he)
      rw [hic] at h0
      simpa using h0
    by_cases hr1 : e.refs = 1
    · have hil : t.hid ∈ s.lru := (hv.lruSpec (t.hid, e) (hget_mem he)).mpr ⟨hic, hr1⟩
      have hR := lruRemove_spec hv.pre he hil
      have hres : s.Lookup key hash =
          ({ LRU_Remove s t.hid with heap := hset (LRU_Remove s t.hid).heap t.hid { e with refs := e.refs + 1, has_hit := true } }, some t.hid) := by
        simp only [Shard.Lookup, htl, he, if_pos hr1]
      rw [hres]
      constructor
      · refine inv_bump_unlisted hv he hR.pre hR.heapEq ?_ hR.tblEq hR.usage hR.nid
          hR.poolCap hR.cap hR.ratEq ?_ rfl rfl rfl rfl rfl
        · rw [hR.lruEq]
          exact not_mem_listErase_self hv.pre.lruNodup
        · intro j hj
          rw [hR.lruEq]
          exact mem_listErase_of_ne hj
      · intro hok
        show (LRU_Remove s t.hid).high_pri_pool_usage ≤
          (LRU_Remove s t.hid).high_pri_pool_capacity
        rw [hR.poolCap, hR.pool]
        rw [PoolOK] at hok
        by_cases hb : e.in_high_pri_pool = true
        · rw [if_pos hb]
          omega
        · rw [if_neg hb]
          omega
    · have hnm : t.hid ∉ s.lru := fun hc =>
        hr1 ((hv.lruSpec (t.hid, e) (hget_mem he)).mp hc).2
      have hres : s.Lookup key hash =
          ({ s with heap := hset s.heap t.hid { e with refs := e.refs + 1, has_hit := true } }, some t.hid) := by
        simp only [Shard.Lookup, htl, he, if_neg hr1]
      rw [hres]
      refine ⟨?_, fun h => h⟩
      exact inv_bump_unlisted hv he hv.pre rfl hnm rfl rfl rfl rfl rfl rfl
        (fun j _ => Iff.rfl) rfl rfl rfl rfl rfl

/-- `EvictPre` only reads the heap, the list, the cursor, the two LRU usage
counters and the table. -/
theorem evictPre_congr {t u : Shard} (hp : EvictPre t)
    (hheap : u.heap = t.heap) (hlru : u.lru = t.lru) (hlow : u.lowCount = t.lowCount)
    (hlruU : u.lru_usage = t.lru_usage)
    (hpool : u.high_pri_pool_usage = t.high_pri_pool_usage)
    (htbl : u.table = t.table) : EvictPre u :=
  { heapNodup := by rw [hheap]; exact hp.heapNodup
    lruNodup := by rw [hlru]; exact hp.lruNodup
    lruLive := by rw [hlru, hheap]; exact hp.lruLive
    lowLe := by rw [hlow, hlru]; exact hp.lowLe
    lruUsageEq := by rw [hlruU, hheap, hlru]; exact hp.lruUsageEq
    poolUsageEq := by rw [hpool, hheap, hlru, hlow]; exact hp.poolUsageEq
    flagPos := by rw [hlru, hheap, hlow]; exact hp.flagPos
    tblWF := by rw [htbl]; exact hp.tblWF
    tblHeap := by rw [htbl, hheap]; exact hp.tblHeap
    lruTbl := by rw [hlru, htbl]; exact hp.lruTbl }

theorem tblRemove_cached {s : Shard} (hp : EvictPre s) {i : Nat} {e : LRUHandle}
    (htbl : ∃ x ∈ tblEntries s.table, x.hid = i) (he : hget s.heap i = some e) :
    ∃ x t', x ∈ tblEntries s.table ∧ x.hid = i ∧
      s.table.Remove e.key e.hash = (t', some x) ∧
      t'.list.length = s.table.list.length ∧ TblWF t' ∧
      (∀ y, y ∈ tblEntries t' ↔ (y ∈ tblEntries s.table ∧ y ≠ x)) ∧
      (∀ y ∈ tblEntries s.table, y.hid = i → y = x) := by
  obtain ⟨x, hx, hxi⟩ := htbl
  obtain ⟨e', hge', hk', hh', _⟩ := hp.tblHeap x hx
  rw [hxi, he] at hge'
  have he2 : e' = e := (Option.some.inj hge').symm
  rw [he2] at hk' hh'
  have hm : x.ehash = e.hash ∧ x.ekey = e.key := ⟨hh'.symm, hk'.symm⟩
  obtain ⟨t', hrem, hlen, _, hwf', hmem⟩ := tblRemove_some hp.tblWF hx hm
  have huniq : ∀ y ∈ tblEntries s.table, y.hid = i → y = x := by
    intro y hy hyi
    obtain ⟨ey, hgey, hky, hhy, _⟩ := hp.tblHeap y hy
    rw [hyi, he] at hgey
    have hey : ey = e := (Option.some.inj hgey).symm
    rw [hey] at hky hhy
    exact tbl_unique hp.tblWF hy hx (by rw [← hhy, hh']) (by rw [← hky, hk'])
  exact ⟨x, t', hx, hxi, hrem, hlen, hwf', hmem, huniq⟩

/-- From the `LRU_Insert` effect bundle to the full invariant: the base state
satisfies every invariant field for the target handle multiset except that
entry `i` (live, sole cache reference) is still unlisted. -/
theorem inv_of_insOut {s t : Shard} {hs2 : List Nat} {i : Nat} {e1 : LRUHandle}
    (hIns : InsOut s t i e1)
    (he1 : hget s.heap i = some e1)
    (hic : e1.in_cache = true) (hr1 : e1.refs = 1)
    (heapLt : ∀ p ∈ s.heap, p.1 < s.nextId)
    (refsEq : ∀ p ∈ s.heap,
      p.2.refs = (if p.2.in_cache = true then 1 else 0) + natCount p.1 hs2)
    (liveRef : ∀ p ∈ s.heap, p.2.in_cache = true ∨ 0 < natCount p.1 hs2)
    (hsLive : ∀ j ∈ hs2, j ∈ heapIds s.heap)
    (lruSpec : ∀ p ∈ s.heap, p.1 ≠ i →
      (p.1 ∈ s.lru ↔ (p.2.in_cache = true ∧ p.2.refs = 1)))
    (usageEq : s.usage = sumCharge s.heap)
    (cacheTbl : ∀ p ∈ s.heap, p.2.in_cache = true → ∃ x ∈ tblEntries s.table, x.hid = p.1)
    (capEq : s.high_pri_pool_capacity = ratioFloor s.capacity s.high_pri_pool_ratio) :
    Inv t hs2 := by
  have hndT : (heapIds t.heap).Nodup := hIns.pre.heapNodup
  have htrans : ∀ p ∈ t.heap, ∃ e', (p.1, e') ∈ s.heap ∧
      hget s.heap p.1 = some e' ∧ poolCleared e' = poolCleared p.2 := by
    intro p hp
    have hg : hget t.heap p.1 = some p.2 := hget_of_mem_nodup hndT hp
    have h1 := hIns.heapPool p.1
    rw [hg] at h1
    cases hg2 : hget s.heap p.1 with
    | none => rw [hg2] at h1; exact absurd h1 (by simp)
    | some e' =>
      rw [hg2] at h1
      exact ⟨e', hget_mem hg2, rfl, (Option.some.inj h1).symm⟩
  refine
    { pre := hIns.pre
      heapLt := ?_
      refsEq := ?_
      liveRef := ?_
      hsLive := fun j hj => by rw [hIns.ids]; exact hsLive j hj
      lruSpec := ?_
      usageEq := ?_
      cacheTbl := ?_
      capEq := by rw [hIns.poolCap, hIns.cap, hIns.ratEq]; exact capEq }
  · intro p hp
    obtain ⟨e', he', _, _⟩ := htrans p hp
    rw [hIns.nid]
    exact heapLt (p.1, e') he'
  · intro p hp
    obtain ⟨e', he', _, heq⟩ := htrans p hp
    obtain ⟨h1, h2, _, _, _⟩ := poolClearedEq_fields heq
    have h3 := refsEq (p.1, e') he'
    rw [h1, h2] at h3
    exact h3
  · intro p hp
    obtain ⟨e', he', _, heq⟩ := htrans p hp
    obtain ⟨_, h2, _, _, _⟩ := poolClearedEq_fields heq
    have h3 := liveRef (p.1, e') he'
    rw [h2] at h3
    exact h3
  · intro p hp
    obtain ⟨e', he', hge', heq⟩ := htrans p hp
    obtain ⟨h1, h2, _, _, _⟩ := poolClearedEq_fields heq
    rw [hIns.lruMem p.1]
    by_cases hpi : p.1 = i
    · have hee : e' = e1 := by
        rw [hpi] at hge'
        rw [he1] at hge'
        exact (Option.some.inj hge').symm
      constructor
      · intro _
        refine ⟨?_, ?_⟩
        · rw [← h2, hee]
          exact hic
        · rw [← h1, hee]
          exact hr1
      · intro _
        exact Or.inl hpi
    · have h3 := lruSpec (p.1, e') he' hpi
      rw [h1, h2] at h3
      constructor
      · intro hcc
        rcases hcc with hcc | hcc
        · exact absurd hcc hpi
        · exact h3.mp hcc
      · intro hcc
        exact Or.inr (h3.mpr hcc)
  · have h1 : sumCharge t.heap = sumCharge s.heap :=
      sumCharge_transfer hndT hIns.ids (fun j => chargeOf_poolCleared (hIns.heapPool j))
    rw [hIns.usage, h1]
    exact usageEq
  · intro p hp hcc
    obtain ⟨e', he', _, heq⟩ := htrans p hp
    obtain ⟨_, h2, _, _, _⟩ := poolClearedEq_fields heq
    rw [hIns.tblEq]
    exact cacheTbl (p.1, e') he' (by rw [h2]; exact hcc)

theorem inv_release {s : Shard} {hs : List Nat} (hv : Inv s hs) {i n : Nat}
    (hn : hs.get? n = some i) (force : Bool) :
    Inv (s.Release (some i) force).1 (hs.eraseIdx n) ∧
    (PoolOK s → PoolOK (s.Release (some i) force).1) := by
  have hi : i ∈ hs := List.get?_mem hn
  obtain ⟨e, he⟩ := hget_isSome_of_mem (hv.hsLive i hi)
  have hcnt : 0 < natCount i hs := natCount_pos hi
  have hrefs : e.refs = (if e.in_cache = true then 1 else 0) + natCount i hs :=
    hv.refsEq (i, e) (hget_mem he)
  have hnm : i ∉ s.lru := by
    intro hc
    have h1 := (hv.lruSpec (i, e) (hget_mem he)).mp hc
    rw [h1.1] at hrefs
    rw [h1.2] at hrefs
    simp at hrefs
    omega
  have hcntE : natCount i (hs.eraseIdx n) + 1 = natCount i hs := natCount_eraseIdx_self hn
  have hcntNe : ∀ j, j ≠ i → natCount j (hs.eraseIdx n) = natCount j hs :=
    fun j hj => natCount_eraseIdx_ne hn hj
  have hsub : ∀ j ∈ hs.eraseIdx n, j ∈ hs :=
    fun j hj => (List.eraseIdx_sublist hs n).subset hj
  by_cases hB : e.refs - 1 = 1 ∧ e.in_cache = true
  · have hA : ¬(e.refs - 1 = 0) := by omega
    have hcnt1 : natCount i hs = 1 := by
      rw [hB.2] at hrefs
      simp at hrefs
      omega
    have hcnt0 : natCount i (hs.eraseIdx n) = 0 := by omega
    have hpre1 : EvictPre { s with heap := hset s.heap i { e with refs := e.refs - 1 } } :=
      evictPre_hset_unlisted hv.pre he hnm rfl rfl rfl rfl
    by_cases hC : s.capacity < s.usage ∨ force = true
    · -- force-erase path: detach from table, free after unlock
      obtain ⟨x, t', hx, hxi, hrem, hlen, hwf', hmem, huniq⟩ :=
        tblRemove_cached hv.pre (hv.cacheTbl (i, e) (hget_mem he) hB.2) he
      have ht1 : (s.table.Remove e.key e.hash).1 = t' := by rw [hrem]
      have hchfin : ∀ j, chargeOf (hset s.heap i
          { e with in_cache := false, refs := e.refs - 1 - 1 }) j = chargeOf s.heap j :=
        chargeOf_hset_same he rfl
      have hyi : ∀ y ∈ tblEntries t', y.hid ≠ i := by
        intro y hy hc
        have h1 := (hmem y).mp hy
        exact h1.2 (huniq y h1.1 hc)
      have hmid : MidInv { s with heap := hset s.heap i { e with in_cache := false, refs := e.refs - 1 - 1 }, table := (s.table.Remove e.key e.hash).1, usage := s.usage - e.charge } (hs.eraseIdx n) [i] := by
        refine
          { pre :=
            { heapNodup := by
                show (heapIds (hset s.heap i _)).Nodup
                rw [heapIds_hset]
                exact hv.pre.heapNodup
              lruNodup := hv.pre.lruNodup
              lruLive := ?_
              lowLe := hv.pre.lowLe
              lruUsageEq := by
                show s.lru_usage = sumIds (hset s.heap i { e with in_cache := false, refs := e.refs - 1 - 1 }) s.lru
                rw [sumIds_congr (fun j _ => hchfin j)]
                exact hv.pre.lruUsageEq
              poolUsageEq := by
                show s.high_pri_pool_usage = sumIds (hset s.heap i { e with in_cache := false, refs := e.refs - 1 - 1 }) (s.lru.drop s.lowCount)
                rw [sumIds_congr (fun j _ => hchfin j)]
                exact hv.pre.poolUsageEq
              flagPos := ?_
              tblWF := by rw [ht1]; exact hwf'
              tblHeap := ?_
              lruTbl := ?_ }
            heapLt := ?_
            refsEq := ?_
            liveRef := ?_
            hsLive := ?_
            lruSpec := ?_
            gLru := ?_
            gTbl := ?_
            gHeap := ?_
            gNodup := List.nodup_singleton i
            usageEq := ?_
            cacheTbl := ?_
            capEq := hv.capEq }
        · intro j hj
          have hji : j ≠ i := fun hc => hnm (hc ▸ hj)
          obtain ⟨e', h1, h2, h3⟩ := hv.pre.lruLive j hj
          exact ⟨e', by rw [hget_hset_ne hji]; exact h1, h2, h3⟩
        · intro m j hgn e2 hge2
          have hj : j ∈ s.lru := List.get?_mem hgn
          have hji : j ≠ i := fun hc => hnm (hc ▸ hj)
          rw [hget_hset_ne hji] at hge2
          exact hv.pre.flagPos m j hgn e2 hge2
        · intro y hy
          rw [ht1] at hy
          have h1 := (hmem y).mp hy
          have hyi2 : y.hid ≠ i := hyi y hy
          obtain ⟨e', h2, h3, h4, h5⟩ := hv.pre.tblHeap y h1.1
          exact ⟨e', by rw [hget_hset_ne hyi2]; exact h2, h3, h4, h5⟩
        · intro j hj
          have hji : j ≠ i := fun hc => hnm (hc ▸ hj)
          obtain ⟨y, hy, hyj⟩ := hv.pre.lruTbl j hj
          refine ⟨y, ?_, hyj⟩
          rw [ht1]
          exact (hmem y).mpr ⟨hy, fun hc => hji (by rw [← hyj, hc, hxi])⟩
        · intro p hp
          rcases mem_hset_cases hv.pre.heapNodup hp he with ⟨h1, _⟩ | ⟨h1, _⟩
          · rw [h1]
            exact hv.heapLt (i, e) (hget_mem he)
          · exact hv.heapLt p h1
        · intro p hp hpg
          rcases mem_hset_cases hv.pre.heapNodup hp he with ⟨h1, _⟩ | ⟨h1, h2⟩
          · exact absurd (h1 ▸ List.mem_singleton_self i) hpg
          · rw [hcntNe p.1 h2]
            exact hv.refsEq p h1
        · intro p hp hpg
          rcases mem_hset_cases hv.pre.heapNodup hp he with ⟨h1, _⟩ | ⟨h1, h2⟩
          · exact absurd (h1 ▸ List.mem_singleton_self i) hpg
          · rw [hcntNe p.1 h2]
            exact hv.liveRef p h1
        · intro j hj
          have hji : j ≠ i := by
            intro hc
            have := natCount_pos hj
            rw [hc] at this
            omega
          refine ⟨?_, by rw [List.mem_singleton]; exact hji⟩
          show j ∈ heapIds (hset s.heap i _)
          rw [heapIds_hset]
          exact hv.hsLive j (hsub j hj)
        · intro p hp hpg
          rcases mem_hset_cases hv.pre.heapNodup hp he with ⟨h1, _⟩ | ⟨h1, h2⟩
          · exact absurd (h1 ▸ List.mem_singleton_self i) hpg
          · show p.1 ∈ s.lru ↔ _
            exact hv.lruSpec p h1
        · intro j hj
          rw [List.mem_singleton] at hj
          rw [hj]
          exact hnm
        · intro j hj y hy
          rw [List.mem_singleton] at hj
          rw [hj, ht1] at *
          intro hc
          exact hyi y hy hc
        · intro j hj
          rw [List.mem_singleton] at hj
          rw [hj]
          exact ⟨_, hget_hset_self he⟩
        · show s.usage - e.charge = sumCharge (hset s.heap i { e with in_cache := false, refs := e.refs - 1 - 1 }) - sumIds (hset s.heap i { e with in_cache := false, refs := e.refs - 1 - 1 }) [i]
          rw [@sumCharge_hset s.heap i e { e with in_cache := false, refs := e.refs - 1 - 1 } he rfl]
          rw [sumIds_cons, sumIds_nil, hchfin i, chargeOf_eq he]
          rw [hv.usageEq]
          omega
        · intro p hp hpg hcc
          rcases mem_hset_cases hv.pre.heapNodup hp he with ⟨h1, _⟩ | ⟨h1, h2⟩
          · exact absurd (h1 ▸ List.mem_singleton_self i) hpg
          · obtain ⟨y, hy, hyj⟩ := hv.cacheTbl p h1 hcc
            refine ⟨y, ?_, hyj⟩
            show y ∈ tblEntries (s.table.Remove e.key e.hash).1
            rw [ht1]
            exact (hmem y).mpr ⟨hy, fun hc => h2 (by rw [← hyj, hc, hxi])⟩
      constructor
      · show Inv (s.Release (some i) force).1 (hs.eraseIdx n)
        simp only [Shard.Release, he, if_neg hA, if_pos hB, if_pos hC]
        rw [hset_hset]
        exact midInv_freeAll hmid
      · intro hok
        show PoolOK (s.Release (some i) force).1
        simp only [Shard.Release, he, if_neg hA, if_pos hB, if_pos hC]
        rw [PoolOK] at hok ⊢
        exact hok
    · -- relink into the LRU list
      have he1get : hget (hset s.heap i { e with refs := e.refs - 1 }) i =
          some { e with refs := e.refs - 1 } := hget_hset_self he
      have htbl1 : ∃ x ∈ tblEntries s.table, x.hid = i :=
        hv.cacheTbl (i, e) (hget_mem he) hB.2
      have hIns := lruInsert_spec hpre1 he1get hnm hB.2 hB.1 htbl1
      constructor
      · show Inv (s.Release (some i) force).1 (hs.eraseIdx n)
        simp only [Shard.Release, he, if_neg hA, if_pos hB, if_neg hC]
        refine inv_of_insOut hIns he1get hB.2 hB.1 ?_ ?_ ?_ ?_ ?_ ?_ ?_ hv.capEq
        · intro p hp
          rcases mem_hset_cases hv.pre.heapNodup hp he with ⟨h1, _⟩ | ⟨h1, _⟩
          · rw [h1]
            exact hv.heapLt (i, e) (hget_mem he)
          · exact hv.heapLt p h1
        · intro p hp
          rcases mem_hset_cases hv.pre.heapNodup hp he with ⟨h1, h2⟩ | ⟨h1, h2⟩
          · rw [h1, h2, hcnt0]
            show e.refs - 1 = (if e.in_cache = true then 1 else 0) + 0
            rw [hB.2]
            simp
            omega
          · rw [hcntNe p.1 h2]
            exact hv.refsEq p h1
        · intro p hp
          rcases mem_hset_cases hv.pre.heapNodup hp he with ⟨h1, h2⟩ | ⟨h1, h2⟩
          · left
            rw [h2]
            exact hB.2
          · rcases hv.liveRef p h1 with h3 | h3
            · exact Or.inl h3
            · by_cases hpi : p.1 = i
              · left
                have hee : p.2 = e := by
                  have h9 := hget_of_mem_nodup hv.pre.heapNodup h1
                  rw [hpi, he] at h9
                  exact (Option.some.inj h9).symm
                rw [hee]
                exact hB.2
              · right
                rw [hcntNe p.1 hpi]
                exact h3
        · intro j hj
          show j ∈ heapIds (hset s.heap i _)
          rw [heapIds_hset]
          exact hv.hsLive j (hsub j hj)
        · intro p hp hpi
          rcases mem_hset_cases hv.pre.heapNodup hp he with ⟨h1, _⟩ | ⟨h1, _⟩
          · exact absurd h1 hpi
          · show p.1 ∈ s.lru ↔ _
            exact hv.lruSpec p h1
        · show s.usage = sumCharge (hset s.heap i { e with refs := e.refs - 1 })
          rw [@sumCharge_hset s.heap i e { e with refs := e.refs - 1 } he rfl]
          exact hv.usageEq
        · intro p hp hcc
          rcases mem_hset_cases hv.pre.heapNodup hp he with ⟨h1, h2⟩ | ⟨h1, _⟩
          · rw [h1]
            rw [h2] at hcc
            exact hv.cacheTbl (i, e) (hget_mem he) hcc
          · exact hv.cacheTbl p h1 hcc
      · intro hok
        show PoolOK (s.Release (some i) force).1
        simp only [Shard.Release, he, if_neg hA, if_pos hB, if_neg hC]
        exact hIns.poolOk hok
  · by_cases hA0 : e.refs - 1 = 0
    · -- last reference dropped on a detached entry: free it
      have hic : e.in_cache = false := by
        cases hb : e.in_cache with
        | false => rfl
        | true =>
          rw [hb] at hrefs
          simp at hrefs
          omega
      have hcnt1 : natCount i hs = 1 := by
        rw [hic] at hrefs
        simp at hrefs
        omega
      have hmid : MidInv { s with heap := hset s.heap i { e with refs := e.refs - 1 }, usage := s.usage - e.charge } (hs.eraseIdx n) [i] := by
        have hch1 : ∀ j, chargeOf (hset s.heap i { e with refs := e.refs - 1 }) j =
            chargeOf s.heap j := chargeOf_hset_same he rfl
        have hnotbl : ∀ y ∈ tblEntries s.table, y.hid ≠ i := by
          intro y hy hc
          obtain ⟨e', h2, _, _, h5⟩ := hv.pre.tblHeap y hy
          rw [hc, he] at h2
          have hee : e' = e := (Option.some.inj h2).symm
          rw [hee, hic] at h5
          simp at h5
        have hpre2 : EvictPre { s with heap := hset s.heap i { e with refs := e.refs - 1 } } :=
          evictPre_hset_unlisted hv.pre he hnm rfl rfl rfl rfl
        refine
          { pre := evictPre_congr hpre2 rfl rfl rfl rfl rfl rfl
            heapLt := ?_
            refsEq := ?_
            liveRef := ?_
            hsLive := ?_
            lruSpec := ?_
            gLru := ?_
            gTbl := ?_
            gHeap := ?_
            gNodup := List.nodup_singleton i
            usageEq := ?_
            cacheTbl := ?_
            capEq := hv.capEq }
        · intro p hp
          rcases mem_hset_cases hv.pre.heapNodup hp he with ⟨h1, _⟩ | ⟨h1, _⟩
          · rw [h1]
            exact hv.heapLt (i, e) (hget_mem he)
          · exact hv.heapLt p h1
        · intro p hp hpg
          rcases mem_hset_cases hv.pre.heapNodup hp he with ⟨h1, _⟩ | ⟨h1, h2⟩
          · exact absurd (h1 ▸ List.mem_singleton_self i) hpg
          · rw [hcntNe p.1 h2]
            exact hv.refsEq p h1
        · intro p hp hpg
          rcases mem_hset_cases hv.pre.heapNodup hp he with ⟨h1, _⟩ | ⟨h1, h2⟩
          · exact absurd (h1 ▸ List.mem_singleton_self i) hpg
          · rw [hcntNe p.1 h2]
            exact hv.liveRef p h1
        · intro j hj
          have hji : j ≠ i := by
            intro hc
            have := natCount_pos hj
            rw [hc] at this
            omega
          refine ⟨?_, by rw [List.mem_singleton]; exact hji⟩
          show j ∈ heapIds (hset s.heap i _)
          rw [heapIds_hset]
          exact hv.hsLive j (hsub j hj)
        · intro p hp hpg
          rcases mem_hset_cases hv.pre.heapNodup hp he with ⟨h1, _⟩ | ⟨h1, _⟩
          · exact absurd (h1 ▸ List.mem_singleton_self i) hpg
          · show p.1 ∈ s.lru ↔ _
            exact hv.lruSpec p h1
        · intro j hj
          rw [List.mem_singleton] at hj
          rw [hj]
          exact hnm
        · intro j hj y hy
          rw [List.mem_singleton] at hj
          rw [hj]
          exact hnotbl y hy
        · intro j hj
          rw [List.mem_singleton] at hj
          rw [hj]
          exact ⟨_, hget_hset_self he⟩
        · show s.usage - e.charge = sumCharge (hset s.heap i { e with refs := e.refs - 1 }) - sumIds (hset s.heap i { e with refs := e.refs - 1 }) [i]
          rw [@sumCharge_hset s.heap i e { e with refs := e.refs - 1 } he rfl]
          rw [sumIds_cons, sumIds_nil, hch1 i, chargeOf_eq he]
          rw [hv.usageEq]
          omega
        · intro p hp hpg hcc
          rcases mem_hset_cases hv.pre.heapNodup hp he with ⟨h1, _⟩ | ⟨h1, _⟩
          · exact absurd (h1 ▸ List.mem_singleton_self i) hpg
          · exact hv.cacheTbl p h1 hcc
      constructor
      · show Inv (s.Release (some i) force).1 (hs.eraseIdx n)
        simp only [Shard.Release, he, if_pos hA0, if_neg hB]
        exact midInv_freeAll hmid
      · intro hok
        show PoolOK (s.Release (some i) force).1
        simp only [Shard.Release, he, if_pos hA0, if_neg hB]
        rw [PoolOK] at hok ⊢
        exact hok
    · -- a reference remains: only the count drops
      constructor
      · show Inv (s.Release (some i) force).1 (hs.eraseIdx n)
        simp only [Shard.Release, he, if_neg hA0, if_neg hB]
        refine
          { pre := evictPre_hset_unlisted hv.pre he hnm rfl rfl rfl rfl
            heapLt := ?_
            refsEq := ?_
            liveRef := ?_
            hsLive := ?_
            lruSpec := ?_
            usageEq := ?_
            cacheTbl := ?_
            capEq := hv.capEq }
        · intro p hp
          rcases mem_hset_cases hv.pre.heapNodup hp he with ⟨h1, _⟩ | ⟨h1, _⟩
          · rw [h1]
            exact hv.heapLt (i, e) (hget_mem he)
          · exact hv.heapLt p h1
        · intro p hp
          rcases mem_hset_cases hv.pre.heapNodup hp he with ⟨h1, h2⟩ | ⟨h1, h2⟩
          · rw [h1, h2]
            show e.refs - 1 = (if e.in_cache = true then 1 else 0) + natCount i (hs.eraseIdx n)
            omega
          · rw [hcntNe p.1 h2]
            exact hv.refsEq p h1
        · intro p hp
          rcases mem_hset_cases hv.pre.heapNodup hp he with ⟨h1, h2⟩ | ⟨h1, h2⟩
          · by_cases hicc : e.in_cache = true
            · left
              rw [h2]
              exact hicc
            · right
              rw [h1]
              have hb2 : e.in_cache = false := by
                cases hbb : e.in_cache with
                | false => rfl
                | true => exact absurd hbb hicc
              rw [hb2] at hrefs
              simp at hrefs
              omega
          · rcases hv.liveRef p h1 with h3 | h3
            · exact Or.inl h3
            · by_cases hpi : p.1 = i
              · right
                rw [hpi]
                by_cases hbb : e.in_cache = true
                · rw [hbb] at hrefs
                  simp at hrefs
                  have hne1 : ¬(e.refs - 1 = 1) := fun hcc => hB ⟨hcc, hbb⟩
                  omega
                · have hb2 : e.in_cache = false := by
                    cases hbb2 : e.in_cache with
                    | false => rfl
                    | true => exact absurd hbb2 hbb
                  rw [hb2] at hrefs
                  simp at hrefs
                  omega
              · right
                rw [hcntNe p.1 hpi]
                exact h3
        · intro j hj
          show j ∈ heapIds (hset s.heap i _)
          rw [heapIds_hset]
          exact hv.hsLive j (hsub j hj)
        · intro p hp
          rcases mem_hset_cases hv.pre.heapNodup hp he with ⟨h1, h2⟩ | ⟨h1, _⟩
          · rw [h1, h2]
            show i ∈ s.lru ↔ ({ e with refs := e.refs - 1 }.in_cache = true ∧ { e with refs := e.refs - 1 }.refs = 1)
            constructor
            · intro hc
              exact absurd hc hnm
            · intro hc
              exact absurd ⟨hc.2, hc.1⟩ hB
          · show p.1 ∈ s.lru ↔ _
            exact hv.lruSpec p h1
        · show s.usage = sumCharge (hset s.heap i { e with refs := e.refs - 1 })
          rw [@sumCharge_hset s.heap i e { e with refs := e.refs - 1 } he rfl]
          exact hv.usageEq
        · intro p hp hcc
          rcases mem_hset_cases hv.pre.heapNodup hp he with ⟨h1, h2⟩ | ⟨h1, _⟩
          · rw [h1]
            rw [h2] at hcc
            exact hv.cacheTbl (i, e) (hget_mem he) hcc
          · exact hv.cacheTbl p h1 hcc
      · intro hok
        show PoolOK (s.Release (some i) force).1
        simp only [Shard.Release, he, if_neg hA0, if_neg hB]
        rw [PoolOK] at hok ⊢
        exact hok

/-- `LRU_Remove` reads the heap only at `i`, and only the charge and pool
flag there; it commutes with a table swap plus a heap overwrite at `i` that
preserves those two fields. -/
theorem lruRemove_hset_table {s : Shard} {i : Nat} {e e1 : LRUHandle}
    (t2 : LRUHandleTable)
    (he : hget s.heap i = some e) (hch : e1.charge = e.charge)
    (hfl : e1.in_high_pri_pool = e.in_high_pri_pool) :
    LRU_Remove { s with table := t2, heap := hset s.heap i e1 } i =
      { LRU_Remove s i with table := t2, heap := hset s.heap i e1 } := by
  simp only [LRU_Remove, he, hget_hset_self he, LRUUsageSub, HighPriPoolUsageSub]
  rw [hch, hfl]
  by_cases hb : e.in_high_pri_pool = true
  · rw [if_pos hb, if_pos hb]
  · rw [if_neg hb, if_neg hb]

theorem inv_erase {s : Shard} {hs : List Nat} (hv : Inv s hs) (key hash : Nat) :
    Inv (s.Erase key hash) hs ∧ (PoolOK s → PoolOK (s.Erase key hash)) := by
  by_cases hex : ∃ x ∈ tblEntries s.table, x.ehash = hash ∧ x.ekey = key
  · obtain ⟨x, hx, hm⟩ := hex
    obtain ⟨e, he2, hek, heh, hic⟩ := hv.pre.tblHeap x hx
    obtain ⟨t', hrem, hlen, helems, hwf', hmemT⟩ := tblRemove_some hv.pre.tblWF hx hm
    have huniq : ∀ y ∈ tblEntries s.table, y.hid = x.hid → y = x := by
      intro y hy hyi
      obtain ⟨ey, hgey, hky, hhy, _⟩ := hv.pre.tblHeap y hy
      rw [hyi, he2] at hgey
      have hey : ey = e := (Option.some.inj hgey).symm
      rw [hey] at hky hhy
      exact tbl_unique hv.pre.tblWF hy hx (by rw [← hhy, heh]) (by rw [← hky, hek])
    have hyne : ∀ y ∈ tblEntries t', y.hid ≠ x.hid := by
      intro y hy hc
      have h1 := (hmemT y).mp hy
      exact h1.2 (huniq y h1.1 hc)
    have hrefs : e.refs = 1 + natCount x.hid hs := by
      have h0 := hv.refsEq (x.hid, e) (hget_mem he2)
      rw [hic] at h0
      simpa using h0
    have hremT : s.table.Remove e.key e.hash = (t', some x) := by
      rw [hek, heh, hm.1, hm.2]
      exact hrem
    by_cases hZ : e.refs - 1 = 0
    · -- unpinned erase: unlink, unaccount, free after unlock
      have hcnt0 : natCount x.hid hs = 0 := by omega
      have hilru : x.hid ∈ s.lru :=
        (hv.lruSpec (x.hid, e) (hget_mem he2)).mpr ⟨hic, show e.refs = 1 by omega⟩
      have hR := lruRemove_spec hv.pre he2 hilru
      have hnmE : x.hid ∉ listErase x.hid s.lru := not_mem_listErase_self hv.pre.lruNodup
      have hres : s.Erase key hash =
          Free { LRU_Remove s x.hid with table := t', heap := hset s.heap x.hid { e with refs := e.refs - 1, in_cache := false }, usage := (LRU_Remove s x.hid).usage - e.charge } x.hid := by
        simp only [Shard.Erase, hrem, he2, if_pos (And.intro hZ hic), if_pos hZ]
        rw [@lruRemove_hset_table s x.hid e { e with refs := e.refs - 1 } t' he2 rfl rfl]
        simp only [UsageSub, hget_hset_self he2]
        rw [hset_hset]
      have hchfin : ∀ j, chargeOf (hset s.heap x.hid
          { e with refs := e.refs - 1, in_cache := false }) j = chargeOf s.heap j :=
        chargeOf_hset_same he2 rfl
      have hmid : MidInv { LRU_Remove s x.hid with table := t', heap := hset s.heap x.hid { e with refs := e.refs - 1, in_cache := false }, usage := (LRU_Remove s x.hid).usage - e.charge } hs [x.hid] := by
        refine
          { pre :=
            { heapNodup := by
                show (heapIds (hset s.heap x.hid _)).Nodup
                rw [heapIds_hset]
                exact hv.pre.heapNodup
              lruNodup := hR.pre.lruNodup
              lruLive := ?_
              lowLe := hR.pre.lowLe
              lruUsageEq := by
                show (LRU_Remove s x.hid).lru_usage = sumIds (hset s.heap x.hid { e with refs := e.refs - 1, in_cache := false }) (LRU_Remove s x.hid).lru
                rw [sumIds_congr (fun j _ => hchfin j)]
                have h9 := hR.pre.lruUsageEq
                rw [hR.heapEq] at h9
                exact h9
              poolUsageEq := by
                show (LRU_Remove s x.hid).high_pri_pool_usage = sumIds (hset s.heap x.hid { e with refs := e.refs - 1, in_cache := false }) ((LRU_Remove s x.hid).lru.drop (LRU_Remove s x.hid).lowCount)
                rw [sumIds_congr (fun j _ => hchfin j)]
                have h9 := hR.pre.poolUsageEq
                rw [hR.heapEq] at h9
                exact h9
              flagPos := ?_
              tblWF := hwf'
              tblHeap := ?_
              lruTbl := ?_ }
            heapLt := ?_
            refsEq := ?_
            liveRef := ?_
            hsLive := ?_
            lruSpec := ?_
            gLru := ?_
            gTbl := ?_
            gHeap := ?_
            gNodup := List.nodup_singleton x.hid
            usageEq := ?_
            cacheTbl := ?_
            capEq := by
              show (LRU_Remove s x.hid).high_pri_pool_capacity = ratioFloor (LRU_Remove s x.hid).capacity (LRU_Remove s x.hid).high_pri_pool_ratio
              rw [hR.poolCap, hR.cap, hR.ratEq]
              exact hv.capEq }
        · intro j hj
          have hj2 : j ∈ listErase x.hid s.lru := by
            rw [← hR.lruEq]
            exact hj
          have hji : j ≠ x.hid := fun hc => hnmE (hc ▸ hj2)
          obtain ⟨e', h1, h2, h3⟩ := hR.pre.lruLive j hj
          rw [hR.heapEq] at h1
          exact ⟨e', by rw [hget_hset_ne hji]; exact h1, h2, h3⟩
        · intro m j hgn e3 hge3
          have hj : j ∈ (LRU_Remove s x.hid).lru := List.get?_mem hgn
          have hj2 : j ∈ listErase x.hid s.lru := by
            rw [← hR.lruEq]
            exact hj
          have hji : j ≠ x.hid := fun hc => hnmE (hc ▸ hj2)
          rw [hget_hset_ne hji] at hge3
          have h9 := hR.pre.flagPos m j hgn e3
          rw [hR.heapEq] at h9
          exact h9 hge3
        · intro y hy
          have h1 := (hmemT y).mp hy
          have hyi2 : y.hid ≠ x.hid := hyne y hy
          obtain ⟨e', h2, h3, h4, h5⟩ := hv.pre.tblHeap y h1.1
          exact ⟨e', by rw [hget_hset_ne hyi2]; exact h2, h3, h4, h5⟩
        · intro j hj
          have hj2 : j ∈ listErase x.hid s.lru := by
            rw [← hR.lruEq]
            exact hj
          have hji : j ≠ x.hid := fun hc => hnmE (hc ▸ hj2)
          have hj3 : j ∈ s.lru := (listErase_sublist x.hid s.lru).subset hj2
          obtain ⟨y, hy, hyj⟩ := hv.pre.lruTbl j hj3
          refine ⟨y, ?_, hyj⟩
          exact (hmemT y).mpr ⟨hy, fun hc => hji (by rw [← hyj, hc])⟩
        · intro p hp
          rcases mem_hset_cases hv.pre.heapNodup hp he2 with ⟨h1, _⟩ | ⟨h1, _⟩
          · rw [h1]
            show x.hid < (LRU_Remove s x.hid).nextId
            rw [hR.nid]
            exact hv.heapLt (x.hid, e) (hget_mem he2)
          · show p.1 < (LRU_Remove s x.hid).nextId
            rw [hR.nid]
            exact hv.heapLt p h1
        · intro p hp hpg
          rcases mem_hset_cases hv.pre.heapNodup hp he2 with ⟨h1, _⟩ | ⟨h1, _⟩
          · exact absurd (h1 ▸ List.mem_singleton_self x.hid) hpg
          · exact hv.refsEq p h1
        · intro p hp hpg
          rcases mem_hset_cases hv.pre.heapNodup hp he2 with ⟨h1, _⟩ | ⟨h1, _⟩
          · exact absurd (h1 ▸ List.mem_singleton_self x.hid) hpg
          · exact hv.liveRef p h1
        · intro j hj
          have hji : j ≠ x.hid := by
            intro hc
            have := natCount_pos hj
            rw [hc] at this
            omega
          refine ⟨?_, by rw [List.mem_singleton]; exact hji⟩
          show j ∈ heapIds (hset s.heap x.hid _)
          rw [heapIds_hset]
          exact hv.hsLive j hj
        · intro p hp hpg
          rcases mem_hset_cases hv.pre.heapNodup hp he2 with ⟨h1, _⟩ | ⟨h1, h2⟩
          · exact absurd (h1 ▸ List.mem_singleton_self x.hid) hpg
          · show p.1 ∈ (LRU_Remove s x.hid).lru ↔ _
            rw [hR.lruEq, mem_listErase_of_ne h2]
            exact hv.lruSpec p h1
        · intro j hj
          rw [List.mem_singleton] at hj
          rw [hj, hR.lruEq]
          exact hnmE
        · intro j hj y hy
          rw [List.mem_singleton] at hj
          rw [hj]
          exact hyne y hy
        · intro j hj
          rw [List.mem_singleton] at hj
          rw [hj]
          exact ⟨_, hget_hset_self he2⟩
        · show (LRU_Remove s x.hid).usage - e.charge = sumCharge (hset s.heap x.hid { e with refs := e.refs - 1, in_cache := false }) - sumIds (hset s.heap x.hid { e with refs := e.refs - 1, in_cache := false }) [x.hid]
          rw [@sumCharge_hset s.heap x.hid e { e with refs := e.refs - 1, in_cache := false } he2 rfl]
          rw [sumIds_cons, sumIds_nil, hchfin x.hid, chargeOf_eq he2]
          rw [hR.usage, hv.usageEq]
          omega
        · intro p hp hpg hcc
          rcases mem_hset_cases hv.pre.heapNodup hp he2 with ⟨h1, _⟩ | ⟨h1, h2⟩
          · exact absurd (h1 ▸ List.mem_singleton_self x.hid) hpg
          · obtain ⟨y, hy, hyj⟩ := hv.cacheTbl p h1 hcc
            refine ⟨y, ?_, hyj⟩
            exact (hmemT y).mpr ⟨hy, fun hc => h2 (by rw [← hyj, hc])⟩
      constructor
      · rw [hres]
        exact midInv_freeAll hmid
      · intro hok
        rw [hres]
        show (LRU_Remove s x.hid).high_pri_pool_usage ≤
          (LRU_Remove s x.hid).high_pri_pool_capacity
        rw [hR.poolCap, hR.pool]
        rw [PoolOK] at hok
        by_cases hb : e.in_high_pri_pool = true
        · rw [if_pos hb]
          omega
        · rw [if_neg hb]
          omega
    · -- pinned erase: the entry leaves the table but keeps its charge
      have hcond1 : ¬(e.refs - 1 = 0 ∧ e.in_cache = true) := fun hc => hZ hc.1
      have hnm : x.hid ∉ s.lru := by
        intro hc
        have h1 := (hv.lruSpec (x.hid, e) (hget_mem he2)).mp hc
        have h2 : e.refs = 1 := h1.2
        omega
      have hres : s.Erase key hash =
          { s with table := t', heap := hset s.heap x.hid { e with refs := e.refs - 1, in_cache := false } } := by
        simp only [Shard.Erase, hrem, he2, if_neg hcond1, if_neg hZ, hget_hset_self he2]
        rw [hset_hset]
      have hchfin : ∀ j, chargeOf (hset s.heap x.hid
          { e with refs := e.refs - 1, in_cache := false }) j = chargeOf s.heap j :=
        chargeOf_hset_same he2 rfl
      constructor
      · rw [hres]
        refine
          { pre :=
            { heapNodup := by
                show (heapIds (hset s.heap x.hid _)).Nodup
                rw [heapIds_hset]
                exact hv.pre.heapNodup
              lruNodup := hv.pre.lruNodup
              lruLive := ?_
              lowLe := hv.pre.lowLe
              lruUsageEq := by
                show s.lru_usage = sumIds (hset s.heap x.hid { e with refs := e.refs - 1, in_cache := false }) s.lru
                rw [sumIds_congr (fun j _ => hchfin j)]
                exact hv.pre.lruUsageEq
              poolUsageEq := by
                show s.high_pri_pool_usage = sumIds (hset s.heap x.hid { e with refs := e.refs - 1, in_cache := false }) (s.lru.drop s.lowCount)
                rw [sumIds_congr (fun j _ => hchfin j)]
                exact hv.pre.poolUsageEq
              flagPos := ?_
              tblWF := hwf'
              tblHeap := ?_
              lruTbl := ?_ }
            heapLt := ?_
            refsEq := ?_
            liveRef := ?_
            hsLive := ?_
            lruSpec := ?_
            usageEq := ?_
            cacheTbl := ?_
            capEq := hv.capEq }
        · intro j hj
          have hji : j ≠ x.hid := fun hc => hnm (hc ▸ hj)
          obtain ⟨e', h1, h2, h3⟩ := hv.pre.lruLive j hj
          exact ⟨e', by rw [hget_hset_ne hji]; exact h1, h2, h3⟩
        · intro m j hgn e3 hge3
          have hj : j ∈ s.lru := List.get?_mem hgn
          have hji : j ≠ x.hid := fun hc => hnm (hc ▸ hj)
          rw [hget_hset_ne hji] at hge3
          exact hv.pre.flagPos m j hgn e3 hge3
        · intro y hy
          have h1 := (hmemT y).mp hy
          have hyi2 : y.hid ≠ x.hid := hyne y hy
          obtain ⟨e', h2, h3, h4, h5⟩ := hv.pre.tblHeap y h1.1
          exact ⟨e', by rw [hget_hset_ne hyi2]; exact h2, h3, h4, h5⟩
        · intro j hj
          have hji : j ≠ x.hid := fun hc => hnm (hc ▸ hj)
          obtain ⟨y, hy, hyj⟩ := hv.pre.lruTbl j hj
          refine ⟨y, ?_, hyj⟩
          exact (hmemT y).mpr ⟨hy, fun hc => hji (by rw [← hyj, hc])⟩
        · intro p hp
          rcases mem_hset_cases hv.pre.heapNodup hp he2 with ⟨h1, _⟩ | ⟨h1, _⟩
          · rw [h1]
            exact hv.heapLt (x.hid, e) (hget_mem he2)
          · exact hv.heapLt p h1
        · intro p hp
          rcases mem_hset_cases hv.pre.heapNodup hp he2 with ⟨h1, h2⟩ | ⟨h1, _⟩
          · rw [h1, h2]
            show e.refs - 1 = (if false = true then 1 else 0) + natCount x.hid hs
            simp
            omega
          · exact hv.refsEq p h1
        · intro p hp
          rcases mem_hset_cases hv.pre.heapNodup hp he2 with ⟨h1, _⟩ | ⟨h1, _⟩
          · right
            rw [h1]
            omega
          · exact hv.liveRef p h1
        · intro j hj
          show j ∈ heapIds (hset s.heap x.hid _)
          rw [heapIds_hset]
          exact hv.hsLive j hj
        · intro p hp
          rcases mem_hset_cases hv.pre.heapNodup hp he2 with ⟨h1, h2⟩ | ⟨h1, _⟩
          · rw [h1, h2]
            show x.hid ∈ s.lru ↔ (false = true ∧ e.refs - 1 = 1)
            constructor
            · intro hc
              exact absurd hc hnm
            · intro hc
              exact absurd hc.1 (by simp)
          · exact hv.lruSpec p h1
        · show s.usage = sumCharge (hset s.heap x.hid { e with refs := e.refs - 1, in_cache := false })
          rw [@sumCharge_hset s.heap x.hid e { e with refs := e.refs - 1, in_cache := false } he2 rfl]
          exact hv.usageEq
        · intro p hp hcc
          rcases mem_hset_cases hv.pre.heapNodup hp he2 with ⟨h1, h2⟩ | ⟨h1, h2⟩
          · rw [h2] at hcc
            exact absurd hcc (by simp)
          · obtain ⟨y, hy, hyj⟩ := hv.cacheTbl p h1 hcc
            refine ⟨y, ?_, hyj⟩
            exact (hmemT y).mpr ⟨hy, fun hc => h2 (by rw [← hyj, hc])⟩
      · intro hok
        rw [hres]
        exact hok
  · have hno : ∀ x ∈ tblEntries s.table, ¬(x.ehash = hash ∧ x.ekey = key) := by
      intro x hx hc
      exact hex ⟨x, hx, hc⟩
    have hrem := tblRemove_none hno
    have hres : s.Erase key hash = { s with table := s.table } := by
      simp only [Shard.Erase, hrem]
    rw [hres]
    exact ⟨hv, fun h => h⟩

/-! ### Helpers for `Insert` -/

theorem sumIds_le_sumCharge {h : List (Nat × LRUHandle)} {g : List Nat}
    (nd : (heapIds h).Nodup) (ndg : g.Nodup) (hg : ∀ j ∈ g, ∃ e, hget h j = some e) :
    sumIds h g ≤ sumCharge h :=
  (sumCharge_foldl_hdel g h nd ndg hg).2

/-- Deleting the heap record of the first listed victim before the frees run
(the `Incomplete` path deallocates the fresh record without its deleter). -/
theorem midInv_drop_garbage {s : Shard} {hs g : List Nat} {i : Nat}
    (m : MidInv s hs (i :: g)) :
    MidInv { s with heap := hdel s.heap i } hs g := by
  have hnd := m.pre.heapNodup
  have hii : i ∉ g := (List.nodup_cons.mp m.gNodup).1
  obtain ⟨ei, hei⟩ := m.gHeap i (List.mem_cons_self i g)
  have hgetD : ∀ j, j ≠ i → hget (hdel s.heap i) j = hget s.heap j :=
    fun j hj => hget_hdel_ne hj
  have hmemD : ∀ p ∈ hdel s.heap i, p ∈ s.heap ∧ p.1 ≠ i := by
    intro p hp
    refine ⟨(hdel_sublist s.heap i).subset hp, ?_⟩
    intro hc
    have h1 : p.1 ∈ heapIds (hdel s.heap i) := List.mem_map.mpr ⟨p, hp, rfl⟩
    rw [heapIds_hdel, hc] at h1
    exact not_mem_listErase_self hnd h1
  have hchD : ∀ j, j ≠ i → chargeOf (hdel s.heap i) j = chargeOf s.heap j := by
    intro j hj
    rw [chargeOf, chargeOf, hgetD j hj]
  have hlruNe : ∀ j ∈ s.lru, j ≠ i :=
    fun j hj hc => m.gLru i (List.mem_cons_self i g) (hc ▸ hj)
  refine
    { pre :=
      { heapNodup := by
          show (heapIds (hdel s.heap i)).Nodup
          rw [heapIds_hdel]
          exact listErase_nodup hnd
        lruNodup := m.pre.lruNodup
        lruLive := ?_
        lowLe := m.pre.lowLe
        lruUsageEq := by
          show s.lru_usage = sumIds (hdel s.heap i) s.lru
          rw [sumIds_congr (fun j hj => hchD j (hlruNe j hj))]
          exact m.pre.lruUsageEq
        poolUsageEq := by
          show s.high_pri_pool_usage = sumIds (hdel s.heap i) (s.lru.drop s.lowCount)
          rw [sumIds_congr (fun j hj => hchD j (hlruNe j (List.mem_of_mem_drop hj)))]
          exact m.pre.poolUsageEq
        flagPos := ?_
        tblWF := m.pre.tblWF
        tblHeap := ?_
        lruTbl := m.pre.lruTbl }
      heapLt := fun p hp => m.heapLt p (hmemD p hp).1
      refsEq := fun p hp hpg =>
        m.refsEq p (hmemD p hp).1
          (fun hc => by
            rcases List.mem_cons.mp hc with hc2 | hc2
            · exact (hmemD p hp).2 hc2
            · exact hpg hc2)
      liveRef := fun p hp hpg =>
        m.liveRef p (hmemD p hp).1
          (fun hc => by
            rcases List.mem_cons.mp hc with hc2 | hc2
            · exact (hmemD p hp).2 hc2
            · exact hpg hc2)
      hsLive := ?_
      lruSpec := fun p hp hpg =>
        m.lruSpec p (hmemD p hp).1
          (fun hc => by
            rcases List.mem_cons.mp hc with hc2 | hc2
            · exact (hmemD p hp).2 hc2
            · exact hpg hc2)
      gLru := fun j hj => m.gLru j (List.mem_cons_of_mem i hj)
      gTbl := fun j hj => m.gTbl j (List.mem_cons_of_mem i hj)
      gHeap := ?_
      gNodup := (List.nodup_cons.mp m.gNodup).2
      usageEq := ?_
      cacheTbl := fun p hp hpg =>
        m.cacheTbl p (hmemD p hp).1
          (fun hc => by
            rcases List.mem_cons.mp hc with hc2 | hc2
            · exact (hmemD p hp).2 hc2
            · exact hpg hc2)
      capEq := m.capEq }
  · intro j hj
    obtain ⟨e', h1, h2, h3⟩ := m.pre.lruLive j hj
    exact ⟨e', by rw [hgetD j (hlruNe j hj)]; exact h1, h2, h3⟩
  · intro n j hgn e2 hge2
    have hj : j ∈ s.lru := List.get?_mem hgn
    rw [hgetD j (hlruNe j hj)] at hge2
    exact m.pre.flagPos n j hgn e2 hge2
  · intro x hx
    have hxi : x.hid ≠ i := fun hc => m.gTbl i (List.mem_cons_self i g) x hx hc
    obtain ⟨e', h1, h2, h3, h4⟩ := m.pre.tblHeap x hx
    exact ⟨e', by rw [hgetD x.hid hxi]; exact h1, h2, h3, h4⟩
  · intro j hj
    obtain ⟨h1, h2⟩ := m.hsLive j hj
    have hji : j ≠ i := fun hc => h2 (hc ▸ List.mem_cons_self i g)
    refine ⟨?_, fun hc => h2 (List.mem_cons_of_mem i hc)⟩
    show j ∈ heapIds (hdel s.heap i)
    rw [heapIds_hdel]
    exact (mem_listErase_of_ne hji).mpr h1
  · intro j hj
    have hji : j ≠ i := fun hc => hii (hc ▸ hj)
    obtain ⟨e', h1⟩ := m.gHeap j (List.mem_cons_of_mem i hj)
    exact ⟨e', by rw [hgetD j hji]; exact h1⟩
  · show s.usage = sumCharge (hdel s.heap i) - sumIds (hdel s.heap i) g
    have h1 : sumCharge (hdel s.heap i) = sumCharge s.heap - ei.charge :=
      sumCharge_hdel hei
    have h2 : sumIds (hdel s.heap i) g = sumIds s.heap g :=
      sumIds_congr (fun j hj => hchD j (fun hc => hii (hc ▸ hj)))
    have h3 := m.usageEq
    rw [sumIds_cons, chargeOf_eq hei] at h3
    rw [h1, h2, h3]
    omega

/-- Variant of `lruRemove_hset_table` that also carries a usage overwrite. -/
theorem lruRemove_hset_table_usage {s : Shard} {i : Nat} {e e1 : LRUHandle}
    (t2 : LRUHandleTable) (u2 : Nat)
    (he : hget s.heap i = some e) (hch : e1.charge = e.charge)
    (hfl : e1.in_high_pri_pool = e.in_high_pri_pool) :
    LRU_Remove { s with table := t2, heap := hset s.heap i e1, usage := u2 } i =
      { LRU_Remove s i with table := t2, heap := hset s.heap i e1, usage := u2 } := by
  simp only [LRU_Remove, he, hget_hset_self he, LRUUsageSub, HighPriPoolUsageSub]
  rw [hch, hfl]
  by_cases hb : e.in_high_pri_pool = true
  · rw [if_pos hb, if_pos hb]
  · rw [if_neg hb, if_neg hb]

/-- `inv_of_insOut` in the presence of a pending scratch list. -/
theorem midInv_of_insOut {s t : Shard} {hs2 g : List Nat} {i : Nat} {e1 : LRUHandle}
    (hIns : InsOut s t i e1)
    (he1 : hget s.heap i = some e1)
    (hic : e1.in_cache = true) (hr1 : e1.refs = 1) (hgi : i ∉ g)
    (heapLt : ∀ p ∈ s.heap, p.1 < s.nextId)
    (refsEq : ∀ p ∈ s.heap, p.1 ∉ g →
      p.2.refs = (if p.2.in_cache = true then 1 else 0) + natCount p.1 hs2)
    (liveRef : ∀ p ∈ s.heap, p.1 ∉ g → (p.2.in_cache = true ∨ 0 < natCount p.1 hs2))
    (hsLive : ∀ j ∈ hs2, j ∈ heapIds s.heap ∧ j ∉ g)
    (lruSpec : ∀ p ∈ s.heap, p.1 ∉ g → p.1 ≠ i →
      (p.1 ∈ s.lru ↔ (p.2.in_cache = true ∧ p.2.refs = 1)))
    (gLru : ∀ j ∈ g, j ∉ s.lru)
    (gTbl : ∀ j ∈ g, ∀ x ∈ tblEntries s.table, x.hid ≠ j)
    (gHeap : ∀ j ∈ g, ∃ e, hget s.heap j = some e)
    (gNodup : g.Nodup)
    (usageEq : s.usage = sumCharge s.heap - sumIds s.heap g)
    (cacheTbl : ∀ p ∈ s.heap, p.1 ∉ g → p.2.in_cache = true →
      ∃ x ∈ tblEntries s.table, x.hid = p.1)
    (capEq : s.high_pri_pool_capacity = ratioFloor s.capacity s.high_pri_pool_ratio) :
    MidInv t hs2 g := by
  have hndT : (heapIds t.heap).Nodup := hIns.pre.heapNodup
  have htrans : ∀ p ∈ t.heap, ∃ e', (p.1, e') ∈ s.heap ∧
      hget s.heap p.1 = some e' ∧ poolCleared e' = poolCleared p.2 := by
    intro p hp
    have hg : hget t.heap p.1 = some p.2 := hget_of_mem_nodup hndT hp
    have h1 := hIns.heapPool p.1
    rw [hg] at h1
    cases hg2 : hget s.heap p.1 with
    | none => rw [hg2] at h1; exact absurd h1 (by simp)
    | some e' =>
      rw [hg2] at h1
      exact ⟨e', hget_mem hg2, rfl, (Option.some.inj h1).symm⟩
  refine
    { pre := hIns.pre
      heapLt := ?_
      refsEq := ?_
      liveRef := ?_
      hsLive := fun j hj => ⟨by rw [hIns.ids]; exact (hsLive j hj).1, (hsLive j hj).2⟩
      lruSpec := ?_
      gLru := ?_
      gTbl := fun j hj x hx => gTbl j hj x (by rw [← hIns.tblEq]; exact hx)
      gHeap := ?_
      gNodup := gNodup
      usageEq := ?_
      cacheTbl := ?_
      capEq := by rw [hIns.poolCap, hIns.cap, hIns.ratEq]; exact capEq }
  · intro p hp
    obtain ⟨e', he', _, _⟩ := htrans p hp
    rw [hIns.nid]
    exact heapLt (p.1, e') he'
  · intro p hp hpg
    obtain ⟨e', he', _, heq⟩ := htrans p hp
    obtain ⟨h1, h2, _, _, _⟩ := poolClearedEq_fields heq
    have h3 := refsEq (p.1, e') he' hpg
    rw [h1, h2] at h3
    exact h3
  · intro p hp hpg
    obtain ⟨e', he', _, heq⟩ := htrans p hp
    obtain ⟨_, h2, _, _, _⟩ := poolClearedEq_fields heq
    have h3 := liveRef (p.1, e') he' hpg
    rw [h2] at h3
    exact h3
  · intro p hp hpg
    obtain ⟨e', he', hge', heq⟩ := htrans p hp
    obtain ⟨h1, h2, _, _, _⟩ := poolClearedEq_fields heq
    rw [hIns.lruMem p.1]
    by_cases hpi : p.1 = i
    · have hee : e' = e1 := by
        rw [hpi] at hge'
        rw [he1] at hge'
        exact (Option.some.inj hge').symm
      constructor
      · intro _
        refine ⟨?_, ?_⟩
        · rw [← h2, hee]
          exact hic
        · rw [← h1, hee]
          exact hr1
      · intro _
        exact Or.inl hpi
    · have h3 := lruSpec (p.1, e') he' hpg hpi
      rw [h1, h2] at h3
      constructor
      · intro hcc
        rcases hcc with hcc | hcc
        · exact absurd hcc hpi
        · exact h3.mp hcc
      · intro hcc
        exact Or.inr (h3.mpr hcc)
  · intro j hj
    rw [hIns.lruMem j]
    intro hc
    rcases hc with hc | hc
    · exact hgi (hc ▸ hj)
    · exact gLru j hj hc
  · intro j hj
    obtain ⟨e', he'⟩ := gHeap j hj
    have h1 := hIns.heapPool j
    rw [he'] at h1
    cases hg2 : hget t.heap j with
    | none => rw [hg2] at h1; exact absurd h1 (by simp)
    | some e2 => exact ⟨e2, rfl⟩
  · have h1 : sumCharge t.heap = sumCharge s.heap :=
      sumCharge_transfer hndT hIns.ids (fun j => chargeOf_poolCleared (hIns.heapPool j))
    have h2 : sumIds t.heap g = sumIds s.heap g :=
      sumIds_congr (fun j _ => chargeOf_poolCleared (hIns.heapPool j))
    rw [hIns.usage, h1, h2]
    exact usageEq
  · intro p hp hpg hcc
    obtain ⟨e', he', _, heq⟩ := htrans p hp
    obtain ⟨_, h2, _, _, _⟩ := poolClearedEq_fields heq
    rw [hIns.tblEq]
    exact cacheTbl (p.1, e') he' hpg (by rw [h2]; exact hcc)

/-- A fresh pinned entry (handle returned, `refs = 2`) completes the
mid-lock invariant without touching the LRU list. -/
theorem freshBase_midInv {s : Shard} {hs2 g : List Nat} {i : Nat} {e1 : LRUHandle}
    (fb : FreshBase s hs2 g i e1) (hr2 : e1.refs ≠ 1) : MidInv s hs2 g := by
  have hnd := fb.pre.heapNodup
  refine
    { pre := fb.pre
      heapLt := fb.heapLt
      refsEq := ?_
      liveRef := ?_
      hsLive := fb.hsLive
      lruSpec := ?_
      gLru := fb.gLru
      gTbl := fb.gTbl
      gHeap := fb.gHeap
      gNodup := fb.gNodup
      usageEq := fb.usageEq
      cacheTbl := ?_
      capEq := fb.capEq }
  · intro p hp hpg
    by_cases hpi : p.1 = i
    · have hee : p.2 = e1 := by
        have h9 := hget_of_mem_nodup hnd hp
        rw [hpi, fb.he1] at h9
        exact (Option.some.inj h9).symm
      rw [hee, hpi, fb.hic, fb.refsI]
      simp
    · exact fb.refsEqO p hp hpg hpi
  · intro p hp hpg
    by_cases hpi : p.1 = i
    · left
      have hee : p.2 = e1 := by
        have h9 := hget_of_mem_nodup hnd hp
        rw [hpi, fb.he1] at h9
        exact (Option.some.inj h9).symm
      rw [hee]
      exact fb.hic
    · exact fb.liveRefO p hp hpg hpi
  · intro p hp hpg
    by_cases hpi : p.1 = i
    · have hee : p.2 = e1 := by
        have h9 := hget_of_mem_nodup hnd hp
        rw [hpi, fb.he1] at h9
        exact (Option.some.inj h9).symm
      rw [hpi, hee]
      constructor
      · intro hc
        exact absurd hc fb.hnm
      · intro hc
        exact absurd hc.2 hr2
    · exact fb.lruSpecO p hp hpg hpi
  · intro p hp hpg hcc
    by_cases hpi : p.1 = i
    · rw [hpi]
      exact fb.cacheTblI
    · exact fb.cacheTblO p hp hpg hpi hcc

/-- A fresh unpinned entry (`refs = 1`) completes the mid-lock invariant
after `LRU_Insert` links it. -/
theorem freshBase_insOut_midInv {s : Shard} {hs2 g : List Nat} {i : Nat} {e1 : LRUHandle}
    (fb : FreshBase s hs2 g i e1) (hr1 : e1.refs = 1) :
    MidInv (LRU_Insert s i) hs2 g := by
  have hnd := fb.pre.heapNodup
  have hcnt0 : natCount i hs2 = 0 := by
    have := fb.refsI
    omega
  have hIns := lruInsert_spec fb.pre fb.he1 fb.hnm fb.hic hr1 fb.cacheTblI
  refine midInv_of_insOut hIns fb.he1 fb.hic hr1 fb.hgi fb.heapLt ?_ ?_ fb.hsLive
    fb.lruSpecO fb.gLru fb.gTbl fb.gHeap fb.gNodup fb.usageEq ?_ fb.capEq
  · intro p hp hpg
    by_cases hpi : p.1 = i
    · have hee : p.2 = e1 := by
        have h9 := hget_of_mem_nodup hnd hp
        rw [hpi, fb.he1] at h9
        exact (Option.some.inj h9).symm
      rw [hee, hpi, fb.hic, hr1, hcnt0]
      simp
    · exact fb.refsEqO p hp hpg hpi
  · intro p hp hpg
    by_cases hpi : p.1 = i
    · left
      have hee : p.2 = e1 := by
        have h9 := hget_of_mem_nodup hnd hp
        rw [hpi, fb.he1] at h9
        exact (Option.some.inj h9).symm
      rw [hee]
      exact fb.hic
    · exact fb.liveRefO p hp hpg hpi
  · intro p hp hpg hcc
    by_cases hpi : p.1 = i
    · rw [hpi]
      exact fb.cacheTblI
    · exact fb.cacheTblO p hp hpg hpi hcc

theorem insAlloc_midInv {s : Shard} {hs : List Nat} (hv : Inv s hs)
    (key hash charge : Nat) (wantHandle highPri : Bool) :
    MidInv { s with heap := (s.nextId, newEntry key hash charge wantHandle highPri) :: s.heap, nextId := s.nextId + 1 } hs [s.nextId] := by
  have hfresh : ∀ j ∈ heapIds s.heap, j < s.nextId := by
    intro j hj
    obtain ⟨e, he⟩ := hget_isSome_of_mem hj
    exact hv.heapLt (j, e) (hget_mem he)
  have hgetAe : hget ((s.nextId, newEntry key hash charge wantHandle highPri) :: s.heap)
      s.nextId = some (newEntry key hash charge wantHandle highPri) := by
    show (if s.nextId = s.nextId then _ else _) = _
    rw [if_pos rfl]
  have hgetAne : ∀ j, j ≠ s.nextId →
      hget ((s.nextId, newEntry key hash charge wantHandle highPri) :: s.heap) j =
      hget s.heap j := by
    intro j hj
    show (if s.nextId = j then _ else _) = _
    rw [if_neg (fun hc => hj hc.symm)]
  have hchA : ∀ j, j ≠ s.nextId →
      chargeOf ((s.nextId, newEntry key hash charge wantHandle highPri) :: s.heap) j =
      chargeOf s.heap j := by
    intro j hj
    rw [chargeOf, chargeOf, hgetAne j hj]
  have hlrune : ∀ j ∈ s.lru, j ≠ s.nextId := by
    intro j hj hc
    obtain ⟨e, he, _, _⟩ := hv.pre.lruLive j hj
    have := hfresh j (mem_heapIds_of_hget he)
    omega
  have htblne : ∀ x ∈ tblEntries s.table, x.hid ≠ s.nextId := by
    intro x hx hc
    obtain ⟨e, he, _, _, _⟩ := hv.pre.tblHeap x hx
    have := hfresh x.hid (mem_heapIds_of_hget he)
    omega
  have hmemA : ∀ {p : Nat × LRUHandle},
      p ∈ (s.nextId, newEntry key hash charge wantHandle highPri) :: s.heap →
      p = (s.nextId, newEntry key hash charge wantHandle highPri) ∨
        (p ∈ s.heap ∧ p.1 ≠ s.nextId) := by
    intro p hp
    rcases List.mem_cons.mp hp with hp | hp
    · exact Or.inl hp
    · refine Or.inr ⟨hp, ?_⟩
      intro hc
      have : p.1 ∈ heapIds s.heap := List.mem_map.mpr ⟨p, hp, rfl⟩
      have := hfresh p.1 this
      omega
  refine
    { pre :=
      { heapNodup := by
          show (s.nextId :: heapIds s.heap).Nodup
          rw [List.nodup_cons]
          exact ⟨fun hc => by have := hfresh s.nextId hc; omega, hv.pre.heapNodup⟩
        lruNodup := hv.pre.lruNodup
        lruLive := ?_
        lowLe := hv.pre.lowLe
        lruUsageEq := by
          show s.lru_usage = sumIds _ s.lru
          rw [sumIds_congr (fun j hj => hchA j (hlrune j hj))]
          exact hv.pre.lruUsageEq
        poolUsageEq := by
          show s.high_pri_pool_usage = sumIds _ (s.lru.drop s.lowCount)
          rw [sumIds_congr (fun j hj => hchA j (hlrune j (List.mem_of_mem_drop hj)))]
          exact hv.pre.poolUsageEq
        flagPos := ?_
        tblWF := hv.pre.tblWF
        tblHeap := ?_
        lruTbl := hv.pre.lruTbl }
      heapLt := ?_
      refsEq := ?_
      liveRef := ?_
      hsLive := ?_
      lruSpec := ?_
      gLru := ?_
      gTbl := ?_
      gHeap := ?_
      gNodup := List.nodup_singleton _
      usageEq := ?_
      cacheTbl := ?_
      capEq := hv.capEq }
  · intro j hj
    obtain ⟨e, he, h2, h3⟩ := hv.pre.lruLive j hj
    exact ⟨e, by rw [hgetAne j (hlrune j hj)]; exact he, h2, h3⟩
  · intro n j hgn e2 hge2
    have hj : j ∈ s.lru := List.get?_mem hgn
    rw [hgetAne j (hlrune j hj)] at hge2
    exact hv.pre.flagPos n j hgn e2 hge2
  · intro x hx
    obtain ⟨e, he, h2, h3, h4⟩ := hv.pre.tblHeap x hx
    exact ⟨e, by rw [hgetAne x.hid (htblne x hx)]; exact he, h2, h3, h4⟩
  · intro p hp
    show p.1 < s.nextId + 1
    rcases hmemA hp with hp | ⟨hp, _⟩
    · rw [hp]
      omega
    · have := hv.heapLt p hp
      omega
  · intro p hp hpg
    rcases hmemA hp with hp | ⟨hp, hne⟩
    · exact absurd (by rw [hp]; exact List.mem_singleton_self _) hpg
    · exact hv.refsEq p hp
  · intro p hp hpg
    rcases hmemA hp with hp | ⟨hp, hne⟩
    · exact absurd (by rw [hp]; exact List.mem_singleton_self _) hpg
    · exact hv.liveRef p hp
  · intro j hj
    have h1 := hv.hsLive j hj
    refine ⟨?_, ?_⟩
    · show j ∈ s.nextId :: heapIds s.heap
      exact List.mem_cons_of_mem _ h1
    · rw [List.mem_singleton]
      intro hc
      have := hfresh j h1
      omega
  · intro p hp hpg
    rcases hmemA hp with hp | ⟨hp, hne⟩
    · exact absurd (by rw [hp]; exact List.mem_singleton_self _) hpg
    · exact hv.lruSpec p hp
  · intro j hj
    rw [List.mem_singleton] at hj
    rw [hj]
    intro hc
    exact hlrune _ hc rfl
  · intro j hj x hx
    rw [List.mem_singleton] at hj
    rw [hj]
    exact htblne x hx
  · intro j hj
    rw [List.mem_singleton] at hj
    rw [hj]
    exact ⟨_, hgetAe⟩
  · show s.usage = sumCharge _ - sumIds _ [s.nextId]
    rw [sumCharge_cons, sumIds_cons, sumIds_nil, chargeOf_eq hgetAe]
    rw [hv.usageEq]
    have hb : ((s.nextId, newEntry key hash charge wantHandle highPri)).2.charge =
        (newEntry key hash charge wantHandle highPri).charge := rfl
    rw [hb]
    omega
  · intro p hp hpg hcc
    rcases hmemA hp with hp | ⟨hp, hne⟩
    · exact absurd (by rw [hp]; exact List.mem_singleton_self _) hpg
    · exact hv.cacheTbl p hp hcc

theorem inv_insert {s : Shard} {hs : List Nat} (hv : Inv s hs)
    (key hash charge : Nat) (wantHandle highPri : Bool) :
    Inv (s.Insert key hash charge wantHandle highPri).1
      (hs ++ (s.Insert key hash charge wantHandle highPri).2.2.toList) ∧
    (PoolOK s → PoolOK (s.Insert key hash charge wantHandle highPri).1) := by
  have hm0 := insAlloc_midInv hv key hash charge wantHandle highPri
  obtain ⟨k, hPO, hscr, hstop, hmin⟩ := evictFromLRU_spec hm0.pre charge
  have hscr2 : (EvictFromLRU { s with heap := (s.nextId, newEntry key hash charge wantHandle highPri) :: s.heap, nextId := s.nextId + 1 } charge).2 = s.lru.take k := hscr
  have hm1 : MidInv (EvictFromLRU { s with heap := (s.nextId, newEntry key hash charge wantHandle highPri) :: s.heap, nextId := s.nextId + 1 } charge).1 hs (s.nextId :: s.lru.take k) :=
    midInv_popOut hm0 hPO
  have hlrune : ∀ j ∈ s.lru, j ≠ s.nextId := by
    intro j hj hc
    obtain ⟨e, he, _, _⟩ := hv.pre.lruLive j hj
    have := hv.heapLt (j, e) (hget_mem he)
    omega
  have hnidtk : s.nextId ∉ s.lru.take k :=
    fun hc => hlrune _ (List.mem_of_mem_take hc) rfl
  have hgetEVnid : hget (EvictFromLRU { s with heap := (s.nextId, newEntry key hash charge wantHandle highPri) :: s.heap, nextId := s.nextId + 1 } charge).1.heap s.nextId = some (newEntry key hash charge wantHandle highPri) := by
    rw [hPO.heapSame s.nextId hnidtk]
    show (if s.nextId = s.nextId then _ else _) = _
    rw [if_pos rfl]
  have hIcnt : natCount s.nextId hs = 0 := by
    apply natCount_eq_zero
    intro hc
    exact (hm1.hsLive s.nextId hc).2 (List.mem_cons_self _ _)
  have hpoolEV : (EvictFromLRU { s with heap := (s.nextId, newEntry key hash charge wantHandle highPri) :: s.heap, nextId := s.nextId + 1 } charge).1.high_pri_pool_usage ≤ s.high_pri_pool_usage := by
    have h1 : (EvictFromLRU { s with heap := (s.nextId, newEntry key hash charge wantHandle highPri) :: s.heap, nextId := s.nextId + 1 } charge).1.high_pri_pool_usage = s.high_pri_pool_usage - sumIds ((s.nextId, newEntry key hash charge wantHandle highPri) :: s.heap) ((s.lru.take k).drop s.lowCount) := hPO.pool
    omega
  have hpoolCapEV : (EvictFromLRU { s with heap := (s.nextId, newEntry key hash charge wantHandle highPri) :: s.heap, nextId := s.nextId + 1 } charge).1.high_pri_pool_capacity = s.high_pri_pool_capacity := hPO.poolCap
  by_cases hRej : (EvictFromLRU { s with heap := (s.nextId, newEntry key hash charge wantHandle highPri) :: s.heap, nextId := s.nextId + 1 } charge).1.capacity < (EvictFromLRU { s with heap := (s.nextId, newEntry key hash charge wantHandle highPri) :: s.heap, nextId := s.nextId + 1 } charge).1.usage - (EvictFromLRU { s with heap := (s.nextId, newEntry key hash charge wantHandle highPri) :: s.heap, nextId := s.nextId + 1 } charge).1.lru_usage + charge ∧ ((EvictFromLRU { s with heap := (s.nextId, newEntry key hash charge wantHandle highPri) :: s.heap, nextId := s.nextId + 1 } charge).1.strict_capacity_limit = true ∨ wantHandle = false)
  · by_cases hW : wantHandle = false
    · constructor
      · simp only [Shard.Insert, Shard.insertAlloc, if_pos hRej, if_pos hW, Option.toList]
        rw [hscr2, List.append_nil]
        exact midInv_freeAll (midInv_perm hm1
          (@List.perm_append_comm Nat [s.nextId] (List.take k s.lru)))
      · intro hok
        simp only [Shard.Insert, Shard.insertAlloc, if_pos hRej, if_pos hW]
        rw [hscr2]
        obtain ⟨_, _, _, _, _, hPoolF, _, _, _, hPoolCapF, _, _⟩ :=
          freeAll_fields (s.lru.take k ++ [s.nextId])
            (EvictFromLRU { s with heap := (s.nextId, newEntry key hash charge wantHandle highPri) :: s.heap, nextId := s.nextId + 1 } charge).1
        rw [PoolOK, hPoolF, hPoolCapF, hpoolCapEV]
        rw [PoolOK] at hok
        omega
    · constructor
      · simp only [Shard.Insert, Shard.insertAlloc, if_pos hRej, if_neg hW, Option.toList]
        rw [hscr2, List.append_nil]
        exact midInv_freeAll (midInv_drop_garbage hm1)
      · intro hok
        simp only [Shard.Insert, Shard.insertAlloc, if_pos hRej, if_neg hW]
        rw [hscr2]
        obtain ⟨_, _, _, _, _, hPoolF, _, _, _, hPoolCapF, _, _⟩ :=
          freeAll_fields (s.lru.take k)
            { (EvictFromLRU { s with heap := (s.nextId, newEntry key hash charge wantHandle highPri) :: s.heap, nextId := s.nextId + 1 } charge).1 with heap := hdel (EvictFromLRU { s with heap := (s.nextId, newEntry key hash charge wantHandle highPri) :: s.heap, nextId := s.nextId + 1 } charge).1.heap s.nextId }
        rw [PoolOK, hPoolF, hPoolCapF]
        show _ ≤ (EvictFromLRU { s with heap := (s.nextId, newEntry key hash charge wantHandle highPri) :: s.heap, nextId := s.nextId + 1 } charge).1.high_pri_pool_capacity
        rw [hpoolCapEV]
        rw [PoolOK] at hok
        have h9 : ({ (EvictFromLRU { s with heap := (s.nextId, newEntry key hash charge wantHandle highPri) :: s.heap, nextId := s.nextId + 1 } charge).1 with heap := hdel (EvictFromLRU { s with heap := (s.nextId, newEntry key hash charge wantHandle highPri) :: s.heap, nextId := s.nextId + 1 } charge).1.heap s.nextId }).high_pri_pool_usage = (EvictFromLRU { s with heap := (s.nextId, newEntry key hash charge wantHandle highPri) :: s.heap, nextId := s.nextId + 1 } charge).1.high_pri_pool_usage := rfl
        rw [h9]
        omega
  · -- admission: link into the table, account, maybe relink the LRU list
    have hndEV : (heapIds (EvictFromLRU { s with heap := (s.nextId, newEntry key hash charge wantHandle highPri) :: s.heap, nextId := s.nextId + 1 } charge).1.heap).Nodup := hm1.pre.heapNodup
    have hnmEV : s.nextId ∉ (EvictFromLRU { s with heap := (s.nextId, newEntry key hash charge wantHandle highPri) :: s.heap, nextId := s.nextId + 1 } charge).1.lru := by
      intro hc
      rw [hPO.lru] at hc
      exact hlrune _ (List.mem_of_mem_drop hc) rfl
    have htkne : ∀ j ∈ s.lru.take k, j ≠ s.nextId :=
      fun j hj hc => hnidtk (hc ▸ hj)
    have hchnid : chargeOf (EvictFromLRU { s with heap := (s.nextId, newEntry key hash charge wantHandle highPri) :: s.heap, nextId := s.nextId + 1 } charge).1.heap s.nextId = charge := by
      rw [chargeOf, hgetEVnid]
      rfl
    have hbound : sumIds (EvictFromLRU { s with heap := (s.nextId, newEntry key hash charge wantHandle highPri) :: s.heap, nextId := s.nextId + 1 } charge).1.heap (s.nextId :: s.lru.take k) ≤ sumCharge (EvictFromLRU { s with heap := (s.nextId, newEntry key hash charge wantHandle highPri) :: s.heap, nextId := s.nextId + 1 } charge).1.heap :=
      sumIds_le_sumCharge hndEV hm1.gNodup hm1.gHeap
    have hgNodupTk : (s.lru.take k).Nodup :=
      (List.take_sublist k s.lru).nodup hv.pre.lruNodup
    have hsplitc : ∀ {j : Nat}, j ∉ s.lru.take k → j ≠ s.nextId →
        j ∉ s.nextId :: s.lru.take k := by
      intro j h1 h2 hc
      rcases List.mem_cons.mp hc with hc | hc
      · exact h2 hc
      · exact h1 hc
    have hcnt_app : ∀ j, natCount j (hs ++ [s.nextId]) =
        natCount j hs + (if s.nextId = j then 1 else 0) := by
      intro j
      rw [natCount_append, natCount_singleton]
    by_cases hex : ∃ x ∈ tblEntries (EvictFromLRU { s with heap := (s.nextId, newEntry key hash charge wantHandle highPri) :: s.heap, nextId := s.nextId + 1 } charge).1.table, x.ehash = hash ∧ x.ekey = key
    · -- an entry with the same key is displaced
      obtain ⟨xo, hxo, hmo⟩ := hex
      obtain ⟨t2, hti, hlen2, helems2, hwf2, hmemT2⟩ :=
        tblInsert_match hm1.pre.tblWF { ehash := hash, ekey := key, hid := s.nextId } hxo hmo
      obtain ⟨oe, hgeto, hoek, hoeh, hoic⟩ := hm1.pre.tblHeap xo hxo
      have honid : xo.hid ≠ s.nextId := hm1.gTbl s.nextId (List.mem_cons_self _ _) xo hxo
      have hotk : xo.hid ∉ s.lru.take k :=
        fun hc => hm1.gTbl xo.hid (List.mem_cons_of_mem _ hc) xo hxo rfl
      have hrefso : oe.refs = 1 + natCount xo.hid hs := by
        have h0 := hm1.refsEq (xo.hid, oe) (hget_mem hgeto) (hsplitc hotk honid)
        rw [hoic] at h0
        simpa using h0
      have huniqo : ∀ y ∈ tblEntries (EvictFromLRU { s with heap := (s.nextId, newEntry key hash charge wantHandle highPri) :: s.heap, nextId := s.nextId + 1 } charge).1.table, y.hid = xo.hid → y = xo := by
        intro y hy hyi
        obtain ⟨ey, hgey, hky, hhy, _⟩ := hm1.pre.tblHeap y hy
        rw [hyi, hgeto] at hgey
        have hey : ey = oe := (Option.some.inj hgey).symm
        rw [hey] at hky hhy
        exact tbl_unique hm1.pre.tblWF hy hxo (by rw [← hhy, hoeh]) (by rw [← hky, hoek])
      have hchoe : ∀ j, chargeOf (hset (EvictFromLRU { s with heap := (s.nextId, newEntry key hash charge wantHandle highPri) :: s.heap, nextId := s.nextId + 1 } charge).1.heap xo.hid { oe with in_cache := false, refs := oe.refs - 1 }) j = chargeOf (EvictFromLRU { s with heap := (s.nextId, newEntry key hash charge wantHandle highPri) :: s.heap, nextId := s.nextId + 1 } charge).1.heap j := chargeOf_hset_same hgeto rfl
      have hgetnid2 : hget (hset (EvictFromLRU { s with heap := (s.nextId, newEntry key hash charge wantHandle highPri) :: s.heap, nextId := s.nextId + 1 } charge).1.heap xo.hid { oe with in_cache := false, refs := oe.refs - 1 }) s.nextId = some (newEntry key hash charge wantHandle highPri) := by
        rw [hget_hset_ne (Ne.symm honid)]
        exact hgetEVnid
      by_cases hZo : oe.refs - 1 = 0
      · -- the displaced entry was unpinned: it is unlinked, uncounted, and freed
        have hcnto : natCount xo.hid hs = 0 := by omega
        have hoe1 : oe.refs = 1 := by omega
        have holru : xo.hid ∈ (EvictFromLRU { s with heap := (s.nextId, newEntry key hash charge wantHandle highPri) :: s.heap, nextId := s.nextId + 1 } charge).1.lru :=
          (hm1.lruSpec (xo.hid, oe) (hget_mem hgeto) (hsplitc hotk honid)).mpr ⟨hoic, hoe1⟩
        have hRo := lruRemove_spec hm1.pre hgeto holru
        have honR : xo.hid ∉ (LRU_Remove (EvictFromLRU { s with heap := (s.nextId, newEntry key hash charge wantHandle highPri) :: s.heap, nextId := s.nextId + 1 } charge).1 xo.hid).lru := by
          rw [hRo.lruEq]
          exact not_mem_listErase_self hm1.pre.lruNodup
        have hgNodup2 : (s.lru.take k ++ [xo.hid]).Nodup := by
          refine List.Nodup.append hgNodupTk (List.nodup_singleton _) ?_
          intro a ha hb
          rw [List.mem_singleton] at hb
          exact hotk (hb ▸ ha)
        have hnig2 : s.nextId ∉ s.lru.take k ++ [xo.hid] := by
          intro hc
          rcases List.mem_append.mp hc with hc | hc
          · exact hnidtk hc
          · rw [List.mem_singleton] at hc
            exact honid hc.symm
        have hboundZ : charge + (sumIds (EvictFromLRU { s with heap := (s.nextId, newEntry key hash charge wantHandle highPri) :: s.heap, nextId := s.nextId + 1 } charge).1.heap (s.lru.take k) + oe.charge) ≤
            sumCharge (EvictFromLRU { s with heap := (s.nextId, newEntry key hash charge wantHandle highPri) :: s.heap, nextId := s.nextId + 1 } charge).1.heap := by
          have h1 : sumIds (EvictFromLRU { s with heap := (s.nextId, newEntry key hash charge wantHandle highPri) :: s.heap, nextId := s.nextId + 1 } charge).1.heap (s.nextId :: (s.lru.take k ++ [xo.hid])) ≤
              sumCharge (EvictFromLRU { s with heap := (s.nextId, newEntry key hash charge wantHandle highPri) :: s.heap, nextId := s.nextId + 1 } charge).1.heap := by
            refine sumIds_le_sumCharge hndEV ?_ ?_
            · rw [List.nodup_cons]
              exact ⟨hnig2, hgNodup2⟩
            · intro j hj
              rcases List.mem_cons.mp hj with hj | hj
              · rw [hj]
                exact ⟨newEntry key hash charge wantHandle highPri, hgetEVnid⟩
              · rcases List.mem_append.mp hj with hj | hj
                · exact hm1.gHeap j (List.mem_cons_of_mem _ hj)
                · rw [List.mem_singleton] at hj
                  rw [hj]
                  exact ⟨oe, hgeto⟩
          rw [sumIds_cons, hchnid, sumIds_append, sumIds_cons, sumIds_nil,
            chargeOf_eq hgeto] at h1
          omega
        have hpoolD1 : PoolOK s → PoolOK { LRU_Remove (EvictFromLRU { s with heap := (s.nextId, newEntry key hash charge wantHandle highPri) :: s.heap, nextId := s.nextId + 1 } charge).1 xo.hid with table := t2, heap := hset (EvictFromLRU { s with heap := (s.nextId, newEntry key hash charge wantHandle highPri) :: s.heap, nextId := s.nextId + 1 } charge).1.heap xo.hid { oe with in_cache := false, refs := oe.refs - 1 }, usage := (EvictFromLRU { s with heap := (s.nextId, newEntry key hash charge wantHandle highPri) :: s.heap, nextId := s.nextId + 1 } charge).1.usage + (newEntry key hash charge wantHandle highPri).charge - oe.charge } := by
          intro hok
          rw [PoolOK] at hok ⊢
          show (LRU_Remove (EvictFromLRU { s with heap := (s.nextId, newEntry key hash charge wantHandle highPri) :: s.heap, nextId := s.nextId + 1 } charge).1 xo.hid).high_pri_pool_usage ≤
            (LRU_Remove (EvictFromLRU { s with heap := (s.nextId, newEntry key hash charge wantHandle highPri) :: s.heap, nextId := s.nextId + 1 } charge).1 xo.hid).high_pri_pool_capacity
          rw [hRo.pool, hRo.poolCap, hpoolCapEV]
          by_cases hb : oe.in_high_pri_pool = true
          · rw [if_pos hb]
            omega
          · rw [if_neg hb]
            omega
        have hfbZ : ∀ hs2 : List Nat,
            (newEntry key hash charge wantHandle highPri).refs = 1 + natCount s.nextId hs2 →
            (∀ p ∈ (EvictFromLRU { s with heap := (s.nextId, newEntry key hash charge wantHandle highPri) :: s.heap, nextId := s.nextId + 1 } charge).1.heap, p.1 ∉ s.lru.take k → p.1 ≠ s.nextId →
              p.2.refs = (if p.2.in_cache = true then 1 else 0) + natCount p.1 hs2) →
            (∀ p ∈ (EvictFromLRU { s with heap := (s.nextId, newEntry key hash charge wantHandle highPri) :: s.heap, nextId := s.nextId + 1 } charge).1.heap, p.1 ∉ s.lru.take k → p.1 ≠ s.nextId →
              (p.2.in_cache = true ∨ 0 < natCount p.1 hs2)) →
            (∀ j ∈ hs2, j ∈ heapIds (EvictFromLRU { s with heap := (s.nextId, newEntry key hash charge wantHandle highPri) :: s.heap, nextId := s.nextId + 1 } charge).1.heap ∧ j ∉ s.lru.take k ∧ j ≠ xo.hid) →
            FreshBase { LRU_Remove (EvictFromLRU { s with heap := (s.nextId, newEntry key hash charge wantHandle highPri) :: s.heap, nextId := s.nextId + 1 } charge).1 xo.hid with table := t2, heap := hset (EvictFromLRU { s with heap := (s.nextId, newEntry key hash charge wantHandle highPri) :: s.heap, nextId := s.nextId + 1 } charge).1.heap xo.hid { oe with in_cache := false, refs := oe.refs - 1 }, usage := (EvictFromLRU { s with heap := (s.nextId, newEntry key hash charge wantHandle highPri) :: s.heap, nextId := s.nextId + 1 } charge).1.usage + (newEntry key hash charge wantHandle highPri).charge - oe.charge } hs2 (s.lru.take k ++ [xo.hid]) s.nextId (newEntry key hash charge wantHandle highPri) := by
          intro hs2 hrefsI hrefsO hliveO hlive2
          have hcases4 : ∀ {p : Nat × LRUHandle},
              p ∈ hset (EvictFromLRU { s with heap := (s.nextId, newEntry key hash charge wantHandle highPri) :: s.heap, nextId := s.nextId + 1 } charge).1.heap xo.hid { oe with in_cache := false, refs := oe.refs - 1 } →
              (p.1 = xo.hid ∧ p.2 = { oe with in_cache := false, refs := oe.refs - 1 }) ∨
                (p ∈ (EvictFromLRU { s with heap := (s.nextId, newEntry key hash charge wantHandle highPri) :: s.heap, nextId := s.nextId + 1 } charge).1.heap ∧ p.1 ≠ xo.hid) :=
            fun hp => mem_hset_cases hndEV hp hgeto
          have hoing : xo.hid ∈ s.lru.take k ++ [xo.hid] :=
            List.mem_append.mpr (Or.inr (List.mem_singleton.mpr rfl))
          refine
            { pre := ?_
              he1 := hgetnid2
              hic := rfl
              hgi := hnig2
              hnm := ?_
              refsI := hrefsI
              heapLt := ?_
              refsEqO := ?_
              liveRefO := ?_
              hsLive := ?_
              lruSpecO := ?_
              gLru := ?_
              gTbl := ?_
              gHeap := ?_
              gNodup := hgNodup2
              usageEq := ?_
              cacheTblO := ?_
              cacheTblI := ⟨{ ehash := hash, ekey := key, hid := s.nextId }, (hmemT2 _).mpr (Or.inr rfl), rfl⟩
              capEq := ?_ }
          · refine
              { heapNodup := by
                  show (heapIds (hset (EvictFromLRU { s with heap := (s.nextId, newEntry key hash charge wantHandle highPri) :: s.heap, nextId := s.nextId + 1 } charge).1.heap xo.hid { oe with in_cache := false, refs := oe.refs - 1 })).Nodup
                  rw [heapIds_hset]
                  exact hndEV
                lruNodup := hRo.pre.lruNodup
                lruLive := ?_
                lowLe := hRo.pre.lowLe
                lruUsageEq := ?_
                poolUsageEq := ?_
                flagPos := ?_
                tblWF := hwf2
                lruTbl := ?_
                tblHeap := ?_ }
            · intro j hj
              have hjR : j ∈ (LRU_Remove (EvictFromLRU { s with heap := (s.nextId, newEntry key hash charge wantHandle highPri) :: s.heap, nextId := s.nextId + 1 } charge).1 xo.hid).lru := hj
              have hji : j ≠ xo.hid := fun hc => honR (hc ▸ hjR)
              obtain ⟨e', h1, h2, h3⟩ := hRo.pre.lruLive j hjR
              rw [hRo.heapEq] at h1
              exact ⟨e', by
                show hget (hset (EvictFromLRU { s with heap := (s.nextId, newEntry key hash charge wantHandle highPri) :: s.heap, nextId := s.nextId + 1 } charge).1.heap xo.hid { oe with in_cache := false, refs := oe.refs - 1 }) j = some e'
                rw [hget_hset_ne hji]
                exact h1, h2, h3⟩
            · show (LRU_Remove (EvictFromLRU { s with heap := (s.nextId, newEntry key hash charge wantHandle highPri) :: s.heap, nextId := s.nextId + 1 } charge).1 xo.hid).lru_usage =
                sumIds (hset (EvictFromLRU { s with heap := (s.nextId, newEntry key hash charge wantHandle highPri) :: s.heap, nextId := s.nextId + 1 } charge).1.heap xo.hid { oe with in_cache := false, refs := oe.refs - 1 })
                  (LRU_Remove (EvictFromLRU { s with heap := (s.nextId, newEntry key hash charge wantHandle highPri) :: s.heap, nextId := s.nextId + 1 } charge).1 xo.hid).lru
              rw [sumIds_congr (fun j _ => hchoe j)]
              have h1 := hRo.pre.lruUsageEq
              rw [hRo.heapEq] at h1
              exact h1
            · show (LRU_Remove (EvictFromLRU { s with heap := (s.nextId, newEntry key hash charge wantHandle highPri) :: s.heap, nextId := s.nextId + 1 } charge).1 xo.hid).high_pri_pool_usage =
                sumIds (hset (EvictFromLRU { s with heap := (s.nextId, newEntry key hash charge wantHandle highPri) :: s.heap, nextId := s.nextId + 1 } charge).1.heap xo.hid { oe with in_cache := false, refs := oe.refs - 1 })
                  ((LRU_Remove (EvictFromLRU { s with heap := (s.nextId, newEntry key hash charge wantHandle highPri) :: s.heap, nextId := s.nextId + 1 } charge).1 xo.hid).lru.drop (LRU_Remove (EvictFromLRU { s with heap := (s.nextId, newEntry key hash charge wantHandle highPri) :: s.heap, nextId := s.nextId + 1 } charge).1 xo.hid).lowCount)
              rw [sumIds_congr (fun j _ => hchoe j)]
              have h1 := hRo.pre.poolUsageEq
              rw [hRo.heapEq] at h1
              exact h1
            · intro n j hgn e3 hge3
              have hj : j ∈ (LRU_Remove (EvictFromLRU { s with heap := (s.nextId, newEntry key hash charge wantHandle highPri) :: s.heap, nextId := s.nextId + 1 } charge).1 xo.hid).lru := List.get?_mem hgn
              have hji : j ≠ xo.hid := fun hc => honR (hc ▸ hj)
              have hge3b : hget (hset (EvictFromLRU { s with heap := (s.nextId, newEntry key hash charge wantHandle highPri) :: s.heap, nextId := s.nextId + 1 } charge).1.heap xo.hid { oe with in_cache := false, refs := oe.refs - 1 }) j = some e3 := hge3
              rw [hget_hset_ne hji] at hge3b
              have hge3c : hget (LRU_Remove (EvictFromLRU { s with heap := (s.nextId, newEntry key hash charge wantHandle highPri) :: s.heap, nextId := s.nextId + 1 } charge).1 xo.hid).heap j = some e3 := by
                rw [hRo.heapEq]
                exact hge3b
              exact hRo.pre.flagPos n j hgn e3 hge3c
            · intro y hy
              rcases (hmemT2 y).mp hy with ⟨hy2, hyne⟩ | hy2
              · have hyio : y.hid ≠ xo.hid := fun hc => hyne (huniqo y hy2 hc)
                obtain ⟨e', h1, h2, h3, h4⟩ := hm1.pre.tblHeap y hy2
                refine ⟨e', ?_, h2, h3, h4⟩
                show hget (hset (EvictFromLRU { s with heap := (s.nextId, newEntry key hash charge wantHandle highPri) :: s.heap, nextId := s.nextId + 1 } charge).1.heap xo.hid { oe with in_cache := false, refs := oe.refs - 1 }) y.hid = some e'
                rw [hget_hset_ne hyio]
                exact h1
              · rw [hy2]
                exact ⟨newEntry key hash charge wantHandle highPri, hgetnid2, rfl, rfl, rfl⟩
            · intro j hj
              have hjR : j ∈ (LRU_Remove (EvictFromLRU { s with heap := (s.nextId, newEntry key hash charge wantHandle highPri) :: s.heap, nextId := s.nextId + 1 } charge).1 xo.hid).lru := hj
              have hji : j ≠ xo.hid := fun hc => honR (hc ▸ hjR)
              have hjE : j ∈ (EvictFromLRU { s with heap := (s.nextId, newEntry key hash charge wantHandle highPri) :: s.heap, nextId := s.nextId + 1 } charge).1.lru := by
                have h1 : j ∈ listErase xo.hid (EvictFromLRU { s with heap := (s.nextId, newEntry key hash charge wantHandle highPri) :: s.heap, nextId := s.nextId + 1 } charge).1.lru := by
                  rw [← hRo.lruEq]
                  exact hjR
                exact (mem_listErase_of_ne hji).mp h1
              obtain ⟨y, hy, hyj⟩ := hm1.pre.lruTbl j hjE
              refine ⟨y, ?_, hyj⟩
              exact (hmemT2 y).mpr (Or.inl ⟨hy, fun hc => hji (by rw [← hyj, hc])⟩)
          · show s.nextId ∉ (LRU_Remove (EvictFromLRU { s with heap := (s.nextId, newEntry key hash charge wantHandle highPri) :: s.heap, nextId := s.nextId + 1 } charge).1 xo.hid).lru
            intro hc
            have h1 : s.nextId ∈ listErase xo.hid (EvictFromLRU { s with heap := (s.nextId, newEntry key hash charge wantHandle highPri) :: s.heap, nextId := s.nextId + 1 } charge).1.lru := by
              rw [← hRo.lruEq]
              exact hc
            exact hnmEV ((listErase_sublist xo.hid (EvictFromLRU { s with heap := (s.nextId, newEntry key hash charge wantHandle highPri) :: s.heap, nextId := s.nextId + 1 } charge).1.lru).subset h1)
          · intro p hp
            have hpR : p ∈ hset (EvictFromLRU { s with heap := (s.nextId, newEntry key hash charge wantHandle highPri) :: s.heap, nextId := s.nextId + 1 } charge).1.heap xo.hid { oe with in_cache := false, refs := oe.refs - 1 } := hp
            have hlt : p.1 < (EvictFromLRU { s with heap := (s.nextId, newEntry key hash charge wantHandle highPri) :: s.heap, nextId := s.nextId + 1 } charge).1.nextId := by
              rcases hcases4 hpR with ⟨h1, _⟩ | ⟨h1, _⟩
              · rw [h1]
                exact hm1.heapLt (xo.hid, oe) (hget_mem hgeto)
              · exact hm1.heapLt p h1
            show p.1 < (LRU_Remove (EvictFromLRU { s with heap := (s.nextId, newEntry key hash charge wantHandle highPri) :: s.heap, nextId := s.nextId + 1 } charge).1 xo.hid).nextId
            rw [hRo.nid]
            exact hlt
          · intro p hp hpg hpi
            have hpR : p ∈ hset (EvictFromLRU { s with heap := (s.nextId, newEntry key hash charge wantHandle highPri) :: s.heap, nextId := s.nextId + 1 } charge).1.heap xo.hid { oe with in_cache := false, refs := oe.refs - 1 } := hp
            rcases hcases4 hpR with ⟨h1, _⟩ | ⟨h1, h2⟩
            · exact absurd (by rw [h1]; exact hoing) hpg
            · have hpt : p.1 ∉ s.lru.take k := fun hc => hpg (List.mem_append.mpr (Or.inl hc))
              exact hrefsO p h1 hpt hpi
          · intro p hp hpg hpi
            have hpR : p ∈ hset (EvictFromLRU { s with heap := (s.nextId, newEntry key hash charge wantHandle highPri) :: s.heap, nextId := s.nextId + 1 } charge).1.heap xo.hid { oe with in_cache := false, refs := oe.refs - 1 } := hp
            rcases hcases4 hpR with ⟨h1, _⟩ | ⟨h1, h2⟩
            · exact absurd (by rw [h1]; exact hoing) hpg
            · have hpt : p.1 ∉ s.lru.take k := fun hc => hpg (List.mem_append.mpr (Or.inl hc))
              exact hliveO p h1 hpt hpi
          · intro j hj
            obtain ⟨h1, h2, h3⟩ := hlive2 j hj
            refine ⟨?_, ?_⟩
            · show j ∈ heapIds (hset (EvictFromLRU { s with heap := (s.nextId, newEntry key hash charge wantHandle highPri) :: s.heap, nextId := s.nextId + 1 } charge).1.heap xo.hid { oe with in_cache := false, refs := oe.refs - 1 })
              rw [heapIds_hset]
              exact h1
            · intro hc
              rcases List.mem_append.mp hc with hc | hc
              · exact h2 hc
              · rw [List.mem_singleton] at hc
                exact h3 hc
          · intro p hp hpg hpi
            have hpR : p ∈ hset (EvictFromLRU { s with heap := (s.nextId, newEntry key hash charge wantHandle highPri) :: s.heap, nextId := s.nextId + 1 } charge).1.heap xo.hid { oe with in_cache := false, refs := oe.refs - 1 } := hp
            rcases hcases4 hpR with ⟨h1, _⟩ | ⟨h1, h2⟩
            · exact absurd (by rw [h1]; exact hoing) hpg
            · have hpt : p.1 ∉ s.lru.take k := fun hc => hpg (List.mem_append.mpr (Or.inl hc))
              have h3 := hm1.lruSpec p h1 (hsplitc hpt hpi)
              show p.1 ∈ (LRU_Remove (EvictFromLRU { s with heap := (s.nextId, newEntry key hash charge wantHandle highPri) :: s.heap, nextId := s.nextId + 1 } charge).1 xo.hid).lru ↔ _
              rw [hRo.lruEq, mem_listErase_of_ne h2]
              exact h3
          · intro j hj
            show j ∉ (LRU_Remove (EvictFromLRU { s with heap := (s.nextId, newEntry key hash charge wantHandle highPri) :: s.heap, nextId := s.nextId + 1 } charge).1 xo.hid).lru
            intro hc
            have h1 : j ∈ listErase xo.hid (EvictFromLRU { s with heap := (s.nextId, newEntry key hash charge wantHandle highPri) :: s.heap, nextId := s.nextId + 1 } charge).1.lru := by
              rw [← hRo.lruEq]
              exact hc
            rcases List.mem_append.mp hj with hj2 | hj2
            · exact hm1.gLru j (List.mem_cons_of_mem _ hj2)
                ((listErase_sublist xo.hid (EvictFromLRU { s with heap := (s.nextId, newEntry key hash charge wantHandle highPri) :: s.heap, nextId := s.nextId + 1 } charge).1.lru).subset h1)
            · rw [List.mem_singleton] at hj2
              rw [hj2] at h1
              exact not_mem_listErase_self hm1.pre.lruNodup h1
          · intro j hj x hx
            rcases (hmemT2 x).mp hx with ⟨hx2, hxne⟩ | hx2
            · rcases List.mem_append.mp hj with hj2 | hj2
              · exact hm1.gTbl j (List.mem_cons_of_mem _ hj2) x hx2
              · rw [List.mem_singleton] at hj2
                rw [hj2]
                exact fun hc => hxne (huniqo x hx2 hc)
            · rw [hx2]
              show s.nextId ≠ j
              rcases List.mem_append.mp hj with hj2 | hj2
              · exact fun hc => htkne j hj2 hc.symm
              · rw [List.mem_singleton] at hj2
                rw [hj2]
                exact fun hc => honid hc.symm
          · intro j hj
            rcases List.mem_append.mp hj with hj2 | hj2
            · have hji : j ≠ xo.hid := fun hc => hotk (hc ▸ hj2)
              obtain ⟨e', h1⟩ := hm1.gHeap j (List.mem_cons_of_mem _ hj2)
              refine ⟨e', ?_⟩
              show hget (hset (EvictFromLRU { s with heap := (s.nextId, newEntry key hash charge wantHandle highPri) :: s.heap, nextId := s.nextId + 1 } charge).1.heap xo.hid { oe with in_cache := false, refs := oe.refs - 1 }) j = some e'
              rw [hget_hset_ne hji]
              exact h1
            · rw [List.mem_singleton] at hj2
              rw [hj2]
              exact ⟨{ oe with in_cache := false, refs := oe.refs - 1 }, hget_hset_self hgeto⟩
          · show (EvictFromLRU { s with heap := (s.nextId, newEntry key hash charge wantHandle highPri) :: s.heap, nextId := s.nextId + 1 } charge).1.usage + (newEntry key hash charge wantHandle highPri).charge - oe.charge =
              sumCharge (hset (EvictFromLRU { s with heap := (s.nextId, newEntry key hash charge wantHandle highPri) :: s.heap, nextId := s.nextId + 1 } charge).1.heap xo.hid { oe with in_cache := false, refs := oe.refs - 1 }) -
                sumIds (hset (EvictFromLRU { s with heap := (s.nextId, newEntry key hash charge wantHandle highPri) :: s.heap, nextId := s.nextId + 1 } charge).1.heap xo.hid { oe with in_cache := false, refs := oe.refs - 1 })
                  (s.lru.take k ++ [xo.hid])
            rw [@sumCharge_hset (EvictFromLRU { s with heap := (s.nextId, newEntry key hash charge wantHandle highPri) :: s.heap, nextId := s.nextId + 1 } charge).1.heap xo.hid oe { oe with in_cache := false, refs := oe.refs - 1 } hgeto rfl]
            rw [sumIds_congr (fun j _ => hchoe j)]
            rw [sumIds_append, sumIds_cons, sumIds_nil, chargeOf_eq hgeto]
            have h1 := hm1.usageEq
            rw [sumIds_cons, hchnid] at h1
            have h2 : (newEntry key hash charge wantHandle highPri).charge = charge := rfl
            rw [h2, h1]
            omega
          · intro p hp hpg hpi hcc
            have hpR : p ∈ hset (EvictFromLRU { s with heap := (s.nextId, newEntry key hash charge wantHandle highPri) :: s.heap, nextId := s.nextId + 1 } charge).1.heap xo.hid { oe with in_cache := false, refs := oe.refs - 1 } := hp
            rcases hcases4 hpR with ⟨h1, _⟩ | ⟨h1, h2⟩
            · exact absurd (by rw [h1]; exact hoing) hpg
            · have hpt : p.1 ∉ s.lru.take k := fun hc => hpg (List.mem_append.mpr (Or.inl hc))
              obtain ⟨y, hy, hyj⟩ := hm1.cacheTbl p h1 (hsplitc hpt hpi) hcc
              refine ⟨y, ?_, hyj⟩
              exact (hmemT2 y).mpr (Or.inl ⟨hy, fun hc => h2 (by rw [← hyj, hc])⟩)
          · show (LRU_Remove (EvictFromLRU { s with heap := (s.nextId, newEntry key hash charge wantHandle highPri) :: s.heap, nextId := s.nextId + 1 } charge).1 xo.hid).high_pri_pool_capacity =
              ratioFloor (LRU_Remove (EvictFromLRU { s with heap := (s.nextId, newEntry key hash charge wantHandle highPri) :: s.heap, nextId := s.nextId + 1 } charge).1 xo.hid).capacity
                (LRU_Remove (EvictFromLRU { s with heap := (s.nextId, newEntry key hash charge wantHandle highPri) :: s.heap, nextId := s.nextId + 1 } charge).1 xo.hid).high_pri_pool_ratio
            rw [hRo.poolCap, hRo.cap, hRo.ratEq]
            exact hm1.capEq
        by_cases hW : wantHandle = false
        · have hrefsNE : (newEntry key hash charge wantHandle highPri).refs = 1 := by
            show (if wantHandle = true then 2 else 1) = 1
            rw [hW]
            rfl
          have fb := hfbZ hs (by rw [hrefsNE, hIcnt])
            (fun p hp hpg hpi => hm1.refsEq p hp (hsplitc hpg hpi))
            (fun p hp hpg hpi => hm1.liveRef p hp (hsplitc hpg hpi))
            (fun j hj => ⟨(hm1.hsLive j hj).1,
              fun hc => (hm1.hsLive j hj).2 (List.mem_cons_of_mem _ hc),
              fun hc => absurd (natCount_pos (hc ▸ hj)) (by omega)⟩)
          constructor
          · simp only [Shard.Insert, Shard.insertAlloc, if_neg hRej, hti, UsageAdd, UsageSub,
              hgeto, if_pos hZo, if_pos hW, Option.toList]
            rw [@lruRemove_hset_table_usage (EvictFromLRU { s with heap := (s.nextId, newEntry key hash charge wantHandle highPri) :: s.heap, nextId := s.nextId + 1 } charge).1 xo.hid oe { oe with in_cache := false, refs := oe.refs - 1 } t2
              ((EvictFromLRU { s with heap := (s.nextId, newEntry key hash charge wantHandle highPri) :: s.heap, nextId := s.nextId + 1 } charge).1.usage + (newEntry key hash charge wantHandle highPri).charge - oe.charge) hgeto rfl rfl]
            rw [hscr2, List.append_nil]
            exact midInv_freeAll (freshBase_insOut_midInv fb hrefsNE)
          · intro hok
            simp only [Shard.Insert, Shard.insertAlloc, if_neg hRej, hti, UsageAdd, UsageSub,
              hgeto, if_pos hZo, if_pos hW]
            rw [@lruRemove_hset_table_usage (EvictFromLRU { s with heap := (s.nextId, newEntry key hash charge wantHandle highPri) :: s.heap, nextId := s.nextId + 1 } charge).1 xo.hid oe { oe with in_cache := false, refs := oe.refs - 1 } t2
              ((EvictFromLRU { s with heap := (s.nextId, newEntry key hash charge wantHandle highPri) :: s.heap, nextId := s.nextId + 1 } charge).1.usage + (newEntry key hash charge wantHandle highPri).charge - oe.charge) hgeto rfl rfl]
            rw [hscr2]
            have hIns := lruInsert_spec fb.pre fb.he1 fb.hnm fb.hic hrefsNE fb.cacheTblI
            obtain ⟨_, _, _, _, _, hPoolF, _, _, _, hPoolCapF, _, _⟩ :=
              freeAll_fields (s.lru.take k ++ [xo.hid])
                (LRU_Insert { LRU_Remove (EvictFromLRU { s with heap := (s.nextId, newEntry key hash charge wantHandle highPri) :: s.heap, nextId := s.nextId + 1 } charge).1 xo.hid with table := t2, heap := hset (EvictFromLRU { s with heap := (s.nextId, newEntry key hash charge wantHandle highPri) :: s.heap, nextId := s.nextId + 1 } charge).1.heap xo.hid { oe with in_cache := false, refs := oe.refs - 1 }, usage := (EvictFromLRU { s with heap := (s.nextId, newEntry key hash charge wantHandle highPri) :: s.heap, nextId := s.nextId + 1 } charge).1.usage + (newEntry key hash charge wantHandle highPri).charge - oe.charge } s.nextId)
            rw [PoolOK, hPoolF, hPoolCapF]
            refine hIns.poolOk ?_
            exact hpoolD1 hok
        · have hWt : wantHandle = true := by
            cases hWc : wantHandle with
            | false => exact absurd hWc hW
            | true => rfl
          have hrefsNE : (newEntry key hash charge wantHandle highPri).refs = 2 := by
            show (if wantHandle = true then 2 else 1) = 2
            rw [hWt]
            rfl
          constructor
          · simp only [Shard.Insert, Shard.insertAlloc, if_neg hRej, hti, UsageAdd, UsageSub,
              hgeto, if_pos hZo, if_neg hW, Option.toList]
            rw [@lruRemove_hset_table_usage (EvictFromLRU { s with heap := (s.nextId, newEntry key hash charge wantHandle highPri) :: s.heap, nextId := s.nextId + 1 } charge).1 xo.hid oe { oe with in_cache := false, refs := oe.refs - 1 } t2
              ((EvictFromLRU { s with heap := (s.nextId, newEntry key hash charge wantHandle highPri) :: s.heap, nextId := s.nextId + 1 } charge).1.usage + (newEntry key hash charge wantHandle highPri).charge - oe.charge) hgeto rfl rfl]
            rw [hscr2]
            refine midInv_freeAll (freshBase_midInv
              (hfbZ (hs ++ [s.nextId]) ?_ ?_ ?_ ?_) (by rw [hrefsNE]; omega))
            · rw [hrefsNE, hcnt_app s.nextId, hIcnt, if_pos rfl]
            · intro p hp hpg hpi
              have hif : (if s.nextId = p.1 then 1 else 0) = 0 :=
                if_neg (fun hc => hpi hc.symm)
              rw [hcnt_app p.1, hif]
              have h3 := hm1.refsEq p hp (hsplitc hpg hpi)
              omega
            · intro p hp hpg hpi
              rcases hm1.liveRef p hp (hsplitc hpg hpi) with h3 | h3
              · exact Or.inl h3
              · right
                have hif : (if s.nextId = p.1 then 1 else 0) = 0 :=
                  if_neg (fun hc => hpi hc.symm)
                rw [hcnt_app p.1, hif]
                omega
            · intro j hj
              rcases List.mem_append.mp hj with hj | hj
              · exact ⟨(hm1.hsLive j hj).1,
                  fun hc => (hm1.hsLive j hj).2 (List.mem_cons_of_mem _ hc),
                  fun hc => absurd (natCount_pos (hc ▸ hj)) (by omega)⟩
              · rw [List.mem_singleton] at hj
                rw [hj]
                exact ⟨mem_heapIds_of_hget hgetEVnid, hnidtk, fun hc => honid hc.symm⟩
          · intro hok
            simp only [Shard.Insert, Shard.insertAlloc, if_neg hRej, hti, UsageAdd, UsageSub,
              hgeto, if_pos hZo, if_neg hW]
            rw [@lruRemove_hset_table_usage (EvictFromLRU { s with heap := (s.nextId, newEntry key hash charge wantHandle highPri) :: s.heap, nextId := s.nextId + 1 } charge).1 xo.hid oe { oe with in_cache := false, refs := oe.refs - 1 } t2
              ((EvictFromLRU { s with heap := (s.nextId, newEntry key hash charge wantHandle highPri) :: s.heap, nextId := s.nextId + 1 } charge).1.usage + (newEntry key hash charge wantHandle highPri).charge - oe.charge) hgeto rfl rfl]
            rw [hscr2]
            obtain ⟨_, _, _, _, _, hPoolF, _, _, _, hPoolCapF, _, _⟩ :=
              freeAll_fields (s.lru.take k ++ [xo.hid]) { LRU_Remove (EvictFromLRU { s with heap := (s.nextId, newEntry key hash charge wantHandle highPri) :: s.heap, nextId := s.nextId + 1 } charge).1 xo.hid with table := t2, heap := hset (EvictFromLRU { s with heap := (s.nextId, newEntry key hash charge wantHandle highPri) :: s.heap, nextId := s.nextId + 1 } charge).1.heap xo.hid { oe with in_cache := false, refs := oe.refs - 1 }, usage := (EvictFromLRU { s with heap := (s.nextId, newEntry key hash charge wantHandle highPri) :: s.heap, nextId := s.nextId + 1 } charge).1.usage + (newEntry key hash charge wantHandle highPri).charge - oe.charge }
            rw [PoolOK, hPoolF, hPoolCapF]
            exact hpoolD1 hok
      · -- the displaced entry is pinned: it stays resident and accounted
        have hcnto : 0 < natCount xo.hid hs := by omega
        have honlru : xo.hid ∉ (EvictFromLRU { s with heap := (s.nextId, newEntry key hash charge wantHandle highPri) :: s.heap, nextId := s.nextId + 1 } charge).1.lru := by
          intro hc
          have h1 := (hm1.lruSpec (xo.hid, oe) (hget_mem hgeto) (hsplitc hotk honid)).mp hc
          have h2 : oe.refs = 1 := h1.2
          omega
        have hpre4 : EvictPre { (EvictFromLRU { s with heap := (s.nextId, newEntry key hash charge wantHandle highPri) :: s.heap, nextId := s.nextId + 1 } charge).1 with table := t2, heap := hset (EvictFromLRU { s with heap := (s.nextId, newEntry key hash charge wantHandle highPri) :: s.heap, nextId := s.nextId + 1 } charge).1.heap xo.hid { oe with in_cache := false, refs := oe.refs - 1 }, usage := (EvictFromLRU { s with heap := (s.nextId, newEntry key hash charge wantHandle highPri) :: s.heap, nextId := s.nextId + 1 } charge).1.usage + (newEntry key hash charge wantHandle highPri).charge } := by
          refine
            { heapNodup := by
                show (heapIds (hset (EvictFromLRU { s with heap := (s.nextId, newEntry key hash charge wantHandle highPri) :: s.heap, nextId := s.nextId + 1 } charge).1.heap xo.hid _)).Nodup
                rw [heapIds_hset]
                exact hndEV
              lruNodup := hm1.pre.lruNodup
              lruLive := ?_
              lowLe := hm1.pre.lowLe
              lruUsageEq := by
                show (EvictFromLRU { s with heap := (s.nextId, newEntry key hash charge wantHandle highPri) :: s.heap, nextId := s.nextId + 1 } charge).1.lru_usage = sumIds (hset (EvictFromLRU { s with heap := (s.nextId, newEntry key hash charge wantHandle highPri) :: s.heap, nextId := s.nextId + 1 } charge).1.heap xo.hid { oe with in_cache := false, refs := oe.refs - 1 }) (EvictFromLRU { s with heap := (s.nextId, newEntry key hash charge wantHandle highPri) :: s.heap, nextId := s.nextId + 1 } charge).1.lru
                rw [sumIds_congr (fun j _ => hchoe j)]
                exact hm1.pre.lruUsageEq
              poolUsageEq := by
                show (EvictFromLRU { s with heap := (s.nextId, newEntry key hash charge wantHandle highPri) :: s.heap, nextId := s.nextId + 1 } charge).1.high_pri_pool_usage = sumIds (hset (EvictFromLRU { s with heap := (s.nextId, newEntry key hash charge wantHandle highPri) :: s.heap, nextId := s.nextId + 1 } charge).1.heap xo.hid { oe with in_cache := false, refs := oe.refs - 1 }) ((EvictFromLRU { s with heap := (s.nextId, newEntry key hash charge wantHandle highPri) :: s.heap, nextId := s.nextId + 1 } charge).1.lru.drop (EvictFromLRU { s with heap := (s.nextId, newEntry key hash charge wantHandle highPri) :: s.heap, nextId := s.nextId + 1 } charge).1.lowCount)
                rw [sumIds_congr (fun j _ => hchoe j)]
                exact hm1.pre.poolUsageEq
              flagPos := ?_
              tblWF := hwf2
              tblHeap := ?_
              lruTbl := ?_ }
          · intro j hj
            have hji : j ≠ xo.hid := fun hc => honlru (hc ▸ hj)
            obtain ⟨e', h1, h2, h3⟩ := hm1.pre.lruLive j hj
            exact ⟨e', by rw [hget_hset_ne hji]; exact h1, h2, h3⟩
          · intro n j hgn e3 hge3
            have hj : j ∈ (EvictFromLRU { s with heap := (s.nextId, newEntry key hash charge wantHandle highPri) :: s.heap, nextId := s.nextId + 1 } charge).1.lru := List.get?_mem hgn
            have hji : j ≠ xo.hid := fun hc => honlru (hc ▸ hj)
            rw [hget_hset_ne hji] at hge3
            exact hm1.pre.flagPos n j hgn e3 hge3
          · intro y hy
            rcases (hmemT2 y).mp hy with ⟨hy2, hyne⟩ | hy2
            · have hyio : y.hid ≠ xo.hid := fun hc => hyne (huniqo y hy2 hc)
              obtain ⟨e', h1, h2, h3, h4⟩ := hm1.pre.tblHeap y hy2
              exact ⟨e', by rw [hget_hset_ne hyio]; exact h1, h2, h3, h4⟩
            · rw [hy2]
              exact ⟨newEntry key hash charge wantHandle highPri, hgetnid2, rfl, rfl, rfl⟩
          · intro j hj
            have hji : j ≠ xo.hid := fun hc => honlru (hc ▸ hj)
            obtain ⟨y, hy, hyj⟩ := hm1.pre.lruTbl j hj
            refine ⟨y, ?_, hyj⟩
            exact (hmemT2 y).mpr (Or.inl ⟨hy, fun hc => hji (by rw [← hyj, hc])⟩)
        have hfbP : ∀ hs2 : List Nat,
            (newEntry key hash charge wantHandle highPri).refs = 1 + natCount s.nextId hs2 →
            (∀ p ∈ (EvictFromLRU { s with heap := (s.nextId, newEntry key hash charge wantHandle highPri) :: s.heap, nextId := s.nextId + 1 } charge).1.heap, p.1 ∉ s.lru.take k → p.1 ≠ s.nextId →
              p.2.refs = (if p.2.in_cache = true then 1 else 0) + natCount p.1 hs2) →
            (∀ p ∈ (EvictFromLRU { s with heap := (s.nextId, newEntry key hash charge wantHandle highPri) :: s.heap, nextId := s.nextId + 1 } charge).1.heap, p.1 ∉ s.lru.take k → p.1 ≠ s.nextId →
              (p.2.in_cache = true ∨ 0 < natCount p.1 hs2)) →
            (∀ j ∈ hs2, j ∈ heapIds (EvictFromLRU { s with heap := (s.nextId, newEntry key hash charge wantHandle highPri) :: s.heap, nextId := s.nextId + 1 } charge).1.heap ∧ j ∉ s.lru.take k) →
            (0 < natCount xo.hid hs2) →
            FreshBase { (EvictFromLRU { s with heap := (s.nextId, newEntry key hash charge wantHandle highPri) :: s.heap, nextId := s.nextId + 1 } charge).1 with table := t2, heap := hset (EvictFromLRU { s with heap := (s.nextId, newEntry key hash charge wantHandle highPri) :: s.heap, nextId := s.nextId + 1 } charge).1.heap xo.hid { oe with in_cache := false, refs := oe.refs - 1 }, usage := (EvictFromLRU { s with heap := (s.nextId, newEntry key hash charge wantHandle highPri) :: s.heap, nextId := s.nextId + 1 } charge).1.usage + (newEntry key hash charge wantHandle highPri).charge } hs2 (s.lru.take k) s.nextId (newEntry key hash charge wantHandle highPri) := by
          intro hs2 hrefsI hrefsO hliveO hlive2 hcnto2
          have hcases4 : ∀ {p : Nat × LRUHandle},
              p ∈ hset (EvictFromLRU { s with heap := (s.nextId, newEntry key hash charge wantHandle highPri) :: s.heap, nextId := s.nextId + 1 } charge).1.heap xo.hid { oe with in_cache := false, refs := oe.refs - 1 } →
              (p.1 = xo.hid ∧ p.2 = { oe with in_cache := false, refs := oe.refs - 1 }) ∨
                (p ∈ (EvictFromLRU { s with heap := (s.nextId, newEntry key hash charge wantHandle highPri) :: s.heap, nextId := s.nextId + 1 } charge).1.heap ∧ p.1 ≠ xo.hid) :=
            fun hp => mem_hset_cases hndEV hp hgeto
          refine
            { pre := hpre4
              he1 := hgetnid2
              hic := rfl
              hgi := hnidtk
              hnm := hnmEV
              refsI := hrefsI
              heapLt := ?_
              refsEqO := ?_
              liveRefO := ?_
              hsLive := ?_
              lruSpecO := ?_
              gLru := fun j hj => hm1.gLru j (List.mem_cons_of_mem _ hj)
              gTbl := ?_
              gHeap := ?_
              gNodup := hgNodupTk
              usageEq := ?_
              cacheTblO := ?_
              cacheTblI := ⟨{ ehash := hash, ekey := key, hid := s.nextId }, (hmemT2 _).mpr (Or.inr rfl), rfl⟩
              capEq := hm1.capEq }
          · intro p hp
            rcases hcases4 hp with ⟨h1, _⟩ | ⟨h1, _⟩
            · rw [h1]
              exact hm1.heapLt (xo.hid, oe) (hget_mem hgeto)
            · exact hm1.heapLt p h1
          · intro p hp hpg hpi
            rcases hcases4 hp with ⟨h1, h2⟩ | ⟨h1, h2⟩
            · rw [h1, h2]
              show oe.refs - 1 = (if false = true then 1 else 0) + natCount xo.hid hs2
              have h3 : oe.refs - 1 = natCount xo.hid hs2 := by
                rw [h1] at hpg hpi
                have h4 := hrefsO (xo.hid, oe) (hget_mem hgeto) hpg hpi
                rw [hoic] at h4
                simp at h4
                omega
              simp
              omega
            · exact hrefsO p h1 hpg hpi
          · intro p hp hpg hpi
            rcases hcases4 hp with ⟨h1, h2⟩ | ⟨h1, h2⟩
            · right
              rw [h1]
              exact hcnto2
            · exact hliveO p h1 hpg hpi
          · intro j hj
            obtain ⟨h1, h2⟩ := hlive2 j hj
            refine ⟨?_, h2⟩
            show j ∈ heapIds (hset (EvictFromLRU { s with heap := (s.nextId, newEntry key hash charge wantHandle highPri) :: s.heap, nextId := s.nextId + 1 } charge).1.heap xo.hid _)
            rw [heapIds_hset]
            exact h1
          · intro p hp hpg hpi
            rcases hcases4 hp with ⟨h1, h2⟩ | ⟨h1, h2⟩
            · rw [h1, h2]
              show xo.hid ∈ (EvictFromLRU { s with heap := (s.nextId, newEntry key hash charge wantHandle highPri) :: s.heap, nextId := s.nextId + 1 } charge).1.lru ↔ (false = true ∧ oe.refs - 1 = 1)
              constructor
              · intro hc
                exact absurd hc honlru
              · intro hc
                exact absurd hc.1 (by simp)
            · show p.1 ∈ (EvictFromLRU { s with heap := (s.nextId, newEntry key hash charge wantHandle highPri) :: s.heap, nextId := s.nextId + 1 } charge).1.lru ↔ _
              exact hm1.lruSpec p h1 (hsplitc hpg hpi)
          · intro j hj x hx
            rcases (hmemT2 x).mp hx with ⟨hx2, hxne⟩ | hx2
            · exact hm1.gTbl j (List.mem_cons_of_mem _ hj) x hx2
            · rw [hx2]
              show s.nextId ≠ j
              exact fun hc => htkne j hj hc.symm
          · intro j hj
            have hji : j ≠ xo.hid := fun hc => hotk (hc ▸ hj)
            obtain ⟨e', h1⟩ := hm1.gHeap j (List.mem_cons_of_mem _ hj)
            exact ⟨e', by rw [hget_hset_ne hji]; exact h1⟩
          · show (EvictFromLRU { s with heap := (s.nextId, newEntry key hash charge wantHandle highPri) :: s.heap, nextId := s.nextId + 1 } charge).1.usage + (newEntry key hash charge wantHandle highPri).charge =
              sumCharge (hset (EvictFromLRU { s with heap := (s.nextId, newEntry key hash charge wantHandle highPri) :: s.heap, nextId := s.nextId + 1 } charge).1.heap xo.hid { oe with in_cache := false, refs := oe.refs - 1 }) - sumIds (hset (EvictFromLRU { s with heap := (s.nextId, newEntry key hash charge wantHandle highPri) :: s.heap, nextId := s.nextId + 1 } charge).1.heap xo.hid { oe with in_cache := false, refs := oe.refs - 1 }) (s.lru.take k)
            rw [@sumCharge_hset (EvictFromLRU { s with heap := (s.nextId, newEntry key hash charge wantHandle highPri) :: s.heap, nextId := s.nextId + 1 } charge).1.heap xo.hid oe { oe with in_cache := false, refs := oe.refs - 1 } hgeto rfl]
            rw [sumIds_congr (fun j _ => hchoe j)]
            have h1 := hm1.usageEq
            rw [sumIds_cons, hchnid] at h1 hbound
            have h2 : (newEntry key hash charge wantHandle highPri).charge = charge := rfl
            rw [h2, h1]
            omega
          · intro p hp hpg hpi hcc
            rcases hcases4 hp with ⟨h1, h2⟩ | ⟨h1, h2⟩
            · rw [h2] at hcc
              exact absurd hcc (by simp)
            · obtain ⟨y, hy, hyj⟩ := hm1.cacheTbl p h1 (hsplitc hpg hpi) hcc
              refine ⟨y, ?_, hyj⟩
              exact (hmemT2 y).mpr (Or.inl ⟨hy, fun hc => h2 (by rw [← hyj, hc])⟩)
        by_cases hW : wantHandle = false
        · have hrefsNE : (newEntry key hash charge wantHandle highPri).refs = 1 := by
            show (if wantHandle = true then 2 else 1) = 1
            rw [hW]
            rfl
          constructor
          · simp only [Shard.Insert, Shard.insertAlloc, if_neg hRej, hti, UsageAdd,
              hgeto, if_neg hZo, if_pos hW, Option.toList]
            rw [hscr2, List.append_nil]
            exact midInv_freeAll (freshBase_insOut_midInv
              (hfbP hs (by rw [hrefsNE, hIcnt])
                (fun p hp hpg hpi => hm1.refsEq p hp (hsplitc hpg hpi))
                (fun p hp hpg hpi => hm1.liveRef p hp (hsplitc hpg hpi))
                (fun j hj => ⟨(hm1.hsLive j hj).1,
                  fun hc => (hm1.hsLive j hj).2 (List.mem_cons_of_mem _ hc)⟩)
                hcnto) hrefsNE)
          · intro hok
            simp only [Shard.Insert, Shard.insertAlloc, if_neg hRej, hti, UsageAdd,
              hgeto, if_neg hZo, if_pos hW]
            rw [hscr2]
            have hIns := lruInsert_spec hpre4 hgetnid2 hnmEV rfl hrefsNE
              ⟨{ ehash := hash, ekey := key, hid := s.nextId }, (hmemT2 _).mpr (Or.inr rfl), rfl⟩
            obtain ⟨_, _, _, _, _, hPoolF, _, _, _, hPoolCapF, _, _⟩ :=
              freeAll_fields (s.lru.take k)
                (LRU_Insert { (EvictFromLRU { s with heap := (s.nextId, newEntry key hash charge wantHandle highPri) :: s.heap, nextId := s.nextId + 1 } charge).1 with table := t2, heap := hset (EvictFromLRU { s with heap := (s.nextId, newEntry key hash charge wantHandle highPri) :: s.heap, nextId := s.nextId + 1 } charge).1.heap xo.hid { oe with in_cache := false, refs := oe.refs - 1 }, usage := (EvictFromLRU { s with heap := (s.nextId, newEntry key hash charge wantHandle highPri) :: s.heap, nextId := s.nextId + 1 } charge).1.usage + (newEntry key hash charge wantHandle highPri).charge } s.nextId)
            rw [PoolOK, hPoolF, hPoolCapF]
            refine hIns.poolOk ?_
            rw [PoolOK] at hok ⊢
            show (EvictFromLRU { s with heap := (s.nextId, newEntry key hash charge wantHandle highPri) :: s.heap, nextId := s.nextId + 1 } charge).1.high_pri_pool_usage ≤ (EvictFromLRU { s with heap := (s.nextId, newEntry key hash charge wantHandle highPri) :: s.heap, nextId := s.nextId + 1 } charge).1.high_pri_pool_capacity
            rw [hpoolCapEV]
            omega
        · have hWt : wantHandle = true := by
            cases hWc : wantHandle with
            | false => exact absurd hWc hW
            | true => rfl
          have hrefsNE : (newEntry key hash charge wantHandle highPri).refs = 2 := by
            show (if wantHandle = true then 2 else 1) = 2
            rw [hWt]
            rfl
          constructor
          · simp only [Shard.Insert, Shard.insertAlloc, if_neg hRej, hti, UsageAdd,
              hgeto, if_neg hZo, if_neg hW, Option.toList]
            rw [hscr2]
            refine midInv_freeAll (freshBase_midInv
              (hfbP (hs ++ [s.nextId]) ?_ ?_ ?_ ?_ ?_) (by rw [hrefsNE]; omega))
            · rw [hrefsNE, hcnt_app s.nextId, hIcnt, if_pos rfl]
            · intro p hp hpg hpi
              have hif : (if s.nextId = p.1 then 1 else 0) = 0 :=
                if_neg (fun hc => hpi hc.symm)
              rw [hcnt_app p.1, hif]
              have h3 := hm1.refsEq p hp (hsplitc hpg hpi)
              omega
            · intro p hp hpg hpi
              rcases hm1.liveRef p hp (hsplitc hpg hpi) with h3 | h3
              · exact Or.inl h3
              · right
                have hif : (if s.nextId = p.1 then 1 else 0) = 0 :=
                  if_neg (fun hc => hpi hc.symm)
                rw [hcnt_app p.1, hif]
                omega
            · intro j hj
              rcases List.mem_append.mp hj with hj | hj
              · obtain ⟨h1, h2⟩ := hm1.hsLive j hj
                exact ⟨h1, fun hc => h2 (List.mem_cons_of_mem _ hc)⟩
              · rw [List.mem_singleton] at hj
                rw [hj]
                exact ⟨mem_heapIds_of_hget hgetEVnid, hnidtk⟩
            · have hif : (if s.nextId = xo.hid then 1 else 0) = 0 :=
                if_neg (fun hc => honid hc.symm)
              rw [hcnt_app xo.hid, hif]
              omega
          · intro hok
            simp only [Shard.Insert, Shard.insertAlloc, if_neg hRej, hti, UsageAdd,
              hgeto, if_neg hZo, if_neg hW]
            rw [hscr2]
            obtain ⟨_, _, _, _, _, hPoolF, _, _, _, hPoolCapF, _, _⟩ :=
              freeAll_fields (s.lru.take k)
                { (EvictFromLRU { s with heap := (s.nextId, newEntry key hash charge wantHandle highPri) :: s.heap, nextId := s.nextId + 1 } charge).1 with table := t2, heap := hset (EvictFromLRU { s with heap := (s.nextId, newEntry key hash charge wantHandle highPri) :: s.heap, nextId := s.nextId + 1 } charge).1.heap xo.hid { oe with in_cache := false, refs := oe.refs - 1 }, usage := (EvictFromLRU { s with heap := (s.nextId, newEntry key hash charge wantHandle highPri) :: s.heap, nextId := s.nextId + 1 } charge).1.usage + (newEntry key hash charge wantHandle highPri).charge }
            rw [PoolOK, hPoolF, hPoolCapF]
            rw [PoolOK] at hok
            show (EvictFromLRU { s with heap := (s.nextId, newEntry key hash charge wantHandle highPri) :: s.heap, nextId := s.nextId + 1 } charge).1.high_pri_pool_usage ≤ (EvictFromLRU { s with heap := (s.nextId, newEntry key hash charge wantHandle highPri) :: s.heap, nextId := s.nextId + 1 } charge).1.high_pri_pool_capacity
            rw [hpoolCapEV]
            omega
    · -- fresh key
      have hno : ∀ x ∈ tblEntries (EvictFromLRU { s with heap := (s.nextId, newEntry key hash charge wantHandle highPri) :: s.heap, nextId := s.nextId + 1 } charge).1.table, ¬(x.ehash = hash ∧ x.ekey = key) :=
        fun x hx hc => hex ⟨x, hx, hc⟩
      obtain ⟨t2, hti, hwf2, helems2, hperm2⟩ :=
        tblInsert_new hm1.pre.tblWF { ehash := hash, ekey := key, hid := s.nextId } hno
      have hment2 : ∀ y, y ∈ tblEntries t2 ↔
          (y = { ehash := hash, ekey := key, hid := s.nextId } ∨ y ∈ tblEntries (EvictFromLRU { s with heap := (s.nextId, newEntry key hash charge wantHandle highPri) :: s.heap, nextId := s.nextId + 1 } charge).1.table) :=
        fun y => (hperm2.mem_iff).trans List.mem_cons
      have hpre2 : EvictPre (UsageAdd { (EvictFromLRU { s with heap := (s.nextId, newEntry key hash charge wantHandle highPri) :: s.heap, nextId := s.nextId + 1 } charge).1 with table := t2 } (newEntry key hash charge wantHandle highPri)) := by
        refine
          { heapNodup := hndEV
            lruNodup := hm1.pre.lruNodup
            lruLive := hm1.pre.lruLive
            lowLe := hm1.pre.lowLe
            lruUsageEq := hm1.pre.lruUsageEq
            poolUsageEq := hm1.pre.poolUsageEq
            flagPos := hm1.pre.flagPos
            tblWF := hwf2
            tblHeap := ?_
            lruTbl := ?_ }
        · intro x hx
          rcases (hment2 x).mp hx with hx2 | hx2
          · rw [hx2]
            exact ⟨newEntry key hash charge wantHandle highPri, hgetEVnid, rfl, rfl, rfl⟩
          · exact hm1.pre.tblHeap x hx2
        · intro j hj
          obtain ⟨y, hy, hyj⟩ := hm1.pre.lruTbl j hj
          exact ⟨y, (hment2 y).mpr (Or.inr hy), hyj⟩
      have hfb : ∀ hs2 : List Nat,
          (newEntry key hash charge wantHandle highPri).refs = 1 + natCount s.nextId hs2 →
          (∀ p ∈ (EvictFromLRU { s with heap := (s.nextId, newEntry key hash charge wantHandle highPri) :: s.heap, nextId := s.nextId + 1 } charge).1.heap, p.1 ∉ s.lru.take k → p.1 ≠ s.nextId →
            p.2.refs = (if p.2.in_cache = true then 1 else 0) + natCount p.1 hs2) →
          (∀ p ∈ (EvictFromLRU { s with heap := (s.nextId, newEntry key hash charge wantHandle highPri) :: s.heap, nextId := s.nextId + 1 } charge).1.heap, p.1 ∉ s.lru.take k → p.1 ≠ s.nextId →
            (p.2.in_cache = true ∨ 0 < natCount p.1 hs2)) →
          (∀ j ∈ hs2, j ∈ heapIds (EvictFromLRU { s with heap := (s.nextId, newEntry key hash charge wantHandle highPri) :: s.heap, nextId := s.nextId + 1 } charge).1.heap ∧ j ∉ s.lru.take k) →
          FreshBase (UsageAdd { (EvictFromLRU { s with heap := (s.nextId, newEntry key hash charge wantHandle highPri) :: s.heap, nextId := s.nextId + 1 } charge).1 with table := t2 } (newEntry key hash charge wantHandle highPri)) hs2 (s.lru.take k)
            s.nextId (newEntry key hash charge wantHandle highPri) := by
        intro hs2 hrefsI hrefsO hliveO hlive2
        refine
          { pre := hpre2
            he1 := hgetEVnid
            hic := rfl
            hgi := hnidtk
            hnm := hnmEV
            refsI := hrefsI
            heapLt := hm1.heapLt
            refsEqO := hrefsO
            liveRefO := hliveO
            hsLive := hlive2
            lruSpecO := fun p hp hpg hpi => hm1.lruSpec p hp (hsplitc hpg hpi)
            gLru := fun j hj => hm1.gLru j (List.mem_cons_of_mem _ hj)
            gTbl := ?_
            gHeap := fun j hj => hm1.gHeap j (List.mem_cons_of_mem _ hj)
            gNodup := hgNodupTk
            usageEq := ?_
            cacheTblO := ?_
            cacheTblI := ⟨{ ehash := hash, ekey := key, hid := s.nextId }, (hment2 _).mpr (Or.inl rfl), rfl⟩
            capEq := hm1.capEq }
        · intro j hj x hx
          rcases (hment2 x).mp hx with hx2 | hx2
          · rw [hx2]
            show s.nextId ≠ j
            exact fun hc => htkne j hj hc.symm
          · exact hm1.gTbl j (List.mem_cons_of_mem _ hj) x hx2
        · show (EvictFromLRU { s with heap := (s.nextId, newEntry key hash charge wantHandle highPri) :: s.heap, nextId := s.nextId + 1 } charge).1.usage + (newEntry key hash charge wantHandle highPri).charge =
            sumCharge (EvictFromLRU { s with heap := (s.nextId, newEntry key hash charge wantHandle highPri) :: s.heap, nextId := s.nextId + 1 } charge).1.heap - sumIds (EvictFromLRU { s with heap := (s.nextId, newEntry key hash charge wantHandle highPri) :: s.heap, nextId := s.nextId + 1 } charge).1.heap (s.lru.take k)
          have h1 := hm1.usageEq
          rw [sumIds_cons, hchnid] at h1 hbound
          have h2 : (newEntry key hash charge wantHandle highPri).charge = charge := rfl
          rw [h2, h1]
          omega
        · intro p hp hpg hpi hcc
          obtain ⟨y, hy, hyj⟩ := hm1.cacheTbl p hp (hsplitc hpg hpi) hcc
          exact ⟨y, (hment2 y).mpr (Or.inr hy), hyj⟩
      by_cases hW : wantHandle = false
      · have hrefsNE : (newEntry key hash charge wantHandle highPri).refs = 1 := by
          show (if wantHandle = true then 2 else 1) = 1
          rw [hW]
          rfl
        constructor
        · simp only [Shard.Insert, Shard.insertAlloc, if_neg hRej, hti, if_pos hW,
            Option.toList]
          rw [hscr2, List.append_nil]
          refine midInv_freeAll (freshBase_insOut_midInv
            (hfb hs (by rw [hrefsNE, hIcnt]) ?_ ?_ ?_) hrefsNE)
          · intro p hp hpg hpi
            exact hm1.refsEq p hp (hsplitc hpg hpi)
          · intro p hp hpg hpi
            exact hm1.liveRef p hp (hsplitc hpg hpi)
          · intro j hj
            obtain ⟨h1, h2⟩ := hm1.hsLive j hj
            exact ⟨h1, fun hc => h2 (List.mem_cons_of_mem _ hc)⟩
        · intro hok
          simp only [Shard.Insert, Shard.insertAlloc, if_neg hRej, hti, if_pos hW]
          rw [hscr2]
          have hIns := lruInsert_spec hpre2 hgetEVnid hnmEV rfl hrefsNE
            ⟨{ ehash := hash, ekey := key, hid := s.nextId }, (hment2 _).mpr (Or.inl rfl), rfl⟩
          obtain ⟨_, _, _, _, _, hPoolF, _, _, _, hPoolCapF, _, _⟩ :=
            freeAll_fields (s.lru.take k)
              (LRU_Insert (UsageAdd { (EvictFromLRU { s with heap := (s.nextId, newEntry key hash charge wantHandle highPri) :: s.heap, nextId := s.nextId + 1 } charge).1 with table := t2 } (newEntry key hash charge wantHandle highPri)) s.nextId)
          rw [PoolOK, hPoolF, hPoolCapF]
          refine hIns.poolOk ?_
          rw [PoolOK] at hok ⊢
          show (UsageAdd { (EvictFromLRU { s with heap := (s.nextId, newEntry key hash charge wantHandle highPri) :: s.heap, nextId := s.nextId + 1 } charge).1 with table := t2 } (newEntry key hash charge wantHandle highPri)).high_pri_pool_usage ≤ _
          have h1 : (UsageAdd { (EvictFromLRU { s with heap := (s.nextId, newEntry key hash charge wantHandle highPri) :: s.heap, nextId := s.nextId + 1 } charge).1 with table := t2 } (newEntry key hash charge wantHandle highPri)).high_pri_pool_usage =
              (EvictFromLRU { s with heap := (s.nextId, newEntry key hash charge wantHandle highPri) :: s.heap, nextId := s.nextId + 1 } charge).1.high_pri_pool_usage := rfl
          have h2 : (UsageAdd { (EvictFromLRU { s with heap := (s.nextId, newEntry key hash charge wantHandle highPri) :: s.heap, nextId := s.nextId + 1 } charge).1 with table := t2 } (newEntry key hash charge wantHandle highPri)).high_pri_pool_capacity =
              (EvictFromLRU { s with heap := (s.nextId, newEntry key hash charge wantHandle highPri) :: s.heap, nextId := s.nextId + 1 } charge).1.high_pri_pool_capacity := rfl
          rw [h1, h2, hpoolCapEV]
          omega
      · have hWt : wantHandle = true := by
          cases hWc : wantHandle with
          | false => exact absurd hWc hW
          | true => rfl
        have hrefsNE : (newEntry key hash charge wantHandle highPri).refs = 2 := by
          show (if wantHandle = true then 2 else 1) = 2
          rw [hWt]
          rfl
        constructor
        · simp only [Shard.Insert, Shard.insertAlloc, if_neg hRej, hti, if_neg hW,
            Option.toList]
          rw [hscr2]
          refine midInv_freeAll (freshBase_midInv
            (hfb (hs ++ [s.nextId]) ?_ ?_ ?_ ?_) (by rw [hrefsNE]; omega))
          · rw [hrefsNE, hcnt_app s.nextId, hIcnt, if_pos rfl]
          · intro p hp hpg hpi
            have hif : (if s.nextId = p.1 then 1 else 0) = 0 :=
              if_neg (fun hc => hpi hc.symm)
            rw [hcnt_app p.1, hif]
            have h3 := hm1.refsEq p hp (hsplitc hpg hpi)
            omega
          · intro p hp hpg hpi
            rcases hm1.liveRef p hp (hsplitc hpg hpi) with h3 | h3
            · exact Or.inl h3
            · right
              have hif : (if s.nextId = p.1 then 1 else 0) = 0 :=
                if_neg (fun hc => hpi hc.symm)
              rw [hcnt_app p.1, hif]
              omega
          · intro j hj
            rcases List.mem_append.mp hj with hj | hj
            · obtain ⟨h1, h2⟩ := hm1.hsLive j hj
              exact ⟨h1, fun hc => h2 (List.mem_cons_of_mem _ hc)⟩
            · rw [List.mem_singleton] at hj
              rw [hj]
              exact ⟨mem_heapIds_of_hget hgetEVnid, hnidtk⟩
        · intro hok
          simp only [Shard.Insert, Shard.insertAlloc, if_neg hRej, hti, if_neg hW]
          rw [hscr2]
          obtain ⟨_, _, _, _, _, hPoolF, _, _, _, hPoolCapF, _, _⟩ :=
            freeAll_fields (s.lru.take k)
              (UsageAdd { (EvictFromLRU { s with heap := (s.nextId, newEntry key hash charge wantHandle highPri) :: s.heap, nextId := s.nextId + 1 } charge).1 with table := t2 } (newEntry key hash charge wantHandle highPri))
          rw [PoolOK, hPoolF, hPoolCapF]
          rw [PoolOK] at hok
          have h1 : (UsageAdd { (EvictFromLRU { s with heap := (s.nextId, newEntry key hash charge wantHandle highPri) :: s.heap, nextId := s.nextId + 1 } charge).1 with table := t2 } (newEntry key hash charge wantHandle highPri)).high_pri_pool_usage =
              (EvictFromLRU { s with heap := (s.nextId, newEntry key hash charge wantHandle highPri) :: s.heap, nextId := s.nextId + 1 } charge).1.high_pri_pool_usage := rfl
          have h2 : (UsageAdd { (EvictFromLRU { s with heap := (s.nextId, newEntry key hash charge wantHandle highPri) :: s.heap, nextId := s.nextId + 1 } charge).1 with table := t2 } (newEntry key hash charge wantHandle highPri)).high_pri_pool_capacity =
              (EvictFromLRU { s with heap := (s.nextId, newEntry key hash charge wantHandle highPri) :: s.heap, nextId := s.nextId + 1 } charge).1.high_pri_pool_capacity := rfl
          rw [h1, h2, hpoolCapEV]
          omega


/-! ### Step-level preservation and reachability -/

theorem mkShard_eq (capacity : Nat) (strict : Bool) (r : Ratio) :
    mkShard capacity strict r =
      { table := mkTable, heap := [], lru := [], lowCount := 0, usage := 0, lru_usage := 0,
        high_pri_pool_usage := 0, capacity := capacity, strict_capacity_limit := strict,
        high_pri_pool_ratio := r, high_pri_pool_capacity := ratioFloor capacity r,
        deleters_run := [], nextId := 0 } := rfl

theorem inv_init (capacity : Nat) (strict : Bool) (r : Ratio) :
    Inv (initW capacity strict r).1 (initW capacity strict r).2 ∧
      PoolOK (initW capacity strict r).1 := by
  constructor
  · show Inv (mkShard capacity strict r) []
    rw [mkShard_eq]
    refine
      { pre :=
        { heapNodup := by simp [heapIds]
          lruNodup := List.nodup_nil
          lruLive := fun i hi => absurd hi (List.not_mem_nil i)
          lowLe := Nat.le_refl 0
          lruUsageEq := rfl
          poolUsageEq := rfl
          flagPos := fun n i hgn => by simp at hgn
          tblWF := mkTable_wf
          tblHeap := fun x hx => absurd hx (by rw [mkTable_entries]; exact List.not_mem_nil x)
          lruTbl := fun i hi => absurd hi (List.not_mem_nil i) }
        heapLt := fun p hp => absurd hp (List.not_mem_nil p)
        refsEq := fun p hp => absurd hp (List.not_mem_nil p)
        liveRef := fun p hp => absurd hp (List.not_mem_nil p)
        hsLive := fun i hi => absurd hi (List.not_mem_nil i)
        lruSpec := fun p hp => absurd hp (List.not_mem_nil p)
        usageEq := rfl
        cacheTbl := fun p hp => absurd hp (List.not_mem_nil p)
        capEq := rfl }
  · show PoolOK (mkShard capacity strict r)
    rw [mkShard_eq, PoolOK]
    exact Nat.zero_le _

/-- One public operation preserves the full shard invariant, and every
operation other than `SetCapacity` also preserves the pool bound. -/
theorem inv_step {w : Shard × List Nat} (hv : Inv w.1 w.2) (op : Op) :
    Inv (step w op).1 (step w op).2 ∧
      (notSetCap op → PoolOK w.1 → PoolOK (step w op).1) := by
  cases op with
  | insert key hash charge wantHandle highPri =>
    exact ⟨(inv_insert hv key hash charge wantHandle highPri).1,
      fun _ => (inv_insert hv key hash charge wantHandle highPri).2⟩
  | lookup key hash =>
    exact ⟨(inv_lookup hv key hash).1, fun _ => (inv_lookup hv key hash).2⟩
  | release n force =>
    cases hn : w.2.get? n with
    | none =>
      simp only [step, hn]
      exact ⟨hv, fun _ h => h⟩
    | some i =>
      simp only [step, hn]
      exact ⟨(inv_release hv hn force).1, fun _ => (inv_release hv hn force).2⟩
  | releaseNull force =>
    exact ⟨hv, fun _ h => h⟩
  | refOp n =>
    cases hn : w.2.get? n with
    | none =>
      simp only [step, hn]
      exact ⟨hv, fun _ h => h⟩
    | some i =>
      simp only [step, hn]
      exact ⟨(inv_ref hv (List.get?_mem hn)).1, fun _ => (inv_ref hv (List.get?_mem hn)).2⟩
  | erase key hash =>
    exact ⟨(inv_erase hv key hash).1, fun _ => (inv_erase hv key hash).2⟩
  | setCapacity c =>
    exact ⟨inv_setCapacity hv c, fun h => False.elim h⟩
  | setStrict b =>
    exact ⟨(inv_setStrict hv b).1, fun _ => (inv_setStrict hv b).2⟩
  | setRatio r =>
    exact ⟨(inv_setRatio hv r).1, fun _ _ => (inv_setRatio hv r).2⟩
  | eraseUnRef =>
    exact ⟨(inv_eraseUnRef hv).1, fun _ => (inv_eraseUnRef hv).2⟩

/-- The invariant holds after any sequence of public operations. -/
theorem inv_runOps {w : Shard × List Nat} (hv : Inv w.1 w.2) (ops : List Op) :
    Inv (runOps w ops).1 (runOps w ops).2 := by
  induction ops generalizing w with
  | nil => exact hv
  | cons op t ih => exact ih (inv_step hv op).1

/-- The pool bound survives any run that never calls `SetCapacity`. -/
theorem pool_runOps {w : Shard × List Nat} {ops : List Op} (hv : Inv w.1 w.2)
    (hp : PoolOK w.1) (hns : ∀ op ∈ ops, notSetCap op) :
    PoolOK (runOps w ops).1 := by
  induction ops generalizing w with
  | nil => exact hp
  | cons op t ih =>
    refine ih (inv_step hv op).1
      ((inv_step hv op).2 (hns op (List.mem_cons_self _ _)) hp) ?_
    intro o ho
    exact hns o (List.mem_cons_of_mem _ ho)

/-- Every observable world state satisfies the full invariant. -/
theorem reachable_inv {w : Shard × List Nat} (hr : ReachableW w) : Inv w.1 w.2 := by
  obtain ⟨c, strict, r, ops, hw⟩ := hr
  rw [hw]
  exact inv_runOps (inv_init c strict r).1 ops

/-- The pool bound at the end of any `SetCapacity`-free run. -/
theorem reachable_pool {c : Nat} {strict : Bool} {r : Ratio} {ops : List Op}
    (hns : ∀ op ∈ ops, notSetCap op) :
    PoolOK (runOps (initW c strict r) ops).1 :=
  pool_runOps (inv_init c strict r).1 (inv_init c strict r).2 hns

/-! ### Freed ids leave the heap -/

theorem not_mem_heapIds_foldl_hdel {j : Nat} (g : List Nat) :
    ∀ h : List (Nat × LRUHandle), j ∉ heapIds h → j ∉ heapIds (g.foldl hdel h) := by
  induction g with
  | nil => exact fun h hj => hj
  | cons a t ih =>
    intro h hj
    refine ih (hdel h a) ?_
    rw [heapIds_hdel]
    exact fun hc => hj ((listErase_sublist a (heapIds h)).subset hc)

theorem hget_foldl_hdel_of_mem {j : Nat} (g : List Nat) :
    ∀ h : List (Nat × LRUHandle), (heapIds h).Nodup → j ∈ g →
      hget (g.foldl hdel h) j = none := by
  induction g with
  | nil =>
    intro h _ hj
    exact absurd hj (List.not_mem_nil j)
  | cons a t ih =>
    intro h nd hj
    by_cases hja : j = a
    · refine hget_none_of_not_mem (not_mem_heapIds_foldl_hdel t (hdel h a) ?_)
      rw [heapIds_hdel, hja]
      exact not_mem_listErase_self nd
    · rcases List.mem_cons.mp hj with hc | hc
      · exact absurd hc hja
      · refine ih (hdel h a) ?_ hc
        rw [heapIds_hdel]
        exact listErase_nodup nd

theorem hget_freeAll_of_mem {j : Nat} {g : List Nat} {s : Shard}
    (nd : (heapIds s.heap).Nodup) (hj : j ∈ g) :
    hget (freeAll s g).heap j = none := by
  rw [freeAll_heap]
  exact hget_foldl_hdel_of_mem g s.heap nd hj

/-! ### The claims -/

/-- C1 (corrected): at every reachable observable state, `usage` accounts the
charge of every heap-resident entry — including displaced or erased entries
still pinned by clients, whose `in_cache` is already false — while `lru_usage`
prices exactly the LRU-listed entries, and the list holds exactly the in-cache
entries with `refs = 1`. -/
theorem C1_accounting {w : Shard × List Nat} (hr : ReachableW w) :
    w.1.usage = sumCharge w.1.heap ∧
    w.1.lru_usage = sumIds w.1.heap w.1.lru ∧
    (∀ p ∈ w.1.heap, (p.1 ∈ w.1.lru ↔ (p.2.in_cache = true ∧ p.2.refs = 1))) := by
  have hv := reachable_inv hr
  exact ⟨hv.usageEq, hv.pre.lruUsageEq, hv.lruSpec⟩

theorem C1_accounting_witness :
    scenPin.1.usage = sumCharge scenPin.1.heap ∧
    scenPin.1.lru_usage = sumIds scenPin.1.heap scenPin.1.lru ∧
    (∀ p ∈ scenPin.1.heap, (p.1 ∈ scenPin.1.lru ↔ (p.2.in_cache = true ∧ p.2.refs = 1))) :=
  C1_accounting ⟨100, false, ⟨0, 1⟩, [Op.insert 0 0 10 true false], rfl⟩

/-- C1 counterexample: re-inserting a pinned key displaces the old entry, whose
charge stays in `usage` although its `in_cache` flag is cleared: `usage` is 20
while the in-cache charge sums to 10. -/
theorem C1_accounting_cx :
    ReachableW scenDup ∧ scenDup.1.usage ≠ inCacheCharge scenDup.1 :=
  ⟨⟨100, false, ⟨0, 1⟩, [Op.insert 0 0 10 true false, Op.insert 0 0 10 true false], rfl⟩,
   by decide⟩

/-- C3: `EvictFromLRU(extra)` pops victims from the coldest end while
`usage + extra` exceeds `capacity` and the list is nonempty: the victims are
exactly the first `k` listed ids in list (LRU) order, each leaves the list and
the table, loses `in_cache`, drops its sole reference to zero, and its charge
leaves `usage`; they are appended to the scratch list in that order and no
other entry is touched. -/
theorem C3_evict_order {s : Shard} (hp : EvictPre s) (extra : Nat) :
    ∃ k, k ≤ s.lru.length ∧
      (EvictFromLRU s extra).2 = s.lru.take k ∧
      (EvictFromLRU s extra).1.lru = s.lru.drop k ∧
      ((EvictFromLRU s extra).1.usage + extra ≤ s.capacity ∨
        (EvictFromLRU s extra).1.lru = []) ∧
      (∀ j, j < k → s.capacity < s.usage - sumIds s.heap (s.lru.take j) + extra) ∧
      (EvictFromLRU s extra).1.usage = s.usage - sumIds s.heap (s.lru.take k) ∧
      (∀ j ∈ s.lru.take k, ∃ e, hget s.heap j = some e ∧ e.refs = 1 ∧
        e.in_cache = true ∧
        hget (EvictFromLRU s extra).1.heap j =
          some { e with in_cache := false, refs := e.refs - 1 } ∧
        (∀ x ∈ tblEntries (EvictFromLRU s extra).1.table, x.hid ≠ j)) ∧
      (∀ j, j ∉ s.lru.take k → hget (EvictFromLRU s extra).1.heap j = hget s.heap j) := by
  obtain ⟨k, hPO, hscr, hstop, hmin⟩ := evictFromLRU_spec hp extra
  refine ⟨k, hPO.kLe, hscr, hPO.lru, hstop, hmin, hPO.usage, ?_, hPO.heapSame⟩
  intro j hj
  obtain ⟨e, he1, he2⟩ := hPO.heapEvict j hj
  obtain ⟨e', he1a, hic, hr1⟩ := hp.lruLive j (List.mem_of_mem_take hj)
  have hee : e' = e := by
    rw [he1] at he1a
    exact (Option.some.inj he1a).symm
  rw [hee] at hic hr1
  refine ⟨e, he1, hr1, hic, he2, ?_⟩
  intro x hx
  have h1 := (hPO.tbl x).mp hx
  intro hc
  refine h1.2 ?_
  rw [hc]
  exact hj

theorem C3_evict_order_witness :
    ∃ k, k ≤ scenCold.1.lru.length ∧
      (EvictFromLRU scenCold.1 200).2 = scenCold.1.lru.take k ∧
      (EvictFromLRU scenCold.1 200).1.lru = scenCold.1.lru.drop k ∧
      ((EvictFromLRU scenCold.1 200).1.usage + 200 ≤ scenCold.1.capacity ∨
        (EvictFromLRU scenCold.1 200).1.lru = []) ∧
      (∀ j, j < k →
        scenCold.1.capacity <
          scenCold.1.usage - sumIds scenCold.1.heap (scenCold.1.lru.take j) + 200) ∧
      (EvictFromLRU scenCold.1 200).1.usage =
        scenCold.1.usage - sumIds scenCold.1.heap (scenCold.1.lru.take k) ∧
      (∀ j ∈ scenCold.1.lru.take k, ∃ e, hget scenCold.1.heap j = some e ∧
        e.refs = 1 ∧ e.in_cache = true ∧
        hget (EvictFromLRU scenCold.1 200).1.heap j =
          some { e with in_cache := false, refs := e.refs - 1 } ∧
        (∀ x ∈ tblEntries (EvictFromLRU scenCold.1 200).1.table, x.hid ≠ j)) ∧
      (∀ j, j ∉ scenCold.1.lru.take k →
        hget (EvictFromLRU scenCold.1 200).1.heap j = hget scenCold.1.heap j) :=
  C3_evict_order
    (inv_runOps (inv_init 100 false ⟨0, 1⟩).1
      [Op.insert 1 1 10 false false, Op.insert 2 2 20 false false]).pre 200

/-- C6 (corrected): along any run that never calls `SetCapacity`, the pool
counter `high_pri_pool_usage` (which prices the pool segment of the LRU list,
`lru.drop lowCount`) stays within `high_pri_pool_capacity`, and that capacity
equals `floor(capacity * ratio)`.  `SetCapacity` itself can break the bound
because it skips `MaintainPoolSize`. -/
theorem C6_pool_bound {c : Nat} {strict : Bool} {r : Ratio} {ops : List Op}
    (hns : ∀ op ∈ ops, notSetCap op) :
    PoolOK (runOps (initW c strict r) ops).1 ∧
    (runOps (initW c strict r) ops).1.high_pri_pool_capacity =
      ratioFloor (runOps (initW c strict r) ops).1.capacity
        (runOps (initW c strict r) ops).1.high_pri_pool_ratio ∧
    (runOps (initW c strict r) ops).1.high_pri_pool_usage =
      sumIds (runOps (initW c strict r) ops).1.heap
        ((runOps (initW c strict r) ops).1.lru.drop
          (runOps (initW c strict r) ops).1.lowCount) :=
  ⟨reachable_pool hns, (inv_runOps (inv_init c strict r).1 ops).capEq,
   (inv_runOps (inv_init c strict r).1 ops).pre.poolUsageEq⟩

theorem C6_pool_bound_witness :
    PoolOK (runOps (initW 100 false ⟨1, 2⟩) [Op.insert 0 0 50 false true]).1 ∧
    (runOps (initW 100 false ⟨1, 2⟩) [Op.insert 0 0 50 false true]).1.high_pri_pool_capacity =
      ratioFloor
        (runOps (initW 100 false ⟨1, 2⟩) [Op.insert 0 0 50 false true]).1.capacity
        (runOps (initW 100 false ⟨1, 2⟩) [Op.insert 0 0 50 false true]).1.high_pri_pool_ratio ∧
    (runOps (initW 100 false ⟨1, 2⟩) [Op.insert 0 0 50 false true]).1.high_pri_pool_usage =
      sumIds (runOps (initW 100 false ⟨1, 2⟩) [Op.insert 0 0 50 false true]).1.heap
        ((runOps (initW 100 false ⟨1, 2⟩) [Op.insert 0 0 50 false true]).1.lru.drop
          (runOps (initW 100 false ⟨1, 2⟩) [Op.insert 0 0 50 false true]).1.lowCount) :=
  C6_pool_bound (by decide)

/-- C6 counterexample: with ratio 1/2, a pooled charge-50 entry and then
`SetCapacity 60`: the charge flagged `in_high_pri_pool` (50) exceeds
`floor(capacity * r) = 30` after the operation completes. -/
theorem C6_pool_bound_cx :
    ReachableW scenPool ∧ scenPool.1.high_pri_pool_ratio.isPos = true ∧
    ratioFloor scenPool.1.capacity scenPool.1.high_pri_pool_ratio <
      poolFlagCharge scenPool.1 :=
  ⟨⟨100, false, ⟨1, 2⟩, [Op.insert 0 0 50 false true, Op.setCapacity 60], rfl⟩,
   by decide, by decide⟩

/-- The `Resize` sizing loop doubles a full power-of-two table: starting
from 16 and doubling while `2 * n < 3 * elems`, an insert-triggered resize
at `elems = 2 ^ m + 1` stops exactly at `2 ^ (m + 1)`. -/
theorem resizeLenGo_pow {m : Nat} (h4 : 4 ≤ m) :
    ∀ fuel j, 4 ≤ j → j ≤ m → 2 ^ (m + 1 - j) ≤ fuel →
      resizeLenGo (2 ^ m + 1) (2 ^ j) fuel = 2 ^ (m + 1) := by
  intro fuel
  induction fuel with
  | zero =>
    intro j _ _ hf
    have h1 : 0 < 2 ^ (m + 1 - j) := Nat.pow_pos (by omega)
    omega
  | succ f ih =>
    intro j h4j hjm hf
    by_cases hje : j = m
    · subst hje
      rw [resizeLenGo, if_pos (by omega)]
      cases f with
      | zero =>
        have h2 : 2 ^ (j + 1 - j) = 2 := by
          rw [show j + 1 - j = 1 by omega]
          rfl
        rw [h2] at hf
        omega
      | succ f2 =>
        have h16j : (16 : Nat) ≤ 2 ^ j := by
          calc (16 : Nat) = 2 ^ 4 := rfl
          _ ≤ 2 ^ j := Nat.pow_le_pow_right (by omega) h4j
        rw [resizeLenGo, if_neg (by omega), pow_succ]
        omega
    · have hjlt : j < m := lt_of_le_of_ne hjm hje
      have hstep : (2 : Nat) ^ (j + 1) ≤ 2 ^ m := Nat.pow_le_pow_right (by omega) (by omega)
      have h2 : (2 : Nat) * 2 ^ j = 2 ^ (j + 1) := by
        rw [pow_succ]
        omega
      rw [resizeLenGo, if_pos (by rw [h2]; omega), h2]
      refine ih (j + 1) (by omega) (by omega) ?_
      have h3 : m + 1 - j = (m + 1 - (j + 1)) + 1 := by omega
      rw [h3, pow_succ] at hf
      have h5 : 0 < 2 ^ (m + 1 - (j + 1)) := Nat.pow_pos (by omega)
      omega

theorem resizeLen_double {m : Nat} (h4 : 4 ≤ m) :
    resizeLen (2 ^ m + 1) = 2 ^ (m + 1) := by
  rw [resizeLen, show (16 : Nat) = 2 ^ 4 from rfl]
  refine resizeLenGo_pow h4 _ 4 (Nat.le_refl 4) h4 ?_
  have h1 : (2 : Nat) ^ (m + 1 - 4) ≤ 2 ^ m := Nat.pow_le_pow_right (by omega) (by omega)
  have h2 : 0 < 2 ^ m := Nat.pow_pos (by omega)
  omega

/-- C7 (corrected): `LRUHandleTable::Insert` splices a matching entry in
place — the new entry takes exactly the old entry's position in its bucket
chain, everything else in the bucket array unchanged — and returns the old
entry with `elems` and the bucket count intact; with no match the new entry
is linked at the TAIL of its bucket chain (the null slot where `FindPointer`
stops), `elems` grows by one, null is returned, the bucket count is kept
while `elems` stays within it, and when `elems` exceeds it the table
resizes — doubling in size from the full power-of-two table the trigger
fires on. -/
theorem C7_table_insert {t : LRUHandleTable} (hwf : TblWF t) (h : HTEntry)
    (hpow : ∃ m, t.list.length = 2 ^ m) (h16 : 16 ≤ t.list.length) :
    (∀ x ∈ tblEntries t, (x.ehash = h.ehash ∧ x.ekey = h.ekey) →
      ∃ pre suf,
        t.list.getD (bucketOf t h.ehash) [] = pre ++ x :: suf ∧
        (∀ y ∈ pre, ¬(y.ehash = h.ehash ∧ y.ekey = h.ekey)) ∧
        ∃ t', t.Insert h = (t', some x) ∧
          t'.list = t.list.set (bucketOf t h.ehash) (pre ++ h :: suf) ∧
          t'.list.length = t.list.length ∧ t'.elems = t.elems ∧ TblWF t' ∧
          (∀ y, y ∈ tblEntries t' ↔ ((y ∈ tblEntries t ∧ y ≠ x) ∨ y = h))) ∧
    ((∀ x ∈ tblEntries t, ¬(x.ehash = h.ehash ∧ x.ekey = h.ekey)) →
      chainInsert h (t.list.getD (bucketOf t h.ehash) []) =
        (t.list.getD (bucketOf t h.ehash) [] ++ [h], none) ∧
      ∃ t', t.Insert h = (t', none) ∧ TblWF t' ∧ t'.elems = t.elems + 1 ∧
        List.Perm (tblEntries t') (h :: tblEntries t) ∧
        (t.elems + 1 ≤ t.list.length → t'.list.length = t.list.length) ∧
        (t.list.length < t.elems + 1 → t'.list.length = resizeLen (t.elems + 1)) ∧
        (t.elems = t.list.length → t'.list.length = 2 * t.list.length)) := by
  constructor
  · intro x hx hm
    obtain ⟨pre, suf, hb, hpre, hsuf⟩ := bucket_split hwf hx hm
    have hci : chainInsert h (t.list.getD (bucketOf t h.ehash) []) =
        (pre ++ h :: suf, some x) := by
      rw [hb]
      exact chainInsert_first suf hpre hm
    obtain ⟨t2, hins2, hlen2, helems2, hwf2, hmem2⟩ := tblInsert_match hwf h hx hm
    have hT : t.Insert h =
        ({ list := t.list.set (bucketOf t h.ehash) (pre ++ h :: suf),
           elems := t.elems }, some x) := by
      simp only [LRUHandleTable.Insert, hci]
    have ht2 : t2 = { list := t.list.set (bucketOf t h.ehash) (pre ++ h :: suf), elems := t.elems } := congrArg Prod.fst (hins2.symm.trans hT)
    refine ⟨pre, suf, hb, hpre, t2, hins2, ?_, hlen2, helems2, hwf2, hmem2⟩
    rw [ht2]
  · intro hno
    have hci : chainInsert h (t.list.getD (bucketOf t h.ehash) []) =
        (t.list.getD (bucketOf t h.ehash) [] ++ [h], none) :=
      chainInsert_of_not_mem (fun x hx => hno x (mem_getD_joinL hx))
    obtain ⟨t2, hins2, hwf2, helems2, hperm2⟩ := tblInsert_new hwf h hno
    have hT : t.Insert h =
        (if (t.list.set (bucketOf t h.ehash)
              (t.list.getD (bucketOf t h.ehash) [] ++ [h])).length < t.elems + 1 then
          LRUHandleTable.Resize
            { list := t.list.set (bucketOf t h.ehash)
                (t.list.getD (bucketOf t h.ehash) [] ++ [h]),
              elems := t.elems + 1 }
        else
          { list := t.list.set (bucketOf t h.ehash)
              (t.list.getD (bucketOf t h.ehash) [] ++ [h]),
            elems := t.elems + 1 }, none) := by
      simp only [LRUHandleTable.Insert, hci]
    have ht2 : t2 =
        (if (t.list.set (bucketOf t h.ehash)
              (t.list.getD (bucketOf t h.ehash) [] ++ [h])).length < t.elems + 1 then
          LRUHandleTable.Resize
            { list := t.list.set (bucketOf t h.ehash)
                (t.list.getD (bucketOf t h.ehash) [] ++ [h]),
              elems := t.elems + 1 }
        else
          { list := t.list.set (bucketOf t h.ehash)
              (t.list.getD (bucketOf t h.ehash) [] ++ [h]),
            elems := t.elems + 1 }) := congrArg Prod.fst (hins2.symm.trans hT)
    have hres : (LRUHandleTable.Resize
        { list := t.list.set (bucketOf t h.ehash)
            (t.list.getD (bucketOf t h.ehash) [] ++ [h]),
          elems := t.elems + 1 }).list.length = resizeLen (t.elems + 1) :=
      (tblResize_spec _).2.1
    refine ⟨hci, t2, hins2, hwf2, helems2, hperm2, ?_, ?_, ?_⟩
    · intro hle
      have hnc : ¬((t.list.set (bucketOf t h.ehash)
          (t.list.getD (bucketOf t h.ehash) [] ++ [h])).length < t.elems + 1) := by
        rw [List.length_set]
        omega
      rw [ht2, if_neg hnc]
      exact List.length_set t.list _ _
    · intro hlt
      have hc : (t.list.set (bucketOf t h.ehash)
          (t.list.getD (bucketOf t h.ehash) [] ++ [h])).length < t.elems + 1 := by
        rw [List.length_set]
        exact hlt
      rw [ht2, if_pos hc]
      exact hres
    · intro he
      obtain ⟨m, hm⟩ := hpow
      have h4m : 4 ≤ m := by
        by_contra hcon
        have hm3 : m ≤ 3 := by omega
        have hle8 : (2 : Nat) ^ m ≤ 2 ^ 3 := Nat.pow_le_pow_right (by omega) hm3
        have h8 : (2 : Nat) ^ 3 = 8 := rfl
        rw [hm] at h16
        omega
      have hc : (t.list.set (bucketOf t h.ehash)
          (t.list.getD (bucketOf t h.ehash) [] ++ [h])).length < t.elems + 1 := by
        rw [List.length_set]
        omega
      rw [ht2, if_pos hc, hres, he, hm, resizeLen_double h4m, pow_succ]
      omega

theorem C7_table_insert_witness :
    (∀ x ∈ tblEntries mkTable,
      (x.ehash = ({ ehash := 5, ekey := 7, hid := 3 } : HTEntry).ehash ∧
        x.ekey = ({ ehash := 5, ekey := 7, hid := 3 } : HTEntry).ekey) →
      ∃ pre suf,
        mkTable.list.getD
          (bucketOf mkTable ({ ehash := 5, ekey := 7, hid := 3 } : HTEntry).ehash) [] =
          pre ++ x :: suf ∧
        (∀ y ∈ pre,
          ¬(y.ehash = ({ ehash := 5, ekey := 7, hid := 3 } : HTEntry).ehash ∧
            y.ekey = ({ ehash := 5, ekey := 7, hid := 3 } : HTEntry).ekey)) ∧
        ∃ t', mkTable.Insert { ehash := 5, ekey := 7, hid := 3 } = (t', some x) ∧
          t'.list = mkTable.list.set
            (bucketOf mkTable ({ ehash := 5, ekey := 7, hid := 3 } : HTEntry).ehash)
            (pre ++ { ehash := 5, ekey := 7, hid := 3 } :: suf) ∧
          t'.list.length = mkTable.list.length ∧ t'.elems = mkTable.elems ∧ TblWF t' ∧
          (∀ y, y ∈ tblEntries t' ↔ ((y ∈ tblEntries mkTable ∧ y ≠ x) ∨
            y = { ehash := 5, ekey := 7, hid := 3 }))) ∧
    ((∀ x ∈ tblEntries mkTable,
      ¬(x.ehash = ({ ehash := 5, ekey := 7, hid := 3 } : HTEntry).ehash ∧
        x.ekey = ({ ehash := 5, ekey := 7, hid := 3 } : HTEntry).ekey)) →
      chainInsert { ehash := 5, ekey := 7, hid := 3 }
          (mkTable.list.getD
            (bucketOf mkTable ({ ehash := 5, ekey := 7, hid := 3 } : HTEntry).ehash) []) =
        (mkTable.list.getD
            (bucketOf mkTable ({ ehash := 5, ekey := 7, hid := 3 } : HTEntry).ehash) [] ++
          [{ ehash := 5, ekey := 7, hid := 3 }], none) ∧
      ∃ t', mkTable.Insert { ehash := 5, ekey := 7, hid := 3 } = (t', none) ∧
        TblWF t' ∧ t'.elems = mkTable.elems + 1 ∧
        List.Perm (tblEntries t')
          ({ ehash := 5, ekey := 7, hid := 3 } :: tblEntries mkTable) ∧
        (mkTable.elems + 1 ≤ mkTable.list.length →
          t'.list.length = mkTable.list.length) ∧
        (mkTable.list.length < mkTable.elems + 1 →
          t'.list.length = resizeLen (mkTable.elems + 1)) ∧
        (mkTable.elems = mkTable.list.length →
          t'.list.length = 2 * mkTable.list.length)) :=
  C7_table_insert mkTable_wf { ehash := 5, ekey := 7, hid := 3 }
    ⟨4, by decide⟩ (by decide)

/-- C7 counterexample: two entries hashing to bucket 0 of the fresh 16-bucket
table: after the no-match insert of the second, the bucket chain holds the old
entry first and the new entry at the tail — not at the head. -/
theorem C7_table_insert_cx :
    ((mkTable.Insert { ehash := 0, ekey := 0, hid := 1 }).1.Insert
        { ehash := 16, ekey := 0, hid := 2 }).1.list.getD 0 [] =
      [{ ehash := 0, ekey := 0, hid := 1 }, { ehash := 16, ekey := 0, hid := 2 }] ∧
    (((mkTable.Insert { ehash := 0, ekey := 0, hid := 1 }).1.Insert
        { ehash := 16, ekey := 0, hid := 2 }).1.list.getD 0 []).head? ≠
      some { ehash := 16, ekey := 0, hid := 2 } := by
  constructor
  · decide
  · decide

/-- C8: `Release` with a null handle returns false and leaves the whole shard
— table, LRU list, `usage`, `lru_usage`, `high_pri_pool_usage` — untouched,
and runs no deleter. -/
theorem C8_release_null (s : Shard) (force : Bool) :
    s.Release none force = (s, false) := rfl

/-- C10: `Insert` is not atomic on failure: a strict over-budget insert
returns `Incomplete`, yet it already evicted the resident unpinned entry —
the victim's deleter ran, `usage` changed, and the entry left the heap and
the LRU list for good. -/
theorem C10_insert_not_atomic :
    ReachableW scenEvict ∧
    (scenEvict.1.Insert 2 2 20 true false).2.1 = Status.incomplete ∧
    (scenEvict.1.Insert 2 2 20 true false).2.2 = none ∧
    (scenEvict.1.Insert 2 2 20 true false).1.usage ≠ scenEvict.1.usage ∧
    (scenEvict.1.Insert 2 2 20 true false).1.deleters_run =
      scenEvict.1.deleters_run ++ [0] ∧
    hget scenEvict.1.heap 0 ≠ none ∧ (0 : Nat) ∈ scenEvict.1.lru ∧
    hget (scenEvict.1.Insert 2 2 20 true false).1.heap 0 = none ∧
    (scenEvict.1.Insert 2 2 20 true false).1.lru = [] :=
  ⟨⟨10, true, ⟨0, 1⟩, [Op.insert 1 1 6 false false], rfl⟩, by decide⟩

/-- C4: an `Insert` with no out-handle whose pinned budget is still exceeded
after eviction returns OK, never links the new record into the table or the
LRU list, and frees it (its deleter runs after the mutex is released), so no
later lookup can find anything from this call. -/
theorem C4_silent_drop {s : Shard} {hs : List Nat} (hv : Inv s hs)
    (key hash charge : Nat) (highPri : Bool)
    (hfull : (EvictFromLRU (s.insertAlloc key hash charge false highPri).1 charge).1.capacity <
      (EvictFromLRU (s.insertAlloc key hash charge false highPri).1 charge).1.usage -
        (EvictFromLRU (s.insertAlloc key hash charge false highPri).1 charge).1.lru_usage +
        charge) :
    (s.Insert key hash charge false highPri).2.1 = Status.ok ∧
    (s.Insert key hash charge false highPri).2.2 = none ∧
    hget (s.Insert key hash charge false highPri).1.heap s.nextId = none ∧
    s.nextId ∈ (s.Insert key hash charge false highPri).1.deleters_run ∧
    (∀ x ∈ tblEntries (s.Insert key hash charge false highPri).1.table,
      x.hid ≠ s.nextId) ∧
    s.nextId ∉ (s.Insert key hash charge false highPri).1.lru := by
  have hm0 := insAlloc_midInv hv key hash charge false highPri
  obtain ⟨k, hPO, hscr, hstop, hmin⟩ := evictFromLRU_spec hm0.pre charge
  have hm1 : MidInv (EvictFromLRU { s with heap := (s.nextId, newEntry key hash charge false highPri) :: s.heap, nextId := s.nextId + 1 } charge).1 hs (s.nextId :: s.lru.take k) := midInv_popOut hm0 hPO
  have hscr2 : (EvictFromLRU { s with heap := (s.nextId, newEntry key hash charge false highPri) :: s.heap, nextId := s.nextId + 1 } charge).2 = s.lru.take k := hscr
  have hfull2 : ((EvictFromLRU { s with heap := (s.nextId, newEntry key hash charge false highPri) :: s.heap, nextId := s.nextId + 1 } charge).1).capacity < ((EvictFromLRU { s with heap := (s.nextId, newEntry key hash charge false highPri) :: s.heap, nextId := s.nextId + 1 } charge).1).usage - ((EvictFromLRU { s with heap := (s.nextId, newEntry key hash charge false highPri) :: s.heap, nextId := s.nextId + 1 } charge).1).lru_usage + charge := hfull
  have hlrune : ∀ j ∈ s.lru, j ≠ s.nextId := by
    intro j hj hc
    obtain ⟨e, he, _, _⟩ := hv.pre.lruLive j hj
    have := hv.heapLt (j, e) (hget_mem he)
    omega
  have hnmEV : s.nextId ∉ ((EvictFromLRU { s with heap := (s.nextId, newEntry key hash charge false highPri) :: s.heap, nextId := s.nextId + 1 } charge).1).lru := by
    intro hc
    rw [hPO.lru] at hc
    exact hlrune _ (List.mem_of_mem_drop hc) rfl
  obtain ⟨hTblF, hLruF, _, _, _, _, _, _, _, _, _, hDelsF⟩ :=
    freeAll_fields (s.lru.take k ++ [s.nextId]) (EvictFromLRU { s with heap := (s.nextId, newEntry key hash charge false highPri) :: s.heap, nextId := s.nextId + 1 } charge).1
  simp only [Shard.Insert, Shard.insertAlloc, or_true, and_true, ite_true,
    if_pos hfull2]
  rw [hscr2]
  refine ⟨trivial, trivial, ?_, ?_, ?_, ?_⟩
  · exact hget_freeAll_of_mem hm1.pre.heapNodup
      (List.mem_append.mpr (Or.inr (List.mem_singleton.mpr rfl)))
  · rw [hDelsF]
    refine List.mem_append.mpr (Or.inr ?_)
    exact List.mem_append.mpr (Or.inr (List.mem_singleton.mpr rfl))
  · intro x hx
    rw [hTblF] at hx
    exact hm1.gTbl s.nextId (List.mem_cons_self _ _) x hx
  · rw [hLruF]
    exact hnmEV

theorem C4_silent_drop_witness :
    (scenFull.1.Insert 2 2 5 false false).2.1 = Status.ok ∧
    (scenFull.1.Insert 2 2 5 false false).2.2 = none ∧
    hget (scenFull.1.Insert 2 2 5 false false).1.heap scenFull.1.nextId = none ∧
    scenFull.1.nextId ∈ (scenFull.1.Insert 2 2 5 false false).1.deleters_run ∧
    (∀ x ∈ tblEntries (scenFull.1.Insert 2 2 5 false false).1.table,
      x.hid ≠ scenFull.1.nextId) ∧
    scenFull.1.nextId ∉ (scenFull.1.Insert 2 2 5 false false).1.lru :=
  C4_silent_drop
    (inv_runOps (inv_init 10 true ⟨0, 1⟩).1 [Op.insert 0 0 10 true false])
    2 2 5 false (by decide)

/-- C5: an `Insert` that asks for a handle, under `strict_capacity_limit`,
whose pinned budget is still exceeded after eviction, frees the fresh record
at once, reports a null handle, returns `Incomplete`, and never touches the
table or the LRU list with the new entry. -/
theorem C5_incomplete {s : Shard} {hs : List Nat} (hv : Inv s hs)
    (key hash charge : Nat) (highPri : Bool)
    (hstrict : s.strict_capacity_limit = true)
    (hfull : (EvictFromLRU (s.insertAlloc key hash charge true highPri).1 charge).1.capacity <
      (EvictFromLRU (s.insertAlloc key hash charge true highPri).1 charge).1.usage -
        (EvictFromLRU (s.insertAlloc key hash charge true highPri).1 charge).1.lru_usage +
        charge) :
    (s.Insert key hash charge true highPri).2.1 = Status.incomplete ∧
    (s.Insert key hash charge true highPri).2.2 = none ∧
    hget (s.Insert key hash charge true highPri).1.heap s.nextId = none ∧
    (∀ x ∈ tblEntries (s.Insert key hash charge true highPri).1.table,
      x.hid ≠ s.nextId) ∧
    s.nextId ∉ (s.Insert key hash charge true highPri).1.lru := by
  have hm0 := insAlloc_midInv hv key hash charge true highPri
  obtain ⟨k, hPO, hscr, hstop, hmin⟩ := evictFromLRU_spec hm0.pre charge
  have hm1 : MidInv (EvictFromLRU { s with heap := (s.nextId, newEntry key hash charge true highPri) :: s.heap, nextId := s.nextId + 1 } charge).1 hs (s.nextId :: s.lru.take k) := midInv_popOut hm0 hPO
  have hscr2 : (EvictFromLRU { s with heap := (s.nextId, newEntry key hash charge true highPri) :: s.heap, nextId := s.nextId + 1 } charge).2 = s.lru.take k := hscr
  have hfull2 : ((EvictFromLRU { s with heap := (s.nextId, newEntry key hash charge true highPri) :: s.heap, nextId := s.nextId + 1 } charge).1).capacity < ((EvictFromLRU { s with heap := (s.nextId, newEntry key hash charge true highPri) :: s.heap, nextId := s.nextId + 1 } charge).1).usage - ((EvictFromLRU { s with heap := (s.nextId, newEntry key hash charge true highPri) :: s.heap, nextId := s.nextId + 1 } charge).1).lru_usage + charge := hfull
  have hstrict2 : ((EvictFromLRU { s with heap := (s.nextId, newEntry key hash charge true highPri) :: s.heap, nextId := s.nextId + 1 } charge).1).strict_capacity_limit = true := by
    rw [hPO.strictEq]
    exact hstrict
  have hlrune : ∀ j ∈ s.lru, j ≠ s.nextId := by
    intro j hj hc
    obtain ⟨e, he, _, _⟩ := hv.pre.lruLive j hj
    have := hv.heapLt (j, e) (hget_mem he)
    omega
  have hnmEV : s.nextId ∉ ((EvictFromLRU { s with heap := (s.nextId, newEntry key hash charge true highPri) :: s.heap, nextId := s.nextId + 1 } charge).1).lru := by
    intro hc
    rw [hPO.lru] at hc
    exact hlrune _ (List.mem_of_mem_drop hc) rfl
  obtain ⟨hTblF, hLruF, _, _, _, _, _, _, _, _, _, hDelsF⟩ :=
    freeAll_fields (s.lru.take k) { table := ((EvictFromLRU { s with heap := (s.nextId, newEntry key hash charge true highPri) :: s.heap, nextId := s.nextId + 1 } charge).1).table, heap := hdel ((EvictFromLRU { s with heap := (s.nextId, newEntry key hash charge true highPri) :: s.heap, nextId := s.nextId + 1 } charge).1).heap s.nextId, lru := ((EvictFromLRU { s with heap := (s.nextId, newEntry key hash charge true highPri) :: s.heap, nextId := s.nextId + 1 } charge).1).lru, lowCount := ((EvictFromLRU { s with heap := (s.nextId, newEntry key hash charge true highPri) :: s.heap, nextId := s.nextId + 1 } charge).1).lowCount, usage := ((EvictFromLRU { s with heap := (s.nextId, newEntry key hash charge true highPri) :: s.heap, nextId := s.nextId + 1 } charge).1).usage, lru_usage := ((EvictFromLRU { s with heap := (s.nextId, newEntry key hash charge true highPri) :: s.heap, nextId := s.nextId + 1 } charge).1).lru_usage, high_pri_pool_usage := ((EvictFromLRU { s with heap := (s.nextId, newEntry key hash charge true highPri) :: s.heap, nextId := s.nextId + 1 } charge).1).high_pri_pool_usage, capacity := ((EvictFromLRU { s with heap := (s.nextId, newEntry key hash charge true highPri) :: s.heap, nextId := s.nextId + 1 } charge).1).capacity, strict_capacity_limit := ((EvictFromLRU { s with heap := (s.nextId, newEntry key hash charge true highPri) :: s.heap, nextId := s.nextId + 1 } charge).1).strict_capacity_limit, high_pri_pool_ratio := ((EvictFromLRU { s with heap := (s.nextId, newEntry key hash charge true highPri) :: s.heap, nextId := s.nextId + 1 } charge).1).high_pri_pool_ratio, high_pri_pool_capacity := ((EvictFromLRU { s with heap := (s.nextId, newEntry key hash charge true highPri) :: s.heap, nextId := s.nextId + 1 } charge).1).high_pri_pool_capacity, deleters_run := ((EvictFromLRU { s with heap := (s.nextId, newEntry key hash charge true highPri) :: s.heap, nextId := s.nextId + 1 } charge).1).deleters_run, nextId := ((EvictFromLRU { s with heap := (s.nextId, newEntry key hash charge true highPri) :: s.heap, nextId := s.nextId + 1 } charge).1).nextId }
  have hRej : ((EvictFromLRU { s with heap := (s.nextId, newEntry key hash charge true highPri) :: s.heap, nextId := s.nextId + 1 } charge).1).capacity < ((EvictFromLRU { s with heap := (s.nextId, newEntry key hash charge true highPri) :: s.heap, nextId := s.nextId + 1 } charge).1).usage - ((EvictFromLRU { s with heap := (s.nextId, newEntry key hash charge true highPri) :: s.heap, nextId := s.nextId + 1 } charge).1).lru_usage + charge ∧
      (((EvictFromLRU { s with heap := (s.nextId, newEntry key hash charge true highPri) :: s.heap, nextId := s.nextId + 1 } charge).1).strict_capacity_limit = true ∨ true = false) := ⟨hfull2, Or.inl hstrict2⟩
  have hW : ¬(true = false) := by decide
  simp only [Shard.Insert, Shard.insertAlloc, if_pos hRej, if_neg hW]
  rw [hscr2]
  refine ⟨trivial, trivial, ?_, ?_, ?_⟩
  · rw [freeAll_heap]
    refine hget_none_of_not_mem (not_mem_heapIds_foldl_hdel _ _ ?_)
    show s.nextId ∉ heapIds (hdel ((EvictFromLRU { s with heap := (s.nextId, newEntry key hash charge true highPri) :: s.heap, nextId := s.nextId + 1 } charge).1).heap s.nextId)
    rw [heapIds_hdel]
    exact not_mem_listErase_self hm1.pre.heapNodup
  · intro x hx
    rw [hTblF] at hx
    exact hm1.gTbl s.nextId (List.mem_cons_self _ _) x hx
  · rw [hLruF]
    exact hnmEV

theorem C5_incomplete_witness :
    (scenFull.1.Insert 2 2 5 true false).2.1 = Status.incomplete ∧
    (scenFull.1.Insert 2 2 5 true false).2.2 = none ∧
    hget (scenFull.1.Insert 2 2 5 true false).1.heap scenFull.1.nextId = none ∧
    (∀ x ∈ tblEntries (scenFull.1.Insert 2 2 5 true false).1.table,
      x.hid ≠ scenFull.1.nextId) ∧
    scenFull.1.nextId ∉ (scenFull.1.Insert 2 2 5 true false).1.lru :=
  C5_incomplete
    (inv_runOps (inv_init 10 true ⟨0, 1⟩).1 [Op.insert 0 0 10 true false])
    2 2 5 false rfl (by decide)

/-- C9: on the `Incomplete` rejection the fresh record is deallocated without
its deleter ever running (the caller keeps ownership of the value), while the
silent-drop path (no out-handle) runs the deleter exactly once. -/
theorem C9_deleter_discipline {s : Shard} {hs : List Nat} (hv : Inv s hs)
    (key hash charge : Nat) (highPri : Bool)
    (hstrict : s.strict_capacity_limit = true)
    (hfullT : (EvictFromLRU (s.insertAlloc key hash charge true highPri).1 charge).1.capacity <
      (EvictFromLRU (s.insertAlloc key hash charge true highPri).1 charge).1.usage -
        (EvictFromLRU (s.insertAlloc key hash charge true highPri).1 charge).1.lru_usage +
        charge)
    (hfullF : (EvictFromLRU (s.insertAlloc key hash charge false highPri).1 charge).1.capacity <
      (EvictFromLRU (s.insertAlloc key hash charge false highPri).1 charge).1.usage -
        (EvictFromLRU (s.insertAlloc key hash charge false highPri).1 charge).1.lru_usage +
        charge) :
    (s.Insert key hash charge true highPri).2.1 = Status.incomplete ∧
    natCount s.nextId (s.Insert key hash charge true highPri).1.deleters_run =
      natCount s.nextId s.deleters_run ∧
    (s.Insert key hash charge false highPri).2.1 = Status.ok ∧
    natCount s.nextId (s.Insert key hash charge false highPri).1.deleters_run =
      natCount s.nextId s.deleters_run + 1 := by
  have hlrune : ∀ j ∈ s.lru, j ≠ s.nextId := by
    intro j hj hc
    obtain ⟨e, he, _, _⟩ := hv.pre.lruLive j hj
    have := hv.heapLt (j, e) (hget_mem he)
    omega
  refine ⟨?_, ?_, ?_, ?_⟩
  · -- Incomplete path: the status is reported
    have hm0 := insAlloc_midInv hv key hash charge true highPri
    obtain ⟨k, hPO, hscr, hstop, hmin⟩ := evictFromLRU_spec hm0.pre charge
    have hfull2 : ((EvictFromLRU { s with heap := (s.nextId, newEntry key hash charge true highPri) :: s.heap, nextId := s.nextId + 1 } charge).1).capacity < ((EvictFromLRU { s with heap := (s.nextId, newEntry key hash charge true highPri) :: s.heap, nextId := s.nextId + 1 } charge).1).usage - ((EvictFromLRU { s with heap := (s.nextId, newEntry key hash charge true highPri) :: s.heap, nextId := s.nextId + 1 } charge).1).lru_usage + charge := hfullT
    have hstrict2 : ((EvictFromLRU { s with heap := (s.nextId, newEntry key hash charge true highPri) :: s.heap, nextId := s.nextId + 1 } charge).1).strict_capacity_limit = true := by
      rw [hPO.strictEq]
      exact hstrict
    have hRej : ((EvictFromLRU { s with heap := (s.nextId, newEntry key hash charge true highPri) :: s.heap, nextId := s.nextId + 1 } charge).1).capacity < ((EvictFromLRU { s with heap := (s.nextId, newEntry key hash charge true highPri) :: s.heap, nextId := s.nextId + 1 } charge).1).usage - ((EvictFromLRU { s with heap := (s.nextId, newEntry key hash charge true highPri) :: s.heap, nextId := s.nextId + 1 } charge).1).lru_usage + charge ∧
        (((EvictFromLRU { s with heap := (s.nextId, newEntry key hash charge true highPri) :: s.heap, nextId := s.nextId + 1 } charge).1).strict_capacity_limit = true ∨ true = false) := ⟨hfull2, Or.inl hstrict2⟩
    have hW : ¬(true = false) := by decide
    simp only [Shard.Insert, Shard.insertAlloc, if_pos hRej, if_neg hW]
  · -- Incomplete path: no deleter
    have hm0 := insAlloc_midInv hv key hash charge true highPri
    obtain ⟨k, hPO, hscr, hstop, hmin⟩ := evictFromLRU_spec hm0.pre charge
    have hscr2 : (EvictFromLRU { s with heap := (s.nextId, newEntry key hash charge true highPri) :: s.heap, nextId := s.nextId + 1 } charge).2 = s.lru.take k := hscr
    have hfull2 : ((EvictFromLRU { s with heap := (s.nextId, newEntry key hash charge true highPri) :: s.heap, nextId := s.nextId + 1 } charge).1).capacity < ((EvictFromLRU { s with heap := (s.nextId, newEntry key hash charge true highPri) :: s.heap, nextId := s.nextId + 1 } charge).1).usage - ((EvictFromLRU { s with heap := (s.nextId, newEntry key hash charge true highPri) :: s.heap, nextId := s.nextId + 1 } charge).1).lru_usage + charge := hfullT
    have hstrict2 : ((EvictFromLRU { s with heap := (s.nextId, newEntry key hash charge true highPri) :: s.heap, nextId := s.nextId + 1 } charge).1).strict_capacity_limit = true := by
      rw [hPO.strictEq]
      exact hstrict
    have hnidtk : s.nextId ∉ s.lru.take k :=
      fun hc => hlrune _ (List.mem_of_mem_take hc) rfl
    obtain ⟨_, _, _, _, _, _, _, _, _, _, _, hDelsF⟩ :=
      freeAll_fields (s.lru.take k) { table := ((EvictFromLRU { s with heap := (s.nextId, newEntry key hash charge true highPri) :: s.heap, nextId := s.nextId + 1 } charge).1).table, heap := hdel ((EvictFromLRU { s with heap := (s.nextId, newEntry key hash charge true highPri) :: s.heap, nextId := s.nextId + 1 } charge).1).heap s.nextId, lru := ((EvictFromLRU { s with heap := (s.nextId, newEntry key hash charge true highPri) :: s.heap, nextId := s.nextId + 1 } charge).1).lru, lowCount := ((EvictFromLRU { s with heap := (s.nextId, newEntry key hash charge true highPri) :: s.heap, nextId := s.nextId + 1 } charge).1).lowCount, usage := ((EvictFromLRU { s with heap := (s.nextId, newEntry key hash charge true highPri) :: s.heap, nextId := s.nextId + 1 } charge).1).usage, lru_usage := ((EvictFromLRU { s with heap := (s.nextId, newEntry key hash charge true highPri) :: s.heap, nextId := s.nextId + 1 } charge).1).lru_usage, high_pri_pool_usage := ((EvictFromLRU { s with heap := (s.nextId, newEntry key hash charge true highPri) :: s.heap, nextId := s.nextId + 1 } charge).1).high_pri_pool_usage, capacity := ((EvictFromLRU { s with heap := (s.nextId, newEntry key hash charge true highPri) :: s.heap, nextId := s.nextId + 1 } charge).1).capacity, strict_capacity_limit := ((EvictFromLRU { s with heap := (s.nextId, newEntry key hash charge true highPri) :: s.heap, nextId := s.nextId + 1 } charge).1).strict_capacity_limit, high_pri_pool_ratio := ((EvictFromLRU { s with heap := (s.nextId, newEntry key hash charge true highPri) :: s.heap, nextId := s.nextId + 1 } charge).1).high_pri_pool_ratio, high_pri_pool_capacity := ((EvictFromLRU { s with heap := (s.nextId, newEntry key hash charge true highPri) :: s.heap, nextId := s.nextId + 1 } charge).1).high_pri_pool_capacity, deleters_run := ((EvictFromLRU { s with heap := (s.nextId, newEntry key hash charge true highPri) :: s.heap, nextId := s.nextId + 1 } charge).1).deleters_run, nextId := ((EvictFromLRU { s with heap := (s.nextId, newEntry key hash charge true highPri) :: s.heap, nextId := s.nextId + 1 } charge).1).nextId }
    have hRej : ((EvictFromLRU { s with heap := (s.nextId, newEntry key hash charge true highPri) :: s.heap, nextId := s.nextId + 1 } charge).1).capacity < ((EvictFromLRU { s with heap := (s.nextId, newEntry key hash charge true highPri) :: s.heap, nextId := s.nextId + 1 } charge).1).usage - ((EvictFromLRU { s with heap := (s.nextId, newEntry key hash charge true highPri) :: s.heap, nextId := s.nextId + 1 } charge).1).lru_usage + charge ∧
        (((EvictFromLRU { s with heap := (s.nextId, newEntry key hash charge true highPri) :: s.heap, nextId := s.nextId + 1 } charge).1).strict_capacity_limit = true ∨ true = false) := ⟨hfull2, Or.inl hstrict2⟩
    have hW : ¬(true = false) := by decide
    simp only [Shard.Insert, Shard.insertAlloc, if_pos hRej, if_neg hW]
    rw [hscr2]
    rw [hDelsF]
    have hD : (({ table := ((EvictFromLRU { s with heap := (s.nextId, newEntry key hash charge true highPri) :: s.heap, nextId := s.nextId + 1 } charge).1).table, heap := hdel ((EvictFromLRU { s with heap := (s.nextId, newEntry key hash charge true highPri) :: s.heap, nextId := s.nextId + 1 } charge).1).heap s.nextId, lru := ((EvictFromLRU { s with heap := (s.nextId, newEntry key hash charge true highPri) :: s.heap, nextId := s.nextId + 1 } charge).1).lru, lowCount := ((EvictFromLRU { s with heap := (s.nextId, newEntry key hash charge true highPri) :: s.heap, nextId := s.nextId + 1 } charge).1).lowCount, usage := ((EvictFromLRU { s with heap := (s.nextId, newEntry key hash charge true highPri) :: s.heap, nextId := s.nextId + 1 } charge).1).usage, lru_usage := ((EvictFromLRU { s with heap := (s.nextId, newEntry key hash charge true highPri) :: s.heap, nextId := s.nextId + 1 } charge).1).lru_usage, high_pri_pool_usage := ((EvictFromLRU { s with heap := (s.nextId, newEntry key hash charge true highPri) :: s.heap, nextId := s.nextId + 1 } charge).1).high_pri_pool_usage, capacity := ((EvictFromLRU { s with heap := (s.nextId, newEntry key hash charge true highPri) :: s.heap, nextId := s.nextId + 1 } charge).1).capacity, strict_capacity_limit := ((EvictFromLRU { s with heap := (s.nextId, newEntry key hash charge true highPri) :: s.heap, nextId := s.nextId + 1 } charge).1).strict_capacity_limit, high_pri_pool_ratio := ((EvictFromLRU { s with heap := (s.nextId, newEntry key hash charge true highPri) :: s.heap, nextId := s.nextId + 1 } charge).1).high_pri_pool_ratio, high_pri_pool_capacity := ((EvictFromLRU { s with heap := (s.nextId, newEntry key hash charge true highPri) :: s.heap, nextId := s.nextId + 1 } charge).1).high_pri_pool_capacity, deleters_run := ((EvictFromLRU { s with heap := (s.nextId, newEntry key hash charge true highPri) :: s.heap, nextId := s.nextId + 1 } charge).1).deleters_run, nextId := ((EvictFromLRU { s with heap := (s.nextId, newEntry key hash charge true highPri) :: s.heap, nextId := s.nextId + 1 } charge).1).nextId } : Shard)).deleters_run = s.deleters_run := hPO.dels
    rw [natCount_append, hD, natCount_eq_zero hnidtk]
    omega
  · -- silent-drop path returns OK
    have hm0 := insAlloc_midInv hv key hash charge false highPri
    obtain ⟨k, hPO, hscr, hstop, hmin⟩ := evictFromLRU_spec hm0.pre charge
    have hfull2 : ((EvictFromLRU { s with heap := (s.nextId, newEntry key hash charge false highPri) :: s.heap, nextId := s.nextId + 1 } charge).1).capacity < ((EvictFromLRU { s with heap := (s.nextId, newEntry key hash charge false highPri) :: s.heap, nextId := s.nextId + 1 } charge).1).usage - ((EvictFromLRU { s with heap := (s.nextId, newEntry key hash charge false highPri) :: s.heap, nextId := s.nextId + 1 } charge).1).lru_usage + charge := hfullF
    simp only [Shard.Insert, Shard.insertAlloc, or_true, and_true, ite_true,
      if_pos hfull2]
  · -- silent-drop path: the deleter runs exactly once
    have hm0 := insAlloc_midInv hv key hash charge false highPri
    obtain ⟨k, hPO, hscr, hstop, hmin⟩ := evictFromLRU_spec hm0.pre charge
    have hscr2 : (EvictFromLRU { s with heap := (s.nextId, newEntry key hash charge false highPri) :: s.heap, nextId := s.nextId + 1 } charge).2 = s.lru.take k := hscr
    have hfull2 : ((EvictFromLRU { s with heap := (s.nextId, newEntry key hash charge false highPri) :: s.heap, nextId := s.nextId + 1 } charge).1).capacity < ((EvictFromLRU { s with heap := (s.nextId, newEntry key hash charge false highPri) :: s.heap, nextId := s.nextId + 1 } charge).1).usage - ((EvictFromLRU { s with heap := (s.nextId, newEntry key hash charge false highPri) :: s.heap, nextId := s.nextId + 1 } charge).1).lru_usage + charge := hfullF
    have hnidtk : s.nextId ∉ s.lru.take k :=
      fun hc => hlrune _ (List.mem_of_mem_take hc) rfl
    obtain ⟨_, _, _, _, _, _, _, _, _, _, _, hDelsF⟩ :=
      freeAll_fields (s.lru.take k ++ [s.nextId]) (EvictFromLRU { s with heap := (s.nextId, newEntry key hash charge false highPri) :: s.heap, nextId := s.nextId + 1 } charge).1
    simp only [Shard.Insert, Shard.insertAlloc, or_true, and_true, ite_true,
      if_pos hfull2]
    rw [hscr2, hDelsF]
    have hD : ((EvictFromLRU { s with heap := (s.nextId, newEntry key hash charge false highPri) :: s.heap, nextId := s.nextId + 1 } charge).1).deleters_run = s.deleters_run := hPO.dels
    rw [hD, ← List.append_assoc, natCount_append, natCount_append,
      natCount_eq_zero hnidtk, natCount_singleton, if_pos rfl]

theorem C9_deleter_discipline_witness :
    (scenFull.1.Insert 2 2 5 true false).2.1 = Status.incomplete ∧
    natCount scenFull.1.nextId (scenFull.1.Insert 2 2 5 true false).1.deleters_run =
      natCount scenFull.1.nextId scenFull.1.deleters_run ∧
    (scenFull.1.Insert 2 2 5 false false).2.1 = Status.ok ∧
    natCount scenFull.1.nextId (scenFull.1.Insert 2 2 5 false false).1.deleters_run =
      natCount scenFull.1.nextId scenFull.1.deleters_run + 1 :=
  C9_deleter_discipline
    (inv_runOps (inv_init 10 true ⟨0, 1⟩).1 [Op.insert 0 0 10 true false])
    2 2 5 false rfl (by decide) (by decide)

/-- C2: under the lock, `Release(handle, force_erase)` decrements `refs`;
when the count reaches zero the entry's charge leaves `usage` and the entry
is freed (deleter run) after unlock; when the cache holds the sole remaining
reference, over-capacity or `force_erase` remove the entry from the table,
clear `in_cache`, drop `refs` to zero, subtract the charge and free it, and
otherwise the entry rejoins the LRU list with its reference intact; the call
returns `true` exactly when it dropped the last reference. -/
theorem C2_release {s : Shard} {hs : List Nat} (hv : Inv s hs) {i : Nat} {e : LRUHandle}
    (hi : i ∈ hs) (he : hget s.heap i = some e) (force : Bool) :
    ((s.Release (some i) force).2 = true ↔
      (e.refs - 1 = 0 ∨ (e.refs - 1 = 1 ∧ e.in_cache = true ∧
        (s.capacity < s.usage ∨ force = true)))) ∧
    ((s.Release (some i) force).1.usage =
      if e.refs - 1 = 0 ∨ (e.refs - 1 = 1 ∧ e.in_cache = true ∧
          (s.capacity < s.usage ∨ force = true)) then
        s.usage - e.charge
      else s.usage) ∧
    ((s.Release (some i) force).1.deleters_run =
      if e.refs - 1 = 0 ∨ (e.refs - 1 = 1 ∧ e.in_cache = true ∧
          (s.capacity < s.usage ∨ force = true)) then
        s.deleters_run ++ [i]
      else s.deleters_run) ∧
    ((e.refs - 1 = 0 ∨ (e.refs - 1 = 1 ∧ e.in_cache = true ∧
        (s.capacity < s.usage ∨ force = true))) →
      hget (s.Release (some i) force).1.heap i = none ∧
      (∀ x ∈ tblEntries (s.Release (some i) force).1.table, x.hid ≠ i)) ∧
    (e.refs - 1 = 1 → e.in_cache = true → ¬(s.capacity < s.usage ∨ force = true) →
      i ∈ (s.Release (some i) force).1.lru ∧
      ∃ e', hget (s.Release (some i) force).1.heap i = some e' ∧
        e'.refs = e.refs - 1 ∧ e'.in_cache = true) := by
  have hcnt : 0 < natCount i hs := natCount_pos hi
  have hrefs : e.refs = (if e.in_cache = true then 1 else 0) + natCount i hs :=
    hv.refsEq (i, e) (hget_mem he)
  by_cases hA : e.refs - 1 = 0
  · -- the call drops the last reference outright
    have hnB : ¬(e.refs - 1 = 1 ∧ e.in_cache = true) := fun hc => by omega
    have hic : e.in_cache = false := by
      cases hic2 : e.in_cache with
      | false => rfl
      | true =>
        rw [hic2, if_pos rfl] at hrefs
        omega
    have hY : e.refs - 1 = 0 ∨ (e.refs - 1 = 1 ∧ e.in_cache = true ∧
        (s.capacity < s.usage ∨ force = true)) := Or.inl hA
    simp only [Shard.Release, he, if_pos hA, if_neg hnB, Free, UsageSub,
      decide_eq_true_eq]
    refine ⟨?_, ?_, ?_, ?_, ?_⟩
    · exact ⟨fun _ => hY, fun _ => hA⟩
    · rw [if_pos hY]
    · rw [if_pos hY]
    · intro _
      constructor
      · refine hget_hdel_self ?_
        rw [heapIds_hset]
        exact hv.pre.heapNodup
      · intro x hx hcc
        obtain ⟨e', hge', _, _, hice'⟩ := hv.pre.tblHeap x hx
        rw [hcc, he] at hge'
        have hee : e' = e := (Option.some.inj hge').symm
        rw [hee] at hice'
        rw [hice'] at hic
        exact absurd hic (by decide)
    · intro h1 _ _
      omega
  by_cases hB : e.refs - 1 = 1 ∧ e.in_cache = true
  · -- the cache holds the sole remaining reference
    have hrefs2 : e.refs = 2 := by
      rw [hB.2, if_pos rfl] at hrefs
      omega
    have hnm : i ∉ s.lru := by
      intro hc
      have h1 := (hv.lruSpec (i, e) (hget_mem he)).mp hc
      have h2 : e.refs = 1 := h1.2
      omega
    by_cases hC : s.capacity < s.usage ∨ force = true
    · -- erase: out of the table, freed after unlock
      have hY : e.refs - 1 = 0 ∨ (e.refs - 1 = 1 ∧ e.in_cache = true ∧
          (s.capacity < s.usage ∨ force = true)) := Or.inr ⟨hB.1, hB.2, hC⟩
      obtain ⟨x, t', hx, hxi, hrem, hlen, hwf', hmem, huniq⟩ :=
        tblRemove_cached hv.pre (hv.cacheTbl (i, e) (hget_mem he) hB.2) he
      simp only [Shard.Release, he, if_neg hA, if_pos hB, if_pos hC, Free, UsageSub]
      refine ⟨?_, ?_, ?_, ?_, ?_⟩
      · exact ⟨fun _ => hY, fun _ => trivial⟩
      · rw [if_pos hY]
      · rw [if_pos hY]
      · intro _
        constructor
        · refine hget_hdel_self ?_
          rw [heapIds_hset, heapIds_hset]
          exact hv.pre.heapNodup
        · intro y hy
          have hy2 : y ∈ tblEntries t' := by
            rw [hrem] at hy
            exact hy
          have h1 := (hmem y).mp hy2
          exact fun hcc => h1.2 (huniq y h1.1 hcc)
      · intro _ _ h3
        exact absurd hC h3
    · -- re-insert into the LRU list
      have hN : ¬(e.refs - 1 = 0 ∨ (e.refs - 1 = 1 ∧ e.in_cache = true ∧
          (s.capacity < s.usage ∨ force = true))) := by
        rintro (hcc | ⟨h1, h2, h3⟩)
        · omega
        · exact hC h3
      have hpre1 : EvictPre { s with heap := hset s.heap i { e with refs := e.refs - 1 } } :=
        evictPre_hset_unlisted hv.pre he hnm rfl rfl rfl rfl
      have hIns := lruInsert_spec hpre1 (hget_hset_self he) hnm hB.2 hB.1
        (hv.cacheTbl (i, e) (hget_mem he) hB.2)
      simp only [Shard.Release, he, if_neg hA, if_pos hB, if_neg hC]
      refine ⟨?_, ?_, ?_, ?_, ?_⟩
      · constructor
        · intro hcc
          exact absurd hcc (by decide)
        · intro hcc
          exact absurd hcc hN
      · rw [if_neg hN, hIns.usage]
      · rw [if_neg hN, hIns.dels]
      · intro hcc
        exact absurd hcc hN
      · intro _ _ _
        refine ⟨(hIns.lruMem i).mpr (Or.inl rfl), ?_⟩
        have hP := hIns.heapPool i
        rw [hget_hset_self he] at hP
        cases hgg : hget (LRU_Insert { s with heap := hset s.heap i { e with refs := e.refs - 1 } } i).heap i with
        | none =>
          rw [hgg] at hP
          exact absurd hP (by simp)
        | some e' =>
          rw [hgg] at hP
          have hfields := poolClearedEq_fields (Option.some.inj hP)
          exact ⟨e', rfl, hfields.1, by rw [hfields.2.1]; exact hB.2⟩
  · -- other references remain: only the count drops
    have hN : ¬(e.refs - 1 = 0 ∨ (e.refs - 1 = 1 ∧ e.in_cache = true ∧
        (s.capacity < s.usage ∨ force = true))) := by
      rintro (hcc | ⟨h1, h2, _⟩)
      · exact hA hcc
      · exact hB ⟨h1, h2⟩
    simp only [Shard.Release, he, if_neg hA, if_neg hB, decide_eq_true_eq]
    refine ⟨?_, ?_, ?_, ?_, ?_⟩
    · exact ⟨fun hcc => absurd hcc hA, fun hcc => absurd hcc hN⟩
    · rw [if_neg hN]
    · rw [if_neg hN]
    · intro hcc
      exact absurd hcc hN
    · intro h1 h2 _
      exact absurd ⟨h1, h2⟩ hB

theorem C2_release_witness :
    ((scenPin.1.Release (some 0) false).2 = true ↔
      ((newEntry 0 0 10 true false).refs - 1 = 0 ∨
        ((newEntry 0 0 10 true false).refs - 1 = 1 ∧
          (newEntry 0 0 10 true false).in_cache = true ∧
          (scenPin.1.capacity < scenPin.1.usage ∨ false = true)))) ∧
    ((scenPin.1.Release (some 0) false).1.usage =
      if (newEntry 0 0 10 true false).refs - 1 = 0 ∨
          ((newEntry 0 0 10 true false).refs - 1 = 1 ∧
            (newEntry 0 0 10 true false).in_cache = true ∧
            (scenPin.1.capacity < scenPin.1.usage ∨ false = true)) then
        scenPin.1.usage - (newEntry 0 0 10 true false).charge
      else scenPin.1.usage) ∧
    ((scenPin.1.Release (some 0) false).1.deleters_run =
      if (newEntry 0 0 10 true false).refs - 1 = 0 ∨
          ((newEntry 0 0 10 true false).refs - 1 = 1 ∧
            (newEntry 0 0 10 true false).in_cache = true ∧
            (scenPin.1.capacity < scenPin.1.usage ∨ false = true)) then
        scenPin.1.deleters_run ++ [0]
      else scenPin.1.deleters_run) ∧
    (((newEntry 0 0 10 true false).refs - 1 = 0 ∨
        ((newEntry 0 0 10 true false).refs - 1 = 1 ∧
          (newEntry 0 0 10 true false).in_cache = true ∧
          (scenPin.1.capacity < scenPin.1.usage ∨ false = true))) →
      hget (scenPin.1.Release (some 0) false).1.heap 0 = none ∧
      (∀ x ∈ tblEntries (scenPin.1.Release (some 0) false).1.table, x.hid ≠ 0)) ∧
    ((newEntry 0 0 10 true false).refs - 1 = 1 →
      (newEntry 0 0 10 true false).in_cache = true →
      ¬(scenPin.1.capacity < scenPin.1.usage ∨ false = true) →
      (0 : Nat) ∈ (scenPin.1.Release (some 0) false).1.lru ∧
      ∃ e', hget (scenPin.1.Release (some 0) false).1.heap 0 = some e' ∧
        e'.refs = (newEntry 0 0 10 true false).refs - 1 ∧ e'.in_cache = true) :=
  C2_release
    (inv_runOps (inv_init 100 false ⟨0, 1⟩).1 [Op.insert 0 0 10 true false])
    (by decide)
    (rfl : hget scenPin.1.heap 0 = some (newEntry 0 0 10 true false)) false

end TerarkLRU
